import Mathlib

/-!
# Partitioner and timing graph of cgra_pnr

Shallow embedding of `thunder/src/graph.cc` (netlist partitioner, clustered
graph) and of the `TimingGraph` class of `cyclone/src/timing.cc`.

Conventions of the embedding.
* `std::set<std::string>` is a `Finset String`; `std::map<int, ...>` is an
  association list kept in increasing key order (its iteration order).
* A `Node *` of the clustered graph is the position of the node in `nodes_`;
  an `Edge *` is the position of the edge in `edges_`.  The vertex and edge
  types are declared in `graph.hh` and modelled from the specification: the
  per-node container `edges_to` is read in creation order.  The call to
  `std::sort` fixes the order of the edges only up to the order of edges of
  equal weight: the sorting function is a parameter of the capacity pass,
  and the theorems hold for every function that satisfies `SortsEdges`.
* A loop or a recursion of the source is a function with a step budget; a run
  that exhausts the budget yields `Error.out_of_fuel`, and the theorems show
  that the budgets computed by the top-level functions are never exhausted.
* An exception of the source is an `Except.error`; reading `net[0]` of an
  empty net (undefined behaviour in the source) is `Error.empty_net`.
-/

/-- Block identifiers are the `std::string` names of placed operators. -/
abbrev BlockId := String

/-- Cluster assignment `std::map<int, std::set<std::string>>`, in key order. -/
abbrev Clusters := List (Int × Finset BlockId)

/-- Netlist handed to `partition_netlist`:
`std::map<std::string, std::vector<std::string>>`, in key order. -/
abbrev RawNetlist := List (String × List BlockId)

/-- Netlist held by the clustered graph:
`std::map<std::string, std::vector<std::pair<std::string, std::string>>>`. -/
abbrev PortNetlist := List (String × List (BlockId × String))

/-- Failures of the partitioner. -/
inductive Error where
  | out_of_range
  | invalid_graph
  | capacity (max_size : Nat)
  | empty_net
  | out_of_fuel
deriving DecidableEq, Repr

deriving instance DecidableEq for Except

/-! ## construct_igraph / get_cluster / partition_netlist -/

/-- The inner statement of the first loop of `construct_igraph`: a block that
has no id yet receives the id `blk_to_id.size()`. -/
def assign_block (st : List (BlockId × Nat) × List (Nat × BlockId)) (blk_id : BlockId) :
    List (BlockId × Nat) × List (Nat × BlockId) :=
  match st.1.lookup blk_id with
  | some _ => st
  | none => (st.1 ++ [(blk_id, st.1.length)], st.2 ++ [(st.1.length, blk_id)])

/-- First loop of `construct_igraph`: the pair `(blk_to_id, id_to_block)`. -/
def assign_ids (netlists : RawNetlist) : List (BlockId × Nat) × List (Nat × BlockId) :=
  netlists.foldl (fun st iter => iter.2.foldl assign_block st) ([], [])

/-- The edges `construct_igraph` adds for one net: driver to every receiver. -/
def net_edges (blk_to_id : List (BlockId × Nat)) (net : List BlockId) :
    Except Error (List (Nat × Nat)) :=
  match net with
  | [] => .error .empty_net
  | src_node :: rest =>
    match blk_to_id.lookup src_node with
    | none => .error .out_of_range
    | some src_id =>
      rest.foldl (fun acc dst_node =>
        match acc with
        | .error e => .error e
        | .ok es =>
          match blk_to_id.lookup dst_node with
          | none => .error .out_of_range
          | some dst_id => .ok (es ++ [(src_id, dst_id)])) (.ok [])

/-- Second loop of `construct_igraph`. -/
def add_edges (blk_to_id : List (BlockId × Nat)) :
    RawNetlist → List (Nat × Nat) → Except Error (List (Nat × Nat))
  | [], es => .ok es
  | iter :: rest, es =>
    match net_edges blk_to_id iter.2 with
    | .error e => .error e
    | .ok new_es => add_edges blk_to_id rest (es ++ new_es)

/-- The directed igraph: number of vertices and edge list. -/
structure IGraph where
  num_blks : Nat
  edges : List (Nat × Nat)
deriving DecidableEq, Repr

/-- Translation of `construct_igraph`: the graph and `id_to_block`. -/
def construct_igraph (netlists : RawNetlist) : Except Error (IGraph × List (Nat × BlockId)) :=
  let ids := assign_ids netlists
  match add_edges ids.1 netlists [] with
  | .error e => .error e
  | .ok es => .ok (⟨ids.1.length, es⟩, ids.2)

/-- Conversion of a `size_t` membership entry to the `int` key of the result. -/
def to_int (n : Nat) : Int :=
  if n % 2 ^ 32 < 2 ^ 31 then ((n % 2 ^ 32 : Nat) : Int) else ((n % 2 ^ 32 : Nat) : Int) - 2 ^ 32

/-- The statement `result[cluster_id].insert(blk_id)` on the ordered map. -/
def cluster_insert (cluster_id : Int) (blk_id : BlockId) : Clusters → Clusters
  | [] => [(cluster_id, {blk_id})]
  | c :: rest =>
    if cluster_id < c.1 then (cluster_id, {blk_id}) :: c :: rest
    else if cluster_id = c.1 then (c.1, insert blk_id c.2) :: rest
    else c :: cluster_insert cluster_id blk_id rest

/-- The inversion loop of `get_cluster` for a given membership vector; reading
the vector out of bounds is reported as `out_of_range`. -/
def invert_membership (membership : List Nat) : List (Nat × BlockId) → Clusters → Except Error Clusters
  | [], result => .ok result
  | (g_id, blk_id) :: rest, result =>
    match membership[g_id]? with
    | none => .error .out_of_range
    | some cluster_id => invert_membership membership rest (cluster_insert (to_int cluster_id) blk_id result)

/-- Translation of `get_cluster`.  The community detector (the optimiser of
the source, an external library) is the parameter `detect`, called with the
graph, the number of iterations and the seed. -/
def get_cluster (detect : IGraph → Nat → Nat → List Nat) (graph : IGraph)
    (id_to_block : List (Nat × BlockId)) (num_iter seed : Nat) : Except Error Clusters :=
  invert_membership (detect graph num_iter seed) id_to_block []

/-- Translation of `partition_netlist`. -/
def partition_netlist (detect : IGraph → Nat → Nat → List Nat) (netlists : RawNetlist)
    (num_iter : Nat) : Except Error Clusters :=
  match construct_igraph netlists with
  | .error e => .error e
  | .ok (graph, id_to_blk) => get_cluster detect graph id_to_blk num_iter 0

namespace graph

/-- Modelled from the spec: `struct Node` of `graph.hh`, which `graph.cc` uses
through `id`, `size` and `edges_to`; a vertex carries the cluster id and the
number of blocks of the cluster. -/
structure Node where
  id : Int
  size : Nat
deriving DecidableEq, Repr

/-- Modelled from the spec: `struct Edge` of `graph.hh`, an edge
`(from, to, weight)`; the two `Node *` are positions in `nodes_`, the weight
counts net fanouts and is not bounded. -/
structure Edge where
  from_ : Nat
  to_ : Nat
  weight : Nat
deriving DecidableEq, Repr

/-- Modelled from the spec: the data members of `class Graph`, declared in
`graph.hh`: cluster map, netlist, vertex list and edge list. -/
structure Graph where
  clusters_ : Clusters
  netlist_ : PortNetlist
  nodes_ : List Node
  edges_ : List Edge
deriving DecidableEq

/-- Modelled from the spec: the member `edges_to` of a vertex, declared in
`graph.hh` and filled by `connect`; the targets of the edges that leave the
vertex, read in creation order. -/
def edges_to (edges : List Edge) (node : Nat) : List Nat :=
  (edges.filter (fun e => e.from_ = node)).map (fun e => e.to_)

/-- First loop of `Graph::update`: one node per cluster, and `node_map`, where
`emplace` keeps the binding a block already has. -/
def update_nodes : Clusters → List Node → (BlockId → Option Nat) →
    List Node × (BlockId → Option Nat)
  | [], nodes, node_map => (nodes, node_map)
  | (cluster_id, cluster) :: rest, nodes, node_map =>
    update_nodes rest (nodes ++ [⟨cluster_id, cluster.card⟩])
      (fun blk => match node_map blk with
        | some n => some n
        | none => if blk ∈ cluster then some nodes.length else none)

/-- The body `edge = find-or-connect(src_node, sink_node); edge->weight += 1`. -/
def add_connection (src_node sink_node : Nat) : List Edge → List Edge
  | [] => [⟨src_node, sink_node, 1⟩]
  | e :: es =>
    if e.from_ = src_node ∧ e.to_ = sink_node then { e with weight := e.weight + 1 } :: es
    else e :: add_connection src_node sink_node es

/-- The receivers loop of `Graph::update` for one net: the edge list when the
loop ends or throws, and the exception if one was thrown. -/
def connect_sinks (node_map : BlockId → Option Nat) (src_node : Nat) :
    List (BlockId × String) → List Edge → List Edge × Option Error
  | [], edges => (edges, none)
  | sink :: rest, edges =>
    match node_map sink.1 with
    | none => (edges, some .out_of_range)
    | some sink_node =>
      if sink_node = src_node then connect_sinks node_map src_node rest edges
      else connect_sinks node_map src_node rest (add_connection src_node sink_node edges)

/-- The nets loop of `Graph::update`. -/
def connect_nets (node_map : BlockId → Option Nat) :
    PortNetlist → List Edge → List Edge × Option Error
  | [], edges => (edges, none)
  | iter :: rest, edges =>
    match iter.2 with
    | [] => (edges, some .empty_net)
    | src :: sinks =>
      match node_map src.1 with
      | none => (edges, some .out_of_range)
      | some src_node =>
        match connect_sinks node_map src_node sinks edges with
        | (edges1, some e) => (edges1, some e)
        | (edges1, none) => connect_nets node_map rest edges1

/-- Translation of `Graph::update` as a state transformer: the state of the
object when the method returns or throws, and the exception if any. -/
def update_state (clusters : Clusters) (netlist : PortNetlist) : Graph × Option Error :=
  let nm := update_nodes clusters [] (fun _ => none)
  let r := connect_nets nm.2 netlist []
  match r.2 with
  | some e => (⟨clusters, netlist, nm.1, r.1⟩, some e)
  | none =>
    if r.1.any (fun e => decide (e.to_ = e.from_)) then
      (⟨clusters, netlist, nm.1, r.1⟩, some .invalid_graph)
    else (⟨clusters, netlist, nm.1, r.1⟩, none)

/-- Result of `Graph::update` when only the outcome matters. -/
def update (clusters : Clusters) (netlist : PortNetlist) : Except Error Graph :=
  match update_state clusters netlist with
  | (_, some e) => .error e
  | (g, none) => .ok g

/-- The constructor `Graph::Graph(clusters, netlist)`. -/
def Graph.new (clusters : Clusters) (netlist : PortNetlist) : Except Error Graph :=
  update clusters netlist

/-- The `for` loop over `n->edges_to` in `has_loop`: `none` when an edge
leads back to `src`, otherwise the extended queue. -/
def has_loop_scan (src : Nat) : List Nat → List Nat → Option (List Nat)
  | [], working_set => some working_set
  | dst :: rest, working_set =>
    if dst = src then none else has_loop_scan src rest (working_set ++ [dst])

/-- The `while` loop of `has_loop` for one source vertex. -/
def has_loop_from (edges : List Edge) (src : Nat) :
    Nat → List Nat → List Nat → Except Error Bool
  | 0, _, _ => .error .out_of_fuel
  | _ + 1, [], _ => .ok false
  | fuel + 1, n :: working_set, visited =>
    if n ∈ visited then has_loop_from edges src fuel working_set visited
    else
      match has_loop_scan src (edges_to edges n) working_set with
      | none => .ok true
      | some working_set1 => has_loop_from edges src fuel working_set1 (n :: visited)

/-- The outer loop of `has_loop` over the vertices. -/
def has_loop_nodes (edges : List Edge) : List Nat → Except Error Bool
  | [] => .ok false
  | src :: rest =>
    match has_loop_from edges src (edges.length + 2) [src] [] with
    | .error e => .error e
    | .ok true => .ok true
    | .ok false => has_loop_nodes edges rest

/-- Translation of `Graph::has_loop`. -/
def has_loop (g : Graph) : Except Error Bool :=
  has_loop_nodes g.edges_ (List.range g.nodes_.length)

/-- The body of the loop over the out-edges in a depth-first visit: an
unvisited successor is visited by `visit`, a visited one is skipped. -/
def visit_step (visit : Nat → List Nat × List Nat → Except Error (List Nat × List Nat))
    (acc : Except Error (List Nat × List Nat)) (dst : Nat) : Except Error (List Nat × List Nat) :=
  match acc with
  | .error e => .error e
  | .ok st1 => if dst ∈ st1.1 then .ok st1 else visit dst st1

/-- Post-order depth-first visit shared by `topological_sort_` of the
clustered graph and `sort_` of the timing graph: mark the vertex, visit each
unvisited successor, then append the vertex to the output.  The state is the
pair of the visited set and the output. -/
def post_order (adj : Nat → List Nat) : Nat → Nat → List Nat × List Nat →
    Except Error (List Nat × List Nat)
  | 0, _, _ => .error .out_of_fuel
  | fuel + 1, node, st =>
    match (adj node).foldl (visit_step (post_order adj fuel)) (.ok (node :: st.1, st.2)) with
    | .error e => .error e
    | .ok st2 => .ok (st2.1, st2.2 ++ [node])

/-- The loop over all vertices that starts a visit at each unvisited one. -/
def post_order_all (adj : Nat → List Nat) (fuel : Nat) :
    List Nat → List Nat × List Nat → Except Error (List Nat × List Nat)
  | [], st => .ok st
  | n :: rest, st =>
    if n ∈ st.1 then post_order_all adj fuel rest st
    else
      match post_order adj fuel n st with
      | .error e => .error e
      | .ok st1 => post_order_all adj fuel rest st1

/-- Translation of `topological_sort_`; the state is `(visited, stack)`, the
top of the stack being the last element. -/
def topological_sort_ (g : Graph) (fuel node : Nat) (st : List Nat × List Nat) :
    Except Error (List Nat × List Nat) :=
  post_order (edges_to g.edges_) fuel node st

/-- The vertices in the order in which `Graph::topological_sort` pops them. -/
def topological_order (g : Graph) : Except Error (List Nat) :=
  match post_order_all (edges_to g.edges_) (g.nodes_.length + 1)
      (List.range g.nodes_.length) ([], []) with
  | .error e => .error e
  | .ok st => .ok st.2.reverse

/-- Translation of `Graph::topological_sort`: the ids of the popped vertices. -/
def topological_sort (g : Graph) : Except Error (List Int) :=
  match topological_order g with
  | .error e => .error e
  | .ok order => .ok (order.map (fun n => (g.nodes_.getD n ⟨0, 0⟩).id))

/-- The statement `path.emplace(n, node)`: an existing binding is kept. -/
def path_emplace (path : List (Nat × Nat)) (n node : Nat) : List (Nat × Nat) :=
  match path.lookup n with
  | some _ => path
  | none => path ++ [(n, node)]

/-- The reconstruction loop of `find_loop_path`, with a step budget. -/
def loop_path_walk (path : List (Nat × Nat)) (start : Nat) :
    Nat → Nat → List Nat → Except Error (List Nat)
  | 0, _, _ => .error .out_of_fuel
  | fuel + 1, n, result =>
    match path.lookup n with
    | none => .ok result
    | some n1 => if n1 = start then .ok result else loop_path_walk path start fuel n1 (result ++ [n1])

/-- The `while` loop of `find_loop_path`. -/
def find_loop_path_from (edges : List Edge) (start : Nat) :
    Nat → List Nat → List Nat → List (Nat × Nat) → Except Error (List Nat)
  | 0, _, _, _ => .error .out_of_fuel
  | _ + 1, [], _, _ => .ok []
  | fuel + 1, node :: working_set, visited, path =>
    if node ∈ visited then
      if node = start then loop_path_walk path start (visited.length + 1) start [node]
      else find_loop_path_from edges start fuel working_set visited path
    else
      find_loop_path_from edges start fuel (working_set ++ edges_to edges node) (node :: visited)
        ((edges_to edges node).foldl (fun p n => path_emplace p n node) path)

/-- Translation of `Graph::find_loop_path`. -/
def find_loop_path (g : Graph) (start : Nat) : Except Error (List Nat) :=
  find_loop_path_from g.edges_ start (g.edges_.length + 2) [start] [] []

/-- Removal of a key from the ordered map. -/
def clusters_erase (target : Int) (clusters : Clusters) : Clusters :=
  clusters.filter (fun c => c.1 ≠ target)

/-- Insertion of a set of blocks into the cluster stored under `base`. -/
def clusters_add (base : Int) (blks : Finset BlockId) (clusters : Clusters) : Clusters :=
  clusters.map (fun c => if c.1 = base then (c.1, c.2 ∪ blks) else c)

/-- Translation of `Graph::merge(int base, int target)` on `clusters_`.
`clusters_.at(base)` is evaluated once per block of the target. -/
def merge_clusters (base target : Int) (clusters : Clusters) : Except Error Clusters :=
  match clusters.lookup target with
  | none => .error .out_of_range
  | some blks =>
    if blks = ∅ then .ok (clusters_erase target clusters)
    else
      match clusters.lookup base with
      | none => .error .out_of_range
      | some _ => .ok (clusters_erase target (clusters_add base blks clusters))

/-- The method `Graph::merge(int, int)`: only `clusters_` changes. -/
def Graph.merge2 (g : Graph) (base target : Int) : Except Error Graph :=
  match merge_clusters base target g.clusters_ with
  | .error e => .error e
  | .ok cs => .ok { g with clusters_ := cs }

/-- The statement `result.emplace(result.size(), iter.second)`. -/
def clusters_emplace (key : Int) (blks : Finset BlockId) : Clusters → Clusters
  | [] => [(key, blks)]
  | c :: rest =>
    if key < c.1 then (key, blks) :: c :: rest
    else if key = c.1 then c :: rest
    else c :: clusters_emplace key blks rest

/-- The renumbering loop of `fix_cluster_id`.  The key `result.size()` is
converted to `int` exactly: cluster counts stay far below `2 ^ 31`. -/
def renumber (clusters : Clusters) : Clusters :=
  clusters.foldl (fun result iter => clusters_emplace (result.length : Int) iter.2 result) []

/-- Translation of `Graph::fix_cluster_id`. -/
def Graph.fix_cluster_id (g : Graph) : Except Error Graph :=
  update (renumber g.clusters_) g.netlist_

/-- The id of the vertex at a position of `nodes_`. -/
def node_id (g : Graph) (n : Nat) : Int := (g.nodes_.getD n ⟨0, 0⟩).id

/-- The loop `for i in 1 .. path.size(): merge(src->id, path[i]->id)`. -/
def merge_path (g : Graph) (src : Nat) : List Nat → Clusters → Except Error Clusters
  | [], cs => .ok cs
  | dst :: rest, cs =>
    match merge_clusters (node_id g src) (node_id g dst) cs with
    | .error e => .error e
    | .ok cs1 => merge_path g src rest cs1

/-- The `for` loop of `Graph::merge()` over the vertices: the first vertex
with a non-empty loop path has its path merged and the graph rebuilt;
`none` when no vertex has one. -/
def merge_first_loop (g : Graph) : List Nat → Except Error (Option Graph)
  | [] => .ok none
  | n :: rest =>
    match find_loop_path g n with
    | .error e => .error e
    | .ok [] => merge_first_loop g rest
    | .ok (src :: tail) =>
      match merge_path g src tail g.clusters_ with
      | .error e => .error e
      | .ok cs =>
        match update cs g.netlist_ with
        | .error e => .error e
        | .ok g1 => .ok (some g1)

/-- The `while (has_loop())` loop of `Graph::merge()`. -/
def merge_loops : Nat → Graph → Except Error Graph
  | 0, _ => .error .out_of_fuel
  | fuel + 1, g =>
    match has_loop g with
    | .error e => .error e
    | .ok false => .ok g
    | .ok true =>
      match merge_first_loop g (List.range g.nodes_.length) with
      | .error e => .error e
      | .ok none => merge_loops fuel g
      | .ok (some g1) => merge_loops fuel g1

/-- Translation of the acyclic pass `Graph::merge()`. -/
def Graph.merge (g : Graph) : Except Error Graph :=
  match merge_loops (g.clusters_.length + 1) g with
  | .error e => .error e
  | .ok g1 => g1.fix_cluster_id

/-- Sum of the weights of an edge list (`total_weights_before/after`). -/
def total_weights (edges : List Edge) : Nat :=
  (edges.map (fun e => e.weight)).sum

/-- One sorting function the call `std::sort(edges, a->weight > b->weight)`
may be: insertion sort, heaviest edge first, edges of equal weight in their
old order. -/
def sort_edges (edges : List Edge) : List Edge :=
  edges.insertionSort (fun a b => b.weight ≤ a.weight)

/-- The block count `clusters_.at(id).size()`. -/
def cluster_size (clusters : Clusters) (id : Int) : Except Error Nat :=
  match clusters.lookup id with
  | none => .error .out_of_range
  | some blks => .ok blks.card

/-- The hypothetical graph of one candidate edge in `Graph::merge(uint32_t)`:
a copy built from `clusters_` and `netlist_`, merged and rebuilt. -/
def merged_copy (g : Graph) (edge : Edge) : Except Error Graph :=
  match Graph.new g.clusters_ g.netlist_ with
  | .error e => .error e
  | .ok g0 =>
    match g0.merge2 (node_id g edge.from_) (node_id g edge.to_) with
    | .error e => .error e
    | .ok g1 => update g1.clusters_ g1.netlist_

/-- The `for` loop over the sorted edges in `Graph::merge(uint32_t)`: the
state of the object after the loop, and the exception if one was thrown. -/
def try_merge (g : Graph) (max_size : Nat) : List Edge → Graph × Option Error
  | [] => (g, none)
  | edge :: rest =>
    match cluster_size g.clusters_ (node_id g edge.from_),
          cluster_size g.clusters_ (node_id g edge.to_) with
    | .error e, _ => (g, some e)
    | _, .error e => (g, some e)
    | .ok size_from, .ok size_to =>
      if size_from + size_to > max_size then try_merge g max_size rest
      else
        match merged_copy g edge with
        | .error e => (g, some e)
        | .ok g2 =>
          match has_loop g2 with
          | .error e => (g, some e)
          | .ok true => try_merge g max_size rest
          | .ok false =>
            if total_weights g2.edges_ ≤ total_weights g.edges_ then
              update_state g2.clusters_ g.netlist_
            else try_merge g max_size rest

/-- The `while (true)` loop of `Graph::merge(uint32_t)`.  The call `std::sort`
fixes the order of the edges only up to the order of edges of equal weight,
so the sorting function is the parameter `sorter`. -/
def merge_max_loop (sorter : List Edge → List Edge) (max_size : Nat) :
    Nat → Graph → Graph × Option Error
  | 0, g => (g, some .out_of_fuel)
  | fuel + 1, g =>
    if g.clusters_.any (fun c => decide (c.2.card > max_size)) then (g, some (.capacity max_size))
    else
      match try_merge g max_size (sorter g.edges_) with
      | (g1, some e) => (g1, some e)
      | (g1, none) =>
        if g.clusters_.length = g1.clusters_.length then (g1, none)
        else merge_max_loop sorter max_size fuel g1

/-- Translation of the capacity pass `Graph::merge(uint32_t max_size)`: the
state of the object when the method returns or throws, and the exception;
`sorter` is the function that `std::sort` computes. -/
def Graph.merge_max (g : Graph) (sorter : List Edge → List Edge) (max_size : Nat) :
    Graph × Option Error :=
  match merge_max_loop sorter max_size (g.clusters_.length + 1) g with
  | (g1, some e) => (g1, some e)
  | (g1, none) =>
    match update_state (renumber g1.clusters_) g1.netlist_ with
    | (g2, some e) => (g2, some e)
    | (g2, none) => update_state g2.clusters_ g2.netlist_

end graph

/-! ## Timing graph -/

/-- Terminal of a net (`struct Pin`); `node` is the id of its physical node. -/
structure Pin where
  x : Nat
  y : Nat
  name : String
  port : String
  node : Nat
  id : Nat
deriving DecidableEq, Repr

/-- Single-driver net (`struct Net`): pin 0 is the driver. -/
structure Net where
  id : Int
  pins_ : List Pin
deriving DecidableEq, Repr

/-- The merged netlist `std::map<int, Net>`, in key order. -/
abbrev Netlist := List (Int × Net)

/-- Logical operator of the timing graph; `next` holds positions of
successor nodes in creation order, pins are copies of the netlist pins. -/
structure TimingNode where
  name : String
  src_pins : List Pin
  sink_pins : List Pin
  next : List Nat
deriving DecidableEq, Repr

namespace TimingGraph

/-- Lookup in `name_to_node_`: position of the node registered under a name. -/
def find_node (name : String) : List TimingNode → Option Nat
  | [] => none
  | n :: rest => if n.name = name then some 0 else (find_node name rest).map (fun i => i + 1)

/-- Translation of `get_node`: position of the node named like the pin,
created at the end when absent. -/
def get_node (nodes : List TimingNode) (pin : Pin) : List TimingNode × Nat :=
  match find_node pin.name nodes with
  | some i => (nodes, i)
  | none => (nodes ++ [⟨pin.name, [], [], []⟩], nodes.length)

/-- Update of the node at a position through its pointer. -/
def modify_node : List TimingNode → Nat → (TimingNode → TimingNode) → List TimingNode
  | [], _, _ => []
  | n :: rest, 0, f => f n :: rest
  | n :: rest, i + 1, f => n :: modify_node rest i f

/-- The receivers loop of the constructor for one net. -/
def add_sinks (src_node : Nat) : List Pin → List TimingNode → List TimingNode
  | [], nodes => nodes
  | sink :: rest, nodes =>
    let r := get_node nodes sink
    let nodes1 := modify_node r.1 src_node (fun n => { n with next := n.next ++ [r.2] })
    let nodes2 := modify_node nodes1 r.2 (fun n => { n with src_pins := n.src_pins ++ [sink] })
    add_sinks src_node rest nodes2

/-- The constructor `TimingGraph(netlist)`: the nodes in creation order;
`none` when a net has no pin (`net[0]` is undefined then). -/
def build : Netlist → List TimingNode → Option (List TimingNode)
  | [], nodes => some nodes
  | entry :: rest, nodes =>
    match entry.2.pins_ with
    | [] => none
    | src_pin :: sinks =>
      let r := get_node nodes src_pin
      let nodes1 := modify_node r.1 r.2 (fun n => { n with sink_pins := n.sink_pins ++ [src_pin] })
      build rest (add_sinks r.2 sinks nodes1)

/-- The successor positions of a timing node. -/
def next_of (nodes : List TimingNode) (n : Nat) : List Nat :=
  match nodes[n]? with
  | some node => node.next
  | none => []

/-- Translation of `sort_`; the state is `(visited, result)`. -/
def sort_ (nodes : List TimingNode) (fuel node : Nat) (st : List Nat × List Nat) :
    Except Error (List Nat × List Nat) :=
  graph.post_order (next_of nodes) fuel node st

/-- Translation of `TimingGraph::topological_sort`.  The container `nodes_`
is an unordered set of pointers, so its iteration order is the parameter
`order`. -/
def topological_sort (nodes : List TimingNode) (order : List Nat) : Except Error (List Nat) :=
  match graph.post_order_all (next_of nodes) (nodes.length + 1) order ([], []) with
  | .error e => .error e
  | .ok st => .ok st.2.reverse

end TimingGraph

/-! ## Predicates and measures used by the proofs -/

/-- Invariant of the id assignment: both maps list the same blocks, without
repetition, ids are below the number of blocks, and the blocks are the
processed ones. -/
def AssignInv (st : List (BlockId × Nat) × List (Nat × BlockId)) (seen : List BlockId) : Prop :=
  st.1.map Prod.fst = st.2.map Prod.snd ∧ (st.2.map Prod.snd).Nodup ∧
    st.1.length = st.2.length ∧ (∀ p ∈ st.2, p.1 < st.2.length) ∧
    ∀ b, b ∈ st.2.map Prod.snd ↔ b ∈ seen

/-- Keys strictly increasing: the list is a well-formed `std::map`. -/
def KeysSorted (cs : Clusters) : Prop := cs.Pairwise (fun a b => a.1 < b.1)

/-- No block lies in two entries of the cluster map. -/
def ClustersDisjoint (cs : Clusters) : Prop := cs.Pairwise (fun a b => Disjoint a.2 b.2)

namespace graph

/-- The edge relation of an edge list: some edge leads from `u` to `v`. -/
def EdgeRel (edges : List Edge) (u v : Nat) : Prop := ∃ e ∈ edges, e.from_ = u ∧ e.to_ = v

/-- Number of queue entries plus number of edges whose source is unvisited:
the quantity that drops by one at each turn of a breadth-first loop. -/
def bfs_measure (edges : List Edge) (queue visited : List Nat) : Nat :=
  queue.length + (edges.filter (fun e => decide (e.from_ ∉ visited))).length

/-- Successor relation of an adjacency function. -/
def AdjRel (adj : Nat → List Nat) (u v : Nat) : Prop := v ∈ adj u

/-- A stack read from the top is in topological order: no vertex is repeated
and every successor of a vertex lies deeper in the stack. -/
def TopoStack (adj : Nat → List Nat) : List Nat → Prop
  | [] => True
  | u :: rest => u ∉ rest ∧ (∀ w ∈ adj u, w ∈ rest) ∧ TopoStack adj rest

/-- Number of vertices below `N` that are not yet visited. -/
def unvisited (N : Nat) (visited : List Nat) : Nat :=
  ((List.range N).filter (fun x => decide (x ∉ visited))).length

/-- Contract of one depth-first visit with the given budget. -/
def PostOrderSpec (adj : Nat → List Nat) (N fuel : Nat) : Prop :=
  ∀ (node : Nat) (V O : List Nat),
    node < N → node ∉ V → unvisited N V ≤ fuel →
    (∀ x ∈ O, x ∈ V) → TopoStack adj O.reverse →
    (∀ x ∈ V, x ∉ O → Relation.ReflTransGen (AdjRel adj) x node) →
    ∃ V1 O1, post_order adj fuel node (V, O) = .ok (V1, O1) ∧
      (∀ x ∈ V, x ∈ V1) ∧ (∀ x ∈ O1, x ∈ V1) ∧ TopoStack adj O1.reverse ∧ node ∈ O1 ∧
      (∀ x ∈ O, x ∈ O1) ∧ (∀ x ∈ V1, x ∉ O1 → x ∈ V ∧ x ∉ O) ∧
      (∀ x ∈ O1, x ∈ O ∨ x ∉ V) ∧ (∀ x ∈ V1, x < N ∨ x ∈ V)

/-- Position of the first cluster that contains a block. -/
def cluster_index (blk : BlockId) : Clusters → Option Nat
  | [] => none
  | c :: rest => if blk ∈ c.2 then some 0 else (cluster_index blk rest).map (fun i => i + 1)

/-- The vertex list `update` builds for a cluster map. -/
def cluster_nodes (clusters : Clusters) : List Node :=
  clusters.map (fun c => ⟨c.1, c.2.card⟩)

/-- The endpoints of the edges, in creation order. -/
def edge_pairs (edges : List Edge) : List (Nat × Nat) :=
  edges.map (fun e => (e.from_, e.to_))

/-- Total weight of the edges from `a` to `b`. -/
def pair_weight (edges : List Edge) (a b : Nat) : Nat :=
  total_weights (edges.filter (fun e => decide (e.from_ = a ∧ e.to_ = b)))

/-- Well-formed edge list over `N` vertices: one edge per ordered pair, both
endpoints are vertices, no self-loop, positive weights. -/
def EdgesOk (N : Nat) (edges : List Edge) : Prop :=
  (edge_pairs edges).Nodup ∧ (∀ p ∈ edge_pairs edges, p.1 < N ∧ p.2 < N ∧ p.1 ≠ p.2) ∧
    ∀ e ∈ edges, 1 ≤ e.weight

/-- Receivers of a net driven from vertex `a` that lie in vertex `b`. -/
def net_fanout (nm : BlockId → Option Nat) (a b : Nat) (net : List (BlockId × String)) : Nat :=
  match net with
  | [] => 0
  | src :: sinks =>
    if nm src.1 = some a then (sinks.filter (fun s => decide (nm s.1 = some b))).length else 0

/-- Number of (net, receiver position) pairs with the driver in vertex `a`
and the receiver in vertex `b`. -/
def fanout (nm : BlockId → Option Nat) (netlist : PortNetlist) (a b : Nat) : Nat :=
  (netlist.map (fun iter => net_fanout nm a b iter.2)).sum

/-- Receivers of a net that lie in another vertex than the driver. -/
def net_cut (nm : BlockId → Option Nat) (net : List (BlockId × String)) : Nat :=
  match net with
  | [] => 0
  | src :: sinks => (sinks.filter (fun s => decide (nm s.1 ≠ nm src.1))).length

/-- Number of (net, receiver position) pairs that cross between vertices. -/
def cut_size (nm : BlockId → Option Nat) (netlist : PortNetlist) : Nat :=
  (netlist.map (fun iter => net_cut nm iter.2)).sum

/-- The map from blocks to vertex positions that `update` builds. -/
def node_map (clusters : Clusters) : BlockId → Option Nat :=
  fun blk => cluster_index blk clusters

/-- Every block of the netlist lies in some cluster. -/
def Covered (clusters : Clusters) (netlist : PortNetlist) : Prop :=
  ∀ iter ∈ netlist, ∀ p ∈ iter.2, ∃ c ∈ clusters, p.1 ∈ c.2

/-- Every net has a driver. -/
def NetsNonempty (netlist : PortNetlist) : Prop := ∀ iter ∈ netlist, iter.2 ≠ []

/-- The edge list `update` builds. -/
def built_edges (clusters : Clusters) (netlist : PortNetlist) : List Edge :=
  (connect_nets (node_map clusters) netlist []).1

/-- Number of (net, receiver position) pairs whose driver is a block of `ca`
and whose receiver is a block of `cb`. -/
def fanout_pairs (ca cb : Finset BlockId) (netlist : PortNetlist) : Nat :=
  (netlist.map (fun iter =>
    match iter.2 with
    | [] => 0
    | src :: sinks =>
      if src.1 ∈ ca then (sinks.filter (fun s => decide (s.1 ∈ cb))).length else 0)).sum

/-- The vertex and edge lists of the graph are those `update` builds from
its cluster map and netlist. -/
def Built (g : Graph) : Prop := update_state g.clusters_ g.netlist_ = (g, none)

/-- What `std::sort` with the comparison `a->weight > b->weight` guarantees of
the function it computes: the result is a rearrangement of the input in
which no edge stands before a heavier one.  The order of edges of equal
weight is left open. -/
def SortsEdges (sorter : List Edge → List Edge) : Prop :=
  ∀ edges, (sorter edges).Perm edges ∧
    (sorter edges).Pairwise (fun a b => b.weight ≤ a.weight)

/-- One accepted merge of the capacity pass: an edge whose two clusters fit
together in `max_size`, whose merged graph has no loop and no larger total
weight, and the graph rebuilt after the merge. -/
def MergeStep (max_size : Nat) (g g1 : Graph) : Prop :=
  ∃ edge ∈ g.edges_, ∃ size_from size_to merged,
    cluster_size g.clusters_ (node_id g edge.from_) = .ok size_from ∧
    cluster_size g.clusters_ (node_id g edge.to_) = .ok size_to ∧
    size_from + size_to ≤ max_size ∧
    merge_clusters (node_id g edge.from_) (node_id g edge.to_) g.clusters_ = .ok merged ∧
    update_state merged g.netlist_ = (g1, none) ∧ has_loop g1 = .ok false ∧
    total_weights g1.edges_ ≤ total_weights g.edges_

/-- The outcome is a return or an exception caused by the input data; it is
neither the capacity error nor an exhausted budget. -/
def NotCapacity (err : Option Error) : Prop :=
  err = none ∨ err = some .out_of_range ∨ err = some .empty_net ∨ err = some .invalid_graph

/-- Invariant of the breadth-first loop of `find_loop_path`: the visited list
(newest first) has no repetition, every visited vertex other than `start`
has a recorded predecessor visited earlier, every queued vertex has a
recorded visited predecessor (except in the initial state), recorded
predecessors are edge sources, and the visited set is closed under
successors up to the queue. -/
def LoopInv (edges : List Edge) (N start : Nat) (queue visited : List Nat)
    (path : List (Nat × Nat)) : Prop :=
  visited.Nodup ∧
  (∀ a x b, visited = a ++ x :: b → x ≠ start → ∃ m, path.lookup x = some m ∧ m ∈ b) ∧
  (∀ x ∈ queue, (∃ m, path.lookup x = some m ∧ m ∈ visited) ∨
    (visited = [] ∧ queue = [start])) ∧
  (visited = [] ∨ start ∈ visited) ∧
  (∀ n m, path.lookup n = some m → EdgeRel edges m n ∧ m ∈ visited) ∧
  (∀ x ∈ visited, x < N) ∧ (∀ x ∈ queue, x < N) ∧
  (∀ v ∈ visited, ∀ w ∈ edges_to edges v, w ∈ visited ∨ w ∈ queue) ∧
  (∀ v ∈ visited, start ∈ edges_to edges v → start ∈ queue) ∧
  (start ∈ visited ∨ start ∈ queue)

/-- A non-empty result of `find_loop_path` is a cycle through `start`, listed
against the edge direction, of at least two distinct vertices. -/
def IsLoopPath (edges : List Edge) (N start : Nat) (result : List Nat) : Prop :=
  ∃ chain, result = start :: chain ∧ chain ≠ [] ∧ start ∉ chain ∧ chain.Nodup ∧
    (∀ x ∈ chain, x < N) ∧ List.Chain (fun x y => EdgeRel edges y x) start chain ∧
    EdgeRel edges start ((start :: chain).getLast (List.cons_ne_nil _ _))

end graph

namespace TimingGraph

/-- Every successor pointer of every node designates a node of the graph. -/
def NextValid (nodes : List TimingNode) : Prop :=
  ∀ n ∈ nodes, ∀ w ∈ n.next, w < nodes.length

end TimingGraph

/-! ## Concrete graphs used to instantiate the theorems -/

namespace graph

/-- Four singleton clusters. -/
def cyc_clusters : Clusters := [(0, {"a"}), (3, {"b"}), (5, {"c"}), (7, {"d"})]

/-- Nets a to b, b to c and a, c to d: clusters 0 and 3 lie on a cycle. -/
def cyc_netlist : PortNetlist :=
  [("n0", [("a", "o"), ("b", "i")]), ("n1", [("b", "o"), ("c", "i"), ("a", "i")]),
   ("n2", [("c", "o"), ("d", "i")])]

/-- The graph built from `cyc_clusters` and `cyc_netlist`. -/
def cyc_graph : Graph :=
  ⟨cyc_clusters, cyc_netlist, [⟨0, 1⟩, ⟨3, 1⟩, ⟨5, 1⟩, ⟨7, 1⟩],
    [⟨0, 1, 1⟩, ⟨1, 2, 1⟩, ⟨1, 0, 1⟩, ⟨2, 3, 1⟩]⟩

/-- The state of `cyc_graph` after the capacity pass with maximum size 3. -/
def cyc_graph_merged : Graph :=
  ⟨[(0, {"a", "b", "c"}), (1, {"d"})], cyc_netlist, [⟨0, 3⟩, ⟨1, 1⟩], [⟨0, 1, 1⟩]⟩

/-- Three singleton clusters. -/
def dag_clusters : Clusters := [(0, {"a"}), (1, {"b"}), (2, {"c"})]

/-- Nets a to b and b to c: a chain without cycle. -/
def dag_netlist : PortNetlist :=
  [("n0", [("a", "o"), ("b", "i")]), ("n1", [("b", "o"), ("c", "i")])]

/-- The graph built from `dag_clusters` and `dag_netlist`. -/
def dag_graph : Graph :=
  ⟨dag_clusters, dag_netlist, [⟨0, 1⟩, ⟨1, 1⟩, ⟨2, 1⟩], [⟨0, 1, 1⟩, ⟨1, 2, 1⟩]⟩

/-- The state of `dag_graph` after the capacity pass with maximum size 2. -/
def dag_graph_merged : Graph :=
  ⟨[(0, {"a", "b"}), (1, {"c"})], dag_netlist, [⟨0, 2⟩, ⟨1, 1⟩], [⟨0, 1, 1⟩]⟩

/-- Two singleton clusters. -/
def two_clusters : Clusters := [(0, {"a"}), (1, {"b"})]

/-- Nets a to b and b to a: the two clusters form a cycle. -/
def two_netlist : PortNetlist :=
  [("n0", [("a", "o"), ("b", "i")]), ("n1", [("b", "o"), ("a", "i")])]

/-- The graph built from `two_clusters` and `two_netlist`; the capacity pass
with maximum size 1 leaves it unchanged. -/
def two_graph : Graph :=
  ⟨two_clusters, two_netlist, [⟨0, 1⟩, ⟨1, 1⟩], [⟨0, 1, 1⟩, ⟨1, 0, 1⟩]⟩

/-- Three clusters that overlap: block c lies in clusters 0 and 1. -/
def overlap_clusters : Clusters := [(0, {"x", "c"}), (1, {"c"}), (2, {"y"})]

/-- Nets y to x and x to c. -/
def overlap_netlist : PortNetlist :=
  [("n0", [("y", "o"), ("x", "i")]), ("n1", [("x", "o"), ("c", "i")])]

/-- The graph built from `overlap_clusters` and `overlap_netlist`. -/
def overlap_graph : Graph :=
  ⟨overlap_clusters, overlap_netlist, [⟨0, 2⟩, ⟨1, 1⟩, ⟨2, 1⟩], [⟨2, 0, 1⟩]⟩

/-- The state of `overlap_graph` after the capacity pass with maximum size 3. -/
def overlap_graph_merged : Graph :=
  ⟨[(0, {"c"}), (1, {"y", "x", "c"})], overlap_netlist, [⟨0, 1⟩, ⟨1, 3⟩], [⟨1, 0, 1⟩]⟩

end graph

namespace TimingGraph

/-- Three nets a to b, b to c and x to a. -/
def chain_netlist : Netlist :=
  [(0, ⟨0, [⟨0, 0, "a", "o", 0, 0⟩, ⟨0, 0, "b", "i", 1, 1⟩]⟩),
   (1, ⟨1, [⟨0, 0, "b", "o", 2, 2⟩, ⟨0, 0, "c", "i", 3, 3⟩]⟩),
   (2, ⟨2, [⟨0, 0, "x", "o", 4, 4⟩, ⟨0, 0, "a", "i", 5, 5⟩]⟩)]

/-- The timing nodes built from `chain_netlist`. -/
def chain_nodes : List TimingNode :=
  [⟨"a", [⟨0, 0, "a", "i", 5, 5⟩], [⟨0, 0, "a", "o", 0, 0⟩], [1]⟩,
   ⟨"b", [⟨0, 0, "b", "i", 1, 1⟩], [⟨0, 0, "b", "o", 2, 2⟩], [2]⟩,
   ⟨"c", [⟨0, 0, "c", "i", 3, 3⟩], [], []⟩,
   ⟨"x", [], [⟨0, 0, "x", "o", 4, 4⟩], [0]⟩]

/-- A ranking of the nodes of `chain_nodes` that grows along every edge. -/
def chain_rank (n : Nat) : Nat :=
  match n with
  | 0 => 1
  | 1 => 2
  | 2 => 3
  | _ => 0

end TimingGraph

/-! ## Predicates of the condensation argument -/

namespace graph

/-- Some cluster of the map holds both blocks. -/
def SameCluster (cs : Clusters) (x y : BlockId) : Prop := ∃ c ∈ cs, x ∈ c.2 ∧ y ∈ c.2

/-- Two vertices lie in the same strongly connected component: each is
reachable from the other along edges in zero or more steps (so they are
equal, or each reaches the other). -/
def SameScc (edges : List Edge) (a b : Nat) : Prop :=
  Relation.ReflTransGen (EdgeRel edges) a b ∧ Relation.ReflTransGen (EdgeRel edges) b a

/-- Some net has its driver in vertex `a` and a receiver in another vertex `b`. -/
def NetEdge (nm : BlockId → Option Nat) (netlist : PortNetlist) (a b : Nat) : Prop :=
  a ≠ b ∧ ∃ iter ∈ netlist, ∃ src sinks, iter.2 = src :: sinks ∧ nm src.1 = some a ∧
    ∃ s ∈ sinks, nm s.1 = some b

/-- The cluster map `cs` is obtained from `cs0` by joining clusters that lie
in one strongly connected component of the graph with edges `edges0` built
from `cs0`: both maps hold the same blocks, blocks together in `cs0` are
together in `cs`, and blocks together in `cs` come from clusters of one
component. -/
def SccCoarsening (edges0 : List Edge) (cs0 cs : Clusters) : Prop :=
  (∀ x, (∃ c ∈ cs, x ∈ c.2) ↔ ∃ c ∈ cs0, x ∈ c.2) ∧
  (∀ x y, SameCluster cs0 x y → SameCluster cs x y) ∧
  (∀ x y a b, node_map cs0 x = some a → node_map cs0 y = some b → SameCluster cs x y →
    SameScc edges0 a b)

end graph

/-! ## Further instances of the clustered graph -/

namespace graph

/-- Three singleton clusters. -/
def fan_clusters : Clusters := [(0, {"a"}), (1, {"b"}), (2, {"c"})]

/-- One net driven by a with receivers b and c. -/
def fan_net : List (BlockId × String) := [("a", "o"), ("b", "i"), ("c", "i")]

/-- The netlist that holds `fan_net` only. -/
def fan_netlist : PortNetlist := [("n0", fan_net)]

/-- The graph built from `fan_clusters` and `fan_netlist`. -/
def fan_graph : Graph :=
  ⟨fan_clusters, fan_netlist, [⟨0, 1⟩, ⟨1, 1⟩, ⟨2, 1⟩], [⟨0, 1, 1⟩, ⟨0, 2, 1⟩]⟩

/-- A cluster map whose ids are not dense. -/
def sparse_clusters : Clusters := [(2, {"a"}), (5, {"b"}), (9, {"c"})]

/-- The graph built from `sparse_clusters` and `dag_netlist`. -/
def sparse_graph : Graph :=
  ⟨sparse_clusters, dag_netlist, [⟨2, 1⟩, ⟨5, 1⟩, ⟨9, 1⟩], [⟨0, 1, 1⟩, ⟨1, 2, 1⟩]⟩

/-- The state of `two_graph` after the acyclic pass: one vertex, no edge. -/
def two_graph_merged : Graph :=
  ⟨[(0, {"a", "b"})], two_netlist, [⟨0, 2⟩], []⟩

end graph

/-!
# Retimer of cgra_pnr

Shallow embedding of `cyclone/src/timing.cc`: `get_delay`, `maximum_delay`,
`wave_matching` and `retime`.

Conventions of the embedding.
* A `const Pin *` is identified with the pin record, which carries the pin's
  unique `id`; a `Node *` is identified with the `id` of the node record; a
  `const TimingNode *` is the position of the node in creation order.
* An `std::unordered_map` is an association list without repeated keys, read
  with `map_find` and written with `map_set` (`operator[]` assignment) or
  `map_emplace`; the only loops over such maps compute a maximum or test all
  entries, so their iteration order does not matter.
* The classes `RoutedGraph` and `Router` and the layout are declared outside
  the translated sources; the routed graph is an abstract state with the four
  operations of its interface (`RoutedGraphOps`).
* Delays are `uint64_t` and are added modulo `2 ^ 64`.  Wave numbers and
  register counts are counters of inserted registers and are not reduced.
* The two `do ... while` loops take a step budget; a run that exhausts it
  yields `TimingError.out_of_fuel`.
* The record `RetimeResult` holds, next to the returned value and the routes
  handed to the routers, the values of the local maps when `retime` returns
  and two histories: the register insertion requests in call order and, per
  processed net, the `max_delay`, the `src_wave` and the final route.
-/

/-- Failures of the retimer: the two exception classes thrown by the source,
undefined behaviour (`net[0]` of an empty net, division by zero) and an
exhausted step budget. -/
inductive TimingError where
  | runtime_error (msg : String)
  | out_of_range
  | undefined_behaviour
  | out_of_fuel
deriving DecidableEq, Repr

/-- Lookup in an association list (`find` / `at`). -/
def map_find {α β : Type} [DecidableEq α] : List (α × β) → α → Option β
  | [], _ => none
  | (k1, v1) :: rest, k => if k1 = k then some v1 else map_find rest k

/-- The assignment `m[k] = v`. -/
def map_set {α β : Type} [DecidableEq α] : List (α × β) → α → β → List (α × β)
  | [], k, v => [(k, v)]
  | (k1, v1) :: rest, k, v => if k1 = k then (k1, v) :: rest else (k1, v1) :: map_set rest k v

/-- The call `m.emplace(k, v)`: an existing binding is kept. -/
def map_emplace {α β : Type} [DecidableEq α] (m : List (α × β)) (k : α) (v : β) :
    List (α × β) :=
  match map_find m k with
  | some _ => m
  | none => m ++ [(k, v)]

/-- The call `m.emplace(k, v)` on an `std::map` with integer keys, kept in
increasing key order. -/
def sorted_emplace {β : Type} (key : Int) (v : β) : List (Int × β) → List (Int × β)
  | [] => [(key, v)]
  | c :: rest =>
    if key < c.1 then (key, v) :: c :: rest
    else if key = c.1 then c :: rest
    else c :: sorted_emplace key v rest

namespace cyclone

/-- Modelled from the spec: the node kinds `NodeType` of the routing graph,
declared in the header of the router. -/
inductive NodeType where
  | SwitchBox
  | Port
  | Register
  | Generic
deriving DecidableEq, Repr

/-- Modelled from the spec: the side `SwitchBoxIO` of a switch box node. -/
inductive SwitchBoxIO where
  | SB_IN
  | SB_OUT
deriving DecidableEq, Repr

/-- Modelled from the spec: a physical routing resource (`struct Node` and
its subclass `SwitchBoxNode`); `io` is read for switch boxes only. -/
structure Node where
  id : Nat
  type : NodeType
  name : String
  x : Nat
  y : Nat
  io : SwitchBoxIO
deriving DecidableEq, Repr

end cyclone

/-- Modelled from the spec: the named cost kinds `TimingCost`. -/
inductive TimingCost where
  | CLB_OP
  | CLB_SB
  | MEM
  | MEM_SB
  | REG
  | RMUX
deriving DecidableEq, Repr

/-- The route of a net: receiver pin id to node sequence, in key order. -/
abbrev Route := List (Nat × List cyclone.Node)

/-- Modelled from the spec: the interface of `class RoutedGraph` over an
abstract state `RG`.  The two mutators return the new state and the pin ids
they report. -/
structure RoutedGraphOps (RG : Type) where
  get_route : RG → Route
  pin_order : RG → Route → List Nat
  insert_pipeline_reg : RG → Nat → RG × List Nat
  insert_reg_output : RG → cyclone.Node → Bool → RG × List Nat

/-- Modelled from the spec: what `retime` reads from a `Router`: its netlist,
its routed graphs and the test `has_net`. -/
structure Router (RG : Type) where
  netlist : Netlist
  routed_graph : List (Int × RG)
  has_net : Int → Bool

/-- A register insertion request made on a routed graph. -/
inductive Request where
  | pipeline_reg (pin_id : Nat)
  | reg_output (node : cyclone.Node) (force : Bool)
deriving DecidableEq, Repr

/-- Modelled from the spec: the data members of `class TimingAnalysis` read
by `get_delay` and `maximum_delay`: layout, cost table, minimum frequency. -/
structure TimingAnalysis where
  layout_ : Nat → Nat → Char
  timing_cost_ : TimingCost → Option Nat
  min_frequency_ : Nat

namespace TimingAnalysis

/-- The lookup `timing_cost_.at(kind)`. -/
def cost_at (ta : TimingAnalysis) (kind : TimingCost) : Except TimingError Nat :=
  match ta.timing_cost_ kind with
  | some c => .ok c
  | none => .error .out_of_range

/-- Translation of `TimingAnalysis::get_delay`. -/
def get_delay (ta : TimingAnalysis) (node : cyclone.Node) : Except TimingError Nat :=
  match node.type with
  | .Port =>
    let clb_type := ta.layout_ node.x node.y
    if clb_type = 'p' then ta.cost_at .CLB_OP
    else if clb_type = 'm' then ta.cost_at .MEM
    else if clb_type = 'i' ∨ clb_type = 'I' then .ok 0
    else .error (.runtime_error ("Unable to identify delay for node: " ++ node.name))
  | .Register => ta.cost_at .REG
  | .SwitchBox =>
    if node.io = cyclone.SwitchBoxIO.SB_IN then .ok 0
    else
      let clb_type := ta.layout_ node.x node.y
      if clb_type = 'p' then ta.cost_at .CLB_SB
      else if clb_type = 'm' then ta.cost_at .MEM_SB
      else if clb_type = 'i' then .ok 0
      else .error (.runtime_error ("Unable to identify timing for blk " ++ node.name))
  | .Generic => ta.cost_at .RMUX

/-- Translation of `TimingAnalysis::maximum_delay`; the division by a zero
frequency is undefined. -/
def maximum_delay (ta : TimingAnalysis) : Except TimingError Nat :=
  if ta.min_frequency_ = 0 then .error .undefined_behaviour
  else .ok (1000000 / ta.min_frequency_)

end TimingAnalysis

/-! ## Source pins, sink nets, maximum wave -/

/-- The test `name[0] == 'i' || name[0] == 'I'`; the first character of an
empty name is the terminating zero. -/
def is_io_name (name : String) : Bool :=
  match name.data with
  | c :: _ => decide (c = 'i' ∨ c = 'I')
  | [] => false

/-- Translation of `get_source_pins`: the driver pins named like an IO, with
the id of their net. -/
def get_source_pins : Netlist → Except TimingError (List (Int × Pin))
  | [] => .ok []
  | entry :: rest =>
    match entry.2.pins_ with
    | [] => .error .undefined_behaviour
    | p :: _ =>
      match get_source_pins rest with
      | .error e => .error e
      | .ok result => .ok (if is_io_name p.name then (entry.2.id, p) :: result else result)

namespace TimingGraph

/-- Translation of `TimingGraph::get_sink_ids`: the ids of the nets whose
driver is named like the node. -/
def get_sink_ids (netlist : Netlist) (node : TimingNode) : List Int :=
  netlist.filterMap (fun entry =>
    match entry.2.pins_ with
    | [] => none
    | p :: _ => if p.name = node.name then some entry.2.id else none)

end TimingGraph

/-- Translation of `get_max_wave_number`. -/
def get_max_wave_number (pin_wave : List (Pin × Nat)) : Nat :=
  pin_wave.foldl (fun result iter => if iter.2 > result then iter.2 else result) 0

/-! ## Wave matching -/

/-- The gathering loop of `wave_matching`: the maximum wave, the map `waves`
and the map `pin_map` from pin id to pin. -/
def wave_gather (pin_wave : List (Pin × Nat)) :
    List Pin → Nat × List (Pin × Nat) × List (Nat × Pin) →
      Except TimingError (Nat × List (Pin × Nat) × List (Nat × Pin))
  | [], acc => .ok acc
  | pin :: rest, (max_wave, waves, pin_map) =>
    match map_find pin_wave pin with
    | none => .error .out_of_range
    | some w =>
      wave_gather pin_wave rest
        (if w > max_wave then w else max_wave, map_emplace waves pin w,
          map_emplace pin_map pin.id pin)

/-- The loop over the pin ids an insertion reported:
`pin_wave[p]++; waves[p] = pin_wave[p]`. -/
def wave_advance (pin_map : List (Nat × Pin)) :
    List Nat → List (Pin × Nat) × List (Pin × Nat) →
      Except TimingError (List (Pin × Nat) × List (Pin × Nat))
  | [], st => .ok st
  | pin_id :: rest, (pin_wave, waves) =>
    match map_find pin_map pin_id with
    | none => .error .out_of_range
    | some p =>
      let w := (map_find pin_wave p).getD 0 + 1
      wave_advance pin_map rest (map_set pin_wave p w, map_set waves p w)

/-- The `for` loop of one turn of `wave_matching`: the first source pin below
the maximum wave gets a pipeline register, then the loop is left. -/
def wave_insert {RG : Type} (ops : RoutedGraphOps RG) (max_wave : Nat)
    (pin_map : List (Nat × Pin)) :
    List Pin → RG × List (Pin × Nat) × List (Pin × Nat) × List Request →
      Except TimingError (RG × List (Pin × Nat) × List (Pin × Nat) × List Request)
  | [], st => .ok st
  | pin :: rest, (rg, pin_wave, waves, requests) =>
    match map_find pin_wave pin with
    | none => .error .out_of_range
    | some w =>
      if w < max_wave then
        let r := ops.insert_pipeline_reg rg pin.id
        match wave_advance pin_map r.2 (pin_wave, waves) with
        | .error e => .error e
        | .ok (pin_wave1, waves1) =>
          .ok (r.1, pin_wave1, waves1, requests ++ [Request.pipeline_reg pin.id])
      else wave_insert ops max_wave pin_map rest (rg, pin_wave, waves, requests)

/-- The `do ... while (!match)` loop of `wave_matching`. -/
def wave_loop {RG : Type} (ops : RoutedGraphOps RG) (max_wave : Nat)
    (pin_map : List (Nat × Pin)) (src_pins : List Pin) :
    Nat → RG × List (Pin × Nat) × List (Pin × Nat) × List Request →
      Except TimingError (RG × List (Pin × Nat) × List Request)
  | 0, _ => .error .out_of_fuel
  | fuel + 1, st =>
    match wave_insert ops max_wave pin_map src_pins st with
    | .error e => .error e
    | .ok (rg1, pin_wave1, waves1, requests1) =>
      if waves1.all (fun iter => decide (¬ iter.2 < max_wave)) then
        .ok (rg1, pin_wave1, requests1)
      else wave_loop ops max_wave pin_map src_pins fuel (rg1, pin_wave1, waves1, requests1)

/-- Translation of `wave_matching`: the returned wave, the routed graph, the
map `pin_wave` and the request history when the function returns. -/
def wave_matching {RG : Type} (ops : RoutedGraphOps RG) (fuel : Nat) (routed_graph : RG)
    (src_pins : List Pin) (pin_wave : List (Pin × Nat)) (requests : List Request) :
    Except TimingError (Nat × RG × List (Pin × Nat) × List Request) :=
  match wave_gather pin_wave src_pins (0, [], []) with
  | .error e => .error e
  | .ok (max_wave, waves, pin_map) =>
    match wave_loop ops max_wave pin_map src_pins fuel (routed_graph, pin_wave, waves, requests) with
    | .error e => .error e
    | .ok (rg1, pin_wave1, requests1) => .ok (max_wave, rg1, pin_wave1, requests1)

/-! ## Delay propagation -/

/-- How one pass over the route ends: every segment was walked, or the delay
at node `cur` of a segment ending in `last` exceeds the allowed delay, with
`num_reg` registers counted on the segment so far. -/
inductive PassResult where
  | done (node_delay : List (Nat × Nat)) (pin_wave pin_delay : List (Pin × Nat))
  | insert (cur last : cyclone.Node) (num_reg : Nat) (pin_wave pin_delay : List (Pin × Nat))
deriving DecidableEq, Repr

/-- The map `pin_wave_` at the end of a pass. -/
def PassResult.pin_wave : PassResult → List (Pin × Nat)
  | .done _ pin_wave _ => pin_wave
  | .insert _ _ _ pin_wave _ => pin_wave

/-- The map `pin_delay_` at the end of a pass. -/
def PassResult.pin_delay : PassResult → List (Pin × Nat)
  | .done _ _ pin_delay => pin_delay
  | .insert _ _ _ _ pin_delay => pin_delay

/-- The inner `for` loop over the nodes `segment[1 ..]` of one segment;
`pre_node` is `segment[i - 1]`, `last` is `segment.back()`, the list holds
`segment[i ..]`. -/
def walk_segment (ta : TimingAnalysis) (allowed_delay : Nat) (node_to_pin : List (Nat × Pin))
    (src_wave : Nat) (last : cyclone.Node) :
    cyclone.Node → List cyclone.Node → Nat →
      List (Nat × Nat) × List (Pin × Nat) × List (Pin × Nat) → Except TimingError PassResult
  | _, [], _, (node_delay, pin_wave, pin_delay) => .ok (.done node_delay pin_wave pin_delay)
  | pre_node, current_node :: rest, num_reg, (node_delay, pin_wave, pin_delay) =>
    match map_find node_delay pre_node.id with
    | none => .error (.runtime_error ("Unable to find delay for node " ++ pre_node.name))
    | some delay0 =>
      let step : Except TimingError (Nat × List (Nat × Nat) × Nat) :=
        if current_node.type = cyclone.NodeType.Register ∧ rest ≠ [] then
          .ok (0, map_set node_delay current_node.id 0, num_reg + 1)
        else
          match ta.get_delay current_node with
          | .error e => .error e
          | .ok c => .ok ((delay0 + c) % 2 ^ 64, node_delay, num_reg)
      match step with
      | .error e => .error e
      | .ok (delay, node_delay1, num_reg1) =>
        if delay > allowed_delay then .ok (.insert current_node last num_reg1 pin_wave pin_delay)
        else
          match map_find node_to_pin last.id with
          | none => .error .out_of_range
          | some pin =>
            walk_segment ta allowed_delay node_to_pin src_wave last current_node rest num_reg1
              (map_set node_delay1 current_node.id delay,
                map_set pin_wave pin (src_wave + num_reg1), map_set pin_delay pin delay)

/-- The `for` loop over `pin_order` of one pass. -/
def walk_pins (ta : TimingAnalysis) (allowed_delay : Nat) (node_to_pin : List (Nat × Pin))
    (src_wave : Nat) (segments : Route) :
    List Nat → List (Nat × Nat) × List (Pin × Nat) × List (Pin × Nat) →
      Except TimingError PassResult
  | [], (node_delay, pin_wave, pin_delay) => .ok (.done node_delay pin_wave pin_delay)
  | pin_id :: rest, st =>
    match map_find segments pin_id with
    | none => .error .out_of_range
    | some segment =>
      match segment with
      | [] => walk_pins ta allowed_delay node_to_pin src_wave segments rest st
      | first :: tail =>
        match walk_segment ta allowed_delay node_to_pin src_wave
            ((first :: tail).getLast (List.cons_ne_nil _ _)) first tail 0 st with
        | .error e => .error e
        | .ok (.insert cur last num_reg pin_wave pin_delay) =>
          .ok (.insert cur last num_reg pin_wave pin_delay)
        | .ok (.done node_delay pin_wave pin_delay) =>
          walk_pins ta allowed_delay node_to_pin src_wave segments rest
            (node_delay, pin_wave, pin_delay)

/-- The `do ... while (updated)` loop of `retime` for one net.  Every pass
starts from `node_delay = {source_node: max_delay}`; a pass that finds a
node over the allowed delay asks for a register on its output and the loop
starts over. -/
def delay_loop {RG : Type} (ops : RoutedGraphOps RG) (ta : TimingAnalysis)
    (allowed_delay : Nat) (node_to_pin : List (Nat × Pin)) (src_wave source_node max_delay : Nat) :
    Nat → RG × List (Pin × Nat) × List (Pin × Nat) × List Request →
      Except TimingError
        (RG × List (Nat × Nat) × List (Pin × Nat) × List (Pin × Nat) × List Request)
  | 0, _ => .error .out_of_fuel
  | fuel + 1, (rg, pin_wave, pin_delay, requests) =>
    let segments := ops.get_route rg
    let pin_order := ops.pin_order rg segments
    match walk_pins ta allowed_delay node_to_pin src_wave segments pin_order
        ([(source_node, max_delay)], pin_wave, pin_delay) with
    | .error e => .error e
    | .ok (.done node_delay pin_wave1 pin_delay1) =>
      .ok (rg, node_delay, pin_wave1, pin_delay1, requests)
    | .ok (.insert cur last num_reg pin_wave1 pin_delay1) =>
      let r := ops.insert_reg_output rg cur true
      if r.2 = [] then
        .error (.runtime_error ("Failed to insert pipeline register at " ++ cur.name))
      else
        match map_find node_to_pin last.id with
        | none => .error .out_of_range
        | some pin =>
          delay_loop ops ta allowed_delay node_to_pin src_wave source_node max_delay fuel
            (r.1, map_set pin_wave1 pin (src_wave + (num_reg + 1)), pin_delay1,
              requests ++ [Request.reg_output cur true])

/-! ## The retiming pass -/

/-- What `retime` computed for one net: its id, the node of its driver pin,
the `max_delay` and `src_wave` of its driver and the route when its
processing ended. -/
structure NetRecord where
  net_id : Int
  source_node : Nat
  max_delay : Nat
  src_wave : Nat
  route : Route
deriving DecidableEq, Repr

/-- The local variables of `retime` that change while the timing nodes are
processed, with the two histories. -/
structure RetimeState where
  pin_delay_ : List (Pin × Nat)
  node_delay_ : List (Nat × Nat)
  pin_wave_ : List (Pin × Nat)
  final_result : List (Int × Route)
  requests : List Request
  processed : List NetRecord
deriving DecidableEq, Repr

/-- The loop over the source pins of a timing node: both maps must know the
pin; the result is `max_delay` and the set `pin_waves`. -/
def gather_src_pins (pin_wave_ pin_delay_ : List (Pin × Nat)) :
    List Pin → Nat × List Nat → Except TimingError (Nat × List Nat)
  | [], acc => .ok acc
  | src_pin :: rest, (max_delay, pin_waves) =>
    match map_find pin_wave_ src_pin with
    | none => .error (.runtime_error ("Unable to find wave number for " ++ src_pin.name))
    | some w =>
      match map_find pin_delay_ src_pin with
      | none => .error (.runtime_error ("Unable to find pin delay for " ++ src_pin.name))
      | some d =>
        gather_src_pins pin_wave_ pin_delay_ rest
          (if d > max_delay then d else max_delay,
            if w ∈ pin_waves then pin_waves else pin_waves ++ [w])

/-- The statement `if (node_delay_[next] < d) node_delay_[next] = d`; the
subscript creates the entry with value 0 when it is absent. -/
def raise_node_delay (node_delay_ : List (Nat × Nat)) (next d : Nat) : List (Nat × Nat) :=
  if (map_find node_delay_ next).getD 0 < d then map_set node_delay_ next d
  else map_emplace node_delay_ next 0

/-- The loop that hands the delays of the walked nodes to the successor
timing nodes. -/
def update_next_delays (nodes : List TimingNode) (node_delay : List (Nat × Nat))
    (next : List Nat) (node_delay_ : List (Nat × Nat)) : List (Nat × Nat) :=
  next.foldl (fun acc next_timing_node =>
    ((nodes[next_timing_node]?.map (fun n => n.src_pins)).getD []).foldl (fun acc1 src_pin =>
      match map_find node_delay src_pin.node with
      | some d => raise_node_delay acc1 next_timing_node d
      | none => acc1) acc) node_delay_

/-- The body of the loop over the nets a timing node drives.  The subscript
`netlist[net_id]` yields an empty net with id `-1` when the key is absent;
the routed graph is a copy of the one stored for the net. -/
def process_net {RG : Type} (ops : RoutedGraphOps RG) (ta : TimingAnalysis) (fuel : Nat)
    (allowed_delay : Nat) (netlist : Netlist) (routed_graphs : List (Int × RG))
    (node_to_pin : List (Nat × Pin)) (nodes : List TimingNode) (timing_node : TimingNode)
    (start_delay : Nat) (st : RetimeState) (net_id : Int) : Except TimingError RetimeState :=
  let net : Net := (map_find netlist net_id).getD ⟨-1, []⟩
  match map_find routed_graphs net.id with
  | none => .error .out_of_range
  | some routed_graph =>
    match gather_src_pins st.pin_wave_ st.pin_delay_ timing_node.src_pins (start_delay, []) with
    | .error e => .error e
    | .ok (max_delay, pin_waves) =>
      let pin_delay1 :=
        timing_node.sink_pins.foldl (fun acc sink_pin => map_set acc sink_pin max_delay)
          st.pin_delay_
      let matched : Except TimingError (Nat × RG × List (Pin × Nat) × List Request) :=
        match pin_waves with
        | [] => .ok (0, routed_graph, st.pin_wave_, st.requests)
        | [w] => .ok (w, routed_graph, st.pin_wave_, st.requests)
        | _ => wave_matching ops fuel routed_graph timing_node.src_pins st.pin_wave_ st.requests
      match matched with
      | .error e => .error e
      | .ok (src_wave, rg1, pin_wave1, requests1) =>
        match net.pins_ with
        | [] => .error .undefined_behaviour
        | src_pin0 :: _ =>
          match delay_loop ops ta allowed_delay node_to_pin src_wave src_pin0.node max_delay fuel
              (rg1, pin_wave1, pin_delay1, requests1) with
          | .error e => .error e
          | .ok (rg2, node_delay, pin_wave2, pin_delay2, requests2) =>
            .ok { pin_delay_ := pin_delay2
                  node_delay_ := update_next_delays nodes node_delay timing_node.next st.node_delay_
                  pin_wave_ := pin_wave2
                  final_result := sorted_emplace net.id (ops.get_route rg2) st.final_result
                  requests := requests2
                  processed :=
                    st.processed ++
                      [⟨net.id, src_pin0.node, max_delay, src_wave, ops.get_route rg2⟩] }

/-- The loop over the nets a timing node drives. -/
def process_nets {RG : Type} (ops : RoutedGraphOps RG) (ta : TimingAnalysis) (fuel : Nat)
    (allowed_delay : Nat) (netlist : Netlist) (routed_graphs : List (Int × RG))
    (node_to_pin : List (Nat × Pin)) (nodes : List TimingNode) (timing_node : TimingNode)
    (start_delay : Nat) : List Int → RetimeState → Except TimingError RetimeState
  | [], st => .ok st
  | net_id :: rest, st =>
    match process_net ops ta fuel allowed_delay netlist routed_graphs node_to_pin nodes
        timing_node start_delay st net_id with
    | .error e => .error e
    | .ok st1 =>
      process_nets ops ta fuel allowed_delay netlist routed_graphs node_to_pin nodes timing_node
        start_delay rest st1

/-- The loop `for (auto const *timing_node: nodes)` of `retime`;
`start_delay = node_delay_[timing_node]` creates the entry when absent. -/
def process_nodes {RG : Type} (ops : RoutedGraphOps RG) (ta : TimingAnalysis) (fuel : Nat)
    (allowed_delay : Nat) (netlist : Netlist) (routed_graphs : List (Int × RG))
    (node_to_pin : List (Nat × Pin)) (nodes : List TimingNode) :
    List Nat → RetimeState → Except TimingError RetimeState
  | [], st => .ok st
  | t :: rest, st =>
    match nodes[t]? with
    | none => .error .undefined_behaviour
    | some timing_node =>
      let start_delay := (map_find st.node_delay_ t).getD 0
      let st0 := { st with node_delay_ := map_emplace st.node_delay_ t 0 }
      match process_nets ops ta fuel allowed_delay netlist routed_graphs node_to_pin nodes
          timing_node start_delay (TimingGraph.get_sink_ids netlist timing_node) st0 with
      | .error e => .error e
      | .ok st1 =>
        process_nodes ops ta fuel allowed_delay netlist routed_graphs node_to_pin nodes rest st1

/-- The first loop of `retime`: the netlists of all routers in one map. -/
def merged_netlist {RG : Type} (routers : List (Router RG)) : Netlist :=
  routers.foldl (fun acc router =>
    router.netlist.foldl (fun acc1 entry => sorted_emplace entry.1 entry.2 acc1) acc) []

/-- The second loop of `retime`: the routed graphs of all routers in one
map. -/
def merged_graphs {RG : Type} (routers : List (Router RG)) : List (Int × RG) :=
  routers.foldl (fun acc router =>
    router.routed_graph.foldl (fun acc1 entry => map_emplace acc1 entry.1 entry.2) acc) []

/-- The map `node_to_pin` of `retime`. -/
def build_node_to_pin (netlist : Netlist) : List (Nat × Pin) :=
  netlist.foldl (fun acc entry =>
    entry.2.pins_.foldl (fun acc1 pin => map_emplace acc1 pin.node pin) acc) []

/-- The result of `retime`: the returned maximum wave number, the routes
handed to each router by `set_current_routes`, and the local state when the
function returns. -/
structure RetimeResult where
  max_wave : Nat
  router_routes : List (List (Int × Route))
  state : RetimeState
deriving DecidableEq, Repr

/-- The part of `retime` after the two merging loops, on the merged netlist
and routed graphs.  The container of timing nodes is an unordered set, read
in the order `order`.  The map `timing_node_mapping` of the source is never
read and is left out. -/
def retime_core {RG : Type} (ops : RoutedGraphOps RG) (ta : TimingAnalysis) (netlist : Netlist)
    (routed_graphs : List (Int × RG)) (order : List Nat) (fuel : Nat) :
    Except TimingError RetimeState :=
  match get_source_pins netlist with
  | .error e => .error e
  | .ok io_pins =>
    match ta.maximum_delay with
    | .error e => .error e
    | .ok allowed_delay =>
      let pin_wave_ := io_pins.foldl (fun acc p => map_emplace acc p.2 0) []
      let pin_delay_ := io_pins.foldl (fun acc p => map_emplace acc p.2 0) []
      let node_to_pin := build_node_to_pin netlist
      match TimingGraph.build netlist [] with
      | none => .error .undefined_behaviour
      | some nodes =>
        match TimingGraph.topological_sort nodes order with
        | .error _ => .error .out_of_fuel
        | .ok sorted =>
          process_nodes ops ta fuel allowed_delay netlist routed_graphs node_to_pin nodes sorted
            ⟨pin_delay_, [], pin_wave_, [], [], []⟩

/-- Translation of `TimingAnalysis::retime`. -/
def retime {RG : Type} (ops : RoutedGraphOps RG) (ta : TimingAnalysis)
    (routers : List (Router RG)) (order : List Nat) (fuel : Nat) :
    Except TimingError RetimeResult :=
  match retime_core ops ta (merged_netlist routers) (merged_graphs routers) order fuel with
  | .error e => .error e
  | .ok st =>
    .ok { max_wave := get_max_wave_number st.pin_wave_
          router_routes :=
            routers.map (fun router => st.final_result.filter (fun entry => router.has_net entry.1))
          state := st }

/-! ## Quantities the claims about the retimer speak of -/

/-- The delay accumulated along the nodes that follow a node with delay `d`:
it is reset to 0 at a register that is not the last node and increased by
`get_delay` (modulo `2 ^ 64`) at every other node. -/
def accumulate (ta : TimingAnalysis) : Nat → List cyclone.Node → Except TimingError (List Nat)
  | _, [] => .ok []
  | d, cur :: rest =>
    if cur.type = cyclone.NodeType.Register ∧ rest ≠ [] then
      match accumulate ta 0 rest with
      | .error e => .error e
      | .ok ds => .ok (0 :: ds)
    else
      match ta.get_delay cur with
      | .error e => .error e
      | .ok c =>
        match accumulate ta ((d + c) % 2 ^ 64) rest with
        | .error e => .error e
        | .ok ds => .ok ((d + c) % 2 ^ 64 :: ds)

/-- The accumulated delay at every node of a segment that starts with delay
`max_delay` at its first node. -/
def segment_delays (ta : TimingAnalysis) (max_delay : Nat) (segment : List cyclone.Node) :
    Except TimingError (List Nat) :=
  match segment with
  | [] => .ok []
  | _ :: tail =>
    match accumulate ta max_delay tail with
    | .error e => .error e
    | .ok ds => .ok (max_delay :: ds)

/-- The segment starts at the node `source_node` and does not come back to
it. -/
def FromDriver (source_node : Nat) (segment : List cyclone.Node) : Prop :=
  ∀ first tail, segment = first :: tail → first.id = source_node ∧ ∀ n ∈ tail, n.id ≠ source_node

/-- Every recorded pin delay and timing node delay is within the allowed
delay. -/
def DelayInv (allowed_delay : Nat) (st : RetimeState) : Prop :=
  (∀ p d, map_find st.pin_delay_ p = some d → d ≤ allowed_delay) ∧
    ∀ t d, map_find st.node_delay_ t = some d → d ≤ allowed_delay

/-- The delay bound of a processed net: its `max_delay` is within the allowed
delay and, when all segments of its final route start at the driver's node,
so is the delay accumulated at every node of every segment. -/
def RecordBounded (ta : TimingAnalysis) (allowed_delay : Nat) (record : NetRecord) : Prop :=
  record.max_delay ≤ allowed_delay ∧
    ((∀ p seg, map_find record.route p = some seg → FromDriver record.source_node seg) →
      ∀ p seg, map_find record.route p = some seg →
        ∃ ds, segment_delays ta record.max_delay seg = .ok ds ∧ ∀ d ∈ ds, d ≤ allowed_delay)

/-- The pin that `node_to_pin` gives for the last node of some segment of the
route: the only pins a pass over the route writes. -/
def EndPin (node_to_pin : List (Nat × Pin)) (route : Route) (pin : Pin) : Prop :=
  ∃ p seg last, map_find route p = some seg ∧ seg.getLast? = some last ∧
    map_find node_to_pin last.id = some pin

/-- Invariant of the retiming loop for the delay bound: all recorded delays
are within the allowed delay, every processed net satisfies the delay bound,
and every recorded final route is the route of a processed net. -/
def BoundInv (ta : TimingAnalysis) (allowed_delay : Nat) (st : RetimeState) : Prop :=
  DelayInv allowed_delay st ∧ (∀ record ∈ st.processed, RecordBounded ta allowed_delay record) ∧
    ∀ entry ∈ st.final_result, ∃ record ∈ st.processed,
      record.net_id = entry.1 ∧ record.route = entry.2

/-- The states a routed graph can reach from `rg0` through its two
mutators. -/
inductive Reach {RG : Type} (ops : RoutedGraphOps RG) (rg0 : RG) : RG → Prop where
  | refl : Reach ops rg0 rg0
  | pipeline (rg : RG) (pin_id : Nat) :
    Reach ops rg0 rg → Reach ops rg0 (ops.insert_pipeline_reg rg pin_id).1
  | output (rg : RG) (node : cyclone.Node) (force : Bool) :
    Reach ops rg0 rg → Reach ops rg0 (ops.insert_reg_output rg node force).1

/-- All source pins of the timing node are recorded on one wave. -/
def Matched (pin_wave : List (Pin × Nat)) (node : TimingNode) : Prop :=
  ∃ w, ∀ p ∈ node.src_pins, map_find pin_wave p = some w

namespace TimingGraph

/-- Well-formedness of the node list under construction: names are distinct
and every source pin of a node is named like the node. -/
def NodesOk (nodes : List TimingNode) : Prop :=
  (∀ (i j : Nat) (ni nj : TimingNode), nodes[i]? = some ni → nodes[j]? = some nj →
      ni.name = nj.name → i = j) ∧
    ∀ n ∈ nodes, ∀ p ∈ n.src_pins, p.name = n.name

/-- Some node named `a` has a node named `b` among its successors. -/
def HasEdge (nodes : List TimingNode) (a b : String) : Prop :=
  ∃ (i j : Nat) (ni nj : TimingNode), nodes[i]? = some ni ∧ nodes[j]? = some nj ∧
    ni.name = a ∧ nj.name = b ∧
    j ∈ ni.next

/-- The node list `nodes1` extends `nodes`: every node keeps its position and
name and at least its successors. -/
def Extends (nodes nodes1 : List TimingNode) : Prop :=
  ∀ (i : Nat) (n : TimingNode), nodes[i]? = some n →
    ∃ n1, nodes1[i]? = some n1 ∧ n1.name = n.name ∧
    ∀ w ∈ n.next, w ∈ n1.next

end TimingGraph

/-- Every route a net's routed graph can present ends each of its segments
at a node that `node_to_pin` maps to a receiver pin of that net. -/
def RoutesEndAtReceivers {RG : Type} (ops : RoutedGraphOps RG) (netlist : Netlist)
    (routed_graphs : List (Int × RG)) : Prop :=
  ∀ entry ∈ netlist, ∀ rg0, map_find routed_graphs entry.2.id = some rg0 →
    ∀ rg, Reach ops rg0 rg → ∀ pin, EndPin (build_node_to_pin netlist) (ops.get_route rg) pin →
      pin ∈ entry.2.pins_.tail

/-- Equality of net-to-route maps is decidable. -/
instance routes_decEq : DecidableEq (List (Int × Route)) := inferInstance

/-- The node `last` ends a segment of at least two nodes that a pass over the
route in the order `order` walks: the pin of such a node is what the pass
writes. -/
def WalkedEnd (route : Route) (order : List Nat) (last : cyclone.Node) : Prop :=
  ∃ p ∈ order, ∃ first tail, tail ≠ [] ∧ map_find route p = some (first :: tail) ∧
    (first :: tail).getLast? = some last

namespace cyclone

/-- The port node of the driver pin I0, on tile (0, 0). -/
def port_i0 : Node := ⟨0, .Port, "I0", 0, 0, .SB_IN⟩

/-- The switch box output node of tile (0, 0). -/
def sb_out : Node := ⟨1, .SwitchBox, "SB_OUT_0_0", 0, 0, .SB_OUT⟩

/-- The switch box input node of tile (1, 0). -/
def sb_in : Node := ⟨2, .SwitchBox, "SB_IN_1_0", 1, 0, .SB_IN⟩

/-- The port node of the receiver pin p1, on tile (1, 0). -/
def port_p1 : Node := ⟨3, .Port, "p1", 1, 0, .SB_IN⟩

/-- A pipeline register of tile (0, 0). -/
def reg0 : Node := ⟨4, .Register, "REG_0_0", 0, 0, .SB_IN⟩

end cyclone

/-- The driver pin I0. -/
def pin_i0 : Pin := ⟨0, 0, "I0", "out", 0, 0⟩

/-- The receiver pin p1. -/
def pin_p1 : Pin := ⟨1, 0, "p1", "in", 3, 1⟩

/-- The netlist of S1: one net from I0 to p1. -/
def s1_netlist : Netlist := [(0, ⟨0, [pin_i0, pin_p1]⟩)]

/-- The route of S1. -/
def s1_route : Route := [(1, [cyclone.port_i0, cyclone.sb_out, cyclone.sb_in, cyclone.port_p1])]

/-- The route of S1 with one register after the switch box output. -/
def s1_route_reg : Route :=
  [(1, [cyclone.port_i0, cyclone.sb_out, cyclone.reg0, cyclone.sb_in, cyclone.port_p1])]

/-- Layout, costs and frequency of S1: tile (0, 0) is an IO, tile (1, 0) a PE,
`CLB_SB = CLB_OP = 5`, the other costs are 0, and the allowed delay is 2. -/
def s1_ta : TimingAnalysis :=
  ⟨fun x y => if x = 0 ∧ y = 0 then 'i' else if x = 1 ∧ y = 0 then 'p' else ' ',
    fun kind =>
      match kind with
      | .CLB_SB => some 5
      | .CLB_OP => some 5
      | _ => some 0,
    500000⟩

/-- The cost table of S1 as a total function. -/
def s1_cost (kind : TimingCost) : Nat :=
  match kind with
  | .CLB_SB => 5
  | .CLB_OP => 5
  | _ => 0

/-- A routed graph for S1 that answers the first `insert_reg_output` request
by placing a register after the switch box output, as the scenario expects,
and has no further register to offer; its state counts the registers. -/
def s1_ops : RoutedGraphOps Nat :=
  ⟨fun n => if n = 0 then s1_route else s1_route_reg, fun _ route => route.map Prod.fst,
    fun n _ => (n, []), fun n _ _ => if n = 0 then (1, [1]) else (n, [])⟩

/-- The single router of S1. -/
def s1_routers : List (Router Nat) := [⟨s1_netlist, [(0, 0)], fun _ => true⟩]

/-! ## Scenario S2: an adder whose inputs arrive on different waves -/

/-- First input pin of the adder a. -/
def pin_a0 : Pin := ⟨2, 0, "a", "in0", 13, 10⟩

/-- Second input pin of the adder a. -/
def pin_a1 : Pin := ⟨2, 0, "a", "in1", 23, 11⟩

/-- A routed graph whose `insert_pipeline_reg` reports only the pin it was
asked for. -/
def single_ops : RoutedGraphOps Unit :=
  ⟨fun _ => [], fun _ route => route.map Prod.fst, fun _ pin_id => ((), [pin_id]),
    fun _ _ _ => ((), [])⟩

/-- A routed graph whose `insert_pipeline_reg` reports both inputs of the
adder, as when the register sits on a wire the two inputs share. -/
def both_ops : RoutedGraphOps Unit :=
  ⟨fun _ => [], fun _ route => route.map Prod.fst, fun _ _ => ((), [10, 11]),
    fun _ _ _ => ((), [])⟩

/-! ## A variant of S1 in which one register suffices -/

/-- Layout, costs and frequency under which the route of S1 needs one
register: every tile is a PE, `CLB_SB = 2`, `CLB_OP = 1`, the other costs
are 0, and the allowed delay is 2. -/
def one_reg_ta : TimingAnalysis :=
  ⟨fun _ _ => 'p',
    fun kind =>
      match kind with
      | .CLB_SB => some 2
      | .CLB_OP => some 1
      | _ => some 0,
    500000⟩

/-- The state of `retime` when it returns on the variant of S1. -/
def one_reg_state : RetimeState :=
  { pin_delay_ := [(pin_i0, 0), (pin_p1, 1)]
    node_delay_ := [(0, 0), (1, 1)]
    pin_wave_ := [(pin_i0, 0), (pin_p1, 1)]
    final_result := [(0, s1_route_reg)]
    requests := [Request.reg_output cyclone.port_p1 true]
    processed := [⟨0, 0, 0, 0, s1_route_reg⟩] }

/-- The result of `retime` on the variant of S1. -/
def one_reg_result : RetimeResult := ⟨1, [[(0, s1_route_reg)]], one_reg_state⟩

/-! ## An adder fed through routes with different register counts -/

namespace cyclone

/-- The port node of the driver pin I1. -/
def port_i1 : Node := ⟨20, .Port, "I1", 0, 1, .SB_IN⟩

/-- The port node of the first input of the adder. -/
def port_a0 : Node := ⟨13, .Port, "a_in0", 2, 0, .SB_IN⟩

/-- The port node of the second input of the adder. -/
def port_a1 : Node := ⟨23, .Port, "a_in1", 2, 0, .SB_IN⟩

/-- The port node of the output of the adder. -/
def port_a_out : Node := ⟨30, .Port, "a_out", 2, 0, .SB_IN⟩

/-- The port node of the input of the operator b. -/
def port_b : Node := ⟨31, .Port, "b_in", 3, 0, .SB_IN⟩

end cyclone

/-- The driver pin I1. -/
def pin_i1 : Pin := ⟨0, 1, "I1", "out", 20, 2⟩

/-- The output pin of the adder. -/
def pin_a_out : Pin := ⟨2, 0, "a", "out", 30, 12⟩

/-- The input pin of the operator b. -/
def pin_b : Pin := ⟨3, 0, "b", "in", 31, 13⟩

/-- Two nets into the adder: I0 to its first input, I1 to its second. -/
def sink_netlist : Netlist := [(0, ⟨0, [pin_i0, pin_a0]⟩), (1, ⟨1, [pin_i1, pin_a1]⟩)]

/-- The timing nodes of `sink_netlist`: the adder has two source pins and
drives no net. -/
def sink_nodes : List TimingNode :=
  [⟨"I0", [], [pin_i0], [1]⟩, ⟨"a", [pin_a0, pin_a1], [], []⟩, ⟨"I1", [], [pin_i1], [1]⟩]

/-- The route from I0 to the adder holds a register, the one from I1 none. -/
def route_i0_a : Route := [(10, [cyclone.port_i0, cyclone.reg0, cyclone.port_a0])]

/-- The route from I1 to the adder. -/
def route_i1_a : Route := [(11, [cyclone.port_i1, cyclone.port_a1])]

/-- The route from the adder to the operator b. -/
def route_a_b : Route := [(13, [cyclone.port_a_out, cyclone.port_b])]

/-- All costs are 0 and the allowed delay is 1. -/
def zero_ta : TimingAnalysis := ⟨fun _ _ => 'p', fun _ => some 0, 1000000⟩

/-- A routed graph that is its route, reports the pin it is asked to
pipeline and never changes. -/
def echo_ops : RoutedGraphOps Route :=
  ⟨fun rg => rg, fun _ route => route.map Prod.fst, fun rg pin_id => (rg, [pin_id]),
    fun rg _ _ => (rg, [])⟩

/-- The router of the two nets into the adder. -/
def sink_routers : List (Router Route) :=
  [⟨sink_netlist, [(0, route_i0_a), (1, route_i1_a)], fun _ => true⟩]

/-- Three nets: I0 and I1 into the adder, the adder into b. -/
def adder_netlist : Netlist :=
  [(0, ⟨0, [pin_i0, pin_a0]⟩), (1, ⟨1, [pin_i1, pin_a1]⟩), (2, ⟨2, [pin_a_out, pin_b]⟩)]

/-- The timing nodes of `adder_netlist`. -/
def adder_nodes : List TimingNode :=
  [⟨"I0", [], [pin_i0], [1]⟩, ⟨"a", [pin_a0, pin_a1], [pin_a_out], [3]⟩,
    ⟨"I1", [], [pin_i1], [1]⟩, ⟨"b", [pin_b], [], []⟩]

/-- The router of the three nets. -/
def adder_routers : List (Router Route) :=
  [⟨adder_netlist, [(0, route_i0_a), (1, route_i1_a), (2, route_a_b)], fun _ => true⟩]

/-- A ranking of the nodes of `adder_nodes` that grows along every edge. -/
def adder_rank (n : Nat) : Nat :=
  match n with
  | 1 => 1
  | 3 => 2
  | _ => 0

namespace cyclone

/-- A pipeline register node. -/
def pipe_reg : Node := ⟨99, .Register, "PIPE", 2, 0, .SB_IN⟩

end cyclone

/-- The routed graphs of the three nets. -/
def adder_routes : List (Int × Route) := [(0, route_i0_a), (1, route_i1_a), (2, route_a_b)]

/-- The state of `retime` when it returns on the three nets with the routed
graphs `echo_ops`. -/
def adder_state : RetimeState :=
  { pin_delay_ :=
      [(pin_i0, 0), (pin_i1, 0), (pin_a1, 0), (pin_a0, 0), (pin_a_out, 0), (pin_b, 0)]
    node_delay_ := [(2, 0), (1, 0), (0, 0), (3, 0)]
    pin_wave_ := [(pin_i0, 0), (pin_i1, 0), (pin_a1, 1), (pin_a0, 1), (pin_b, 1)]
    final_result := adder_routes
    requests := [Request.pipeline_reg 11]
    processed := [⟨1, 20, 0, 0, route_i1_a⟩, ⟨0, 0, 0, 0, route_i0_a⟩, ⟨2, 30, 0, 1, route_a_b⟩] }

/-- The result of `retime` on the three nets with the routed graphs
`echo_ops`. -/
def adder_result : RetimeResult := ⟨1, [adder_routes], adder_state⟩

namespace graph

/-- The acceptance test of `Graph::merge(uint32_t)` for a candidate edge: the
two clusters fit together in `max_size`, and the copy of the graph merged
along the edge and rebuilt has no loop and no larger total edge weight. -/
def Acceptable (max_size : Nat) (g : Graph) (edge : Edge) : Prop :=
  ∃ size_from size_to g2,
    cluster_size g.clusters_ (node_id g edge.from_) = .ok size_from ∧
    cluster_size g.clusters_ (node_id g edge.to_) = .ok size_to ∧
    size_from + size_to ≤ max_size ∧ merged_copy g edge = .ok g2 ∧
    has_loop g2 = .ok false ∧ total_weights g2.edges_ ≤ total_weights g.edges_

/-- The cluster map `cs` coarsens the cluster map `cs0`: no block lies in two
clusters of `cs`, both maps hold the same blocks, every block of a cluster
of `cs` lies in a cluster of `cs0` that is contained in it (so the cluster is
the union of the clusters of `cs0` it contains), and `cs` has no empty
cluster when `cs0` has none. -/
def Coarsens (cs0 cs : Clusters) : Prop :=
  ClustersDisjoint cs ∧ (∀ x, (∃ c ∈ cs, x ∈ c.2) ↔ ∃ c ∈ cs0, x ∈ c.2) ∧
    (∀ c ∈ cs, ∀ x ∈ c.2, ∃ c0 ∈ cs0, x ∈ c0.2 ∧ c0.2 ⊆ c.2) ∧
    ((∀ c0 ∈ cs0, c0.2 ≠ ∅) → ∀ c ∈ cs, c.2 ≠ ∅)

/-! ## Further instances of the clustered graph -/

/-- Clusters that overlap: the blocks `c` and `d` lie in cluster 0 and in
cluster 1. -/
def hidden_clusters : Clusters := [(0, {"x", "c", "d"}), (1, {"c", "d"}), (2, {"y"})]

/-- A net from `y` to `x` and two nets from `x`, to `c` and to `d`. -/
def hidden_netlist : PortNetlist :=
  [("n0", [("y", "o"), ("x", "i")]), ("n1", [("x", "o"), ("c", "i")]),
    ("n2", [("x", "o"), ("d", "i")])]

/-- The graph of `hidden_clusters`: the only edge leads from cluster 2 to
cluster 0. -/
def hidden_graph : Graph :=
  ⟨hidden_clusters, hidden_netlist, [⟨0, 3⟩, ⟨1, 2⟩, ⟨2, 1⟩], [⟨2, 0, 1⟩]⟩

/-- The graph rebuilt after cluster 0 was merged into cluster 2: both nets
from `x` now cross to cluster 1. -/
def hidden_graph_merged : Graph :=
  ⟨[(1, {"c", "d"}), (2, {"y", "x", "c", "d"})], hidden_netlist, [⟨1, 2⟩, ⟨2, 4⟩],
    [⟨1, 0, 2⟩]⟩

/-- A cluster map with an empty cluster. -/
def empty_clusters : Clusters := [(0, {"a"}), (1, {"b"}), (2, ∅)]

/-- The graph of `empty_clusters` on the net from `a` to `b`. -/
def empty_graph : Graph :=
  ⟨empty_clusters, [("n0", [("a", "o"), ("b", "i")])], [⟨0, 1⟩, ⟨1, 1⟩, ⟨2, 0⟩], [⟨0, 1, 1⟩]⟩

end graph

/-! ## Waves written by the delay loop -/

/-- Number of `Register` nodes of a segment that are neither its first nor
its last node. -/
def inner_registers (segment : List cyclone.Node) : Nat :=
  (segment.tail.dropLast.filter
    (fun n => decide (n.type = cyclone.NodeType.Register))).length

namespace cyclone

/-- The port node of the receiver pin y. -/
def port_y : Node := ⟨7, .Port, "y", 6, 0, .SB_IN⟩

end cyclone

/-- The output pin of the block x; its physical node is node 3, the node of
the receiver pin p1. -/
def pin_x : Pin := ⟨5, 0, "x", "out", 3, 20⟩

/-- The receiver pin y. -/
def pin_y : Pin := ⟨6, 0, "y", "in", 7, 21⟩

/-- Two nets: x to y, and I0 to p1.  The receiver pins y and p1 have the
distinct nodes 7 and 3. -/
def shared_netlist : Netlist := [(0, ⟨0, [pin_x, pin_y]⟩), (1, ⟨1, [pin_i0, pin_p1]⟩)]

/-- The route from x to y. -/
def route_x_y : Route := [(21, [cyclone.port_p1, cyclone.port_y])]

/-- The router of the two nets; the route from I0 to p1 holds one register. -/
def shared_routers : List (Router Route) :=
  [⟨shared_netlist, [(0, route_x_y), (1, s1_route_reg)], fun _ => true⟩]

/-- The timing nodes of S1. -/
def s1_nodes : List TimingNode := [⟨"I0", [], [pin_i0], [1]⟩, ⟨"p1", [pin_p1], [], []⟩]

/-- The state of `retime` on S1 when the net of I0 is about to be processed. -/
def s1_start : RetimeState := ⟨[(pin_i0, 0)], [(0, 0)], [(pin_i0, 0)], [], [], []⟩

/-! ## Register insertion right after the node that exceeds the delay -/

/-- The route `route1` is `route` with a register placed immediately after the
node `cur`: wherever `cur` lies on a segment, the segment up to and including
`cur` is kept, a `Register` node follows, and then the rest of the old
segment. -/
def PlacedAfter (cur : cyclone.Node) (route route1 : Route) : Prop :=
  ∀ k pre post, map_find route k = some (pre ++ cur :: post) →
    ∃ reg : cyclone.Node, reg.type = cyclone.NodeType.Register ∧
      map_find route1 k = some (pre ++ cur :: reg :: post)

/-- No pass over the route of the routed graph `rg` walks all segments. -/
def NeverDone {RG : Type} (ops : RoutedGraphOps RG) (ta : TimingAnalysis) (allowed_delay : Nat)
    (node_to_pin : List (Nat × Pin)) (src_wave source_node max_delay : Nat) (rg : RG) : Prop :=
  ∀ pin_wave pin_delay node_delay pin_wave1 pin_delay1,
    walk_pins ta allowed_delay node_to_pin src_wave (ops.get_route rg)
      (ops.pin_order rg (ops.get_route rg)) ([(source_node, max_delay)], pin_wave, pin_delay)
      ≠ .ok (.done node_delay pin_wave1 pin_delay1)

/-- The segment with the node `reg` placed right after the first occurrence
of `cur`. -/
def place_after (cur reg : cyclone.Node) : List cyclone.Node → List cyclone.Node
  | [] => []
  | n :: rest => if n = cur then n :: reg :: rest else n :: place_after cur reg rest

/-- A routed graph that is its route and answers `insert_reg_output` by
placing the register `pipe_reg` immediately after the node on every segment
that holds it; it reports pin 1. -/
def after_ops : RoutedGraphOps Route :=
  ⟨fun rg => rg, fun _ route => route.map Prod.fst, fun rg pin_id => (rg, [pin_id]),
    fun rg node _ =>
      (rg.map (fun entry => (entry.1, place_after node cyclone.pipe_reg entry.2)), [1])⟩

namespace cyclone

/-- A register node that is the physical node of the receiver pin r. -/
def reg_end : Node := ⟨5, .Register, "REG_END", 1, 0, .SB_IN⟩

end cyclone

/-- The receiver pin r, on the register node 5. -/
def pin_r : Pin := ⟨1, 0, "r", "in", 5, 30⟩

/-- The receiver pin q, on the register node 99. -/
def pin_q : Pin := ⟨2, 0, "q", "in", 99, 31⟩

/-- One net from I0 to the two register pins r and q. -/
def endreg_netlist : Netlist := [(0, ⟨0, [pin_i0, pin_r, pin_q]⟩)]

/-- The route of the net: the segment of r ends at its register node, the
segment of q is direct. -/
def endreg_route : Route :=
  [(30, [cyclone.port_i0, cyclone.sb_out, cyclone.reg_end]),
    (31, [cyclone.port_i0, cyclone.pipe_reg])]

/-- The route after a register was placed right after the node of r. -/
def endreg_route_after : Route :=
  [(30, [cyclone.port_i0, cyclone.sb_out, cyclone.reg_end, cyclone.pipe_reg]),
    (31, [cyclone.port_i0, cyclone.pipe_reg])]

/-- Every tile is a PE, `CLB_SB = 2`, `REG = 1`, the other costs are 0, and
the allowed delay is 2. -/
def reg_ta : TimingAnalysis :=
  ⟨fun _ _ => 'p',
    fun kind =>
      match kind with
      | .CLB_SB => some 2
      | .REG => some 1
      | _ => some 0,
    500000⟩

/-- The router of the net to the register pins. -/
def endreg_routers : List (Router Route) := [⟨endreg_netlist, [(0, endreg_route)], fun _ => true⟩]

/-- Every tile is a PE, `CLB_SB = 5`, the other costs are 0, and the allowed
delay is 2: the switch box output after I0 exceeds it. -/
def sb_ta : TimingAnalysis :=
  ⟨fun _ _ => 'p',
    fun kind =>
      match kind with
      | .CLB_SB => some 5
      | _ => some 0,
    500000⟩

/-- The route of S1 with `n` registers after the switch box output. -/
def piped_route (n : Nat) : Route :=
  [(1, cyclone.port_i0 :: cyclone.sb_out ::
    (List.replicate n cyclone.pipe_reg ++ [cyclone.sb_in, cyclone.port_p1]))]

/-! ## Delays without wrap-around -/

/-- The delay accumulated along the nodes that follow a node with delay `d`,
as `accumulate` computes it but with every sum taken exactly instead of
modulo `2 ^ 64`. -/
def accumulate_exact (ta : TimingAnalysis) :
    Nat → List cyclone.Node → Except TimingError (List Nat)
  | _, [] => .ok []
  | d, cur :: rest =>
    if cur.type = cyclone.NodeType.Register ∧ rest ≠ [] then
      match accumulate_exact ta 0 rest with
      | .error e => .error e
      | .ok ds => .ok (0 :: ds)
    else
      match ta.get_delay cur with
      | .error e => .error e
      | .ok c =>
        match accumulate_exact ta (d + c) rest with
        | .error e => .error e
        | .ok ds => .ok ((d + c) :: ds)

/-- The exact accumulated delay at every node of a segment that starts with
delay `max_delay` at its first node. -/
def segment_delays_exact (ta : TimingAnalysis) (max_delay : Nat) (segment : List cyclone.Node) :
    Except TimingError (List Nat) :=
  match segment with
  | [] => .ok []
  | _ :: tail =>
    match accumulate_exact ta max_delay tail with
    | .error e => .error e
    | .ok ds => .ok (max_delay :: ds)

/-- No sum of a delay within the allowed delay and a cost of the table leaves
the range of `uint64_t`. -/
def NoWrap (ta : TimingAnalysis) (allowed_delay : Nat) : Prop :=
  ∀ kind c, ta.timing_cost_ kind = some c → allowed_delay + c < 2 ^ 64

/-- Every tile is a PE, `CLB_SB = 2`, `CLB_OP = 2 ^ 64 - 1`, the other costs
are 0, and the allowed delay is 2. -/
def wrap_ta : TimingAnalysis :=
  ⟨fun _ _ => 'p',
    fun kind =>
      match kind with
      | .CLB_SB => some 2
      | .CLB_OP => some 18446744073709551615
      | _ => some 0,
    500000⟩

/-- The single router of S1 over routed graphs that are their route. -/
def wrap_routers : List (Router Route) := [⟨s1_netlist, [(0, s1_route)], fun _ => true⟩]

namespace graph

/-! ## A block that changes its vertex when a loop is merged -/

/-- Four clusters; block c lies in clusters 1 and 2, every other block in one
cluster. -/
def moved_clusters : Clusters := [(0, {"a"}), (1, {"c", "k"}), (2, {"c", "b"}), (3, {"y"})]

/-- Nets a to b, b to a, c to y and y to a. -/
def moved_netlist : PortNetlist :=
  [("n0", [("a", "o"), ("b", "i")]), ("n1", [("b", "o"), ("a", "i")]),
    ("n2", [("c", "o"), ("y", "i")]), ("n3", [("y", "o"), ("a", "i")])]

/-- The graph built from `moved_clusters` and `moved_netlist`: block c counts
for cluster 1, the first that holds it.  Vertices 0 and 2 lie on a cycle,
vertex 3 has an edge to vertex 0 and none back. -/
def moved_graph : Graph :=
  ⟨moved_clusters, moved_netlist, [⟨0, 1⟩, ⟨1, 2⟩, ⟨2, 2⟩, ⟨3, 1⟩],
    [⟨0, 2, 1⟩, ⟨2, 0, 1⟩, ⟨1, 3, 1⟩, ⟨3, 0, 1⟩]⟩

/-- The state of `moved_graph` after the acyclic pass. -/
def moved_graph_merged : Graph :=
  ⟨[(0, {"a", "c", "b", "y"}), (1, {"c", "k"})], moved_netlist, [⟨0, 4⟩, ⟨1, 2⟩], []⟩

end graph

/-- The route of S1 after a register was placed right after the receiver
port. -/
def s1_route_after : Route :=
  [(1, [cyclone.port_i0, cyclone.sb_out, cyclone.sb_in, cyclone.port_p1, cyclone.pipe_reg])]

/-! ## Partition of the netlist blocks (`partition_netlist`) -/

theorem lookup_none_iff_not_mem_keys (l : List (BlockId × Nat)) (b : BlockId) :
    l.lookup b = none ↔ b ∉ l.map Prod.fst := by
  simp only [List.lookup_eq_none_iff, List.mem_map, not_exists, not_and]
  constructor
  · intro h p hp hpb
    have := h p hp
    simp [hpb] at this
  · intro h p hp
    have := h p hp
    simp only [bne_iff_ne, ne_eq]
    exact fun hb => this hb.symm

theorem assignInv_step (st : List (BlockId × Nat) × List (Nat × BlockId)) (seen : List BlockId)
    (b : BlockId) (h : AssignInv st seen) : AssignInv (assign_block st b) (seen ++ [b]) := by
  obtain ⟨h1, h2, h3, h4, h5⟩ := h
  unfold assign_block
  cases hl : st.1.lookup b with
  | some v =>
    have hb : b ∈ st.2.map Prod.snd := by
      by_contra hc
      rw [← h1] at hc
      rw [(lookup_none_iff_not_mem_keys st.1 b).2 hc] at hl
      cases hl
    refine ⟨h1, h2, h3, h4, ?_⟩
    intro x
    simp only [List.mem_append, List.mem_singleton]
    constructor
    · intro hx; exact Or.inl ((h5 x).1 hx)
    · rintro (hx | rfl)
      · exact (h5 x).2 hx
      · exact hb
  | none =>
    have hb : b ∉ st.2.map Prod.snd := by
      rw [← h1]; exact (lookup_none_iff_not_mem_keys st.1 b).1 hl
    refine ⟨?_, ?_, ?_, ?_, ?_⟩
    · simp [h1]
    · simp only [List.map_append, List.map_cons, List.map_nil]
      exact List.Nodup.append h2 (List.nodup_singleton b) (by simpa using hb)
    · simp [h3]
    · intro p hp
      simp only [List.mem_append, List.mem_singleton, List.length_append, List.length_singleton] at hp ⊢
      rcases hp with hp | rfl
      · exact Nat.lt_succ_of_lt (h4 p hp)
      · simp [h3]
    · intro x
      simp only [List.map_append, List.map_cons, List.map_nil, List.mem_append, List.mem_singleton]
      rw [h5 x]

theorem assignInv_net (net : List BlockId) :
    ∀ (st : List (BlockId × Nat) × List (Nat × BlockId)) (seen : List BlockId),
      AssignInv st seen → AssignInv (net.foldl assign_block st) (seen ++ net) := by
  induction net with
  | nil => intro st seen h; simpa using h
  | cons b rest ih =>
    intro st seen h
    have := ih _ _ (assignInv_step st seen b h)
    simpa using this

theorem assignInv_nets (netlists : RawNetlist) :
    ∀ (st : List (BlockId × Nat) × List (Nat × BlockId)) (seen : List BlockId),
      AssignInv st seen →
      AssignInv (netlists.foldl (fun st iter => iter.2.foldl assign_block st) st)
        (seen ++ netlists.flatMap (fun iter => iter.2)) := by
  induction netlists with
  | nil => intro st seen h; simpa using h
  | cons iter rest ih =>
    intro st seen h
    have := ih _ _ (assignInv_net iter.2 st seen h)
    simpa [List.flatMap_cons] using this

theorem assignInv_assign_ids (netlists : RawNetlist) :
    AssignInv (assign_ids netlists) (netlists.flatMap (fun iter => iter.2)) := by
  have := assignInv_nets netlists ([], []) [] (by simp [AssignInv])
  simpa [assign_ids] using this

theorem net_edges_fold_ok (blk_to_id : List (BlockId × Nat)) (src_id : Nat) (rest : List BlockId)
    (h : ∀ b ∈ rest, b ∈ blk_to_id.map Prod.fst) :
    ∀ es : List (Nat × Nat), ∃ es1, rest.foldl (fun acc dst_node =>
        match acc with
        | .error e => .error e
        | .ok es =>
          match blk_to_id.lookup dst_node with
          | none => .error .out_of_range
          | some dst_id => .ok (es ++ [(src_id, dst_id)])) (Except.ok es : Except Error _)
          = Except.ok es1 := by
  induction rest with
  | nil => intro es; exact ⟨es, rfl⟩
  | cons b rest ih =>
    intro es
    have hb : b ∈ blk_to_id.map Prod.fst := h b (List.mem_cons_self _ _)
    cases hl : blk_to_id.lookup b with
    | none => exact absurd hb ((lookup_none_iff_not_mem_keys _ _).1 hl)
    | some v =>
      obtain ⟨es1, h1⟩ := ih (fun x hx => h x (List.mem_cons_of_mem _ hx)) (es ++ [(src_id, v)])
      exact ⟨es1, by simp only [List.foldl_cons, hl]; exact h1⟩

theorem net_edges_ok (blk_to_id : List (BlockId × Nat)) (net : List BlockId) (hne : net ≠ [])
    (h : ∀ b ∈ net, b ∈ blk_to_id.map Prod.fst) : ∃ es, net_edges blk_to_id net = .ok es := by
  cases net with
  | nil => exact absurd rfl hne
  | cons s rest =>
    have hs : s ∈ blk_to_id.map Prod.fst := h s (List.mem_cons_self _ _)
    cases hl : blk_to_id.lookup s with
    | none => exact absurd hs ((lookup_none_iff_not_mem_keys _ _).1 hl)
    | some v =>
      obtain ⟨es1, h1⟩ := net_edges_fold_ok blk_to_id v rest
        (fun x hx => h x (List.mem_cons_of_mem _ hx)) []
      exact ⟨es1, by simp only [net_edges, hl]; exact h1⟩

theorem add_edges_ok (blk_to_id : List (BlockId × Nat)) (netlists : RawNetlist)
    (hne : ∀ iter ∈ netlists, iter.2 ≠ [])
    (h : ∀ iter ∈ netlists, ∀ b ∈ iter.2, b ∈ blk_to_id.map Prod.fst) :
    ∀ es, ∃ es1, add_edges blk_to_id netlists es = .ok es1 := by
  induction netlists with
  | nil => intro es; exact ⟨es, rfl⟩
  | cons iter rest ih =>
    intro es
    obtain ⟨ne, hn⟩ := net_edges_ok blk_to_id iter.2 (hne iter (List.mem_cons_self _ _))
      (h iter (List.mem_cons_self _ _))
    obtain ⟨es1, h1⟩ := ih (fun x hx => hne x (List.mem_cons_of_mem _ hx))
      (fun x hx => h x (List.mem_cons_of_mem _ hx)) (es ++ ne)
    exact ⟨es1, by simp only [add_edges, hn]; exact h1⟩

theorem mem_cluster_insert (k : Int) (b x : BlockId) (cs : Clusters) :
    (∃ c ∈ cluster_insert k b cs, x ∈ c.2) ↔ x = b ∨ ∃ c ∈ cs, x ∈ c.2 := by
  induction cs with
  | nil => simp [cluster_insert]
  | cons c rest ih =>
    unfold cluster_insert
    split
    · simp
    · split
      · simp only [List.mem_cons, exists_eq_or_imp, Finset.mem_insert]
        tauto
      · simp only [List.mem_cons, exists_eq_or_imp]
        rw [ih]
        tauto

theorem cluster_insert_keys (k : Int) (b : BlockId) (cs : Clusters) :
    ∀ c ∈ cluster_insert k b cs, c.1 = k ∨ ∃ d ∈ cs, d.1 = c.1 := by
  induction cs with
  | nil => simp [cluster_insert]
  | cons c rest ih =>
    unfold cluster_insert
    split
    · intro d hd
      simp only [List.mem_cons] at hd
      rcases hd with rfl | rfl | hd
      · exact Or.inl rfl
      · exact Or.inr ⟨_, List.mem_cons_self _ _, rfl⟩
      · exact Or.inr ⟨d, List.mem_cons_of_mem _ hd, rfl⟩
    · split
      · intro d hd
        simp only [List.mem_cons] at hd
        rcases hd with rfl | hd
        · exact Or.inr ⟨c, List.mem_cons_self _ _, rfl⟩
        · exact Or.inr ⟨d, List.mem_cons_of_mem _ hd, rfl⟩
      · intro d hd
        simp only [List.mem_cons] at hd
        rcases hd with rfl | hd
        · exact Or.inr ⟨_, List.mem_cons_self _ _, rfl⟩
        · rcases ih d hd with h | ⟨e, he, hek⟩
          · exact Or.inl h
          · exact Or.inr ⟨e, List.mem_cons_of_mem _ he, hek⟩

theorem cluster_insert_sorted (k : Int) (b : BlockId) (cs : Clusters) (h : KeysSorted cs) :
    KeysSorted (cluster_insert k b cs) := by
  induction cs with
  | nil => simp [cluster_insert, KeysSorted]
  | cons c rest ih =>
    unfold KeysSorted at h ⊢
    rw [List.pairwise_cons] at h
    unfold cluster_insert
    split
    · rename_i hlt
      rw [List.pairwise_cons]
      refine ⟨?_, List.pairwise_cons.2 h⟩
      intro d hd
      simp only [List.mem_cons] at hd
      rcases hd with rfl | hd
      · exact hlt
      · exact lt_trans hlt (h.1 d hd)
    · split
      · rw [List.pairwise_cons]
        exact ⟨fun d hd => h.1 d hd, h.2⟩
      · rename_i h1 h2
        rw [List.pairwise_cons]
        refine ⟨?_, ih h.2⟩
        intro d hd
        rcases cluster_insert_keys k b rest d hd with hk | ⟨e, he, hek⟩
        · rw [hk]; omega
        · rw [← hek]; exact h.1 e he

theorem cluster_insert_disjoint (k : Int) (b : BlockId) (cs : Clusters) (h : ClustersDisjoint cs)
    (hb : ∀ c ∈ cs, b ∉ c.2) : ClustersDisjoint (cluster_insert k b cs) := by
  induction cs with
  | nil => simp [cluster_insert, ClustersDisjoint]
  | cons c rest ih =>
    unfold ClustersDisjoint at h ⊢
    rw [List.pairwise_cons] at h
    unfold cluster_insert
    split
    · rw [List.pairwise_cons]
      refine ⟨?_, List.pairwise_cons.2 h⟩
      intro d hd
      simp only [Finset.disjoint_singleton_left]
      exact hb d hd
    · split
      · rw [List.pairwise_cons]
        refine ⟨?_, h.2⟩
        intro d hd
        simp only [Finset.disjoint_insert_left]
        exact ⟨hb d (List.mem_cons_of_mem _ hd), h.1 d hd⟩
      · rw [List.pairwise_cons]
        refine ⟨?_, ih h.2 (fun d hd => hb d (List.mem_cons_of_mem _ hd))⟩
        intro d hd
        rw [Finset.disjoint_left]
        intro x hxc hxd
        rcases (mem_cluster_insert k b x rest).1 ⟨d, hd, hxd⟩ with rfl | ⟨e, he, hxe⟩
        · exact hb c (List.mem_cons_self _ _) hxc
        · exact (Finset.disjoint_left.1 (h.1 e he)) hxc hxe

theorem invert_membership_spec (membership : List Nat) (ids : List (Nat × BlockId)) :
    ∀ result : Clusters, KeysSorted result → ClustersDisjoint result →
      (∀ p ∈ ids, p.1 < membership.length) → (ids.map Prod.snd).Nodup →
      (∀ p ∈ ids, ∀ c ∈ result, p.2 ∉ c.2) →
      ∃ r, invert_membership membership ids result = .ok r ∧ KeysSorted r ∧ ClustersDisjoint r ∧
        ∀ x, (∃ c ∈ r, x ∈ c.2) ↔ (x ∈ ids.map Prod.snd ∨ ∃ c ∈ result, x ∈ c.2) := by
  induction ids with
  | nil =>
    intro result hs hd _ _ _
    exact ⟨result, rfl, hs, hd, by simp⟩
  | cons p rest ih =>
    intro result hs hd hlt hnd hfresh
    obtain ⟨g_id, blk_id⟩ := p
    have hg : g_id < membership.length := hlt (g_id, blk_id) (List.mem_cons_self _ _)
    have hget : membership[g_id]? = some (membership.get ⟨g_id, hg⟩) := List.getElem?_eq_getElem hg
    simp only [List.map_cons, List.nodup_cons] at hnd
    have hfresh1 : ∀ c ∈ result, blk_id ∉ c.2 := hfresh (g_id, blk_id) (List.mem_cons_self _ _)
    obtain ⟨r, hr, hrs, hrd, hrm⟩ := ih
      (cluster_insert (to_int (membership.get ⟨g_id, hg⟩)) blk_id result)
      (cluster_insert_sorted _ _ _ hs) (cluster_insert_disjoint _ _ _ hd hfresh1)
      (fun q hq => hlt q (List.mem_cons_of_mem _ hq)) hnd.2
      (by
        intro q hq c hc hqc
        rcases (mem_cluster_insert _ _ q.2 result).1 ⟨c, hc, hqc⟩ with hx | ⟨e, he, hxe⟩
        · exact hnd.1 (hx ▸ List.mem_map_of_mem Prod.snd hq)
        · exact hfresh q (List.mem_cons_of_mem _ hq) e he hxe)
    refine ⟨r, ?_, hrs, hrd, ?_⟩
    · simp only [invert_membership, hget]; exact hr
    · intro x
      rw [hrm x, mem_cluster_insert]
      simp only [List.map_cons, List.mem_cons]
      tauto

theorem assign_ids_length (netlists : RawNetlist) :
    (assign_ids netlists).1.length = (netlists.flatMap (fun iter => iter.2)).toFinset.card := by
  obtain ⟨_, h2, h3, _, h5⟩ := assignInv_assign_ids netlists
  have hset : ((assign_ids netlists).2.map Prod.snd).toFinset
      = (netlists.flatMap (fun iter => iter.2)).toFinset := by
    ext x
    simp only [List.mem_toFinset]
    exact h5 x
  rw [← hset, List.toFinset_card_of_nodup h2, List.length_map, h3]

theorem unique_cluster_of_disjoint (cs : Clusters) (hd : ClustersDisjoint cs) (blk : BlockId)
    (h : ∃ c ∈ cs, blk ∈ c.2) : ∃! c, c ∈ cs ∧ blk ∈ c.2 := by
  obtain ⟨c, hc, hb⟩ := h
  refine ⟨c, ⟨hc, hb⟩, ?_⟩
  rintro d ⟨hdm, hdb⟩
  by_contra hne
  have hsymm : Symmetric (fun a b : Int × Finset BlockId => Disjoint a.2 b.2) :=
    fun a b hab => hab.symm
  have := List.Pairwise.forall hsymm hd hdm hc hne
  exact (Finset.disjoint_left.1 this) hdb hb

/-- C1: for a netlist of non-empty nets and a detector whose membership vector
has one entry per distinct block id, `partition_netlist` returns a well-formed
cluster map in which every block id of the netlist lies in exactly one cluster
and every clustered block id occurs in the netlist. -/
theorem partition_netlist_exactly_one_cluster (detect : IGraph → Nat → Nat → List Nat)
    (netlists : RawNetlist) (num_iter : Nat)
    (hne : ∀ iter ∈ netlists, iter.2 ≠ [])
    (hlen : ∀ graph id_to_blk, construct_igraph netlists = .ok (graph, id_to_blk) →
      (detect graph num_iter 0).length = (netlists.flatMap (fun iter => iter.2)).toFinset.card) :
    ∃ result, partition_netlist detect netlists num_iter = .ok result ∧ KeysSorted result ∧
      (∀ blk, (∃ iter ∈ netlists, blk ∈ iter.2) → ∃! c, c ∈ result ∧ blk ∈ c.2) ∧
      (∀ c ∈ result, ∀ blk ∈ c.2, ∃ iter ∈ netlists, blk ∈ iter.2) := by
  have hinv := assignInv_assign_ids netlists
  obtain ⟨h1, h2, h3, h4, h5⟩ := hinv
  have hall : ∀ iter ∈ netlists, ∀ b ∈ iter.2, b ∈ (assign_ids netlists).1.map Prod.fst := by
    intro iter hi b hb
    rw [h1, h5 b]
    exact List.mem_flatMap.2 ⟨iter, hi, hb⟩
  obtain ⟨es, hes⟩ := add_edges_ok (assign_ids netlists).1 netlists hne hall []
  have hc : construct_igraph netlists
      = .ok (⟨(assign_ids netlists).1.length, es⟩, (assign_ids netlists).2) := by
    simp only [construct_igraph, hes]
  have hl : (detect ⟨(assign_ids netlists).1.length, es⟩ num_iter 0).length
      = (assign_ids netlists).2.length := by
    rw [hlen _ _ hc, ← assign_ids_length netlists, h3]
  obtain ⟨r, hr, hrs, hrd, hrm⟩ := invert_membership_spec
    (detect ⟨(assign_ids netlists).1.length, es⟩ num_iter 0) (assign_ids netlists).2 []
    (by simp [KeysSorted]) (by simp [ClustersDisjoint])
    (fun p hp => by rw [hl]; exact h4 p hp) h2 (by simp)
  refine ⟨r, ?_, hrs, ?_, ?_⟩
  · simp only [partition_netlist, hc, get_cluster]; exact hr
  · rintro blk ⟨iter, hi, hb⟩
    apply unique_cluster_of_disjoint r hrd blk
    rw [hrm blk]
    exact Or.inl ((h5 blk).2 (List.mem_flatMap.2 ⟨iter, hi, hb⟩))
  · intro c hc blk hb
    have := (hrm blk).1 ⟨c, hc, hb⟩
    simp only [List.not_mem_nil, false_and, exists_false, or_false] at this
    obtain ⟨iter, hi, hb⟩ := List.mem_flatMap.1 ((h5 blk).1 this)
    exact ⟨iter, hi, hb⟩

/-- Instance of `partition_netlist_exactly_one_cluster`: two nets over three
blocks and a detector that puts every block in cluster 0. -/
theorem partition_netlist_exactly_one_cluster_witness :
    ∃ result, partition_netlist (fun g _ _ => List.replicate g.num_blks 0)
        [("n", ["a", "b"]), ("m", ["b", "c"])] 3 = .ok result ∧ KeysSorted result ∧
      (∀ blk, (∃ iter ∈ ([("n", ["a", "b"]), ("m", ["b", "c"])] : RawNetlist), blk ∈ iter.2) →
        ∃! c, c ∈ result ∧ blk ∈ c.2) ∧
      (∀ c ∈ result, ∀ blk ∈ c.2,
        ∃ iter ∈ ([("n", ["a", "b"]), ("m", ["b", "c"])] : RawNetlist), blk ∈ iter.2) :=
  partition_netlist_exactly_one_cluster (fun g _ _ => List.replicate g.num_blks 0)
    [("n", ["a", "b"]), ("m", ["b", "c"])] 3 (by decide)
    (by
      intro graph id_to_blk h
      have h1 : graph.num_blks = 3 := by
        have h2 : construct_igraph [("n", ["a", "b"]), ("m", ["b", "c"])]
            = .ok (⟨3, [(0, 1), (1, 2)]⟩, [(0, "a"), (1, "b"), (2, "c")]) := by decide
        rw [h2] at h
        injection h with h
        injection h with h3 h4
        rw [← h3]
      rw [List.length_replicate, h1]
      decide)

namespace graph

/-! ## Edge relation and breadth-first cycle detection (`has_loop`) -/

theorem mem_edges_to (edges : List Edge) (u v : Nat) :
    v ∈ edges_to edges u ↔ EdgeRel edges u v := by
  simp only [edges_to, List.mem_map, List.mem_filter, decide_eq_true_eq, EdgeRel]
  constructor
  · rintro ⟨e, ⟨he, hf⟩, ht⟩; exact ⟨e, he, hf, ht⟩
  · rintro ⟨e, he, hf, ht⟩; exact ⟨e, ⟨he, hf⟩, ht⟩

theorem has_loop_scan_eq (src : Nat) (l : List Nat) :
    ∀ q, has_loop_scan src l q = if src ∈ l then none else some (q ++ l) := by
  induction l with
  | nil => intro q; simp [has_loop_scan]
  | cons d rest ih =>
    intro q
    unfold has_loop_scan
    by_cases h : d = src
    · simp [h]
    · have h1 : ¬ src = d := fun h2 => h h2.symm
      simp only [h, if_false, ih, List.mem_cons, h1, false_or, List.append_assoc,
        List.singleton_append]

theorem filter_unvisited_cons (edges : List Edge) (n : Nat) (visited : List Nat)
    (hn : n ∉ visited) :
    (edges.filter (fun e => decide (e.from_ ∉ visited))).length
      = (edges.filter (fun e => decide (e.from_ ∉ n :: visited))).length
        + (edges_to edges n).length := by
  induction edges with
  | nil => simp [edges_to]
  | cons e rest ih =>
    simp only [edges_to, List.length_map] at ih ⊢
    rw [List.filter_cons, List.filter_cons, List.filter_cons]
    by_cases h1 : e.from_ = n
    · have h2 : e.from_ ∉ visited := by rw [h1]; exact hn
      have h3 : e.from_ ∈ n :: visited := by rw [h1]; exact List.mem_cons_self _ _
      rw [if_pos (by simpa using h2), if_neg (by simp only [decide_eq_true_eq, not_not]; exact h3), if_pos (by simpa using h1)]
      simp only [List.length_cons]
      omega
    · by_cases h2 : e.from_ ∈ visited
      · have h3 : e.from_ ∈ n :: visited := List.mem_cons_of_mem _ h2
        rw [if_neg (by simpa using h2), if_neg (by simp only [decide_eq_true_eq, not_not]; exact h3), if_neg (by simpa using h1)]
        exact ih
      · have h3 : e.from_ ∉ n :: visited := by
          intro h; rcases List.mem_cons.1 h with h | h
          · exact h1 h
          · exact h2 h
        rw [if_pos (by simpa using h2), if_pos (by simpa using h3), if_neg (by simpa using h1)]
        simp only [List.length_cons]
        omega

theorem bfs_measure_visit (edges : List Edge) (n : Nat) (q visited : List Nat) (hn : n ∉ visited) :
    bfs_measure edges (q ++ edges_to edges n) (n :: visited) + 1
      = bfs_measure edges (n :: q) visited := by
  unfold bfs_measure
  rw [filter_unvisited_cons edges n visited hn]
  simp only [List.length_append, List.length_cons]
  omega

theorem bfs_measure_skip (edges : List Edge) (n : Nat) (q visited : List Nat) :
    bfs_measure edges q visited + 1 = bfs_measure edges (n :: q) visited := by
  unfold bfs_measure
  simp only [List.length_cons]
  omega

/-- A visited set that contains `src`, is closed under successors and has no
edge back to `src` shows that `src` lies on no cycle. -/
theorem no_cycle_of_closed (edges : List Edge) (src : Nat) (visited : List Nat)
    (hsrc : src ∈ visited)
    (hclosed : ∀ v ∈ visited, ∀ w ∈ edges_to edges v, w ≠ src ∧ w ∈ visited) :
    ¬ Relation.TransGen (EdgeRel edges) src src := by
  intro hcyc
  have hreach : ∀ x, Relation.ReflTransGen (EdgeRel edges) src x → x ∈ visited := by
    intro x hx
    induction hx with
    | refl => exact hsrc
    | tail _ hbc ih => exact (hclosed _ ih _ ((mem_edges_to _ _ _).2 hbc)).2
  obtain ⟨m, hm, hms⟩ := Relation.TransGen.tail'_iff.1 hcyc
  exact (hclosed m (hreach m hm) src ((mem_edges_to _ _ _).2 hms)).1 rfl

theorem has_loop_from_spec (edges : List Edge) (src : Nat) :
    ∀ (fuel : Nat) (queue visited : List Nat),
      bfs_measure edges queue visited < fuel →
      (∀ x ∈ queue, Relation.ReflTransGen (EdgeRel edges) src x) →
      (∀ x ∈ visited, Relation.ReflTransGen (EdgeRel edges) src x) →
      (∀ v ∈ visited, ∀ w ∈ edges_to edges v, w ≠ src ∧ (w ∈ visited ∨ w ∈ queue)) →
      (src ∈ visited ∨ src ∈ queue) →
      ∃ b, has_loop_from edges src fuel queue visited = .ok b ∧
        (b = true ↔ Relation.TransGen (EdgeRel edges) src src) := by
  intro fuel
  induction fuel with
  | zero => intro queue visited h; exact absurd h (Nat.not_lt_zero _)
  | succ fuel ih =>
    intro queue visited hfuel hq hv hclosed hsrc
    cases queue with
    | nil =>
      refine ⟨false, rfl, ?_⟩
      have hs : src ∈ visited := by simpa using hsrc
      have := no_cycle_of_closed edges src visited hs
        (fun v hv1 w hw => ⟨(hclosed v hv1 w hw).1, by simpa using (hclosed v hv1 w hw).2⟩)
      simp [this]
    | cons n q =>
      by_cases hn : n ∈ visited
      · have hm := bfs_measure_skip edges n q visited
        obtain ⟨b, hb, hbs⟩ := ih q visited (by omega)
          (fun x hx => hq x (List.mem_cons_of_mem _ hx)) hv
          (fun v hv1 w hw => by
            refine ⟨(hclosed v hv1 w hw).1, ?_⟩
            rcases (hclosed v hv1 w hw).2 with h | h
            · exact Or.inl h
            · rcases List.mem_cons.1 h with rfl | h
              · exact Or.inl hn
              · exact Or.inr h)
          (by
            rcases hsrc with h | h
            · exact Or.inl h
            · rcases List.mem_cons.1 h with rfl | h
              · exact Or.inl hn
              · exact Or.inr h)
        exact ⟨b, by simp only [has_loop_from, hn, if_true]; exact hb, hbs⟩
      · have hreach_n := hq n (List.mem_cons_self _ _)
        by_cases hback : src ∈ edges_to edges n
        · refine ⟨true, ?_, ?_⟩
          · simp [has_loop_from, hn, has_loop_scan_eq, hback]
          · simp only [true_iff]
            exact Relation.TransGen.tail'_iff.2 ⟨n, hreach_n, (mem_edges_to _ _ _).1 hback⟩
        · have hm := bfs_measure_visit edges n q visited hn
          obtain ⟨b, hb, hbs⟩ := ih (q ++ edges_to edges n) (n :: visited) (by omega)
            (fun x hx => by
              rcases List.mem_append.1 hx with h | h
              · exact hq x (List.mem_cons_of_mem _ h)
              · exact Relation.ReflTransGen.tail hreach_n ((mem_edges_to _ _ _).1 h))
            (fun x hx => by
              rcases List.mem_cons.1 hx with rfl | h
              · exact hreach_n
              · exact hv x h)
            (fun v hv1 w hw => by
              rcases List.mem_cons.1 hv1 with rfl | h
              · refine ⟨fun hws => hback (hws ▸ hw), Or.inr (List.mem_append_right _ hw)⟩
              · refine ⟨(hclosed v h w hw).1, ?_⟩
                rcases (hclosed v h w hw).2 with h2 | h2
                · exact Or.inl (List.mem_cons_of_mem _ h2)
                · rcases List.mem_cons.1 h2 with rfl | h3
                  · exact Or.inl (List.mem_cons_self _ _)
                  · exact Or.inr (List.mem_append_left _ h3))
            (by
              rcases hsrc with h | h
              · exact Or.inl (List.mem_cons_of_mem _ h)
              · rcases List.mem_cons.1 h with rfl | h
                · exact Or.inl (List.mem_cons_self _ _)
                · exact Or.inr (List.mem_append_left _ h))
          exact ⟨b, by simp only [has_loop_from, hn, if_false, has_loop_scan_eq, hback]; exact hb, hbs⟩

theorem has_loop_nodes_spec (edges : List Edge) (l : List Nat) :
    ∃ b, has_loop_nodes edges l = .ok b ∧
      (b = true ↔ ∃ src ∈ l, Relation.TransGen (EdgeRel edges) src src) := by
  induction l with
  | nil => exact ⟨false, rfl, by simp⟩
  | cons src rest ih =>
    obtain ⟨b, hb, hbs⟩ := has_loop_from_spec edges src (edges.length + 2) [src] []
      (by simp only [bfs_measure, List.length_singleton, List.not_mem_nil, not_false_eq_true, decide_True, List.filter_true]; omega) (by simp [Relation.ReflTransGen.refl]) (by simp) (by simp) (by simp)
    cases b with
    | true =>
      refine ⟨true, by simp only [has_loop_nodes, hb], ?_⟩
      simp only [true_iff]
      exact ⟨src, List.mem_cons_self _ _, hbs.1 rfl⟩
    | false =>
      obtain ⟨b2, hb2, hbs2⟩ := ih
      refine ⟨b2, by simp only [has_loop_nodes, hb]; exact hb2, ?_⟩
      rw [hbs2]
      constructor
      · rintro ⟨s, hs, hc⟩; exact ⟨s, List.mem_cons_of_mem _ hs, hc⟩
      · rintro ⟨s, hs, hc⟩
        rcases List.mem_cons.1 hs with rfl | h
        · have := hbs.2 hc
          cases this
        · exact ⟨s, h, hc⟩

theorem has_loop_spec (g : Graph) :
    ∃ b, has_loop g = .ok b ∧
      (b = true ↔ ∃ v, v < g.nodes_.length ∧ Relation.TransGen (EdgeRel g.edges_) v v) := by
  obtain ⟨b, hb, hbs⟩ := has_loop_nodes_spec g.edges_ (List.range g.nodes_.length)
  refine ⟨b, hb, ?_⟩
  rw [hbs]
  simp only [List.mem_range]

/-- C9: `has_loop` returns a value on every clustered graph, and the value is
true exactly when some vertex has a directed path of at least one edge back
to itself. -/
theorem has_loop_iff_cycle (g : Graph) :
    ∃ b, has_loop g = .ok b ∧
      (b = true ↔ ∃ v, v < g.nodes_.length ∧ Relation.TransGen (EdgeRel g.edges_) v v) :=
  has_loop_spec g

end graph

namespace graph

/-! ## Depth-first post-order (`topological_sort`, `sort_`) -/

theorem unvisited_mono (N : Nat) (V V1 : List Nat) (h : ∀ x ∈ V, x ∈ V1) :
    unvisited N V1 ≤ unvisited N V := by
  unfold unvisited
  apply List.Sublist.length_le
  apply List.monotone_filter_right
  intro a ha
  simp only [decide_eq_true_eq] at ha ⊢
  exact fun hv => ha (h a hv)

theorem filter_length_lt_of_mem (l : List Nat) (p q : Nat → Bool) (hpq : ∀ a, p a = true → q a = true)
    (x : Nat) (hx : x ∈ l) (hqx : q x = true) (hpx : p x = false) :
    (l.filter p).length < (l.filter q).length := by
  induction l with
  | nil => cases hx
  | cons a rest ih =>
    have hmono : (rest.filter p).length ≤ (rest.filter q).length :=
      List.Sublist.length_le (List.monotone_filter_right rest hpq)
    rcases List.mem_cons.1 hx with rfl | hx1
    · rw [List.filter_cons, List.filter_cons, hqx, hpx]
      simp only [if_true, Bool.false_eq_true, if_false, List.length_cons]
      omega
    · have := ih hx1
      rw [List.filter_cons, List.filter_cons]
      by_cases hpa : p a = true
      · rw [if_pos hpa, if_pos (hpq a hpa)]
        simp only [List.length_cons]
        omega
      · rw [if_neg hpa]
        by_cases hqa : q a = true
        · rw [if_pos hqa]
          simp only [List.length_cons]
          omega
        · rw [if_neg hqa]
          exact this

theorem unvisited_cons_lt (N : Nat) (V V1 : List Nat) (node : Nat) (hn : node < N)
    (hv : node ∉ V) (h : ∀ x ∈ node :: V, x ∈ V1) : unvisited N V1 < unvisited N V := by
  unfold unvisited
  apply filter_length_lt_of_mem (List.range N) _ _ _ node (List.mem_range.2 hn)
  · simpa using hv
  · simpa using h node (List.mem_cons_self _ _)
  · intro a ha
    simp only [decide_eq_true_eq] at ha ⊢
    exact fun hav => ha (h a (List.mem_cons_of_mem _ hav))

theorem post_order_fold_spec (adj : Nat → List Nat) (N fuel : Nat)
    (hadj : ∀ u, ∀ w ∈ adj u, w < N)
    (hacyc : ∀ v, ¬ Relation.TransGen (AdjRel adj) v v)
    (ih : PostOrderSpec adj N fuel) (node : Nat) :
    ∀ (l : List Nat) (V O : List Nat),
      (∀ w ∈ l, w ∈ adj node) → node ∈ V → node ∉ O → unvisited N V ≤ fuel →
      (∀ x ∈ O, x ∈ V) → TopoStack adj O.reverse →
      (∀ x ∈ V, x ∉ O → Relation.ReflTransGen (AdjRel adj) x node) →
      ∃ V1 O1, l.foldl (visit_step (post_order adj fuel)) (Except.ok (V, O)) = .ok (V1, O1) ∧
        (∀ x ∈ V, x ∈ V1) ∧ (∀ x ∈ O1, x ∈ V1) ∧ TopoStack adj O1.reverse ∧
        (∀ w ∈ l, w ∈ O1) ∧ (∀ x ∈ O, x ∈ O1) ∧ (∀ x ∈ V1, x ∉ O1 → x ∈ V ∧ x ∉ O) ∧
        (∀ x ∈ O1, x ∈ O ∨ x ∉ V) ∧ (∀ x ∈ V1, x < N ∨ x ∈ V) := by
  intro l
  induction l with
  | nil =>
    intro V O _ _ _ _ hO hT _
    exact ⟨V, O, rfl, fun x h => h, hO, hT, by simp, fun x h => h, fun x h1 h2 => ⟨h1, h2⟩,
      fun x h => Or.inl h, fun x h => Or.inr h⟩
  | cons w rest ihl =>
    intro V O hl hnV hnO hfuel hO hT hgray
    have hw : w ∈ adj node := hl w (List.mem_cons_self _ _)
    have hrest : ∀ x ∈ rest, x ∈ adj node := fun x hx => hl x (List.mem_cons_of_mem _ hx)
    by_cases hwV : w ∈ V
    · have hwO : w ∈ O := by
        by_contra hc
        exact hacyc w (Relation.TransGen.tail'_iff.2 ⟨node, hgray w hwV hc, hw⟩)
      obtain ⟨V1, O1, h1, h2, h3, h4, h5, h6, h7, h8, h9⟩ :=
        ihl V O hrest hnV hnO hfuel hO hT hgray
      refine ⟨V1, O1, ?_, h2, h3, h4, ?_, h6, h7, h8, h9⟩
      · simp only [List.foldl_cons, visit_step, hwV, if_true]; exact h1
      · intro x hx
        rcases List.mem_cons.1 hx with rfl | hx
        · exact h6 _ hwO
        · exact h5 x hx
    · obtain ⟨V1, O1, h1, h2, h3, h4, h5, h6, h7, h8, h9⟩ :=
        ih w V O (hadj node w hw) hwV hfuel hO hT
          (fun x hx hxO => Relation.ReflTransGen.tail (hgray x hx hxO) hw)
      have hnO1 : node ∉ O1 := by
        intro hc
        rcases h8 node hc with h | h
        · exact hnO h
        · exact h hnV
      obtain ⟨V2, O2, k1, k2, k3, k4, k5, k6, k7, k8, k9⟩ :=
        ihl V1 O1 hrest (h2 node hnV) hnO1 (le_trans (unvisited_mono N V V1 h2) hfuel) h3 h4
          (fun x hx hxO => hgray x (h7 x hx hxO).1 (h7 x hx hxO).2)
      refine ⟨V2, O2, ?_, fun x hx => k2 x (h2 x hx), k3, k4, ?_, fun x hx => k6 x (h6 x hx),
        ?_, ?_, ?_⟩
      · simp only [List.foldl_cons, visit_step, hwV, if_false, h1]; exact k1
      · intro x hx
        rcases List.mem_cons.1 hx with rfl | hx
        · exact k6 _ h5
        · exact k5 x hx
      · intro x hx hxO
        have := k7 x hx hxO
        exact h7 x this.1 this.2
      · intro x hx
        rcases k8 x hx with h | h
        · exact h8 x h
        · exact Or.inr (fun hv => h (h2 x hv))
      · intro x hx
        rcases k9 x hx with h | h
        · exact Or.inl h
        · exact h9 x h

theorem post_order_spec (adj : Nat → List Nat) (N : Nat)
    (hadj : ∀ u, ∀ w ∈ adj u, w < N)
    (hacyc : ∀ v, ¬ Relation.TransGen (AdjRel adj) v v) :
    ∀ fuel, PostOrderSpec adj N fuel := by
  intro fuel
  induction fuel with
  | zero =>
    intro node V O hn hv hfuel _ _ _
    have := unvisited_cons_lt N V (node :: V) node hn hv (fun x hx => hx)
    omega
  | succ fuel ih =>
    intro node V O hn hv hfuel hO hT hgray
    have hnO : node ∉ O := fun h => hv (hO node h)
    have hcount : unvisited N (node :: V) ≤ fuel := by
      have := unvisited_cons_lt N V (node :: V) node hn hv (fun x hx => hx)
      omega
    obtain ⟨V1, O1, h1, h2, h3, h4, h5, h6, h7, h8, h9⟩ :=
      post_order_fold_spec adj N fuel hadj hacyc ih node (adj node) (node :: V) O
        (fun w hw => hw) (List.mem_cons_self _ _) hnO hcount
        (fun x hx => List.mem_cons_of_mem _ (hO x hx)) hT
        (fun x hx hxO => by
          rcases List.mem_cons.1 hx with rfl | hx
          · exact Relation.ReflTransGen.refl
          · exact hgray x hx hxO)
    have hnO1 : node ∉ O1 := by
      intro hc
      rcases h8 node hc with h | h
      · exact hnO h
      · exact h (List.mem_cons_self _ _)
    refine ⟨V1, O1 ++ [node], ?_, fun x hx => h2 x (List.mem_cons_of_mem _ hx), ?_, ?_, by simp,
      fun x hx => List.mem_append_left _ (h6 x hx), ?_, ?_, ?_⟩
    · simp only [post_order]
      rw [h1]
    · intro x hx
      rcases List.mem_append.1 hx with h | h
      · exact h3 x h
      · rw [List.mem_singleton.1 h]; exact h2 node (List.mem_cons_self _ _)
    · rw [List.reverse_append, List.reverse_singleton, List.singleton_append]
      exact ⟨by simpa using hnO1, fun w hw => by simpa using h5 w hw, h4⟩
    · intro x hx hxO
      have hx1 : x ∉ O1 := fun h => hxO (List.mem_append_left _ h)
      have hx2 : x ≠ node := fun h => hxO (by simp [h])
      have := h7 x hx hx1
      rcases List.mem_cons.1 this.1 with h | h
      · exact absurd h hx2
      · exact ⟨h, this.2⟩
    · intro x hx
      rcases List.mem_append.1 hx with h | h
      · rcases h8 x h with h | h
        · exact Or.inl h
        · exact Or.inr (fun hv1 => h (List.mem_cons_of_mem _ hv1))
      · rw [List.mem_singleton.1 h]; exact Or.inr hv
    · intro x hx
      rcases h9 x hx with h | h
      · exact Or.inl h
      · rcases List.mem_cons.1 h with rfl | h
        · exact Or.inl hn
        · exact Or.inr h

end graph

namespace graph

/-! ## The rebuild of vertices and edges (`Graph::update`) -/

theorem update_nodes_eq (cs : Clusters) :
    ∀ (nodes : List Node) (nm : BlockId → Option Nat),
      update_nodes cs nodes nm = (nodes ++ cluster_nodes cs, fun blk =>
        match nm blk with
        | some n => some n
        | none => (cluster_index blk cs).map (fun i => i + nodes.length)) := by
  induction cs with
  | nil =>
    intro nodes nm
    simp only [update_nodes, cluster_nodes, List.map_nil, List.append_nil, cluster_index,
      Option.map_none']
    congr 1
    funext blk
    cases nm blk <;> rfl
  | cons c rest ih =>
    intro nodes nm
    obtain ⟨cid, cluster⟩ := c
    simp only [update_nodes, ih, cluster_nodes, List.map_cons, List.append_assoc,
      List.singleton_append, Prod.mk.injEq, true_and]
    funext blk
    cases hnm : nm blk with
    | some n => simp
    | none =>
      by_cases hb : blk ∈ cluster
      · simp [cluster_index, hb]
      · simp only [hb, if_false, cluster_index, List.length_append, List.length_singleton,
          Option.map_map]
        cases cluster_index blk rest with
        | none => rfl
        | some i => simp only [Option.map_some', Function.comp, Option.some.injEq]; omega

theorem update_nodes_init (cs : Clusters) :
    update_nodes cs [] (fun _ => none) = (cluster_nodes cs, fun blk => cluster_index blk cs) := by
  rw [update_nodes_eq]
  simp only [List.nil_append, List.length_nil, Nat.add_zero, Prod.mk.injEq, true_and]
  funext blk
  cases cluster_index blk cs <;> rfl

theorem cluster_index_lt (blk : BlockId) (cs : Clusters) (i : Nat)
    (h : cluster_index blk cs = some i) : i < cs.length := by
  induction cs generalizing i with
  | nil => cases h
  | cons c rest ih =>
    unfold cluster_index at h
    by_cases hb : blk ∈ c.2
    · simp only [hb, if_true, Option.some.injEq] at h
      simp [← h]
    · simp only [hb, if_false] at h
      cases hr : cluster_index blk rest with
      | none => rw [hr] at h; cases h
      | some j =>
        rw [hr] at h
        simp only [Option.map_some', Option.some.injEq] at h
        have := ih j hr
        simp only [List.length_cons]
        omega

theorem cluster_index_eq_none (blk : BlockId) (cs : Clusters) :
    cluster_index blk cs = none ↔ ∀ c ∈ cs, blk ∉ c.2 := by
  induction cs with
  | nil => simp [cluster_index]
  | cons c rest ih =>
    unfold cluster_index
    by_cases hb : blk ∈ c.2
    · simp [hb]
    · simp only [hb, if_false, Option.map_eq_none', ih, List.mem_cons, forall_eq_or_imp,
        not_false_eq_true, true_and]

theorem cluster_index_mem (blk : BlockId) (cs : Clusters) (i : Nat)
    (h : cluster_index blk cs = some i) : ∃ c, cs[i]? = some c ∧ blk ∈ c.2 := by
  induction cs generalizing i with
  | nil => cases h
  | cons c rest ih =>
    unfold cluster_index at h
    by_cases hb : blk ∈ c.2
    · simp only [hb, if_true, Option.some.injEq] at h
      exact ⟨c, by simp [← h], hb⟩
    · simp only [hb, if_false] at h
      cases hr : cluster_index blk rest with
      | none => rw [hr] at h; cases h
      | some j =>
        rw [hr] at h
        simp only [Option.map_some', Option.some.injEq] at h
        obtain ⟨d, hd, hbd⟩ := ih j hr
        exact ⟨d, by simp [← h, hd], hbd⟩

theorem edge_pairs_add_connection (s t : Nat) (es : List Edge) :
    edge_pairs (add_connection s t es)
      = if (s, t) ∈ edge_pairs es then edge_pairs es else edge_pairs es ++ [(s, t)] := by
  induction es with
  | nil => simp [add_connection, edge_pairs]
  | cons e rest ih =>
    unfold add_connection
    by_cases h : e.from_ = s ∧ e.to_ = t
    · simp only [h, and_self, if_true, edge_pairs, List.map_cons, List.mem_cons, true_or]
    · have h1 : ¬ (s, t) = (e.from_, e.to_) := by
        intro hc
        simp only [Prod.mk.injEq] at hc
        exact h ⟨hc.1.symm, hc.2.symm⟩
      simp only [edge_pairs] at ih
      simp only [h, if_false, edge_pairs, List.map_cons, ih, List.mem_cons, h1, false_or]
      split <;> simp

theorem total_weights_add_connection (s t : Nat) (es : List Edge) :
    total_weights (add_connection s t es) = total_weights es + 1 := by
  induction es with
  | nil => simp [add_connection, total_weights]
  | cons e rest ih =>
    unfold add_connection
    by_cases h : e.from_ = s ∧ e.to_ = t
    · simp only [h, and_self, if_true, total_weights, List.map_cons, List.sum_cons]
      omega
    · simp only [total_weights] at ih
      simp only [h, if_false, total_weights, List.map_cons, List.sum_cons, ih]
      omega

theorem pair_weight_add_connection (s t : Nat) (es : List Edge) (a b : Nat) :
    pair_weight (add_connection s t es) a b
      = pair_weight es a b + (if a = s ∧ b = t then 1 else 0) := by
  induction es with
  | nil =>
    by_cases h : a = s ∧ b = t
    · obtain ⟨rfl, rfl⟩ := h
      simp [add_connection, pair_weight, total_weights]
    · have h1 : ¬ (s = a ∧ t = b) := fun hc => h ⟨hc.1.symm, hc.2.symm⟩
      simp [add_connection, pair_weight, total_weights, h, h1]
  | cons e rest ih =>
    unfold add_connection
    simp only [pair_weight, total_weights] at ih ⊢
    by_cases h : e.from_ = s ∧ e.to_ = t
    · obtain ⟨rfl, rfl⟩ := h
      by_cases h2 : a = e.from_ ∧ b = e.to_
      · obtain ⟨rfl, rfl⟩ := h2
        simp only [and_self, if_true, List.filter_cons, decide_True, List.map_cons, List.sum_cons]
        omega
      · have h3 : ¬ (e.from_ = a ∧ e.to_ = b) := fun hc => h2 ⟨hc.1.symm, hc.2.symm⟩
        simp only [and_self, if_true, List.filter_cons, h3, decide_False, h2, if_false,
          Nat.add_zero, Bool.false_eq_true]
    · rw [if_neg h, List.filter_cons, List.filter_cons]
      by_cases h3 : e.from_ = a ∧ e.to_ = b
      · simp only [h3, and_self, decide_True, if_true, List.map_cons, List.sum_cons, ih]
        omega
      · simp only [h3, decide_False, Bool.false_eq_true, if_false, ih]

theorem weight_pos_add_connection (s t : Nat) (es : List Edge) (h : ∀ e ∈ es, 1 ≤ e.weight) :
    ∀ e ∈ add_connection s t es, 1 ≤ e.weight := by
  induction es with
  | nil => simp [add_connection]
  | cons e rest ih =>
    unfold add_connection
    by_cases h1 : e.from_ = s ∧ e.to_ = t
    · simp only [h1, and_self, if_true, List.mem_cons, forall_eq_or_imp]
      exact ⟨by omega, fun x hx => h x (List.mem_cons_of_mem _ hx)⟩
    · simp only [h1, if_false, List.mem_cons, forall_eq_or_imp]
      exact ⟨h e (List.mem_cons_self _ _),
        ih (fun x hx => h x (List.mem_cons_of_mem _ hx))⟩

theorem edgesOk_add_connection (N s t : Nat) (es : List Edge) (h : EdgesOk N es)
    (hs : s < N) (ht : t < N) (hst : s ≠ t) : EdgesOk N (add_connection s t es) := by
  obtain ⟨h1, h2, h3⟩ := h
  refine ⟨?_, ?_, weight_pos_add_connection s t es h3⟩
  · rw [edge_pairs_add_connection]
    split
    · exact h1
    · rename_i hn
      exact List.Nodup.append h1 (List.nodup_singleton _) (by simpa using hn)
  · rw [edge_pairs_add_connection]
    split
    · exact h2
    · intro p hp
      rcases List.mem_append.1 hp with hp | hp
      · exact h2 p hp
      · rw [List.mem_singleton.1 hp]; exact ⟨hs, ht, hst⟩

theorem connect_sinks_spec (nm : BlockId → Option Nat) (N src_node : Nat) (hsrc : src_node < N)
    (sinks : List (BlockId × String)) :
    ∀ edges : List Edge, EdgesOk N edges → (∀ s ∈ sinks, ∃ i, nm s.1 = some i ∧ i < N) →
      ∃ edges1, connect_sinks nm src_node sinks edges = (edges1, none) ∧ EdgesOk N edges1 ∧
        (∀ a b, pair_weight edges1 a b = pair_weight edges a b +
          (if a = src_node ∧ b ≠ src_node then
            (sinks.filter (fun s => decide (nm s.1 = some b))).length else 0)) ∧
        total_weights edges1 = total_weights edges +
          (sinks.filter (fun s => decide (nm s.1 ≠ some src_node))).length := by
  induction sinks with
  | nil =>
    intro edges hok _
    exact ⟨edges, rfl, hok, by simp, by simp⟩
  | cons sink rest ih =>
    intro edges hok hcov
    obtain ⟨i, hi, hiN⟩ := hcov sink (List.mem_cons_self _ _)
    have hrest : ∀ s ∈ rest, ∃ i, nm s.1 = some i ∧ i < N :=
      fun s hs => hcov s (List.mem_cons_of_mem _ hs)
    by_cases hsame : i = src_node
    · obtain ⟨edges1, h1, h2, h3, h4⟩ := ih edges hok hrest
      refine ⟨edges1, ?_, h2, ?_, ?_⟩
      · simp only [connect_sinks, hi, hsame, if_true]; exact h1
      · intro a b
        rw [h3 a b]
        by_cases hab : a = src_node ∧ b ≠ src_node
        · have hne : ¬ (src_node = b) := fun hc => hab.2 hc.symm
          simp only [hab, ne_eq, not_false_eq_true, and_self, if_true, List.filter_cons, hi,
            hsame, Option.some.injEq, hne, decide_False, Bool.false_eq_true, if_false]
        · simp only [hab, if_false]
      · rw [h4]
        simp only [List.filter_cons, hi, hsame, ne_eq, not_true_eq_false, decide_False,
          Bool.false_eq_true, if_false]
    · obtain ⟨edges1, h1, h2, h3, h4⟩ := ih (add_connection src_node i edges)
        (edgesOk_add_connection N src_node i edges hok hsrc hiN (fun hc => hsame hc.symm)) hrest
      refine ⟨edges1, ?_, h2, ?_, ?_⟩
      · simp only [connect_sinks, hi, hsame, if_false]; exact h1
      · intro a b
        rw [h3 a b, pair_weight_add_connection]
        by_cases ha : a = src_node
        · by_cases hb : b = i
          · have hb2 : b ≠ src_node := by rw [hb]; exact hsame
            simp only [ha, hb, and_self, if_true, ne_eq, hsame, not_false_eq_true,
              List.filter_cons, hi, decide_True, List.length_cons]
            omega
          · have hb3 : ¬ (i = b) := fun hc => hb hc.symm
            simp only [ha, hb, and_false, if_false, Nat.add_zero, true_and, List.filter_cons, hi,
              Option.some.injEq, hb3, decide_False, Bool.false_eq_true]
        · simp only [ha, false_and, if_false, Nat.add_zero]
      · rw [h4, total_weights_add_connection]
        simp only [List.filter_cons, hi, ne_eq, Option.some.injEq, hsame, not_false_eq_true,
          decide_True, if_true, List.length_cons]
        omega

theorem connect_nets_spec (nm : BlockId → Option Nat) (N : Nat) (netlist : PortNetlist) :
    ∀ edges : List Edge, EdgesOk N edges → (∀ iter ∈ netlist, iter.2 ≠ []) →
      (∀ iter ∈ netlist, ∀ p ∈ iter.2, ∃ i, nm p.1 = some i ∧ i < N) →
      ∃ edges1, connect_nets nm netlist edges = (edges1, none) ∧ EdgesOk N edges1 ∧
        (∀ a b, a ≠ b → pair_weight edges1 a b = pair_weight edges a b + fanout nm netlist a b) ∧
        total_weights edges1 = total_weights edges + cut_size nm netlist := by
  induction netlist with
  | nil =>
    intro edges hok _ _
    exact ⟨edges, rfl, hok, by simp [fanout], by simp [cut_size]⟩
  | cons iter rest ih =>
    intro edges hok hne hcov
    have hne1 := hne iter (List.mem_cons_self _ _)
    have hcov1 := hcov iter (List.mem_cons_self _ _)
    cases hnet : iter.2 with
    | nil => exact absurd hnet hne1
    | cons src sinks =>
      rw [hnet] at hcov1
      obtain ⟨i, hi, hiN⟩ := hcov1 src (List.mem_cons_self _ _)
      obtain ⟨edges1, h1, h2, h3, h4⟩ := connect_sinks_spec nm N i hiN sinks edges hok
        (fun s hs => hcov1 s (List.mem_cons_of_mem _ hs))
      obtain ⟨edges2, k1, k2, k3, k4⟩ := ih edges1 h2
        (fun x hx => hne x (List.mem_cons_of_mem _ hx))
        (fun x hx => hcov x (List.mem_cons_of_mem _ hx))
      refine ⟨edges2, ?_, k2, ?_, ?_⟩
      · simp only [connect_nets, hnet, hi, h1]; exact k1
      · intro a b hab
        rw [k3 a b hab, h3 a b]
        simp only [fanout, List.map_cons, List.sum_cons, net_fanout, hnet, hi, Option.some.injEq]
        by_cases ha : a = i
        · have hb : b ≠ i := fun hc => hab (ha.trans hc.symm)
          simp only [ha, hb, ne_eq, not_false_eq_true, and_self, if_true]
          omega
        · have ha2 : ¬ (i = a) := fun hc => ha hc.symm
          simp only [ha, false_and, if_false, ha2]
          omega
      · rw [k4, h4]
        simp only [cut_size, List.map_cons, List.sum_cons, net_cut, hnet, hi]
        omega

theorem connect_sinks_none (nm : BlockId → Option Nat) (src_node : Nat)
    (sinks : List (BlockId × String)) :
    ∀ edges, (connect_sinks nm src_node sinks edges).2 = none → ∀ s ∈ sinks, nm s.1 ≠ none := by
  induction sinks with
  | nil => intro _ _ s hs; cases hs
  | cons sink rest ih =>
    intro edges h s hs
    unfold connect_sinks at h
    cases hnm : nm sink.1 with
    | none => simp [hnm] at h
    | some i =>
      simp only [hnm] at h
      rcases List.mem_cons.1 hs with rfl | hs1
      · simp [hnm]
      · split at h
        · exact ih _ h s hs1
        · exact ih _ h s hs1

theorem connect_nets_none (nm : BlockId → Option Nat) (netlist : PortNetlist) :
    ∀ edges, (connect_nets nm netlist edges).2 = none →
      (∀ iter ∈ netlist, iter.2 ≠ []) ∧ ∀ iter ∈ netlist, ∀ p ∈ iter.2, nm p.1 ≠ none := by
  induction netlist with
  | nil => intro _ _; exact ⟨by simp, by simp⟩
  | cons iter rest ih =>
    intro edges h
    unfold connect_nets at h
    cases hnet : iter.2 with
    | nil => simp [hnet] at h
    | cons src sinks =>
      simp only [hnet] at h
      cases hnm : nm src.1 with
      | none => simp [hnm] at h
      | some i =>
        simp only [hnm] at h
        cases hcs : connect_sinks nm i sinks edges with
        | mk edges1 err =>
          cases err with
          | some e => simp [hcs] at h
          | none =>
            simp only [hcs] at h
            have h1 := connect_sinks_none nm i sinks edges (by rw [hcs])
            obtain ⟨h2, h3⟩ := ih edges1 h
            refine ⟨?_, ?_⟩
            · intro x hx
              rcases List.mem_cons.1 hx with rfl | hx1
              · simp [hnet]
              · exact h2 x hx1
            · intro x hx p hp
              rcases List.mem_cons.1 hx with rfl | hx1
              · rw [hnet] at hp
                rcases List.mem_cons.1 hp with rfl | hp1
                · simp [hnm]
                · exact h1 p hp1
              · exact h3 x hx1 p hp

theorem node_map_of_covered (clusters : Clusters) (netlist : PortNetlist)
    (hcov : Covered clusters netlist) :
    ∀ iter ∈ netlist, ∀ p ∈ iter.2, ∃ i, node_map clusters p.1 = some i ∧ i < clusters.length := by
  intro iter hi p hp
  obtain ⟨c, hc, hpc⟩ := hcov iter hi p hp
  cases hci : cluster_index p.1 clusters with
  | none => exact absurd hpc ((cluster_index_eq_none _ _).1 hci c hc)
  | some i => exact ⟨i, hci, cluster_index_lt _ _ _ hci⟩

theorem edgesOk_no_self_loop (N : Nat) (edges : List Edge) (h : EdgesOk N edges) :
    edges.any (fun e => decide (e.to_ = e.from_)) = false := by
  rw [Bool.eq_false_iff]
  intro hc
  simp only [List.any_eq_true, decide_eq_true_eq] at hc
  obtain ⟨e, he, hee⟩ := hc
  have := (h.2.1 (e.from_, e.to_) (List.mem_map_of_mem (fun e => (e.from_, e.to_)) he)).2.2
  exact this hee.symm

theorem update_state_spec (clusters : Clusters) (netlist : PortNetlist)
    (hcov : Covered clusters netlist) (hne : NetsNonempty netlist) :
    update_state clusters netlist
        = (⟨clusters, netlist, cluster_nodes clusters, built_edges clusters netlist⟩, none) ∧
      EdgesOk clusters.length (built_edges clusters netlist) ∧
      (∀ a b, a ≠ b →
        pair_weight (built_edges clusters netlist) a b = fanout (node_map clusters) netlist a b) ∧
      total_weights (built_edges clusters netlist) = cut_size (node_map clusters) netlist := by
  obtain ⟨edges1, h1, h2, h3, h4⟩ := connect_nets_spec (node_map clusters) clusters.length netlist
    [] (by simp [EdgesOk, edge_pairs]) hne (node_map_of_covered clusters netlist hcov)
  have hb : built_edges clusters netlist = edges1 := by simp only [built_edges, h1]
  rw [hb]
  refine ⟨?_, h2, ?_, ?_⟩
  · have hnm : (fun blk => cluster_index blk clusters) = node_map clusters := rfl
    simp only [update_state, update_nodes_init, hnm, h1, edgesOk_no_self_loop _ _ h2]
    simp
  · intro a b hab
    rw [h3 a b hab]
    simp [pair_weight, total_weights]
  · rw [h4]
    simp [total_weights]

theorem update_ok (clusters : Clusters) (netlist : PortNetlist)
    (hcov : Covered clusters netlist) (hne : NetsNonempty netlist) :
    update clusters netlist
      = .ok ⟨clusters, netlist, cluster_nodes clusters, built_edges clusters netlist⟩ := by
  simp only [update, (update_state_spec clusters netlist hcov hne).1]

theorem update_state_none (clusters : Clusters) (netlist : PortNetlist) (g : Graph)
    (h : update_state clusters netlist = (g, none)) :
    Covered clusters netlist ∧ NetsNonempty netlist := by
  have hnm : (fun blk => cluster_index blk clusters) = node_map clusters := rfl
  simp only [update_state, update_nodes_init, hnm] at h
  cases hr : (connect_nets (node_map clusters) netlist []).2 with
  | some e => simp [hr] at h
  | none =>
    obtain ⟨h1, h2⟩ := connect_nets_none (node_map clusters) netlist [] hr
    refine ⟨?_, h1⟩
    intro iter hi p hp
    have := h2 iter hi p hp
    by_contra hc
    apply this
    apply (cluster_index_eq_none _ _).2
    intro c hcm hpc
    exact hc ⟨c, hcm, hpc⟩

theorem update_eq_ok (clusters : Clusters) (netlist : PortNetlist) (g : Graph)
    (h : update clusters netlist = .ok g) :
    Covered clusters netlist ∧ NetsNonempty netlist ∧
      g = ⟨clusters, netlist, cluster_nodes clusters, built_edges clusters netlist⟩ := by
  have h0 : update_state clusters netlist = (g, none) := by
    unfold update at h
    cases hs : update_state clusters netlist with
    | mk g1 err =>
      cases err with
      | some e => simp [hs] at h
      | none =>
        simp only [hs] at h
        injection h with h
        rw [h]
  obtain ⟨h1, h2⟩ := update_state_none clusters netlist g h0
  refine ⟨h1, h2, ?_⟩
  have := (update_state_spec clusters netlist h1 h2).1
  rw [h0] at this
  injection this

end graph

namespace graph

/-! ## Topological order of the clustered graph -/

theorem post_order_all_spec (adj : Nat → List Nat) (N fuel : Nat) (hfuel : N ≤ fuel)
    (hadj : ∀ u, ∀ w ∈ adj u, w < N)
    (hacyc : ∀ v, ¬ Relation.TransGen (AdjRel adj) v v) :
    ∀ (roots V O : List Nat), (∀ r ∈ roots, r < N) →
      (∀ x ∈ O, x ∈ V) → (∀ x ∈ V, x ∈ O) → (∀ x ∈ O, x < N) → TopoStack adj O.reverse →
      ∃ V1 O1, post_order_all adj fuel roots (V, O) = .ok (V1, O1) ∧
        (∀ x ∈ O1, x ∈ V1) ∧ (∀ x ∈ V1, x ∈ O1) ∧ (∀ x ∈ O1, x < N) ∧ TopoStack adj O1.reverse ∧
        (∀ r ∈ roots, r ∈ O1) ∧ (∀ x ∈ O, x ∈ O1) := by
  intro roots
  induction roots with
  | nil =>
    intro V O _ h1 h2 h3 h4
    exact ⟨V, O, rfl, h1, h2, h3, h4, by simp, fun x hx => hx⟩
  | cons r rest ih =>
    intro V O hroots h1 h2 h3 h4
    have hrest : ∀ x ∈ rest, x < N := fun x hx => hroots x (List.mem_cons_of_mem _ hx)
    by_cases hr : r ∈ V
    · obtain ⟨V1, O1, k1, k2, k3, k4, k5, k6, k7⟩ := ih V O hrest h1 h2 h3 h4
      refine ⟨V1, O1, ?_, k2, k3, k4, k5, ?_, k7⟩
      · simp only [post_order_all, hr, if_true]; exact k1
      · intro x hx
        rcases List.mem_cons.1 hx with rfl | hx
        · exact k7 _ (h2 _ hr)
        · exact k6 x hx
    · have hcount : unvisited N V ≤ fuel := by
        have : unvisited N V ≤ N := by
          unfold unvisited
          calc ((List.range N).filter _).length ≤ (List.range N).length := List.length_filter_le _ _
            _ = N := List.length_range N
        omega
      obtain ⟨V1, O1, p1, p2, p3, p4, p5, p6, p7, p8, p9⟩ :=
        post_order_spec adj N hadj hacyc fuel r V O (hroots r (List.mem_cons_self _ _)) hr hcount
          h1 h4 (fun x hx hxO => absurd (h2 x hx) hxO)
      have hgray : ∀ x ∈ V1, x ∈ O1 := by
        intro x hx
        by_contra hc
        have := p7 x hx hc
        exact this.2 (h2 x this.1)
      have hlt : ∀ x ∈ O1, x < N := by
        intro x hx
        rcases p9 x (p3 x hx) with h | h
        · exact h
        · exact h3 x (h2 x h)
      obtain ⟨V2, O2, k1, k2, k3, k4, k5, k6, k7⟩ := ih V1 O1 hrest p3 hgray hlt p4
      refine ⟨V2, O2, ?_, k2, k3, k4, k5, ?_, fun x hx => k7 x (p6 x hx)⟩
      · simp only [post_order_all, hr, if_false, p1]; exact k1
      · intro x hx
        rcases List.mem_cons.1 hx with rfl | hx
        · exact k7 _ p5
        · exact k6 x hx

theorem topoStack_nodup (adj : Nat → List Nat) (R : List Nat) (h : TopoStack adj R) : R.Nodup := by
  induction R with
  | nil => exact List.nodup_nil
  | cons u rest ih => exact List.nodup_cons.2 ⟨h.1, ih h.2.2⟩

theorem topoStack_sublist (adj : Nat → List Nat) (R : List Nat) (h : TopoStack adj R)
    (u w : Nat) (hu : u ∈ R) (hw : w ∈ adj u) : [u, w].Sublist R := by
  induction R with
  | nil => cases hu
  | cons x rest ih =>
    rcases List.mem_cons.1 hu with rfl | hu1
    · exact List.Sublist.cons₂ _ (List.singleton_sublist.2 (h.2.1 w hw))
    · exact List.Sublist.cons _ (ih h.2.2 hu1)

/-- Depth-first topological order of an acyclic adjacency over `N` vertices:
the output lists the roots' closure without repetition, successors later. -/
theorem post_order_all_topological (adj : Nat → List Nat) (N : Nat) (roots : List Nat)
    (hroots : ∀ x, x ∈ roots ↔ x < N)
    (hadj : ∀ u, ∀ w ∈ adj u, w < N)
    (hacyc : ∀ v, ¬ Relation.TransGen (AdjRel adj) v v) :
    ∃ st, post_order_all adj (N + 1) roots ([], []) = .ok st ∧
      st.2.reverse.Perm (List.range N) ∧
      ∀ u w, u < N → w ∈ adj u → [u, w].Sublist st.2.reverse := by
  obtain ⟨V1, O1, k1, k2, k3, k4, k5, k6, _⟩ :=
    post_order_all_spec adj N (N + 1) (Nat.le_succ N) hadj hacyc roots [] []
      (fun r hr => (hroots r).1 hr) (by simp) (by simp) (by simp) (by simp [TopoStack])
  refine ⟨(V1, O1), k1, ?_, ?_⟩
  · apply (List.perm_ext_iff_of_nodup (topoStack_nodup adj _ k5) (List.nodup_range N)).2
    intro x
    simp only [List.mem_reverse, List.mem_range]
    exact ⟨fun hx => k4 x hx, fun hx => k6 x ((hroots x).2 hx)⟩
  · intro u w hu hw
    exact topoStack_sublist adj _ k5 u w (by simpa using k6 u ((hroots u).2 hu)) hw

theorem acyclic_of_has_loop_false (g : Graph) (hok : EdgesOk g.nodes_.length g.edges_)
    (h : has_loop g = .ok false) : ∀ v, ¬ Relation.TransGen (EdgeRel g.edges_) v v := by
  intro v hv
  obtain ⟨b, hb, hbs⟩ := has_loop_spec g
  rw [h] at hb
  injection hb with hb
  have hvN : v < g.nodes_.length := by
    obtain ⟨w, hvw, _⟩ := Relation.TransGen.head'_iff.1 hv
    obtain ⟨e, he, hf, ht⟩ := hvw
    have := (hok.2.1 (e.from_, e.to_) (List.mem_map_of_mem (fun e => (e.from_, e.to_)) he)).1
    rw [← hf]; exact this
  have := hbs.2 ⟨v, hvN, hv⟩
  rw [← hb] at this
  cases this

theorem adjRel_edges_to (edges : List Edge) : AdjRel (edges_to edges) = EdgeRel edges := by
  funext u v
  exact propext (mem_edges_to edges u v)

theorem topological_order_spec (g : Graph) (hok : EdgesOk g.nodes_.length g.edges_)
    (h : has_loop g = .ok false) :
    ∃ order, topological_order g = .ok order ∧ order.Perm (List.range g.nodes_.length) ∧
      ∀ e ∈ g.edges_, [e.from_, e.to_].Sublist order := by
  obtain ⟨st, h1, h2, h3⟩ := post_order_all_topological (edges_to g.edges_) g.nodes_.length
    (List.range g.nodes_.length) (fun x => List.mem_range)
    (fun u w hw => by
      obtain ⟨e, he, hf, ht⟩ := (mem_edges_to _ _ _).1 hw
      have := (hok.2.1 (e.from_, e.to_) (List.mem_map_of_mem (fun e => (e.from_, e.to_)) he)).2.1
      rw [← ht]; exact this)
    (by rw [adjRel_edges_to]; exact acyclic_of_has_loop_false g hok h)
  refine ⟨st.2.reverse, by simp only [topological_order, h1], h2, ?_⟩
  intro e he
  have := (hok.2.1 (e.from_, e.to_) (List.mem_map_of_mem (fun e => (e.from_, e.to_)) he)).1
  exact h3 e.from_ e.to_ this ((mem_edges_to _ _ _).2 ⟨e, he, rfl, rfl⟩)

theorem map_node_id_range (g : Graph) :
    (List.range g.nodes_.length).map (node_id g) = g.nodes_.map (fun n => n.id) := by
  apply List.ext_getElem
  · simp
  · intro i h1 h2
    simp only [List.length_map, List.length_range] at h1
    simp [node_id, List.getD_eq_getElem?_getD, List.getElem?_eq_getElem h1]

/-- C7: on a clustered graph without loop, `topological_sort` returns a list
that is a rearrangement of the cluster ids, holds every id once, and lists
the source of every edge before its target. -/
theorem topological_sort_respects_edges (clusters : Clusters) (netlist : PortNetlist) (g : Graph)
    (hsorted : KeysSorted clusters) (hg : Graph.new clusters netlist = .ok g)
    (hloop : has_loop g = .ok false) :
    ∃ order, topological_sort g = .ok order ∧
      order.Perm (clusters.map Prod.fst) ∧ order.Nodup ∧
      ∀ e ∈ g.edges_, [node_id g e.from_, node_id g e.to_].Sublist order := by
  obtain ⟨hcov, hne, hgeq⟩ := update_eq_ok clusters netlist g hg
  have hspec := update_state_spec clusters netlist hcov hne
  have hok : EdgesOk g.nodes_.length g.edges_ := by
    rw [hgeq]; simpa [cluster_nodes] using hspec.2.1
  obtain ⟨order, h1, h2, h3⟩ := topological_order_spec g hok hloop
  have hids : g.nodes_.map (fun n => n.id) = clusters.map Prod.fst := by
    rw [hgeq]; simp [cluster_nodes]
  have hperm : (order.map (node_id g)).Perm (clusters.map Prod.fst) := by
    rw [← hids, ← map_node_id_range]
    exact h2.map _
  have hnodup : (clusters.map Prod.fst).Nodup := by
    have : (clusters.map Prod.fst).Pairwise (fun a b => a < b) := List.pairwise_map.2 hsorted
    exact this.imp (fun hab => ne_of_lt hab)
  refine ⟨order.map (node_id g), ?_, hperm, hperm.nodup_iff.2 hnodup, ?_⟩
  · simp only [topological_sort, h1]
    rfl
  · intro e he
    exact (h3 e he).map (node_id g)

end graph

namespace TimingGraph

/-! ## Topological order of the timing graph -/

theorem find_node_lt (name : String) (nodes : List TimingNode) (i : Nat)
    (h : find_node name nodes = some i) : i < nodes.length := by
  induction nodes generalizing i with
  | nil => cases h
  | cons n rest ih =>
    unfold find_node at h
    by_cases hn : n.name = name
    · simp only [hn, if_true, Option.some.injEq] at h
      simp [← h]
    · simp only [hn, if_false] at h
      cases hr : find_node name rest with
      | none => rw [hr] at h; cases h
      | some j =>
        rw [hr] at h
        simp only [Option.map_some', Option.some.injEq] at h
        have := ih j hr
        simp only [List.length_cons]
        omega

theorem length_modify_node (nodes : List TimingNode) (i : Nat) (f : TimingNode → TimingNode) :
    (modify_node nodes i f).length = nodes.length := by
  induction nodes generalizing i with
  | nil => rfl
  | cons n rest ih =>
    cases i with
    | zero => rfl
    | succ i => simp [modify_node, ih]

theorem mem_modify_node (nodes : List TimingNode) (i : Nat) (f : TimingNode → TimingNode)
    (m : TimingNode) (h : m ∈ modify_node nodes i f) : m ∈ nodes ∨ ∃ n ∈ nodes, m = f n := by
  induction nodes generalizing i with
  | nil => cases h
  | cons n rest ih =>
    cases i with
    | zero =>
      simp only [modify_node, List.mem_cons] at h
      rcases h with rfl | h
      · exact Or.inr ⟨n, List.mem_cons_self _ _, rfl⟩
      · exact Or.inl (List.mem_cons_of_mem _ h)
    | succ i =>
      simp only [modify_node, List.mem_cons] at h
      rcases h with rfl | h
      · exact Or.inl (List.mem_cons_self _ _)
      · rcases ih i h with h1 | ⟨k, hk, hm⟩
        · exact Or.inl (List.mem_cons_of_mem _ h1)
        · exact Or.inr ⟨k, List.mem_cons_of_mem _ hk, hm⟩

theorem nextValid_get_node (nodes : List TimingNode) (pin : Pin) (h : NextValid nodes) :
    NextValid (get_node nodes pin).1 ∧ (get_node nodes pin).2 < (get_node nodes pin).1.length ∧
      nodes.length ≤ (get_node nodes pin).1.length := by
  unfold get_node
  cases hf : find_node pin.name nodes with
  | some i => exact ⟨h, find_node_lt _ _ _ hf, le_refl _⟩
  | none =>
    refine ⟨?_, by simp, by simp⟩
    intro n hn w hw
    simp only [List.mem_append, List.mem_singleton] at hn
    simp only [List.length_append, List.length_singleton]
    rcases hn with hn | rfl
    · exact Nat.lt_succ_of_lt (h n hn w hw)
    · cases hw

theorem nextValid_add_next (nodes : List TimingNode) (i j : Nat) (h : NextValid nodes)
    (hj : j < nodes.length) :
    NextValid (modify_node nodes i (fun n => { n with next := n.next ++ [j] })) := by
  intro n hn w hw
  rw [length_modify_node]
  rcases mem_modify_node _ _ _ _ hn with h1 | ⟨k, hk, rfl⟩
  · exact h n h1 w hw
  · simp only [List.mem_append, List.mem_singleton] at hw
    rcases hw with hw | rfl
    · exact h k hk w hw
    · exact hj

theorem nextValid_keep_next (nodes : List TimingNode) (i : Nat) (f : TimingNode → TimingNode)
    (hf : ∀ n, (f n).next = n.next) (h : NextValid nodes) : NextValid (modify_node nodes i f) := by
  intro n hn w hw
  rw [length_modify_node]
  rcases mem_modify_node _ _ _ _ hn with h1 | ⟨k, hk, rfl⟩
  · exact h n h1 w hw
  · rw [hf] at hw
    exact h k hk w hw

theorem nextValid_add_sinks (src_node : Nat) (sinks : List Pin) :
    ∀ nodes, NextValid nodes → NextValid (add_sinks src_node sinks nodes) := by
  induction sinks with
  | nil => intro nodes h; exact h
  | cons sink rest ih =>
    intro nodes h
    obtain ⟨h1, h2, _⟩ := nextValid_get_node nodes sink h
    unfold add_sinks
    apply ih
    refine nextValid_keep_next _ _ _ ?_ ?_
    · intro n; rfl
    · exact nextValid_add_next _ _ _ h1 h2

theorem nextValid_build (netlist : Netlist) :
    ∀ nodes result, NextValid nodes → build netlist nodes = some result → NextValid result := by
  induction netlist with
  | nil =>
    intro nodes result h hb
    simp only [build, Option.some.injEq] at hb
    rw [← hb]; exact h
  | cons entry rest ih =>
    intro nodes result h hb
    unfold build at hb
    cases hp : entry.2.pins_ with
    | nil => simp [hp] at hb
    | cons src_pin sinks =>
      simp only [hp] at hb
      refine ih _ result ?_ hb
      apply nextValid_add_sinks
      refine nextValid_keep_next _ _ _ ?_ ?_
      · intro n; rfl
      · exact (nextValid_get_node nodes src_pin h).1

theorem next_of_lt (nodes : List TimingNode) (h : NextValid nodes) :
    ∀ u, ∀ w ∈ next_of nodes u, w < nodes.length := by
  intro u w hw
  unfold next_of at hw
  cases hu : nodes[u]? with
  | none => simp [hu] at hw
  | some n =>
    simp only [hu] at hw
    exact h n (List.getElem?_mem hu) w hw

/-- C8: for a netlist whose timing graph is acyclic, `topological_sort`
returns, whatever the iteration order of the node container, a list that
holds every timing node exactly once and in which every node precedes each of
its `next` successors. -/
theorem timing_topological_sort_respects_edges (netlist : Netlist) (nodes : List TimingNode)
    (order : List Nat) (hbuild : build netlist [] = some nodes)
    (horder : order.Perm (List.range nodes.length))
    (hacyc : ∀ v, ¬ Relation.TransGen (fun u w => w ∈ next_of nodes u) v v) :
    ∃ result, topological_sort nodes order = .ok result ∧
      result.Perm (List.range nodes.length) ∧
      ∀ u v, u < nodes.length → v ∈ next_of nodes u → [u, v].Sublist result := by
  have hvalid : NextValid nodes :=
    nextValid_build netlist [] nodes (fun n hn => by cases hn) hbuild
  obtain ⟨st, h1, h2, h3⟩ := graph.post_order_all_topological (next_of nodes) nodes.length order
    (fun x => by rw [horder.mem_iff]; exact List.mem_range)
    (next_of_lt nodes hvalid) hacyc
  exact ⟨st.2.reverse, by simp only [topological_sort, h1], h2, h3⟩

end TimingGraph

namespace graph

/-! ## What `update` builds on a partition of the netlist blocks -/

theorem keysSorted_nodup (cs : Clusters) (h : KeysSorted cs) : cs.Nodup :=
  List.Pairwise.imp (fun hab heq => by rw [heq] at hab; exact lt_irrefl _ hab) h

theorem keysSorted_index_unique (cs : Clusters) (h : KeysSorted cs) (i j : Nat)
    (c : Int × Finset BlockId) (hi : cs[i]? = some c) (hj : cs[j]? = some c) : i = j := by
  have hnd := keysSorted_nodup cs h
  have hil : i < cs.length := (List.getElem?_eq_some_iff.1 hi).1
  have hjl : j < cs.length := (List.getElem?_eq_some_iff.1 hj).1
  have h1 : cs[i] = c := (List.getElem?_eq_some_iff.1 hi).2
  have h2 : cs[j] = c := (List.getElem?_eq_some_iff.1 hj).2
  exact (List.Nodup.getElem_inj_iff hnd).1 (h1.trans h2.symm)

/-- On a block that lies in exactly one cluster, `node_map` gives the position
of that cluster. -/
theorem node_map_eq_iff (cs : Clusters) (hs : KeysSorted cs) (x : BlockId)
    (hx : ∃! c, c ∈ cs ∧ x ∈ c.2) (a : Nat) (ca : Int × Finset BlockId) (ha : cs[a]? = some ca) :
    node_map cs x = some a ↔ x ∈ ca.2 := by
  obtain ⟨c0, ⟨hc0, hx0⟩, huniq⟩ := hx
  constructor
  · intro h
    obtain ⟨c, hc, hxc⟩ := cluster_index_mem x cs a h
    rw [ha] at hc
    injection hc with hc
    rw [hc]; exact hxc
  · intro h
    cases hci : cluster_index x cs with
    | none => exact absurd hx0 ((cluster_index_eq_none _ _).1 hci c0 hc0)
    | some i =>
      obtain ⟨c, hc, hxc⟩ := cluster_index_mem x cs i hci
      have e1 : c = c0 := huniq c ⟨List.getElem?_mem hc, hxc⟩
      have e2 : ca = c0 := huniq ca ⟨List.getElem?_mem ha, h⟩
      have : i = a := keysSorted_index_unique cs hs i a c0 (e1 ▸ hc) (e2 ▸ ha)
      simp only [node_map, hci, this]

theorem pair_weight_eq_of_mem (es : List Edge) (hnd : (edge_pairs es).Nodup) (e : Edge)
    (he : e ∈ es) : pair_weight es e.from_ e.to_ = e.weight := by
  induction es with
  | nil => cases he
  | cons x rest ih =>
    simp only [edge_pairs, List.map_cons, List.nodup_cons] at hnd
    simp only [pair_weight, total_weights] at ih ⊢
    rcases List.mem_cons.1 he with rfl | he1
    · have hnone : rest.filter (fun y => decide (y.from_ = e.from_ ∧ y.to_ = e.to_)) = [] := by
        rw [List.filter_eq_nil_iff]
        intro y hy hc
        simp only [decide_eq_true_eq] at hc
        apply hnd.1
        have := List.mem_map_of_mem (fun e => (e.from_, e.to_)) hy
        simp only [hc.1, hc.2] at this
        exact this
      rw [List.filter_cons, hnone]
      simp
    · have hne : ¬ (x.from_ = e.from_ ∧ x.to_ = e.to_) := by
        intro hc
        apply hnd.1
        have := List.mem_map_of_mem (fun e => (e.from_, e.to_)) he1
        simp only [← hc.1, ← hc.2] at this
        exact this
      simp only [List.filter_cons, hne, decide_False, Bool.false_eq_true, if_false]
      exact ih hnd.2 he1

theorem pair_weight_pos_iff (es : List Edge) (hpos : ∀ e ∈ es, 1 ≤ e.weight) (a b : Nat) :
    0 < pair_weight es a b ↔ ∃ e ∈ es, e.from_ = a ∧ e.to_ = b := by
  induction es with
  | nil => simp [pair_weight, total_weights]
  | cons x rest ih =>
    have ih1 := ih (fun e he => hpos e (List.mem_cons_of_mem _ he))
    simp only [pair_weight, total_weights] at ih1 ⊢
    by_cases hx : x.from_ = a ∧ x.to_ = b
    · have := hpos x (List.mem_cons_self _ _)
      simp only [List.filter_cons, hx, and_self, decide_True, if_true, List.map_cons,
        List.sum_cons, List.mem_cons, exists_eq_or_imp, true_or, iff_true]
      omega
    · simp only [List.filter_cons, hx, decide_False, Bool.false_eq_true, if_false, ih1,
        List.mem_cons, exists_eq_or_imp, false_or]

theorem fanout_eq_fanout_pairs (cs : Clusters) (hs : KeysSorted cs) (a b : Nat)
    (ca cb : Int × Finset BlockId) (ha : cs[a]? = some ca) (hb : cs[b]? = some cb)
    (netlist : PortNetlist)
    (hpart : ∀ iter ∈ netlist, ∀ p ∈ iter.2, ∃! c, c ∈ cs ∧ p.1 ∈ c.2) :
    fanout (node_map cs) netlist a b = fanout_pairs ca.2 cb.2 netlist := by
  induction netlist with
  | nil => rfl
  | cons iter rest ih =>
    have ih1 := ih (fun x hx => hpart x (List.mem_cons_of_mem _ hx))
    have h1 := hpart iter (List.mem_cons_self _ _)
    simp only [fanout, fanout_pairs] at ih1 ⊢
    simp only [List.map_cons, List.sum_cons, ih1, Nat.add_right_cancel_iff]
    cases hnet : iter.2 with
    | nil => rfl
    | cons src sinks =>
      rw [hnet] at h1
      have hsrc := node_map_eq_iff cs hs src.1 (h1 src (List.mem_cons_self _ _)) a ca ha
      have hfilter : sinks.filter (fun s => decide (node_map cs s.1 = some b))
          = sinks.filter (fun s => decide (s.1 ∈ cb.2)) := by
        apply List.filter_congr
        intro s hsm
        have := node_map_eq_iff cs hs s.1 (h1 s (List.mem_cons_of_mem _ hsm)) b cb hb
        simp only [this]
      simp only [net_fanout, hfilter]
      by_cases hm : src.1 ∈ ca.2
      · simp only [hsrc.2 hm, hm, if_true]
      · have : ¬ node_map cs src.1 = some a := fun hc => hm (hsrc.1 hc)
        simp only [this, hm, if_false]

theorem fanout_pairs_pos_iff (ca cb : Finset BlockId) (netlist : PortNetlist) :
    0 < fanout_pairs ca cb netlist ↔
      ∃ iter ∈ netlist, ∃ src sinks, iter.2 = src :: sinks ∧ src.1 ∈ ca ∧ ∃ s ∈ sinks, s.1 ∈ cb := by
  induction netlist with
  | nil => simp [fanout_pairs]
  | cons iter rest ih =>
    simp only [fanout_pairs] at ih ⊢
    simp only [List.map_cons, List.sum_cons, List.mem_cons, exists_eq_or_imp]
    rw [← ih]
    cases hnet : iter.2 with
    | nil => simp
    | cons src sinks =>
      by_cases hm : src.1 ∈ ca
      · simp only [hm, if_true, List.cons.injEq, true_and]
        constructor
        · intro h
          by_cases hf : 0 < (sinks.filter (fun s => decide (s.1 ∈ cb))).length
          · left
            obtain ⟨s, hs⟩ := List.exists_mem_of_length_pos hf
            simp only [List.mem_filter, decide_eq_true_eq] at hs
            exact ⟨src, sinks, ⟨rfl, rfl⟩, hm, s, hs.1, hs.2⟩
          · right; omega
        · rintro (⟨src1, sinks1, ⟨rfl, rfl⟩, _, s, hs, hsb⟩ | h)
          · have : s ∈ sinks.filter (fun s => decide (s.1 ∈ cb)) := by
              simp only [List.mem_filter, decide_eq_true_eq]; exact ⟨hs, hsb⟩
            have := List.length_pos_of_mem this
            omega
          · omega
      · simp only [hm, if_false, Nat.zero_add, List.cons.injEq]
        constructor
        · intro h; exact Or.inr h
        · rintro (⟨src1, sinks1, ⟨rfl, rfl⟩, hc, _⟩ | h)
          · exact absurd hc hm
          · exact h

/-- C10: on a cluster assignment in which every netlist block lies in exactly
one cluster, `update` succeeds and builds one vertex per cluster with the
cluster's block count, no self-loop, at most one edge per ordered pair of
clusters, an edge exactly where some net drives from the first cluster into
the second, with weight the number of such (net, receiver position) pairs. -/
theorem update_builds_clustered_graph (clusters : Clusters) (netlist : PortNetlist)
    (hsorted : KeysSorted clusters) (hne : NetsNonempty netlist)
    (hpart : ∀ iter ∈ netlist, ∀ p ∈ iter.2, ∃! c, c ∈ clusters ∧ p.1 ∈ c.2) :
    ∃ g, update clusters netlist = .ok g ∧ g.clusters_ = clusters ∧
      g.nodes_ = clusters.map (fun c => ⟨c.1, c.2.card⟩) ∧
      (∀ e ∈ g.edges_, e.from_ ≠ e.to_ ∧ e.from_ < clusters.length ∧ e.to_ < clusters.length) ∧
      (g.edges_.map (fun e => (e.from_, e.to_))).Nodup ∧
      ∀ a b ca cb, clusters[a]? = some ca → clusters[b]? = some cb → a ≠ b →
        ((∃ e ∈ g.edges_, e.from_ = a ∧ e.to_ = b) ↔
          ∃ iter ∈ netlist, ∃ src sinks, iter.2 = src :: sinks ∧ src.1 ∈ ca.2 ∧
            ∃ s ∈ sinks, s.1 ∈ cb.2) ∧
        ∀ e ∈ g.edges_, e.from_ = a → e.to_ = b → e.weight = fanout_pairs ca.2 cb.2 netlist := by
  have hcov : Covered clusters netlist := by
    intro iter hi p hp
    obtain ⟨c, ⟨hc, hpc⟩, _⟩ := hpart iter hi p hp
    exact ⟨c, hc, hpc⟩
  obtain ⟨h1, h2, h3, _⟩ := update_state_spec clusters netlist hcov hne
  refine ⟨_, update_ok clusters netlist hcov hne, rfl, rfl, ?_, h2.1, ?_⟩
  · intro e he
    have := h2.2.1 (e.from_, e.to_) (List.mem_map_of_mem (fun e => (e.from_, e.to_)) he)
    exact ⟨this.2.2, this.1, this.2.1⟩
  · intro a b ca cb ha hb hab
    have hw := h3 a b hab
    rw [fanout_eq_fanout_pairs clusters hsorted a b ca cb ha hb netlist hpart] at hw
    refine ⟨?_, ?_⟩
    · rw [← pair_weight_pos_iff _ h2.2.2 a b, hw, fanout_pairs_pos_iff]
    · intro e he hf ht
      have := pair_weight_eq_of_mem _ h2.1 e he
      rw [hf, ht, hw] at this
      exact this.symm

end graph

namespace graph

/-! ## Operations on the cluster map -/

theorem lookup_mem (cs : Clusters) (k : Int) (s : Finset BlockId) (h : cs.lookup k = some s) :
    (k, s) ∈ cs := by
  induction cs with
  | nil => cases h
  | cons c rest ih =>
    obtain ⟨k1, s1⟩ := c
    rw [List.lookup_cons] at h
    by_cases hk : k = k1
    · subst hk
      simp only [beq_self_eq_true, Option.some.injEq] at h
      rw [h]; exact List.mem_cons_self _ _
    · have : (k == k1) = false := by simpa using hk
      rw [this] at h
      exact List.mem_cons_of_mem _ (ih h)

theorem lookup_of_mem (cs : Clusters) (hs : KeysSorted cs) (k : Int) (s : Finset BlockId)
    (h : (k, s) ∈ cs) : cs.lookup k = some s := by
  induction cs with
  | nil => cases h
  | cons c rest ih =>
    obtain ⟨k1, s1⟩ := c
    unfold KeysSorted at hs
    rw [List.pairwise_cons] at hs
    rw [List.lookup_cons]
    rcases List.mem_cons.1 h with heq | hr
    · injection heq with h1 h2
      subst h1; subst h2
      simp
    · have hlt := hs.1 (k, s) hr
      have : (k == k1) = false := by
        simp only [beq_eq_false_iff_ne, ne_eq]
        intro hc; rw [hc] at hlt; exact lt_irrefl _ hlt
      rw [this]
      exact ih hs.2 hr

theorem keysSorted_erase (t : Int) (cs : Clusters) (h : KeysSorted cs) :
    KeysSorted (clusters_erase t cs) :=
  List.Pairwise.filter _ h

theorem keysSorted_add (b : Int) (blks : Finset BlockId) (cs : Clusters) (h : KeysSorted cs) :
    KeysSorted (clusters_add b blks cs) := by
  unfold KeysSorted clusters_add
  rw [List.pairwise_map]
  apply List.Pairwise.imp _ h
  intro x y hxy
  have e1 : ∀ z : Int × Finset BlockId, (if z.1 = b then (z.1, z.2 ∪ blks) else z).1 = z.1 := by
    intro z; split <;> rfl
  rw [e1, e1]; exact hxy

theorem clusters_add_length (b : Int) (blks : Finset BlockId) (cs : Clusters) :
    (clusters_add b blks cs).length = cs.length := by
  simp [clusters_add]

theorem clusters_erase_length_le (t : Int) (cs : Clusters) :
    (clusters_erase t cs).length ≤ cs.length :=
  List.length_filter_le _ _

theorem clusters_erase_length (t : Int) (cs : Clusters) (hs : KeysSorted cs)
    (s : Finset BlockId) (h : (t, s) ∈ cs) : (clusters_erase t cs).length + 1 = cs.length := by
  induction cs with
  | nil => cases h
  | cons c rest ih =>
    unfold KeysSorted at hs
    rw [List.pairwise_cons] at hs
    unfold clusters_erase
    rcases List.mem_cons.1 h with heq | hr
    · have hc : c.1 = t := by rw [← heq]
      have hall : rest.filter (fun c => decide (c.1 ≠ t)) = rest := by
        rw [List.filter_eq_self]
        intro x hx
        have := hs.1 x hx
        simp only [ne_eq, decide_eq_true_eq]
        intro hxt; rw [hxt, hc] at this; exact lt_irrefl _ this
      rw [List.filter_cons, hall]
      simp [hc]
    · have hlt := hs.1 (t, s) hr
      have hc : c.1 ≠ t := fun hc => by rw [hc] at hlt; exact lt_irrefl _ hlt
      have := ih hs.2 hr
      unfold clusters_erase at this
      simp only [List.filter_cons, ne_eq, hc, not_false_eq_true, decide_True, if_true,
        List.length_cons]
      simp only [ne_eq] at this
      omega

theorem merge_clusters_length_le (base target : Int) (cs merged : Clusters)
    (h : merge_clusters base target cs = .ok merged) : merged.length ≤ cs.length := by
  unfold merge_clusters at h
  cases ht : cs.lookup target with
  | none => simp [ht] at h
  | some blks =>
    simp only [ht] at h
    split at h
    · injection h with h; rw [← h]; exact clusters_erase_length_le _ _
    · cases hb : cs.lookup base with
      | none => simp [hb] at h
      | some s =>
        simp only [hb] at h
        injection h with h; rw [← h]
        exact le_trans (clusters_erase_length_le _ _) (le_of_eq (clusters_add_length _ _ _))

theorem merge_clusters_sorted (base target : Int) (cs merged : Clusters) (hs : KeysSorted cs)
    (h : merge_clusters base target cs = .ok merged) : KeysSorted merged := by
  unfold merge_clusters at h
  cases ht : cs.lookup target with
  | none => simp [ht] at h
  | some blks =>
    simp only [ht] at h
    split at h
    · injection h with h; rw [← h]; exact keysSorted_erase _ _ hs
    · cases hb : cs.lookup base with
      | none => simp [hb] at h
      | some s =>
        simp only [hb] at h
        injection h with h; rw [← h]
        exact keysSorted_erase _ _ (keysSorted_add _ _ _ hs)

/-- Every cluster after a merge is an old cluster, or the base cluster
enlarged by the blocks of the target. -/
theorem merge_clusters_mem (base target : Int) (cs merged : Clusters)
    (h : merge_clusters base target cs = .ok merged) :
    ∃ blks, cs.lookup target = some blks ∧ ∀ c ∈ merged, c.1 ≠ target ∧
      (c ∈ cs ∨ (c.1 = base ∧ ∃ d ∈ cs, d.1 = base ∧ c.2 = d.2 ∪ blks)) := by
  unfold merge_clusters at h
  cases ht : cs.lookup target with
  | none => simp [ht] at h
  | some blks =>
    refine ⟨blks, rfl, ?_⟩
    simp only [ht] at h
    split at h
    · injection h with h; rw [← h]
      intro c hc
      simp only [clusters_erase, List.mem_filter, ne_eq, decide_eq_true_eq] at hc
      exact ⟨hc.2, Or.inl hc.1⟩
    · cases hb : cs.lookup base with
      | none => simp [hb] at h
      | some s =>
        simp only [hb] at h
        injection h with h; rw [← h]
        intro c hc
        simp only [clusters_erase, clusters_add, List.mem_filter, List.mem_map, ne_eq,
          decide_eq_true_eq] at hc
        obtain ⟨⟨d, hd, hdc⟩, hct⟩ := hc
        refine ⟨hct, ?_⟩
        by_cases hdb : d.1 = base
        · simp only [hdb, if_true] at hdc
          right
          exact ⟨by rw [← hdc], d, hd, hdb, by rw [← hdc]⟩
        · simp only [hdb, if_false] at hdc
          left; rw [← hdc]; exact hd

theorem merge_clusters_card (base target : Int) (cs merged : Clusters) (hs : KeysSorted cs)
    (M size_from size_to : Nat) (h : merge_clusters base target cs = .ok merged)
    (hf : cluster_size cs base = .ok size_from) (ht : cluster_size cs target = .ok size_to)
    (hsum : size_from + size_to ≤ M) (hall : ∀ c ∈ cs, c.2.card ≤ M) :
    ∀ c ∈ merged, c.2.card ≤ M := by
  obtain ⟨blks, hl, hm⟩ := merge_clusters_mem base target cs merged h
  intro c hc
  rcases (hm c hc).2 with h1 | ⟨_, d, hd, hdb, hcd⟩
  · exact hall c h1
  · have hlb : cs.lookup base = some d.2 := lookup_of_mem cs hs base d.2 (by rw [← hdb]; exact hd)
    simp only [cluster_size, hlb, Except.ok.injEq] at hf
    simp only [cluster_size, hl, Except.ok.injEq] at ht
    rw [hcd]
    calc (d.2 ∪ blks).card ≤ d.2.card + blks.card := Finset.card_union_le _ _
      _ ≤ M := by omega

end graph

namespace graph

/-! ## Renumbering (`fix_cluster_id`) keeps the graph -/

theorem clusters_emplace_end (k : Int) (s : Finset BlockId) (l : Clusters)
    (h : ∀ c ∈ l, c.1 < k) : clusters_emplace k s l = l ++ [(k, s)] := by
  induction l with
  | nil => rfl
  | cons c rest ih =>
    have hc := h c (List.mem_cons_self _ _)
    unfold clusters_emplace
    rw [if_neg (by omega), if_neg (by omega), ih (fun x hx => h x (List.mem_cons_of_mem _ hx))]
    rfl

theorem renumber_fold (cs : Clusters) :
    ∀ acc : Clusters, (∀ c ∈ acc, c.1 < (acc.length : Int)) →
      (cs.foldl (fun result iter => clusters_emplace (result.length : Int) iter.2 result) acc).map
          Prod.snd = acc.map Prod.snd ++ cs.map Prod.snd ∧
      (cs.foldl (fun result iter => clusters_emplace (result.length : Int) iter.2 result) acc).map
          Prod.fst = acc.map Prod.fst ++
            (List.range' acc.length cs.length).map (fun (i : Nat) => (i : Int)) := by
  induction cs with
  | nil => intro acc _; simp
  | cons c rest ih =>
    intro acc hacc
    rw [List.foldl_cons, clusters_emplace_end _ _ _ hacc]
    have hacc2 : ∀ x ∈ acc ++ [((acc.length : Int), c.2)],
        x.1 < ((acc ++ [((acc.length : Int), c.2)]).length : Int) := by
      intro x hx
      simp only [List.length_append, List.length_singleton, Nat.cast_add, Nat.cast_one]
      rcases List.mem_append.1 hx with h | h
      · have := hacc x h; omega
      · rw [List.mem_singleton.1 h]; simp
    obtain ⟨h1, h2⟩ := ih _ hacc2
    refine ⟨?_, ?_⟩
    · rw [h1]; simp
    · rw [h2]
      simp only [List.map_append, List.map_cons, List.map_nil, List.length_append,
        List.length_singleton, List.length_cons, List.append_assoc, List.singleton_append]
      rw [List.range'_succ]
      simp

theorem renumber_sets (cs : Clusters) : (renumber cs).map Prod.snd = cs.map Prod.snd := by
  have := (renumber_fold cs [] (by simp)).1
  simpa [renumber] using this

theorem renumber_keys (cs : Clusters) :
    (renumber cs).map Prod.fst = (List.range cs.length).map (fun (i : Nat) => (i : Int)) := by
  have := (renumber_fold cs [] (by simp)).2
  simpa [renumber, List.range_eq_range'] using this

theorem renumber_length (cs : Clusters) : (renumber cs).length = cs.length := by
  have := congrArg List.length (renumber_sets cs)
  simpa using this

theorem renumber_sorted (cs : Clusters) : KeysSorted (renumber cs) := by
  unfold KeysSorted
  have h : ((renumber cs).map Prod.fst).Pairwise (fun a b => a < b) := by
    rw [renumber_keys]
    exact List.Pairwise.map (fun i : Nat => (i : Int)) (fun a b hab => Int.ofNat_lt.2 hab)
      (List.pairwise_lt_range cs.length)
  exact List.pairwise_map.1 h

theorem mem_sets_iff (cs cs1 : Clusters) (h : cs.map Prod.snd = cs1.map Prod.snd)
    (s : Finset BlockId) : (∃ c ∈ cs, c.2 = s) ↔ ∃ c ∈ cs1, c.2 = s := by
  have e : ∀ l : Clusters, (∃ c ∈ l, c.2 = s) ↔ s ∈ l.map Prod.snd := by
    intro l; simp
  rw [e, e, h]

theorem cluster_index_congr (blk : BlockId) :
    ∀ cs cs1 : Clusters, cs.map Prod.snd = cs1.map Prod.snd →
      cluster_index blk cs = cluster_index blk cs1 := by
  intro cs
  induction cs with
  | nil =>
    intro cs1 h
    cases cs1 with
    | nil => rfl
    | cons d r => simp at h
  | cons c rest ih =>
    intro cs1 h
    cases cs1 with
    | nil => simp at h
    | cons d r =>
      simp only [List.map_cons, List.cons.injEq] at h
      simp only [cluster_index, h.1, ih r h.2]

theorem node_map_congr (cs cs1 : Clusters) (h : cs.map Prod.snd = cs1.map Prod.snd) :
    node_map cs = node_map cs1 := by
  funext blk
  exact cluster_index_congr blk cs cs1 h

theorem built_edges_congr (cs cs1 : Clusters) (netlist : PortNetlist)
    (h : cs.map Prod.snd = cs1.map Prod.snd) :
    built_edges cs netlist = built_edges cs1 netlist := by
  simp only [built_edges, node_map_congr cs cs1 h]

theorem covered_congr (cs cs1 : Clusters) (netlist : PortNetlist)
    (h : cs.map Prod.snd = cs1.map Prod.snd) (hcov : Covered cs netlist) :
    Covered cs1 netlist := by
  intro iter hi p hp
  obtain ⟨c, hc, hpc⟩ := hcov iter hi p hp
  obtain ⟨d, hd, hdc⟩ := (mem_sets_iff cs cs1 h c.2).1 ⟨c, hc, rfl⟩
  exact ⟨d, hd, by rw [hdc]; exact hpc⟩

theorem has_loop_congr (g g1 : Graph) (he : g.edges_ = g1.edges_)
    (hn : g.nodes_.length = g1.nodes_.length) : has_loop g = has_loop g1 := by
  simp only [has_loop, he, hn]

theorem update_state_renumber (cs : Clusters) (netlist : PortNetlist)
    (hcov : Covered cs netlist) (hne : NetsNonempty netlist) :
    update_state (renumber cs) netlist
      = (⟨renumber cs, netlist, cluster_nodes (renumber cs), built_edges cs netlist⟩, none) := by
  have := (update_state_spec (renumber cs) netlist
    (covered_congr cs (renumber cs) netlist (renumber_sets cs).symm hcov) hne).1
  rw [built_edges_congr (renumber cs) cs netlist (renumber_sets cs)] at this
  exact this

end graph

namespace graph

/-! ## The capacity pass `Graph::merge(max_size)` -/

theorem update_state_fst (cs : Clusters) (netlist : PortNetlist) :
    (update_state cs netlist).1.clusters_ = cs ∧ (update_state cs netlist).1.netlist_ = netlist := by
  unfold update_state
  simp only
  split
  · exact ⟨rfl, rfl⟩
  · split <;> exact ⟨rfl, rfl⟩

theorem connect_sinks_notCapacity (nm : BlockId → Option Nat) (src_node : Nat)
    (sinks : List (BlockId × String)) :
    ∀ edges, NotCapacity (connect_sinks nm src_node sinks edges).2 := by
  induction sinks with
  | nil => intro edges; exact Or.inl rfl
  | cons sink rest ih =>
    intro edges
    unfold connect_sinks
    cases nm sink.1 with
    | none => exact Or.inr (Or.inl rfl)
    | some i =>
      simp only
      split
      · exact ih _
      · exact ih _

theorem connect_nets_notCapacity (nm : BlockId → Option Nat) (netlist : PortNetlist) :
    ∀ edges, NotCapacity (connect_nets nm netlist edges).2 := by
  induction netlist with
  | nil => intro edges; exact Or.inl rfl
  | cons iter rest ih =>
    intro edges
    unfold connect_nets
    cases iter.2 with
    | nil => exact Or.inr (Or.inr (Or.inl rfl))
    | cons src sinks =>
      simp only
      cases nm src.1 with
      | none => exact Or.inr (Or.inl rfl)
      | some i =>
        simp only
        have := connect_sinks_notCapacity nm i sinks edges
        cases hcs : connect_sinks nm i sinks edges with
        | mk edges1 err =>
          rw [hcs] at this
          cases err with
          | some e => exact this
          | none => exact ih _

theorem update_state_notCapacity (cs : Clusters) (netlist : PortNetlist) :
    NotCapacity (update_state cs netlist).2 := by
  unfold update_state
  simp only
  have := connect_nets_notCapacity (update_nodes cs [] fun _ => none).2 netlist []
  split
  · rename_i e he
    rw [he] at this
    exact this
  · split
    · exact Or.inr (Or.inr (Or.inr rfl))
    · exact Or.inl rfl

theorem update_error_notCapacity (cs : Clusters) (netlist : PortNetlist) (e : Error)
    (h : update cs netlist = .error e) : NotCapacity (some e) := by
  unfold update at h
  have hnc := update_state_notCapacity cs netlist
  cases hus : update_state cs netlist with
  | mk gg ee =>
    rw [hus] at hnc
    cases ee with
    | none => simp [hus] at h
    | some e1 =>
      simp only [hus, Except.error.injEq] at h
      rw [← h]; exact hnc

theorem cluster_size_error (cs : Clusters) (k : Int) (e : Error)
    (h : cluster_size cs k = .error e) : e = .out_of_range := by
  unfold cluster_size at h
  cases hl : cs.lookup k with
  | none => simp only [hl, Except.error.injEq] at h; exact h.symm
  | some s => simp [hl] at h

theorem merge_clusters_error (base target : Int) (cs : Clusters) (e : Error)
    (h : merge_clusters base target cs = .error e) : e = .out_of_range := by
  unfold merge_clusters at h
  cases hl : cs.lookup target with
  | none => simp only [hl, Except.error.injEq] at h; exact h.symm
  | some blks =>
    simp only [hl] at h
    split at h
    · cases h
    · cases hl2 : cs.lookup base with
      | none => simp only [hl2, Except.error.injEq] at h; exact h.symm
      | some s => simp [hl2] at h

theorem merged_copy_error (g : Graph) (edge : Edge) (e : Error)
    (h : merged_copy g edge = .error e) : NotCapacity (some e) := by
  unfold merged_copy Graph.new at h
  cases h0 : update g.clusters_ g.netlist_ with
  | error e0 =>
    simp only [h0, Except.error.injEq] at h
    rw [← h]; exact update_error_notCapacity _ _ _ h0
  | ok g0 =>
    simp only [h0] at h
    unfold Graph.merge2 at h
    cases h1 : merge_clusters (node_id g edge.from_) (node_id g edge.to_) g0.clusters_ with
    | error e1 =>
      simp only [h1, Except.error.injEq] at h
      rw [← h, merge_clusters_error _ _ _ _ h1]
      exact Or.inr (Or.inl rfl)
    | ok merged =>
      simp only [h1] at h
      exact update_error_notCapacity _ _ _ h

theorem has_loop_ok (g : Graph) : ∃ b, has_loop g = .ok b := by
  obtain ⟨b, hb, _⟩ := has_loop_spec g
  exact ⟨b, hb⟩

theorem merged_copy_ok (g g2 : Graph) (edge : Edge) (h : merged_copy g edge = .ok g2) :
    ∃ merged, merge_clusters (node_id g edge.from_) (node_id g edge.to_) g.clusters_ = .ok merged ∧
      update_state merged g.netlist_ = (g2, none) := by
  unfold merged_copy Graph.new at h
  cases h0 : update g.clusters_ g.netlist_ with
  | error e => simp [h0] at h
  | ok g0 =>
    simp only [h0] at h
    obtain ⟨_, _, hg0⟩ := update_eq_ok _ _ _ h0
    unfold Graph.merge2 at h
    cases h1 : merge_clusters (node_id g edge.from_) (node_id g edge.to_) g0.clusters_ with
    | error e => simp [h1] at h
    | ok merged =>
      simp only [h1] at h
      have hc : g0.clusters_ = g.clusters_ := by rw [hg0]
      have hn : g0.netlist_ = g.netlist_ := by rw [hg0]
      rw [hc] at h1
      rw [hn] at h
      obtain ⟨k1, k2, k3⟩ := update_eq_ok _ _ _ h
      refine ⟨merged, h1, ?_⟩
      rw [(update_state_spec merged g.netlist_ k1 k2).1, k3]

theorem try_merge_cases (g : Graph) (M : Nat) (edges : List Edge) :
    ∀ (g1 : Graph) (err : Option Error), try_merge g M edges = (g1, err) →
      NotCapacity err ∧ ((g1 = g) ∨ (err = none ∧ ∃ edge ∈ edges, ∃ size_from size_to merged,
        cluster_size g.clusters_ (node_id g edge.from_) = .ok size_from ∧
        cluster_size g.clusters_ (node_id g edge.to_) = .ok size_to ∧
        size_from + size_to ≤ M ∧
        merge_clusters (node_id g edge.from_) (node_id g edge.to_) g.clusters_ = .ok merged ∧
        update_state merged g.netlist_ = (g1, none) ∧ has_loop g1 = .ok false ∧
        total_weights g1.edges_ ≤ total_weights g.edges_)) := by
  induction edges with
  | nil =>
    intro g1 err h
    simp only [try_merge, Prod.mk.injEq] at h
    exact ⟨(by rw [← h.2]; exact Or.inl rfl), Or.inl h.1.symm⟩
  | cons edge rest ih =>
    intro g1 err h
    have lift : (NotCapacity err ∧ ((g1 = g) ∨ (err = none ∧ ∃ edge ∈ rest,
        ∃ size_from size_to merged,
        cluster_size g.clusters_ (node_id g edge.from_) = .ok size_from ∧
        cluster_size g.clusters_ (node_id g edge.to_) = .ok size_to ∧
        size_from + size_to ≤ M ∧
        merge_clusters (node_id g edge.from_) (node_id g edge.to_) g.clusters_ = .ok merged ∧
        update_state merged g.netlist_ = (g1, none) ∧ has_loop g1 = .ok false ∧
        total_weights g1.edges_ ≤ total_weights g.edges_))) →
        (NotCapacity err ∧ ((g1 = g) ∨ (err = none ∧ ∃ e ∈ edge :: rest,
        ∃ size_from size_to merged,
        cluster_size g.clusters_ (node_id g e.from_) = .ok size_from ∧
        cluster_size g.clusters_ (node_id g e.to_) = .ok size_to ∧
        size_from + size_to ≤ M ∧
        merge_clusters (node_id g e.from_) (node_id g e.to_) g.clusters_ = .ok merged ∧
        update_state merged g.netlist_ = (g1, none) ∧ has_loop g1 = .ok false ∧
        total_weights g1.edges_ ≤ total_weights g.edges_))) := by
      rintro ⟨hn, h1 | ⟨h1, e, he, hrest⟩⟩
      · exact ⟨hn, Or.inl h1⟩
      · exact ⟨hn, Or.inr ⟨h1, e, List.mem_cons_of_mem _ he, hrest⟩⟩
    unfold try_merge at h
    cases hf : cluster_size g.clusters_ (node_id g edge.from_) with
    | error e =>
      simp only [hf, Prod.mk.injEq] at h
      refine ⟨?_, Or.inl h.1.symm⟩
      rw [← h.2, cluster_size_error _ _ _ hf]
      exact Or.inr (Or.inl rfl)
    | ok size_from =>
      cases ht : cluster_size g.clusters_ (node_id g edge.to_) with
      | error e =>
        simp only [hf, ht, Prod.mk.injEq] at h
        refine ⟨?_, Or.inl h.1.symm⟩
        rw [← h.2, cluster_size_error _ _ _ ht]
        exact Or.inr (Or.inl rfl)
      | ok size_to =>
        simp only [hf, ht] at h
        by_cases hsz : size_from + size_to > M
        · rw [if_pos hsz] at h
          exact lift (ih g1 err h)
        · rw [if_neg hsz] at h
          cases hmc : merged_copy g edge with
          | error e =>
            simp only [hmc, Prod.mk.injEq] at h
            refine ⟨?_, Or.inl h.1.symm⟩
            rw [← h.2]
            exact merged_copy_error g edge e hmc
          | ok g2 =>
            simp only [hmc] at h
            obtain ⟨b, hb⟩ := has_loop_ok g2
            obtain ⟨merged, hm1, hm2⟩ := merged_copy_ok g g2 edge hmc
            have hg2c : g2.clusters_ = merged := by
              have := (update_state_fst merged g.netlist_).1
              rw [hm2] at this; exact this
            cases b with
            | true =>
              simp only [hb] at h
              exact lift (ih g1 err h)
            | false =>
              simp only [hb] at h
              by_cases hw : total_weights g2.edges_ ≤ total_weights g.edges_
              · rw [if_pos hw, hg2c, hm2, Prod.mk.injEq] at h
                refine ⟨(by rw [← h.2]; exact Or.inl rfl), Or.inr ⟨h.2.symm, edge,
                  List.mem_cons_self _ _, size_from, size_to, merged, hf, ht, by omega, hm1, ?_, ?_, ?_⟩⟩
                · rw [← h.1]; exact hm2
                · rw [← h.1]; exact hb
                · rw [← h.1]; exact hw
              · rw [if_neg hw] at h
                exact lift (ih g1 err h)

end graph

namespace graph

theorem mem_sort_edges (edges : List Edge) (e : Edge) : e ∈ sort_edges edges ↔ e ∈ edges :=
  (List.perm_insertionSort _ edges).mem_iff

/-- Insertion sort is one of the functions `std::sort` may be. -/
theorem sort_edges_sorts : SortsEdges sort_edges := by
  intro edges
  refine ⟨List.perm_insertionSort _ edges, ?_⟩
  have : IsTotal Edge (fun a b => b.weight ≤ a.weight) := ⟨fun a b => Nat.le_total _ _⟩
  have : IsTrans Edge (fun a b => b.weight ≤ a.weight) :=
    ⟨fun a b c hab hbc => Nat.le_trans hbc hab⟩
  exact List.sorted_insertionSort _ edges

theorem mem_sorter (sorter : List Edge → List Edge) (hsort : SortsEdges sorter)
    (edges : List Edge) (e : Edge) : e ∈ sorter edges ↔ e ∈ edges :=
  (hsort edges).1.mem_iff

theorem mergeStep_clusters (M : Nat) (g g1 : Graph) (h : MergeStep M g g1) :
    g1.netlist_ = g.netlist_ ∧ Built g1 ∧ g1.clusters_.length ≤ g.clusters_.length ∧
      (KeysSorted g.clusters_ → KeysSorted g1.clusters_) ∧
      (KeysSorted g.clusters_ → (∀ c ∈ g.clusters_, c.2.card ≤ M) →
        ∀ c ∈ g1.clusters_, c.2.card ≤ M) := by
  obtain ⟨edge, _, sf, st, merged, h1, h2, h3, h4, h5, _, _⟩ := h
  have hc : g1.clusters_ = merged := by
    have := (update_state_fst merged g.netlist_).1
    rw [h5] at this; exact this
  have hn : g1.netlist_ = g.netlist_ := by
    have := (update_state_fst merged g.netlist_).2
    rw [h5] at this; exact this
  refine ⟨hn, ?_, ?_, ?_, ?_⟩
  · unfold Built; rw [hc, hn]; exact h5
  · rw [hc]; exact merge_clusters_length_le _ _ _ _ h4
  · intro hs; rw [hc]; exact merge_clusters_sorted _ _ _ _ hs h4
  · intro hs hall; rw [hc]
    exact merge_clusters_card _ _ _ _ hs M sf st h4 h1 h2 h3 hall

theorem merge_max_loop_spec (sorter : List Edge → List Edge) (hsort : SortsEdges sorter)
    (M : Nat) :
    ∀ (fuel : Nat) (g gf : Graph) (err : Option Error), KeysSorted g.clusters_ →
      merge_max_loop sorter M fuel g = (gf, err) →
      (g.clusters_.length < fuel → err ≠ some .out_of_fuel) ∧
      (∀ m, err = some (.capacity m) → m = M ∧ gf = g ∧ ∃ c ∈ g.clusters_, M < c.2.card) ∧
      (err = none → KeysSorted gf.clusters_ ∧ (∀ c ∈ gf.clusters_, c.2.card ≤ M) ∧
        Relation.ReflTransGen (MergeStep M) g gf) := by
  intro fuel
  induction fuel with
  | zero =>
    intro g gf err _ h
    simp only [merge_max_loop, Prod.mk.injEq] at h
    refine ⟨fun hc => absurd hc (Nat.not_lt_zero _), ?_, ?_⟩
    · intro m hm; rw [← h.2] at hm; cases hm
    · intro hn; rw [← h.2] at hn; cases hn
  | succ fuel ih =>
    intro g gf err hs h
    unfold merge_max_loop at h
    by_cases hbig : g.clusters_.any (fun c => decide (c.2.card > M)) = true
    · rw [if_pos hbig, Prod.mk.injEq] at h
      simp only [List.any_eq_true, decide_eq_true_eq] at hbig
      refine ⟨(fun _ hc => by rw [← h.2] at hc; cases hc), ?_, ?_⟩
      · intro m hm
        rw [← h.2] at hm
        injection hm with hm
        injection hm with hm
        exact ⟨hm.symm, h.1.symm, hbig⟩
      · intro hn; rw [← h.2] at hn; cases hn
    · rw [if_neg hbig] at h
      have hall : ∀ c ∈ g.clusters_, c.2.card ≤ M := by
        intro c hc
        by_contra hlt
        apply hbig
        simp only [List.any_eq_true, decide_eq_true_eq]
        exact ⟨c, hc, by omega⟩
      cases htm : try_merge g M (sorter g.edges_) with
      | mk g1 e1 =>
        obtain ⟨hnc, hcase⟩ := try_merge_cases g M _ g1 e1 htm
        have hstep : g1 = g ∨ MergeStep M g g1 := by
          rcases hcase with h1 | ⟨_, edge, he, rest⟩
          · exact Or.inl h1
          · exact Or.inr ⟨edge, (mem_sorter sorter hsort _ _).1 he, rest⟩
        cases e1 with
        | some e =>
          simp only [htm, Prod.mk.injEq] at h
          refine ⟨?_, ?_, ?_⟩
          · intro _ hc
            rw [← h.2] at hc
            rcases hnc with h1 | h1 | h1 | h1 <;> rw [hc] at h1 <;> cases h1
          · intro m hm
            rw [← h.2] at hm
            rcases hnc with h1 | h1 | h1 | h1 <;> rw [hm] at h1 <;> cases h1
          · intro hn; rw [← h.2] at hn; cases hn
        | none =>
          simp only [htm] at h
          have hs1 : KeysSorted g1.clusters_ := by
            rcases hstep with h1 | h1
            · rw [h1]; exact hs
            · exact (mergeStep_clusters M g g1 h1).2.2.2.1 hs
          have hall1 : ∀ c ∈ g1.clusters_, c.2.card ≤ M := by
            rcases hstep with h1 | h1
            · rw [h1]; exact hall
            · exact (mergeStep_clusters M g g1 h1).2.2.2.2 hs hall
          have hchain : Relation.ReflTransGen (MergeStep M) g g1 := by
            rcases hstep with h1 | h1
            · rw [h1]
            · exact Relation.ReflTransGen.single h1
          by_cases hlen : g.clusters_.length = g1.clusters_.length
          · rw [if_pos hlen, Prod.mk.injEq] at h
            refine ⟨(fun _ hc => by rw [← h.2] at hc; cases hc), ?_, ?_⟩
            · intro m hm; rw [← h.2] at hm; cases hm
            · intro _
              rw [← h.1]
              exact ⟨hs1, hall1, hchain⟩
          · rw [if_neg hlen] at h
            obtain ⟨k1, k2, k3⟩ := ih g1 gf err hs1 h
            have hle : g1.clusters_.length ≤ g.clusters_.length := by
              rcases hstep with h1 | h1
              · rw [h1]
              · exact (mergeStep_clusters M g g1 h1).2.2.1
            refine ⟨fun hf => k1 (by omega), ?_, ?_⟩
            · intro m hm
              obtain ⟨_, _, c, hc, hcard⟩ := k2 m hm
              have := hall1 c hc
              omega
            · intro hn
              obtain ⟨a1, a2, a3⟩ := k3 hn
              exact ⟨a1, a2, hchain.trans a3⟩

/-- The state and outcome of `merge(max_size)` in terms of the state `gf`
that the merging loop reaches. -/
theorem merge_max_result (g : Graph) (sorter : List Edge → List Edge) (M : Nat) (g1 : Graph)
    (h : (g.merge_max sorter M) = (g1, none)) :
    ∃ gf, merge_max_loop sorter M (g.clusters_.length + 1) g = (gf, none) ∧
      g1.clusters_ = renumber gf.clusters_ ∧ g1.netlist_ = gf.netlist_ ∧
      update_state (renumber gf.clusters_) gf.netlist_ = (g1, none) := by
  unfold Graph.merge_max at h
  cases hl : merge_max_loop sorter M (g.clusters_.length + 1) g with
  | mk gf e =>
    cases e with
    | some e => simp [hl] at h
    | none =>
      simp only [hl] at h
      cases hu : update_state (renumber gf.clusters_) gf.netlist_ with
      | mk g2 e2 =>
        cases e2 with
        | some e => simp [hu] at h
        | none =>
          simp only [hu] at h
          have hf := update_state_fst (renumber gf.clusters_) gf.netlist_
          rw [hu] at hf
          rw [hf.1, hf.2, hu] at h
          injection h with h1 h2
          exact ⟨gf, rfl, (by rw [← h1]; exact hf.1), (by rw [← h1]; exact hf.2), (by rw [← h1]; exact hu)⟩

/-- The capacity pass never exhausts its budget: the loop runs at most once
per cluster. -/
theorem merge_max_terminates (g : Graph) (sorter : List Edge → List Edge)
    (hsort : SortsEdges sorter) (M : Nat) (hs : KeysSorted g.clusters_) :
    (g.merge_max sorter M).2 ≠ some .out_of_fuel := by
  unfold Graph.merge_max
  cases hl : merge_max_loop sorter M (g.clusters_.length + 1) g with
  | mk gf e =>
    obtain ⟨k1, _, _⟩ := merge_max_loop_spec sorter hsort M _ g gf e hs hl
    cases e with
    | some e => exact k1 (Nat.lt_succ_self _)
    | none =>
      simp only
      have hnc1 := update_state_notCapacity (renumber gf.clusters_) gf.netlist_
      cases hu : update_state (renumber gf.clusters_) gf.netlist_ with
      | mk g2 e2 =>
        rw [hu] at hnc1
        cases e2 with
        | some e =>
          simp only
          intro hc
          rcases hnc1 with h1 | h1 | h1 | h1 <;> rw [hc] at h1 <;> cases h1
        | none =>
          simp only
          intro hc
          have hnc2 := update_state_notCapacity g2.clusters_ g2.netlist_
          rcases hnc2 with h1 | h1 | h1 | h1 <;> rw [hc] at h1 <;> cases h1

/-- C3: when `merge(max_size)` returns without error, every cluster of the
resulting assignment holds at most `max_size` blocks, whatever order
`std::sort` gives to edges of equal weight. -/
theorem merge_max_cluster_size_bound (g : Graph) (sorter : List Edge → List Edge) (M : Nat)
    (g1 : Graph) (hsort : SortsEdges sorter) (hs : KeysSorted g.clusters_)
    (h : g.merge_max sorter M = (g1, none)) :
    ∀ c ∈ g1.clusters_, c.2.card ≤ M := by
  obtain ⟨gf, hl, hc, _, _⟩ := merge_max_result g sorter M g1 h
  obtain ⟨_, _, k3⟩ := merge_max_loop_spec sorter hsort M _ g gf none hs hl
  obtain ⟨_, hall, _⟩ := k3 rfl
  intro c hcm
  rw [hc] at hcm
  obtain ⟨d, hd, hdc⟩ := (mem_sets_iff (renumber gf.clusters_) gf.clusters_
    (renumber_sets gf.clusters_) c.2).1 ⟨c, hcm, rfl⟩
  rw [← hdc]; exact hall d hd

/-- C6: `merge(max_size)` raises the capacity error exactly when some cluster
holds more than `max_size` blocks when the call begins, and the call then
leaves the state of the graph as it was, whatever order `std::sort` gives to
edges of equal weight. -/
theorem merge_max_capacity_error_iff (g : Graph) (sorter : List Edge → List Edge) (M : Nat)
    (hsort : SortsEdges sorter) (hs : KeysSorted g.clusters_) :
    ((∃ m, (g.merge_max sorter M).2 = some (.capacity m)) ↔ ∃ c ∈ g.clusters_, M < c.2.card) ∧
      ((∃ c ∈ g.clusters_, M < c.2.card) → g.merge_max sorter M = (g, some (.capacity M))) := by
  have himp : (∃ c ∈ g.clusters_, M < c.2.card) → g.merge_max sorter M = (g, some (.capacity M)) := by
    intro hbig
    have : g.clusters_.any (fun c => decide (c.2.card > M)) = true := by
      simp only [List.any_eq_true, decide_eq_true_eq]; exact hbig
    simp only [Graph.merge_max, merge_max_loop, this, if_true]
  refine ⟨⟨?_, fun hbig => ⟨M, by rw [himp hbig]⟩⟩, himp⟩
  rintro ⟨m, hm⟩
  unfold Graph.merge_max at hm
  cases hl : merge_max_loop sorter M (g.clusters_.length + 1) g with
  | mk gf e =>
    obtain ⟨_, k2, _⟩ := merge_max_loop_spec sorter hsort M _ g gf e hs hl
    cases e with
    | some e =>
      simp only [hl] at hm
      exact (k2 m hm).2.2
    | none =>
      simp only [hl] at hm
      have hnc1 := update_state_notCapacity (renumber gf.clusters_) gf.netlist_
      cases hu : update_state (renumber gf.clusters_) gf.netlist_ with
      | mk g2 e2 =>
        rw [hu] at hnc1
        cases e2 with
        | some e =>
          simp only [hu] at hm
          rcases hnc1 with h1 | h1 | h1 | h1 <;> rw [hm] at h1 <;> cases h1
        | none =>
          simp only [hu] at hm
          have hnc2 := update_state_notCapacity g2.clusters_ g2.netlist_
          rcases hnc2 with h1 | h1 | h1 | h1 <;> rw [hm] at h1 <;> cases h1

theorem built_of_new (clusters : Clusters) (netlist : PortNetlist) (g : Graph)
    (h : Graph.new clusters netlist = .ok g) :
    Built g ∧ g.clusters_ = clusters ∧ g.netlist_ = netlist := by
  obtain ⟨h1, h2, h3⟩ := update_eq_ok clusters netlist g h
  have hc : g.clusters_ = clusters := by rw [h3]
  have hn : g.netlist_ = netlist := by rw [h3]
  refine ⟨?_, hc, hn⟩
  unfold Built
  rw [hc, hn, (update_state_spec clusters netlist h1 h2).1, h3]

theorem built_eq (g : Graph) (h : Built g) :
    Covered g.clusters_ g.netlist_ ∧ NetsNonempty g.netlist_ ∧
      g.nodes_ = cluster_nodes g.clusters_ ∧ g.edges_ = built_edges g.clusters_ g.netlist_ := by
  obtain ⟨h1, h2⟩ := update_state_none _ _ _ h
  have := (update_state_spec _ _ h1 h2).1
  unfold Built at h
  rw [h] at this
  injection this with h3 _
  refine ⟨h1, h2, ?_, ?_⟩
  · exact congrArg Graph.nodes_ h3
  · exact congrArg Graph.edges_ h3

/-- After the renumbering the graph has the vertices and edges of the state
the merging loop reached. -/
theorem merge_max_final (g1 gf : Graph) (hb : Built gf)
    (hu : update_state (renumber gf.clusters_) gf.netlist_ = (g1, none)) :
    g1.edges_ = gf.edges_ ∧ g1.nodes_.length = gf.nodes_.length := by
  obtain ⟨h1, h2, h3, h4⟩ := built_eq gf hb
  have := update_state_renumber gf.clusters_ gf.netlist_ h1 h2
  rw [hu] at this
  injection this with h5 _
  rw [h5]
  refine ⟨h4.symm, ?_⟩
  simp [h3, cluster_nodes, renumber_length]

theorem chain_built (M : Nat) (g gf : Graph) (hb : Built g)
    (h : Relation.ReflTransGen (MergeStep M) g gf) : Built gf := by
  induction h with
  | refl => exact hb
  | tail _ hstep _ => exact (mergeStep_clusters M _ _ hstep).2.1

theorem chain_no_loop (M : Nat) (g gf : Graph) (hl : has_loop g = .ok false)
    (h : Relation.ReflTransGen (MergeStep M) g gf) : has_loop gf = .ok false := by
  induction h with
  | refl => exact hl
  | tail _ hstep _ =>
    obtain ⟨_, _, _, _, _, _, _, _, _, _, h1, _⟩ := hstep
    exact h1

/-- C4 (amended): on a clustered graph that has no loop before the call,
`merge(max_size)`, when it returns without error, leaves a graph without
loop, whatever order `std::sort` gives to edges of equal weight. -/
theorem merge_max_keeps_acyclic (clusters : Clusters) (netlist : PortNetlist) (g g1 : Graph)
    (sorter : List Edge → List Edge) (M : Nat) (hsort : SortsEdges sorter)
    (hs : KeysSorted clusters) (hg : Graph.new clusters netlist = .ok g)
    (hloop : has_loop g = .ok false) (h : g.merge_max sorter M = (g1, none)) :
    has_loop g1 = .ok false := by
  obtain ⟨hb, hc, _⟩ := built_of_new clusters netlist g hg
  obtain ⟨gf, hl, _, _, hu⟩ := merge_max_result g sorter M g1 h
  obtain ⟨_, _, k3⟩ := merge_max_loop_spec sorter hsort M _ g gf none (by rw [hc]; exact hs) hl
  obtain ⟨_, _, hchain⟩ := k3 rfl
  have hbf := chain_built M g gf hb hchain
  obtain ⟨he, hn⟩ := merge_max_final g1 gf hbf hu
  rw [has_loop_congr g1 gf he hn]
  exact chain_no_loop M g gf hloop hchain

end graph

namespace graph

/-! ## Merging two clusters of a partition lowers the total edge weight -/

theorem filter_length_le_of_imp {α : Type} (l : List α) (p q : α → Bool)
    (hpq : ∀ a ∈ l, p a = true → q a = true) : (l.filter p).length ≤ (l.filter q).length := by
  induction l with
  | nil => simp
  | cons a rest ih =>
    have ih1 := ih (fun x hx => hpq x (List.mem_cons_of_mem _ hx))
    rw [List.filter_cons, List.filter_cons]
    by_cases hpa : p a = true
    · rw [if_pos hpa, if_pos (hpq a (List.mem_cons_self _ _) hpa)]
      simp only [List.length_cons]; omega
    · rw [if_neg hpa]
      by_cases hqa : q a = true
      · rw [if_pos hqa]; simp only [List.length_cons]; omega
      · rw [if_neg hqa]; exact ih1

theorem filter_length_lt_of_imp {α : Type} (l : List α) (p q : α → Bool)
    (hpq : ∀ a ∈ l, p a = true → q a = true) (x : α) (hx : x ∈ l) (hqx : q x = true)
    (hpx : p x = false) : (l.filter p).length < (l.filter q).length := by
  induction l with
  | nil => cases hx
  | cons a rest ih =>
    have hle := filter_length_le_of_imp rest p q (fun y hy => hpq y (List.mem_cons_of_mem _ hy))
    rw [List.filter_cons, List.filter_cons]
    rcases List.mem_cons.1 hx with rfl | hx1
    · rw [hqx, hpx]
      simp only [if_true, Bool.false_eq_true, if_false, List.length_cons]
      omega
    · have := ih (fun y hy => hpq y (List.mem_cons_of_mem _ hy)) hx1
      by_cases hpa : p a = true
      · rw [if_pos hpa, if_pos (hpq a (List.mem_cons_self _ _) hpa)]
        simp only [List.length_cons]; omega
      · rw [if_neg hpa]
        by_cases hqa : q a = true
        · rw [if_pos hqa]; simp only [List.length_cons]; omega
        · rw [if_neg hqa]; exact this

/-- A coarser vertex map has no larger cut. -/
theorem cut_size_le (nm nm1 : BlockId → Option Nat) (netlist : PortNetlist)
    (h : ∀ iter ∈ netlist, ∀ src sinks, iter.2 = src :: sinks → ∀ s ∈ sinks,
      nm s.1 = nm src.1 → nm1 s.1 = nm1 src.1) :
    cut_size nm1 netlist ≤ cut_size nm netlist := by
  induction netlist with
  | nil => simp [cut_size]
  | cons iter rest ih =>
    have ih1 := ih (fun x hx => h x (List.mem_cons_of_mem _ hx))
    simp only [cut_size] at ih1 ⊢
    simp only [List.map_cons, List.sum_cons]
    have : net_cut nm1 iter.2 ≤ net_cut nm iter.2 := by
      cases hnet : iter.2 with
      | nil => simp [net_cut]
      | cons src sinks =>
        simp only [net_cut]
        apply filter_length_le_of_imp
        intro s hs hp
        simp only [ne_eq, decide_eq_true_eq] at hp ⊢
        exact fun hc => hp (h iter (List.mem_cons_self _ _) src sinks hnet s hs hc)
    omega

/-- A coarser vertex map that joins the two ends of some crossing
connection has a smaller cut. -/
theorem cut_size_lt (nm nm1 : BlockId → Option Nat) (netlist : PortNetlist)
    (h : ∀ iter ∈ netlist, ∀ src sinks, iter.2 = src :: sinks → ∀ s ∈ sinks,
      nm s.1 = nm src.1 → nm1 s.1 = nm1 src.1)
    (hw : ∃ iter ∈ netlist, ∃ src sinks, iter.2 = src :: sinks ∧ ∃ s ∈ sinks,
      nm s.1 ≠ nm src.1 ∧ nm1 s.1 = nm1 src.1) :
    cut_size nm1 netlist < cut_size nm netlist := by
  induction netlist with
  | nil => obtain ⟨iter, hi, _⟩ := hw; cases hi
  | cons iter rest ih =>
    have hrest := cut_size_le nm nm1 rest (fun x hx => h x (List.mem_cons_of_mem _ hx))
    have hhead := cut_size_le nm nm1 [iter] (fun x hx => by
      rw [List.mem_singleton.1 hx]; exact h iter (List.mem_cons_self _ _))
    simp only [cut_size, List.map_cons, List.sum_cons, List.map_nil, List.sum_nil,
      Nat.add_zero] at hrest hhead ⊢
    obtain ⟨it, hit, src, sinks, hnet, s, hs, hne, heq⟩ := hw
    rcases List.mem_cons.1 hit with rfl | hit1
    · have : net_cut nm1 it.2 < net_cut nm it.2 := by
        simp only [net_cut, hnet]
        apply filter_length_lt_of_imp _ _ _ _ s hs
        · simpa using hne
        · simpa using heq
        · intro x hx hp
          simp only [ne_eq, decide_eq_true_eq] at hp ⊢
          exact fun hc => hp (h it (List.mem_cons_self _ _) src sinks hnet x hx hc)
      omega
    · have := ih (fun x hx => h x (List.mem_cons_of_mem _ hx))
        ⟨it, hit1, src, sinks, hnet, s, hs, hne, heq⟩
      simp only [cut_size] at this
      omega

theorem fanout_pos (nm : BlockId → Option Nat) (netlist : PortNetlist) (a b : Nat)
    (h : 0 < fanout nm netlist a b) :
    ∃ iter ∈ netlist, ∃ src sinks, iter.2 = src :: sinks ∧ nm src.1 = some a ∧
      ∃ s ∈ sinks, nm s.1 = some b := by
  induction netlist with
  | nil => simp [fanout] at h
  | cons iter rest ih =>
    simp only [fanout, List.map_cons, List.sum_cons] at h
    by_cases h1 : 0 < net_fanout nm a b iter.2
    · refine ⟨iter, List.mem_cons_self _ _, ?_⟩
      cases hnet : iter.2 with
      | nil => simp [hnet, net_fanout] at h1
      | cons src sinks =>
        simp only [hnet, net_fanout] at h1
        by_cases hs : nm src.1 = some a
        · rw [if_pos hs] at h1
          obtain ⟨s, hsm⟩ := List.exists_mem_of_length_pos h1
          simp only [List.mem_filter, decide_eq_true_eq] at hsm
          exact ⟨src, sinks, rfl, hs, s, hsm.1, hsm.2⟩
        · rw [if_neg hs] at h1
          exact absurd h1 (Nat.lt_irrefl 0)
    · have h2 : 0 < fanout nm rest a b := by
        simp only [fanout]; omega
      obtain ⟨it, hit, hrest⟩ := ih h2
      exact ⟨it, List.mem_cons_of_mem _ hit, hrest⟩

theorem disjoint_index_unique (cs : Clusters) (hd : ClustersDisjoint cs) (i j : Nat)
    (c d : Int × Finset BlockId) (hi : cs[i]? = some c) (hj : cs[j]? = some d) (x : BlockId)
    (hxc : x ∈ c.2) (hxd : x ∈ d.2) : i = j := by
  by_contra hne
  have hil : i < cs.length := (List.getElem?_eq_some_iff.1 hi).1
  have hjl : j < cs.length := (List.getElem?_eq_some_iff.1 hj).1
  have h1 : cs[i] = c := (List.getElem?_eq_some_iff.1 hi).2
  have h2 : cs[j] = d := (List.getElem?_eq_some_iff.1 hj).2
  have hp := List.pairwise_iff_getElem.1 hd
  rcases Nat.lt_or_gt_of_ne hne with hlt | hgt
  · have := hp i j hil hjl hlt
    rw [h1, h2] at this
    exact (Finset.disjoint_left.1 this) hxc hxd
  · have := hp j i hjl hil hgt
    rw [h1, h2] at this
    exact (Finset.disjoint_left.1 this) hxd hxc

/-- In a disjoint cluster map, two clustered blocks have the same vertex
exactly when some cluster holds both. -/
theorem node_map_eq_iff_same (cs : Clusters) (hd : ClustersDisjoint cs) (x y : BlockId)
    (hx : ∃ c ∈ cs, x ∈ c.2) :
    node_map cs x = node_map cs y ↔ ∃ c ∈ cs, x ∈ c.2 ∧ y ∈ c.2 := by
  obtain ⟨c0, hc0, hx0⟩ := hx
  cases hix : cluster_index x cs with
  | none => exact absurd hx0 ((cluster_index_eq_none _ _).1 hix c0 hc0)
  | some i =>
    obtain ⟨ci, hci, hxi⟩ := cluster_index_mem x cs i hix
    constructor
    · intro h
      simp only [node_map, hix] at h
      obtain ⟨cj, hcj, hyj⟩ := cluster_index_mem y cs i h.symm
      rw [hci] at hcj
      injection hcj with hcj
      exact ⟨ci, List.getElem?_mem hci, hxi, by rw [hcj]; exact hyj⟩
    · rintro ⟨c, hc, hxc, hyc⟩
      obtain ⟨k, hk⟩ := List.getElem?_of_mem hc
      have e1 : i = k := disjoint_index_unique cs hd i k ci c hci hk x hxi hxc
      cases hiy : cluster_index y cs with
      | none => exact absurd hyc ((cluster_index_eq_none _ _).1 hiy c hc)
      | some j =>
        obtain ⟨cj, hcj, hyj⟩ := cluster_index_mem y cs j hiy
        have e2 : j = k := disjoint_index_unique cs hd j k cj c hcj hk y hyj hyc
        simp only [node_map, hix, hiy, e1, e2]

end graph

namespace graph

theorem clusters_add_empty (k : Int) (cs : Clusters) : clusters_add k ∅ cs = cs := by
  unfold clusters_add
  have : (fun c : Int × Finset BlockId => if c.1 = k then (c.1, c.2 ∪ ∅) else c) = id := by
    funext c
    split
    · simp
    · rfl
  rw [this, List.map_id]

theorem erase_add_comm (ka kb : Int) (blks : Finset BlockId) (cs : Clusters) :
    clusters_erase kb (clusters_add ka blks cs) = clusters_add ka blks (clusters_erase kb cs) := by
  unfold clusters_erase clusters_add
  rw [List.filter_map]
  congr 1
  apply List.filter_congr
  intro c _
  simp only [Function.comp]
  split <;> rfl

theorem merge_clusters_normal (ka kb : Int) (cs merged : Clusters)
    (sa sb : Finset BlockId) (ha : cs.lookup ka = some sa) (hb : cs.lookup kb = some sb)
    (h : merge_clusters ka kb cs = .ok merged) :
    merged = clusters_add ka sb (clusters_erase kb cs) := by
  unfold merge_clusters at h
  simp only [hb, ha] at h
  split at h
  · rename_i he
    injection h with h
    rw [← h, he, clusters_add_empty]
  · injection h with h
    rw [← h, erase_add_comm]

theorem disjoint_of_key_ne (cs : Clusters) (hd : ClustersDisjoint cs)
    (c d : Int × Finset BlockId) (hc : c ∈ cs) (hdm : d ∈ cs) (hne : c.1 ≠ d.1) :
    Disjoint c.2 d.2 := by
  have hsymm : Symmetric (fun a b : Int × Finset BlockId => Disjoint a.2 b.2) :=
    fun a b hab => hab.symm
  exact List.Pairwise.forall hsymm hd hc hdm (fun h => hne (by rw [h]))

theorem merged_disjoint (ka kb : Int) (sb : Finset BlockId) (cs : Clusters)
    (hs : KeysSorted cs) (hd : ClustersDisjoint cs) (hb : (kb, sb) ∈ cs) :
    ClustersDisjoint (clusters_add ka sb (clusters_erase kb cs)) := by
  unfold ClustersDisjoint clusters_add
  rw [List.pairwise_map]
  have hse : KeysSorted (clusters_erase kb cs) := keysSorted_erase kb cs hs
  have hde : ClustersDisjoint (clusters_erase kb cs) := List.Pairwise.filter _ hd
  have hboth := List.Pairwise.and hse hde
  apply List.Pairwise.imp_of_mem _ hboth
  intro c d hc hdm hcd
  obtain ⟨hlt, hdis⟩ := hcd
  simp only [clusters_erase, List.mem_filter, ne_eq, decide_eq_true_eq] at hc hdm
  have hcb : Disjoint c.2 sb := disjoint_of_key_ne cs hd c (kb, sb) hc.1 hb hc.2
  have hdb : Disjoint d.2 sb := disjoint_of_key_ne cs hd d (kb, sb) hdm.1 hb hdm.2
  by_cases h1 : c.1 = ka
  · have h2 : ¬ d.1 = ka := by omega
    simp only [h1, if_true, h2, if_false]
    rw [Finset.disjoint_union_left]
    exact ⟨hdis, hdb.symm⟩
  · by_cases h2 : d.1 = ka
    · simp only [h1, if_false, h2, if_true]
      rw [Finset.disjoint_union_right]
      exact ⟨hdis, hcb⟩
    · simp only [h1, if_false, h2]
      exact hdis

theorem merged_same (ka kb : Int) (sa sb : Finset BlockId) (cs : Clusters)
    (hs : KeysSorted cs) (ha : (ka, sa) ∈ cs) (hb : (kb, sb) ∈ cs) (hne : ka ≠ kb)
    (x y : BlockId)
    (h : (∃ c ∈ cs, x ∈ c.2 ∧ y ∈ c.2) ∨ ((x ∈ sa ∨ x ∈ sb) ∧ (y ∈ sa ∨ y ∈ sb))) :
    ∃ c ∈ clusters_add ka sb (clusters_erase kb cs), x ∈ c.2 ∧ y ∈ c.2 := by
  have hbase : (ka, sa ∪ sb) ∈ clusters_add ka sb (clusters_erase kb cs) := by
    simp only [clusters_add, clusters_erase, List.mem_map, List.mem_filter, ne_eq,
      decide_eq_true_eq]
    exact ⟨(ka, sa), ⟨ha, hne⟩, by simp⟩
  rcases h with ⟨c, hc, hxc, hyc⟩ | ⟨hx, hy⟩
  · by_cases hk : c.1 = kb
    · have e1 := lookup_of_mem cs hs c.1 c.2 hc
      have e2 := lookup_of_mem cs hs kb sb hb
      rw [hk, e2] at e1
      injection e1 with e1
      refine ⟨_, hbase, ?_, ?_⟩
      · simp only [Finset.mem_union]; right; rw [e1]; exact hxc
      · simp only [Finset.mem_union]; right; rw [e1]; exact hyc
    · by_cases hk2 : c.1 = ka
      · refine ⟨(c.1, c.2 ∪ sb), ?_, by simp [hxc], by simp [hyc]⟩
        simp only [clusters_add, clusters_erase, List.mem_map, List.mem_filter, ne_eq,
          decide_eq_true_eq]
        exact ⟨c, ⟨hc, hk⟩, by simp [hk2]⟩
      · refine ⟨c, ?_, hxc, hyc⟩
        simp only [clusters_add, clusters_erase, List.mem_map, List.mem_filter, ne_eq,
          decide_eq_true_eq]
        exact ⟨c, ⟨hc, hk⟩, by simp [hk2]⟩
  · refine ⟨_, hbase, ?_, ?_⟩
    · simpa using hx
    · simpa using hy

theorem node_id_built (g : Graph) (hb : Built g) (a : Nat) (ha : a < g.clusters_.length) :
    ∃ ca, g.clusters_[a]? = some ca ∧ node_id g a = ca.1 := by
  obtain ⟨_, _, hn, _⟩ := built_eq g hb
  refine ⟨g.clusters_[a], List.getElem?_eq_getElem ha, ?_⟩
  simp [node_id, hn, cluster_nodes, List.getD_eq_getElem?_getD, List.getElem?_eq_getElem ha]

/-- An accepted merge on a partition keeps the partition, removes one
cluster and strictly lowers the total edge weight. -/
theorem mergeStep_partition (M : Nat) (g g1 : Graph) (hs : KeysSorted g.clusters_)
    (hd : ClustersDisjoint g.clusters_) (hb : Built g) (h : MergeStep M g g1) :
    ClustersDisjoint g1.clusters_ ∧ g1.clusters_.length + 1 = g.clusters_.length ∧
      total_weights g1.edges_ < total_weights g.edges_ := by
  obtain ⟨hn1, hb1, _, _, _⟩ := mergeStep_clusters M g g1 h
  obtain ⟨edge, hedge, sf, st, merged, h1, h2, h3, h4, h5, _, _⟩ := h
  obtain ⟨hcov, hne, hnodes, hedges⟩ := built_eq g hb
  obtain ⟨hcov1, hne1, _, hedges1⟩ := built_eq g1 hb1
  have hspec := update_state_spec g.clusters_ g.netlist_ hcov hne
  have hspec1 := update_state_spec g1.clusters_ g1.netlist_ hcov1 hne1
  have hc1 : g1.clusters_ = merged := by
    have := (update_state_fst merged g.netlist_).1
    rw [h5] at this; exact this
  rw [hedges] at hedge
  have hpair := hspec.2.1.2.1 (edge.from_, edge.to_)
    (List.mem_map_of_mem (fun e => (e.from_, e.to_)) hedge)
  simp only at hpair
  obtain ⟨ca, hca, hida⟩ := node_id_built g hb edge.from_ hpair.1
  obtain ⟨cb, hcb, hidb⟩ := node_id_built g hb edge.to_ hpair.2.1
  have hcam : (ca.1, ca.2) ∈ g.clusters_ := List.getElem?_mem hca
  have hcbm : (cb.1, cb.2) ∈ g.clusters_ := List.getElem?_mem hcb
  have hla := lookup_of_mem g.clusters_ hs ca.1 ca.2 hcam
  have hlb := lookup_of_mem g.clusters_ hs cb.1 cb.2 hcbm
  have hkne : ca.1 ≠ cb.1 := by
    intro hk
    rw [hk, hlb] at hla
    injection hla with hla
    have : ca = cb := Prod.ext hk hla.symm
    rw [this] at hca
    exact hpair.2.2 (keysSorted_index_unique g.clusters_ hs _ _ cb hca hcb)
  rw [hida, hidb] at h4
  have hnorm := merge_clusters_normal ca.1 cb.1 g.clusters_ merged ca.2 cb.2 hla hlb h4
  have hdis1 : ClustersDisjoint g1.clusters_ := by
    rw [hc1, hnorm]; exact merged_disjoint ca.1 cb.1 cb.2 g.clusters_ hs hd hcbm
  have hlen : g1.clusters_.length + 1 = g.clusters_.length := by
    rw [hc1, hnorm, clusters_add_length]
    exact clusters_erase_length cb.1 g.clusters_ hs cb.2 hcbm
  refine ⟨hdis1, hlen, ?_⟩
  rw [hedges, hedges1, hspec.2.2.2, hspec1.2.2.2, hn1]
  have hsame : ∀ x y, ((∃ c ∈ g.clusters_, x ∈ c.2 ∧ y ∈ c.2) ∨
      ((x ∈ ca.2 ∨ x ∈ cb.2) ∧ (y ∈ ca.2 ∨ y ∈ cb.2))) →
      node_map g1.clusters_ x = node_map g1.clusters_ y := by
    intro x y hxy
    obtain ⟨c, hc, hxc, hyc⟩ :=
      merged_same ca.1 cb.1 ca.2 cb.2 g.clusters_ hs hcam hcbm hkne x y hxy
    rw [← hnorm, ← hc1] at hc
    exact (node_map_eq_iff_same g1.clusters_ hdis1 x y ⟨c, hc, hxc⟩).2 ⟨c, hc, hxc, hyc⟩
  apply cut_size_lt
  · intro iter hi src sinks hnet s hsm heq
    have hscov : ∃ c ∈ g.clusters_, s.1 ∈ c.2 :=
      hcov iter hi s (by rw [hnet]; exact List.mem_cons_of_mem _ hsm)
    exact hsame s.1 src.1
      (Or.inl ((node_map_eq_iff_same g.clusters_ hd s.1 src.1 hscov).1 heq))
  · have hpw : 0 < pair_weight (built_edges g.clusters_ g.netlist_) edge.from_ edge.to_ :=
      (pair_weight_pos_iff _ hspec.2.1.2.2 _ _).2 ⟨edge, hedge, rfl, rfl⟩
    rw [hspec.2.2.1 _ _ hpair.2.2] at hpw
    obtain ⟨iter, hi, src, sinks, hnet, hsrc, s, hsm, hs2⟩ := fanout_pos _ _ _ _ hpw
    refine ⟨iter, hi, src, sinks, hnet, s, hsm, ?_, ?_⟩
    · rw [hsrc, hs2]
      intro hc
      injection hc with hc
      exact hpair.2.2 hc.symm
    · obtain ⟨c1, hc1m, hsrc1⟩ := cluster_index_mem src.1 g.clusters_ _ hsrc
      obtain ⟨c2, hc2m, hs21⟩ := cluster_index_mem s.1 g.clusters_ _ hs2
      rw [hca] at hc1m
      rw [hcb] at hc2m
      injection hc1m with hc1m
      injection hc2m with hc2m
      apply hsame
      right
      exact ⟨Or.inr (by rw [hc2m]; exact hs21), Or.inl (by rw [hc1m]; exact hsrc1)⟩

theorem chain_partition (M : Nat) (g gf : Graph) (hs : KeysSorted g.clusters_)
    (hd : ClustersDisjoint g.clusters_) (hb : Built g)
    (h : Relation.ReflTransGen (MergeStep M) g gf) :
    KeysSorted gf.clusters_ ∧ ClustersDisjoint gf.clusters_ ∧ Built gf ∧
      (gf = g ∨ (gf.clusters_.length < g.clusters_.length ∧
        total_weights gf.edges_ < total_weights g.edges_)) := by
  induction h with
  | refl => exact ⟨hs, hd, hb, Or.inl rfl⟩
  | tail _ hstep ih =>
    obtain ⟨k1, k2, k3, k4⟩ := ih
    obtain ⟨m1, m2, m3⟩ := mergeStep_partition M _ _ k1 k2 k3 hstep
    obtain ⟨_, n2, _, n4, _⟩ := mergeStep_clusters M _ _ hstep
    refine ⟨n4 k1, m1, n2, Or.inr ?_⟩
    rcases k4 with h1 | ⟨h1, h2⟩
    · rw [h1] at m2 m3
      exact ⟨by omega, m3⟩
    · exact ⟨by omega, by omega⟩

theorem chain_total_le (M : Nat) (g gf : Graph)
    (h : Relation.ReflTransGen (MergeStep M) g gf) :
    total_weights gf.edges_ ≤ total_weights g.edges_ := by
  induction h with
  | refl => exact le_refl _
  | tail _ hstep ih =>
    obtain ⟨_, _, _, _, _, _, _, _, _, _, _, h1⟩ := hstep
    exact le_trans h1 ih

/-- C5 (amended): when `merge(max_size)` returns without error on a clustered graph,
the total edge weight is not larger than before the call; on a cluster
assignment that is a partition, either no merge was accepted (the clusters
are the renumbered input clusters and the total is unchanged) or the number
of clusters went down and the total is strictly smaller.  This holds
whatever order `std::sort` gives to edges of equal weight. -/
theorem merge_max_total_weight (clusters : Clusters) (netlist : PortNetlist) (g g1 : Graph)
    (sorter : List Edge → List Edge) (M : Nat) (hsort : SortsEdges sorter)
    (hs : KeysSorted clusters) (hg : Graph.new clusters netlist = .ok g)
    (h : g.merge_max sorter M = (g1, none)) :
    total_weights g1.edges_ ≤ total_weights g.edges_ ∧
      (ClustersDisjoint clusters →
        (g1.clusters_ = renumber g.clusters_ ∧
          total_weights g1.edges_ = total_weights g.edges_) ∨
        (g1.clusters_.length < g.clusters_.length ∧
          total_weights g1.edges_ < total_weights g.edges_)) := by
  obtain ⟨hb, hc, _⟩ := built_of_new clusters netlist g hg
  obtain ⟨gf, hl, hc1, _, hu⟩ := merge_max_result g sorter M g1 h
  obtain ⟨_, _, k3⟩ := merge_max_loop_spec sorter hsort M _ g gf none (by rw [hc]; exact hs) hl
  obtain ⟨_, _, hchain⟩ := k3 rfl
  have hbf := chain_built M g gf hb hchain
  obtain ⟨he, _⟩ := merge_max_final g1 gf hbf hu
  refine ⟨by rw [he]; exact chain_total_le M g gf hchain, ?_⟩
  intro hd
  obtain ⟨_, _, _, hcase⟩ := chain_partition M g gf (by rw [hc]; exact hs) (by rw [hc]; exact hd)
    hb hchain
  rcases hcase with h1 | ⟨h1, h2⟩
  · left
    rw [hc1, he, h1]
    exact ⟨rfl, rfl⟩
  · right
    rw [hc1, he, renumber_length]
    exact ⟨h1, h2⟩

end graph

namespace graph

/-! ## Loop paths (`find_loop_path`) -/

theorem lookup_path_emplace (path : List (Nat × Nat)) (n node x : Nat) :
    (path_emplace path n node).lookup x
      = match path.lookup x with
        | some m => some m
        | none => if x = n then some node else none := by
  unfold path_emplace
  cases hn : path.lookup n with
  | some m0 =>
    simp only
    cases hx : path.lookup x with
    | some m => rfl
    | none =>
      simp only
      have : x ≠ n := fun h => by rw [h, hn] at hx; cases hx
      rw [if_neg this]
  | none =>
    simp only [List.lookup_append]
    cases hx : path.lookup x with
    | some m => simp
    | none =>
      simp only [Option.none_or, List.lookup_cons, List.lookup_nil]
      by_cases hxn : x = n
      · simp [hxn]
      · have : (x == n) = false := by simpa using hxn
        simp [this, hxn]

theorem lookup_path_fold (node x : Nat) (l : List Nat) :
    ∀ path : List (Nat × Nat),
      (l.foldl (fun p n => path_emplace p n node) path).lookup x
        = match path.lookup x with
          | some m => some m
          | none => if x ∈ l then some node else none := by
  induction l with
  | nil =>
    intro path
    cases hx : path.lookup x with
    | some m => simp [hx]
    | none => simp [hx]
  | cons n rest ih =>
    intro path
    rw [List.foldl_cons, ih, lookup_path_emplace]
    cases hx : path.lookup x with
    | some m => rfl
    | none =>
      simp only
      by_cases hxn : x = n
      · simp [hxn]
      · simp [hxn]

/-- The walk back along recorded predecessors, started at a vertex whose
predecessor lies in the list `older`, in which every vertex other than
`start` has its predecessor further back. -/
theorem loop_path_walk_spec (edges : List Edge) (path : List (Nat × Nat)) (start : Nat)
    (hedge : ∀ n m, path.lookup n = some m → EdgeRel edges m n) :
    ∀ (k : Nat) (older : List Nat), older.length = k → older.Nodup →
      (∀ a x b, older = a ++ x :: b → x ≠ start → ∃ m, path.lookup x = some m ∧ m ∈ b) →
      ∀ (n m0 : Nat), path.lookup n = some m0 → m0 ∈ older →
      ∀ (fuel : Nat) (result : List Nat), older.length < fuel →
        ∃ chain, loop_path_walk path start fuel n result = .ok (result ++ chain) ∧
          (∀ x ∈ chain, x ∈ older) ∧ chain.Nodup ∧ start ∉ chain ∧
          List.Chain (fun x y => EdgeRel edges y x) n chain ∧
          path.lookup ((n :: chain).getLast (List.cons_ne_nil _ _)) = some start := by
  intro k
  induction k using Nat.strong_induction_on with
  | _ k ih =>
    intro older hk hnd hpred n m0 hn hm0 fuel result hfuel
    cases fuel with
    | zero => exact absurd hfuel (Nat.not_lt_zero _)
    | succ fuel =>
      by_cases hstart : m0 = start
      · refine ⟨[], ?_, by simp, List.nodup_nil, by simp, List.Chain.nil, ?_⟩
        · simp [loop_path_walk, hn, hstart]
        · simp only [List.getLast_singleton]; rw [hn, hstart]
      · obtain ⟨a, b, hsplit⟩ := List.append_of_mem hm0
        obtain ⟨m1, hm1, hm1b⟩ := hpred a m0 b hsplit hstart
        have hlen : b.length < k := by
          rw [← hk, hsplit]; simp only [List.length_append, List.length_cons]; omega
        have hndb : b.Nodup := by
          rw [hsplit] at hnd
          exact (List.nodup_cons.1 (List.nodup_append.1 hnd).2.1).2
        have hm0b : m0 ∉ b := by
          rw [hsplit] at hnd
          exact (List.nodup_cons.1 (List.nodup_append.1 hnd).2.1).1
        obtain ⟨chain, h1, h2, h3, h4, h5, h6⟩ := ih b.length hlen b rfl hndb
          (fun a1 x b1 hb1 hx => hpred (a ++ m0 :: a1) x b1
            (by rw [hsplit, hb1]; simp) hx)
          m0 m1 hm1 hm1b fuel (result ++ [m0])
          (by rw [hsplit] at hfuel; simp only [List.length_append, List.length_cons] at hfuel; omega)
        refine ⟨m0 :: chain, ?_, ?_, ?_, ?_, ?_, ?_⟩
        · simp only [loop_path_walk, hn, hstart, if_false, h1, List.append_assoc,
            List.singleton_append]
        · intro x hx
          rcases List.mem_cons.1 hx with rfl | hx
          · exact hm0
          · rw [hsplit]
            exact List.mem_append_right _ (List.mem_cons_of_mem _ (h2 x hx))
        · exact List.nodup_cons.2 ⟨fun hc => hm0b (h2 m0 hc), h3⟩
        · intro hc
          rcases List.mem_cons.1 hc with h | h
          · exact hstart h.symm
          · exact h4 h
        · exact List.Chain.cons (hedge n m0 hn) h5
        · rw [List.getLast_cons (List.cons_ne_nil _ _)]
          exact h6

theorem find_loop_path_from_spec (edges : List Edge) (N start : Nat)
    (hvalid : ∀ u w, w ∈ edges_to edges u → w < N ∧ w ≠ u) :
    ∀ (fuel : Nat) (queue visited : List Nat) (path : List (Nat × Nat)),
      bfs_measure edges queue visited < fuel → LoopInv edges N start queue visited path →
      ∃ result, find_loop_path_from edges start fuel queue visited path = .ok result ∧
        (result = [] → ¬ Relation.TransGen (EdgeRel edges) start start) ∧
        (result ≠ [] → IsLoopPath edges N start result) := by
  intro fuel
  induction fuel with
  | zero => intro queue visited path h; exact absurd h (Nat.not_lt_zero _)
  | succ fuel ih =>
    intro queue visited path hfuel hinv
    obtain ⟨i1, i2, i3, i4, i5, i6, i6q, i7, i8, i9⟩ := hinv
    cases queue with
    | nil =>
      refine ⟨[], rfl, fun _ => ?_, fun h => absurd rfl h⟩
      have hs : start ∈ visited := by simpa using i9
      apply no_cycle_of_closed edges start visited hs
      intro v hv w hw
      refine ⟨?_, by simpa using i7 v hv w hw⟩
      intro hws
      have := i8 v hv (hws ▸ hw)
      cases this
    | cons node q =>
      by_cases hn : node ∈ visited
      · by_cases hns : node = start
        · subst hns
          have hlook : ∃ m, path.lookup node = some m ∧ m ∈ visited := by
            rcases i3 node (List.mem_cons_self _ _) with h | ⟨h, _⟩
            · exact h
            · rw [h] at hn; cases hn
          obtain ⟨p1, hp1, hp1v⟩ := hlook
          obtain ⟨chain, h1, h2, h3, h4, h5, h6⟩ := loop_path_walk_spec edges path node
            (fun n m h => (i5 n m h).1) visited.length visited rfl i1 i2 node p1 hp1 hp1v
            (visited.length + 1) [node] (Nat.lt_succ_self _)
          refine ⟨node :: chain, ?_, (fun h => by cases h), fun _ => ?_⟩
          · simp only [find_loop_path_from, hn, if_true, h1, List.singleton_append]
          · refine ⟨chain, rfl, ?_, h4, h3, fun x hx => i6 x (h2 x hx), h5, (i5 _ _ h6).1⟩
            intro hc
            subst hc
            simp only [List.getLast_singleton] at h6
            have := (i5 _ _ h6).1
            exact (hvalid node node ((mem_edges_to _ _ _).2 this)).2 rfl
        · have hm := bfs_measure_skip edges node q visited
          have hsq : ∀ x, x ∈ node :: q → x ∈ visited ∨ x ∈ q := by
            intro x hx
            rcases List.mem_cons.1 hx with rfl | h
            · exact Or.inl hn
            · exact Or.inr h
          have hinv1 : LoopInv edges N start q visited path := by
            refine ⟨i1, i2, ?_, i4, i5, i6, fun x hx => i6q x (List.mem_cons_of_mem _ hx),
              ?_, ?_, ?_⟩
            · intro x hx
              rcases i3 x (List.mem_cons_of_mem _ hx) with h | ⟨h, _⟩
              · exact Or.inl h
              · rw [h] at hn; cases hn
            · intro v hv w hw
              rcases i7 v hv w hw with h | h
              · exact Or.inl h
              · exact hsq w h
            · intro v hv hw
              rcases List.mem_cons.1 (i8 v hv hw) with h | h
              · exact absurd h.symm hns
              · exact h
            · rcases i9 with h | h
              · exact Or.inl h
              · exact hsq start h
          obtain ⟨result, hr, hr1, hr2⟩ := ih q visited path (by omega) hinv1
          exact ⟨result, (by simp only [find_loop_path_from, hn, if_true, hns, if_false]; exact hr),
            hr1, hr2⟩
      · have hm := bfs_measure_visit edges node q visited hn
        have hlk : ∀ x, ((edges_to edges node).foldl (fun p n => path_emplace p n node) path).lookup x
            = match path.lookup x with
              | some m => some m
              | none => if x ∈ edges_to edges node then some node else none :=
          fun x => lookup_path_fold node x (edges_to edges node) path
        have hkeep : ∀ x m, path.lookup x = some m →
            ((edges_to edges node).foldl (fun p n => path_emplace p n node) path).lookup x
              = some m := by
          intro x m h; rw [hlk, h]
        have hstart_of_nil : visited = [] → node = start := by
          intro hv
          rcases i3 node (List.mem_cons_self _ _) with ⟨m, _, hm1⟩ | ⟨_, h⟩
          · rw [hv] at hm1; cases hm1
          · injection h with h _
        have hq_of_nil : visited = [] → q = [] := by
          intro hv
          rcases i3 node (List.mem_cons_self _ _) with ⟨m, _, hm1⟩ | ⟨_, h⟩
          · rw [hv] at hm1; cases hm1
          · injection h with _ h
        have hinv2 : LoopInv edges N start (q ++ edges_to edges node) (node :: visited)
            ((edges_to edges node).foldl (fun p n => path_emplace p n node) path) := by
          refine ⟨List.nodup_cons.2 ⟨hn, i1⟩, ?_, ?_, ?_, ?_, ?_, ?_, ?_, ?_, ?_⟩
          · intro a x b hsplit hx
            cases a with
            | nil =>
              simp only [List.nil_append, List.cons.injEq] at hsplit
              obtain ⟨rfl, rfl⟩ := hsplit
              rcases i3 node (List.mem_cons_self _ _) with ⟨m, hm1, hm2⟩ | ⟨hv, _⟩
              · exact ⟨m, hkeep _ _ hm1, hm2⟩
              · exact absurd (hstart_of_nil hv) hx
            | cons h a1 =>
              simp only [List.cons_append, List.cons.injEq] at hsplit
              obtain ⟨m, hm1, hm2⟩ := i2 a1 x b hsplit.2 hx
              exact ⟨m, hkeep _ _ hm1, hm2⟩
          · intro x hx
            left
            rcases List.mem_append.1 hx with h | h
            · rcases i3 x (List.mem_cons_of_mem _ h) with ⟨m, hm1, hm2⟩ | ⟨hv, _⟩
              · exact ⟨m, hkeep _ _ hm1, List.mem_cons_of_mem _ hm2⟩
              · rw [hq_of_nil hv] at h; cases h
            · cases hpx : path.lookup x with
              | some m => exact ⟨m, hkeep _ _ hpx, List.mem_cons_of_mem _ (i5 _ _ hpx).2⟩
              | none =>
                refine ⟨node, ?_, List.mem_cons_self _ _⟩
                rw [hlk, hpx]
                simp only [h, if_true]
          · right
            rcases i4 with h | h
            · rw [hstart_of_nil h]; exact List.mem_cons_self _ _
            · exact List.mem_cons_of_mem _ h
          · intro n m h
            rw [hlk] at h
            cases hpn : path.lookup n with
            | some m1 =>
              rw [hpn] at h
              simp only [Option.some.injEq] at h
              rw [← h]
              exact ⟨(i5 _ _ hpn).1, List.mem_cons_of_mem _ (i5 _ _ hpn).2⟩
            | none =>
              rw [hpn] at h
              simp only at h
              by_cases hmem : n ∈ edges_to edges node
              · rw [if_pos hmem] at h
                injection h with h
                rw [← h]
                exact ⟨(mem_edges_to _ _ _).1 hmem, List.mem_cons_self _ _⟩
              · rw [if_neg hmem] at h
                cases h
          · intro x hx
            rcases List.mem_cons.1 hx with rfl | h
            · exact i6q _ (List.mem_cons_self _ _)
            · exact i6 x h
          · intro x hx
            rcases List.mem_append.1 hx with h | h
            · exact i6q x (List.mem_cons_of_mem _ h)
            · exact (hvalid node x h).1
          · intro v hv w hw
            rcases List.mem_cons.1 hv with rfl | h
            · exact Or.inr (List.mem_append_right _ hw)
            · rcases i7 v h w hw with h2 | h2
              · exact Or.inl (List.mem_cons_of_mem _ h2)
              · rcases List.mem_cons.1 h2 with rfl | h3
                · exact Or.inl (List.mem_cons_self _ _)
                · exact Or.inr (List.mem_append_left _ h3)
          · intro v hv hw
            rcases List.mem_cons.1 hv with rfl | h
            · exact List.mem_append_right _ hw
            · rcases List.mem_cons.1 (i8 v h hw) with h2 | h2
              · rcases i4 with h3 | h3
                · rw [h3] at h; cases h
                · rw [h2] at h3; exact absurd h3 hn
              · exact List.mem_append_left _ h2
          · rcases i9 with h | h
            · exact Or.inl (List.mem_cons_of_mem _ h)
            · rcases List.mem_cons.1 h with rfl | h2
              · exact Or.inl (List.mem_cons_self _ _)
              · exact Or.inr (List.mem_append_left _ h2)
        obtain ⟨result, hr, hr1, hr2⟩ := ih (q ++ edges_to edges node) (node :: visited)
          ((edges_to edges node).foldl (fun p n => path_emplace p n node) path) (by omega) hinv2
        exact ⟨result, (by simp only [find_loop_path_from, hn, if_false]; exact hr), hr1, hr2⟩

theorem find_loop_path_spec (g : Graph) (hok : EdgesOk g.nodes_.length g.edges_) (start : Nat)
    (hs : start < g.nodes_.length) :
    ∃ result, find_loop_path g start = .ok result ∧
      (result = [] → ¬ Relation.TransGen (EdgeRel g.edges_) start start) ∧
      (result ≠ [] → IsLoopPath g.edges_ g.nodes_.length start result) := by
  apply find_loop_path_from_spec g.edges_ g.nodes_.length start
  · intro u w hw
    obtain ⟨e, he, hf, ht⟩ := (mem_edges_to _ _ _).1 hw
    have := hok.2.1 (e.from_, e.to_) (List.mem_map_of_mem (fun e => (e.from_, e.to_)) he)
    simp only at this
    rw [← hf, ← ht]
    exact ⟨this.2.1, fun h => this.2.2 h.symm⟩
  · simp only [bfs_measure, List.length_singleton, List.not_mem_nil, not_false_eq_true,
      decide_True, List.filter_true]
    omega
  · refine ⟨List.nodup_nil, ?_, ?_, Or.inl rfl, ?_, ?_, ?_, ?_, ?_, ?_⟩
    · intro a x b h; cases a <;> cases h
    · intro x _; exact Or.inr ⟨rfl, rfl⟩
    · intro n m h; cases h
    · intro x hx; cases hx
    · intro x hx; rw [List.mem_singleton.1 hx]; exact hs
    · intro v hv; cases hv
    · intro v hv; cases hv
    · exact Or.inr (List.mem_singleton_self _)

end graph

namespace graph

/-! ## The acyclic pass `Graph::merge()` -/

theorem merge_clusters_ok (ka kb : Int) (sa sb : Finset BlockId) (cs : Clusters)
    (hs : KeysSorted cs) (ha : (ka, sa) ∈ cs) (hb : (kb, sb) ∈ cs) :
    merge_clusters ka kb cs = .ok (clusters_add ka sb (clusters_erase kb cs)) := by
  have hla := lookup_of_mem cs hs ka sa ha
  have hlb := lookup_of_mem cs hs kb sb hb
  unfold merge_clusters
  simp only [hlb, hla]
  split
  · rename_i he
    rw [he, clusters_add_empty]
  · rw [erase_add_comm]

theorem merged_has_key (ka kb : Int) (sb : Finset BlockId) (cs : Clusters) (k : Int)
    (s : Finset BlockId) (hk : (k, s) ∈ cs) (hne : k ≠ kb) :
    ∃ s1, (k, s1) ∈ clusters_add ka sb (clusters_erase kb cs) := by
  by_cases h : k = ka
  · refine ⟨s ∪ sb, ?_⟩
    simp only [clusters_add, clusters_erase, List.mem_map, List.mem_filter, ne_eq,
      decide_eq_true_eq]
    exact ⟨(k, s), ⟨hk, hne⟩, by simp [h]⟩
  · refine ⟨s, ?_⟩
    simp only [clusters_add, clusters_erase, List.mem_map, List.mem_filter, ne_eq,
      decide_eq_true_eq]
    exact ⟨(k, s), ⟨hk, hne⟩, by simp [h]⟩

theorem merge_path_spec (g : Graph) (src : Nat) :
    ∀ (tail : List Nat) (cs : Clusters), KeysSorted cs →
      (∃ s, (node_id g src, s) ∈ cs) → (∀ d ∈ tail, ∃ s, (node_id g d, s) ∈ cs) →
      (tail.map (node_id g)).Nodup → node_id g src ∉ tail.map (node_id g) →
      ∃ cs1, merge_path g src tail cs = .ok cs1 ∧ KeysSorted cs1 ∧
        cs1.length + tail.length = cs.length ∧
        ∀ x, (∃ c ∈ cs, x ∈ c.2) → ∃ c ∈ cs1, x ∈ c.2 := by
  intro tail
  induction tail with
  | nil =>
    intro cs hs _ _ _ _
    exact ⟨cs, rfl, hs, by simp, fun x hx => hx⟩
  | cons d rest ih =>
    intro cs hs hsrc htail hnd hnot
    obtain ⟨sa, hsa⟩ := hsrc
    obtain ⟨sb, hsb⟩ := htail d (List.mem_cons_self _ _)
    simp only [List.map_cons, List.nodup_cons, List.mem_cons, not_or] at hnd hnot
    have hm := merge_clusters_ok (node_id g src) (node_id g d) sa sb cs hs hsa hsb
    have hsorted1 : KeysSorted (clusters_add (node_id g src) sb (clusters_erase (node_id g d) cs)) :=
      keysSorted_add _ _ _ (keysSorted_erase _ _ hs)
    obtain ⟨cs1, h1, h2, h3, h4⟩ := ih _ hsorted1
      (merged_has_key _ _ sb cs _ sa hsa hnot.1)
      (fun x hx => by
        obtain ⟨s, hs1⟩ := htail x (List.mem_cons_of_mem _ hx)
        refine merged_has_key _ _ sb cs _ s hs1 ?_
        intro hc
        exact hnd.1 (by rw [← hc]; exact List.mem_map_of_mem _ hx))
      hnd.2 hnot.2
    refine ⟨cs1, ?_, h2, ?_, ?_⟩
    · simp only [merge_path, hm]; exact h1
    · have := clusters_erase_length (node_id g d) cs hs sb hsb
      rw [clusters_add_length] at h3
      simp only [List.length_cons]
      omega
    · intro x hx
      apply h4
      obtain ⟨c, hc, hxc⟩ := hx
      obtain ⟨c1, hc1, hx1, _⟩ := merged_same (node_id g src) (node_id g d) sa sb cs hs hsa hsb
        hnot.1 x x (Or.inl ⟨c, hc, hxc, hxc⟩)
      exact ⟨c1, hc1, hx1⟩

theorem key_index_unique (cs : Clusters) (hs : KeysSorted cs) (i j : Nat)
    (c d : Int × Finset BlockId) (hi : cs[i]? = some c) (hj : cs[j]? = some d) (hk : c.1 = d.1) :
    i = j := by
  have hc : c ∈ cs := List.getElem?_mem hi
  have e1 := lookup_of_mem cs hs c.1 c.2 hc
  have e2 := lookup_of_mem cs hs d.1 d.2 (List.getElem?_mem hj)
  rw [hk, e2] at e1
  injection e1 with e1
  have : c = d := Prod.ext hk e1.symm
  rw [this] at hi
  exact keysSorted_index_unique cs hs i j d hi hj

theorem node_id_injective (g : Graph) (hb : Built g) (hs : KeysSorted g.clusters_) (i j : Nat)
    (hi : i < g.clusters_.length) (hj : j < g.clusters_.length)
    (h : node_id g i = node_id g j) : i = j := by
  obtain ⟨ci, hci, hidi⟩ := node_id_built g hb i hi
  obtain ⟨cj, hcj, hidj⟩ := node_id_built g hb j hj
  exact key_index_unique g.clusters_ hs i j ci cj hci hcj (by rw [← hidi, ← hidj]; exact h)

theorem built_nodes_length (g : Graph) (hb : Built g) :
    g.nodes_.length = g.clusters_.length := by
  obtain ⟨_, _, hn, _⟩ := built_eq g hb
  simp [hn, cluster_nodes]

theorem built_edgesOk (g : Graph) (hb : Built g) : EdgesOk g.nodes_.length g.edges_ := by
  obtain ⟨hcov, hne, _, he⟩ := built_eq g hb
  rw [built_nodes_length g hb, he]
  exact (update_state_spec _ _ hcov hne).2.1

theorem built_of_update_ok (cs : Clusters) (netlist : PortNetlist) (hcov : Covered cs netlist)
    (hne : NetsNonempty netlist) :
    ∃ g1, update cs netlist = .ok g1 ∧ Built g1 ∧ g1.clusters_ = cs ∧ g1.netlist_ = netlist := by
  refine ⟨_, update_ok cs netlist hcov hne, ?_, rfl, rfl⟩
  unfold Built
  exact (update_state_spec cs netlist hcov hne).1

theorem merge_first_loop_spec (g : Graph) (hb : Built g) (hs : KeysSorted g.clusters_) :
    ∀ l : List Nat, (∀ n ∈ l, n < g.nodes_.length) →
      (∃ v ∈ l, Relation.TransGen (EdgeRel g.edges_) v v) →
      ∃ g1, merge_first_loop g l = .ok (some g1) ∧ Built g1 ∧ KeysSorted g1.clusters_ ∧
        g1.clusters_.length < g.clusters_.length ∧ g1.netlist_ = g.netlist_ := by
  intro l
  induction l with
  | nil => rintro _ ⟨v, hv, _⟩; cases hv
  | cons n rest ih =>
    intro hl hcyc
    have hnl : n < g.nodes_.length := hl n (List.mem_cons_self _ _)
    have hN := built_nodes_length g hb
    obtain ⟨result, hr, hr1, hr2⟩ := find_loop_path_spec g (built_edgesOk g hb) n hnl
    cases result with
    | nil =>
      have hcyc1 : ∃ v ∈ rest, Relation.TransGen (EdgeRel g.edges_) v v := by
        obtain ⟨v, hv, hc⟩ := hcyc
        rcases List.mem_cons.1 hv with rfl | h
        · exact absurd hc (hr1 rfl)
        · exact ⟨v, h, hc⟩
      obtain ⟨g1, h1, h2⟩ := ih (fun x hx => hl x (List.mem_cons_of_mem _ hx)) hcyc1
      exact ⟨g1, by simp only [merge_first_loop, hr]; exact h1, h2⟩
    | cons src tail =>
      obtain ⟨chain, hres, hne, hnotin, hnd, hlt, _, _⟩ := hr2 (List.cons_ne_nil _ _)
      injection hres with hsrc htail
      subst hsrc; subst htail
      obtain ⟨hcov, hnets, _, _⟩ := built_eq g hb
      have hkey : ∀ x, x < g.clusters_.length → ∃ s, (node_id g x, s) ∈ g.clusters_ := by
        intro x hx
        obtain ⟨c, hc, hid⟩ := node_id_built g hb x hx
        exact ⟨c.2, by rw [hid]; exact List.getElem?_mem hc⟩
      obtain ⟨cs1, h1, h2, h3, h4⟩ := merge_path_spec g src tail g.clusters_ hs
        (hkey src (by omega)) (fun d hd => hkey d (by have := hlt d hd; omega))
        (by
          rw [List.nodup_map_iff_inj_on hnd]
          intro x hx y hy hxy
          exact node_id_injective g hb hs x y (by have := hlt x hx; omega)
            (by have := hlt y hy; omega) hxy)
        (by
          intro hc
          obtain ⟨d, hd, hdk⟩ := List.mem_map.1 hc
          have := node_id_injective g hb hs d src (by have := hlt d hd; omega) (by omega) hdk
          rw [this] at hd
          exact hnotin hd)
      have hcov1 : Covered cs1 g.netlist_ := fun iter hi p hp => h4 p.1 (hcov iter hi p hp)
      obtain ⟨g1, k1, k2, k3, k4⟩ := built_of_update_ok cs1 g.netlist_ hcov1 hnets
      refine ⟨g1, ?_, k2, by rw [k3]; exact h2, ?_, k4⟩
      · simp only [merge_first_loop, hr, h1, k1]
      · rw [k3]
        have : 0 < tail.length := List.length_pos.2 hne
        omega

theorem merge_loops_spec :
    ∀ (fuel : Nat) (g : Graph), Built g → KeysSorted g.clusters_ → g.clusters_.length < fuel →
      ∃ gf, merge_loops fuel g = .ok gf ∧ Built gf ∧ has_loop gf = .ok false ∧
        KeysSorted gf.clusters_ ∧ gf.netlist_ = g.netlist_ := by
  intro fuel
  induction fuel with
  | zero => intro g _ _ h; exact absurd h (Nat.not_lt_zero _)
  | succ fuel ih =>
    intro g hb hs hfuel
    obtain ⟨b, hl, hbs⟩ := has_loop_spec g
    cases b with
    | false => exact ⟨g, by simp only [merge_loops, hl], hb, hl, hs, rfl⟩
    | true =>
      obtain ⟨v, hv, hc⟩ := hbs.1 rfl
      obtain ⟨g1, h1, h2, h3, h4, h5⟩ := merge_first_loop_spec g hb hs
        (List.range g.nodes_.length) (fun n hn => List.mem_range.1 hn)
        ⟨v, List.mem_range.2 hv, hc⟩
      obtain ⟨gf, k1, k2, k3, k4, k5⟩ := ih g1 h2 h3 (by omega)
      exact ⟨gf, by simp only [merge_loops, hl, h1]; exact k1, k2, k3, k4, by rw [k5, h5]⟩

theorem merge_spec (g : Graph) (hb : Built g) (hs : KeysSorted g.clusters_) :
    ∃ g1, g.merge = .ok g1 ∧ has_loop g1 = .ok false := by
  obtain ⟨gf, h1, h2, h3, _, _⟩ := merge_loops_spec (g.clusters_.length + 1) g hb hs
    (Nat.lt_succ_self _)
  obtain ⟨hcov, hne, hn, he⟩ := built_eq gf h2
  have hu := update_state_renumber gf.clusters_ gf.netlist_ hcov hne
  refine ⟨⟨renumber gf.clusters_, gf.netlist_, cluster_nodes (renumber gf.clusters_),
    built_edges gf.clusters_ gf.netlist_⟩, ?_, ?_⟩
  · simp only [Graph.merge, h1, Graph.fix_cluster_id, update, hu]
  · rw [← h3]
    apply has_loop_congr
    · exact he.symm
    · simp [hn, cluster_nodes, renumber_length]

/-- C2: a cluster assignment that covers all netlist blocks builds a
clustered graph on which the acyclic pass `merge()` terminates, and
`has_loop` returns false on the graph it leaves. -/
theorem merge_terminates_without_loop (clusters : Clusters) (netlist : PortNetlist)
    (hs : KeysSorted clusters) (hne : NetsNonempty netlist) (hcov : Covered clusters netlist) :
    ∃ g, Graph.new clusters netlist = .ok g ∧
      ∃ g1, g.merge = .ok g1 ∧ has_loop g1 = .ok false := by
  obtain ⟨g, h1, h2, h3, _⟩ := built_of_update_ok clusters netlist hcov hne
  exact ⟨g, h1, merge_spec g h2 (by rw [h3]; exact hs)⟩

end graph

namespace graph

/-! ## Runs of the capacity pass under every sorting function -/

theorem sorter_short (sorter : List Edge → List Edge) (hsort : SortsEdges sorter)
    (edges : List Edge) (hlen : edges.length ≤ 1) : sorter edges = edges := by
  have hp := (hsort edges).1
  cases edges with
  | nil => exact List.Perm.eq_nil hp
  | cons e rest =>
    cases rest with
    | nil => exact List.perm_singleton.1 hp
    | cons e1 rest1 => simp at hlen

/-- The loop over the edges accepts nothing when every edge joins two
clusters that do not fit together. -/
theorem try_merge_skip (g : Graph) (M : Nat) :
    ∀ edges : List Edge,
      (∀ e ∈ edges, ∃ size_from size_to,
        cluster_size g.clusters_ (node_id g e.from_) = .ok size_from ∧
        cluster_size g.clusters_ (node_id g e.to_) = .ok size_to ∧ M < size_from + size_to) →
      try_merge g M edges = (g, none) := by
  intro edges
  induction edges with
  | nil => intro _; rfl
  | cons e rest ih =>
    intro h
    obtain ⟨sf, st, h1, h2, h3⟩ := h e (List.mem_cons_self _ _)
    unfold try_merge
    simp only [h1, h2]
    rw [if_pos h3]
    exact ih (fun x hx => h x (List.mem_cons_of_mem _ hx))

theorem merge_max_loop_stop (sorter : List Edge → List Edge) (M fuel : Nat) (g g1 : Graph)
    (hany : g.clusters_.any (fun c => decide (c.2.card > M)) = false)
    (ht : try_merge g M (sorter g.edges_) = (g1, none))
    (hlen : g.clusters_.length = g1.clusters_.length) :
    merge_max_loop sorter M (fuel + 1) g = (g1, none) := by
  unfold merge_max_loop
  rw [hany, ht]
  simp only [Bool.false_eq_true, if_false]
  rw [if_pos hlen]

theorem merge_max_loop_go (sorter : List Edge → List Edge) (M fuel : Nat) (g g1 : Graph)
    (hany : g.clusters_.any (fun c => decide (c.2.card > M)) = false)
    (ht : try_merge g M (sorter g.edges_) = (g1, none))
    (hlen : g.clusters_.length ≠ g1.clusters_.length) :
    merge_max_loop sorter M (fuel + 1) g = merge_max_loop sorter M fuel g1 := by
  conv_lhs => unfold merge_max_loop
  rw [hany, ht]
  simp only [Bool.false_eq_true, if_false]
  rw [if_neg hlen]

theorem merge_max_of_loop (g : Graph) (sorter : List Edge → List Edge) (M : Nat) (gf : Graph)
    (r : Graph × Option Error)
    (hl : merge_max_loop sorter M (g.clusters_.length + 1) g = (gf, none))
    (hfin : (match update_state (renumber gf.clusters_) gf.netlist_ with
      | (g2, some e) => (g2, some e)
      | (g2, none) => update_state g2.clusters_ g2.netlist_) = r) :
    g.merge_max sorter M = r := by
  unfold Graph.merge_max
  rw [hl]
  exact hfin

/-! ## Instances and counterexamples -/

/-- Instance of `merge_terminates_without_loop` on a cluster assignment whose
graph has a cycle. -/
theorem merge_terminates_without_loop_witness :
    KeysSorted cyc_clusters ∧ NetsNonempty cyc_netlist ∧ Covered cyc_clusters cyc_netlist ∧
      ∃ g, Graph.new cyc_clusters cyc_netlist = .ok g ∧
        ∃ g1, g.merge = .ok g1 ∧ has_loop g1 = .ok false :=
  ⟨by unfold KeysSorted; decide, by unfold NetsNonempty; decide, by unfold Covered; decide,
    merge_terminates_without_loop cyc_clusters cyc_netlist (by unfold KeysSorted; decide)
      (by unfold NetsNonempty; decide) (by unfold Covered; decide)⟩

/-- Instance of `merge_max_cluster_size_bound` with maximum size 3 and
insertion sort as the sorting function. -/
theorem merge_max_cluster_size_bound_witness :
    SortsEdges sort_edges ∧ KeysSorted cyc_graph.clusters_ ∧
      cyc_graph.merge_max sort_edges 3 = (cyc_graph_merged, none) ∧
      ∀ c ∈ cyc_graph_merged.clusters_, c.2.card ≤ 3 :=
  ⟨sort_edges_sorts, by unfold KeysSorted; decide, by decide,
    merge_max_cluster_size_bound cyc_graph sort_edges 3 cyc_graph_merged sort_edges_sorts
      (by unfold KeysSorted; decide) (by decide)⟩

/-- Counterexample to C4 as stated: the two-cluster cycle is left untouched by the
capacity pass with maximum size 1, which returns without error on a graph
that still has a loop, in whatever order the two edges are sorted. -/
theorem merge_max_keeps_cycle_counterexample :
    Graph.new two_clusters two_netlist = .ok two_graph ∧
      (∀ sorter, SortsEdges sorter → two_graph.merge_max sorter 1 = (two_graph, none)) ∧
      has_loop two_graph = .ok true := by
  refine ⟨by decide, ?_, by decide⟩
  intro sorter hsort
  have ht : try_merge two_graph 1 (sorter two_graph.edges_) = (two_graph, none) := by
    apply try_merge_skip
    intro e he
    rw [mem_sorter sorter hsort] at he
    simp only [two_graph, List.mem_cons, List.mem_singleton, List.not_mem_nil, or_false] at he
    rcases he with rfl | rfl <;> exact ⟨1, 1, by decide, by decide, by decide⟩
  exact merge_max_of_loop two_graph sorter 1 two_graph _
    (merge_max_loop_stop sorter 1 _ two_graph two_graph (by decide) ht rfl) (by decide)

/-- Instance of `merge_max_keeps_acyclic` on a chain of three clusters, with
insertion sort as the sorting function. -/
theorem merge_max_keeps_acyclic_witness :
    SortsEdges sort_edges ∧ KeysSorted dag_clusters ∧
      Graph.new dag_clusters dag_netlist = .ok dag_graph ∧
      has_loop dag_graph = .ok false ∧
      dag_graph.merge_max sort_edges 2 = (dag_graph_merged, none) ∧
      has_loop dag_graph_merged = .ok false :=
  ⟨sort_edges_sorts, by unfold KeysSorted; decide, by decide, by decide, by decide,
    merge_max_keeps_acyclic dag_clusters dag_netlist dag_graph dag_graph_merged sort_edges 2
      sort_edges_sorts (by unfold KeysSorted; decide) (by decide) (by decide) (by decide)⟩

/-- Counterexample to C5 as stated, on clusters that overlap: the capacity pass with
maximum size 3 accepts a merge (three clusters become two) and the total
edge weight stays 1.  The graph has a single edge before and after the
merge, so the sorting function plays no part. -/
theorem merge_max_total_weight_counterexample :
    Graph.new overlap_clusters overlap_netlist = .ok overlap_graph ∧
      (∀ sorter, SortsEdges sorter →
        overlap_graph.merge_max sorter 3 = (overlap_graph_merged, none)) ∧
      overlap_graph_merged.clusters_.length < overlap_graph.clusters_.length ∧
      ¬ total_weights overlap_graph_merged.edges_ < total_weights overlap_graph.edges_ := by
  refine ⟨by decide, ?_, by decide, by decide⟩
  intro sorter hsort
  have ht : try_merge overlap_graph 3 (sorter overlap_graph.edges_)
      = ((try_merge overlap_graph 3 overlap_graph.edges_).1, none) := by
    rw [sorter_short sorter hsort _ (by decide)]
    decide
  have ht1 : try_merge (try_merge overlap_graph 3 overlap_graph.edges_).1 3
      (sorter (try_merge overlap_graph 3 overlap_graph.edges_).1.edges_)
      = ((try_merge overlap_graph 3 overlap_graph.edges_).1, none) := by
    rw [sorter_short sorter hsort _ (by decide)]
    decide
  refine merge_max_of_loop overlap_graph sorter 3
    (try_merge overlap_graph 3 overlap_graph.edges_).1 _ ?_ (by decide)
  rw [merge_max_loop_go sorter 3 _ overlap_graph _ (by decide) ht (by decide)]
  exact merge_max_loop_stop sorter 3 2 _ _ (by decide) ht1 rfl

/-- Instance of `merge_max_total_weight` on a chain of three clusters, with
insertion sort as the sorting function: one merge is accepted and the total
drops from 2 to 1. -/
theorem merge_max_total_weight_witness :
    SortsEdges sort_edges ∧ KeysSorted dag_clusters ∧
      Graph.new dag_clusters dag_netlist = .ok dag_graph ∧
      dag_graph.merge_max sort_edges 2 = (dag_graph_merged, none) ∧
      ClustersDisjoint dag_clusters ∧
      total_weights dag_graph_merged.edges_ ≤ total_weights dag_graph.edges_ ∧
      ((dag_graph_merged.clusters_ = renumber dag_graph.clusters_ ∧
          total_weights dag_graph_merged.edges_ = total_weights dag_graph.edges_) ∨
        (dag_graph_merged.clusters_.length < dag_graph.clusters_.length ∧
          total_weights dag_graph_merged.edges_ < total_weights dag_graph.edges_)) :=
  ⟨sort_edges_sorts, by unfold KeysSorted; decide, by decide, by decide,
    by unfold ClustersDisjoint; decide,
    (merge_max_total_weight dag_clusters dag_netlist dag_graph dag_graph_merged sort_edges 2
      sort_edges_sorts (by unfold KeysSorted; decide) (by decide) (by decide)).1,
    (merge_max_total_weight dag_clusters dag_netlist dag_graph dag_graph_merged sort_edges 2
      sort_edges_sorts (by unfold KeysSorted; decide) (by decide) (by decide)).2
      (by unfold ClustersDisjoint; decide)⟩

/-- Instance of `merge_max_capacity_error_iff` with maximum size 0 and
insertion sort as the sorting function. -/
theorem merge_max_capacity_error_iff_witness :
    SortsEdges sort_edges ∧ KeysSorted cyc_graph.clusters_ ∧
      ((∃ m, (cyc_graph.merge_max sort_edges 0).2 = some (.capacity m)) ↔
        ∃ c ∈ cyc_graph.clusters_, 0 < c.2.card) ∧
      ((∃ c ∈ cyc_graph.clusters_, 0 < c.2.card) →
        cyc_graph.merge_max sort_edges 0 = (cyc_graph, some (.capacity 0))) :=
  ⟨sort_edges_sorts, by unfold KeysSorted; decide,
    merge_max_capacity_error_iff cyc_graph sort_edges 0 sort_edges_sorts
      (by unfold KeysSorted; decide)⟩

/-- Instance of `topological_sort_respects_edges` on a chain of three
clusters. -/
theorem topological_sort_respects_edges_witness :
    KeysSorted dag_clusters ∧ Graph.new dag_clusters dag_netlist = .ok dag_graph ∧
      has_loop dag_graph = .ok false ∧
      ∃ order, topological_sort dag_graph = .ok order ∧
        order.Perm (dag_clusters.map Prod.fst) ∧ order.Nodup ∧
        ∀ e ∈ dag_graph.edges_,
          [node_id dag_graph e.from_, node_id dag_graph e.to_].Sublist order :=
  ⟨by unfold KeysSorted; decide, by decide, by decide,
    topological_sort_respects_edges dag_clusters dag_netlist dag_graph
      (by unfold KeysSorted; decide) (by decide) (by decide)⟩

theorem covered_dag : Covered dag_clusters dag_netlist := by
  unfold Covered; decide

/-- Instance of `update_builds_clustered_graph` on a chain of three
clusters. -/
theorem update_builds_clustered_graph_witness :
    KeysSorted dag_clusters ∧ NetsNonempty dag_netlist ∧
      ∃ g, update dag_clusters dag_netlist = .ok g ∧ g.clusters_ = dag_clusters ∧
        g.nodes_ = dag_clusters.map (fun c => ⟨c.1, c.2.card⟩) ∧
        (∀ e ∈ g.edges_, e.from_ ≠ e.to_ ∧ e.from_ < dag_clusters.length ∧
          e.to_ < dag_clusters.length) ∧
        (g.edges_.map (fun e => (e.from_, e.to_))).Nodup ∧
        ∀ a b ca cb, dag_clusters[a]? = some ca → dag_clusters[b]? = some cb → a ≠ b →
          ((∃ e ∈ g.edges_, e.from_ = a ∧ e.to_ = b) ↔
            ∃ iter ∈ dag_netlist, ∃ src sinks, iter.2 = src :: sinks ∧ src.1 ∈ ca.2 ∧
              ∃ s ∈ sinks, s.1 ∈ cb.2) ∧
          ∀ e ∈ g.edges_, e.from_ = a → e.to_ = b →
            e.weight = fanout_pairs ca.2 cb.2 dag_netlist :=
  ⟨by unfold KeysSorted; decide, by unfold NetsNonempty; decide,
    update_builds_clustered_graph dag_clusters dag_netlist (by unfold KeysSorted; decide)
      (by unfold NetsNonempty; decide)
      (fun iter hi p hp => unique_cluster_of_disjoint dag_clusters
        (by unfold ClustersDisjoint; decide) p.1 (covered_dag iter hi p hp))⟩

end graph

namespace TimingGraph

theorem next_of_ge (nodes : List TimingNode) (u : Nat) (h : nodes.length ≤ u) :
    next_of nodes u = [] := by
  unfold next_of
  rw [List.getElem?_eq_none h]

/-- A ranking that grows along every edge shows that the timing graph has
no cycle. -/
theorem acyclic_of_rank (nodes : List TimingNode) (rank : Nat → Nat)
    (h : ∀ u, u < nodes.length → ∀ w ∈ next_of nodes u, rank u < rank w) :
    ∀ v, ¬ Relation.TransGen (fun u w => w ∈ next_of nodes u) v v := by
  have hstep : ∀ u w, w ∈ next_of nodes u → rank u < rank w := by
    intro u w hw
    by_cases hu : u < nodes.length
    · exact h u hu w hw
    · rw [next_of_ge nodes u (by omega)] at hw
      cases hw
  have hall : ∀ u w, Relation.TransGen (fun u w => w ∈ next_of nodes u) u w →
      rank u < rank w := by
    intro u w huw
    induction huw with
    | single h1 => exact hstep _ _ h1
    | tail _ h2 ih => exact lt_trans ih (hstep _ _ h2)
  intro v hv
  exact lt_irrefl _ (hall v v hv)

/-- Instance of `timing_topological_sort_respects_edges` on a chain of four
operators, the node container being read in creation order. -/
theorem timing_topological_sort_respects_edges_witness :
    build chain_netlist [] = some chain_nodes ∧
      [0, 1, 2, 3].Perm (List.range chain_nodes.length) ∧
      ∃ result, topological_sort chain_nodes [0, 1, 2, 3] = .ok result ∧
        result.Perm (List.range chain_nodes.length) ∧
        ∀ u v, u < chain_nodes.length → v ∈ next_of chain_nodes u → [u, v].Sublist result :=
  ⟨by decide, by decide,
    timing_topological_sort_respects_edges chain_netlist chain_nodes [0, 1, 2, 3] (by decide)
      (by decide) (acyclic_of_rank chain_nodes chain_rank (by decide))⟩

end TimingGraph

namespace graph

/-! ## Nets and edges after `update`; renumbering -/

/-- Counterexample to C11 as stated: the net of `fan_netlist` has receivers in two
clusters other than its driver's, and it counts in the weight of both edges
of the graph `update` builds. -/
theorem update_net_two_edges_counterexample :
    update fan_clusters fan_netlist = .ok fan_graph ∧
      0 < net_cut (node_map fan_clusters) fan_net ∧
      (fan_graph.edges_.filter (fun e =>
        decide (0 < net_fanout (node_map fan_clusters) e.from_ e.to_ fan_net))).length = 2 :=
  ⟨by decide, by decide, by decide⟩

theorem fanout_pos_of_mem (nm : BlockId → Option Nat) (netlist : PortNetlist) (a b : Nat)
    (iter : String × List (BlockId × String)) (hi : iter ∈ netlist)
    (src : BlockId × String) (sinks : List (BlockId × String)) (hnet : iter.2 = src :: sinks)
    (ha : nm src.1 = some a) (s : BlockId × String) (hs : s ∈ sinks) (hb : nm s.1 = some b) :
    0 < fanout nm netlist a b := by
  have h1 : 0 < net_fanout nm a b iter.2 := by
    rw [hnet]
    simp only [net_fanout, ha, if_true]
    apply List.length_pos_of_mem (a := s)
    simp only [List.mem_filter, decide_eq_true_eq]
    exact ⟨hs, hb⟩
  have h2 : net_fanout nm a b iter.2 ∈ netlist.map (fun it => net_fanout nm a b it.2) :=
    List.mem_map_of_mem (fun it => net_fanout nm a b it.2) hi
  have h3 := List.single_le_sum (fun x _ => Nat.zero_le x) _ h2
  simp only [fanout]
  omega

theorem edge_eq_of_pair (es : List Edge) (hnd : (edge_pairs es).Nodup) (e e1 : Edge)
    (he : e ∈ es) (he1 : e1 ∈ es) (hf : e1.from_ = e.from_) (ht : e1.to_ = e.to_) : e1 = e := by
  apply List.inj_on_of_nodup_map hnd he1 he
  simp only [hf, ht]

/-- C11 (amended): in the graph `update` builds, the weight of every edge is
the number of (net, receiver) pairs with the driver in the source vertex and
the receiver in the target vertex, and every receiver of a net whose vertex
differs from the driver's vertex counts in exactly one edge, the one from
the driver's vertex to the receiver's vertex. -/
theorem update_receiver_one_edge (clusters : Clusters) (netlist : PortNetlist) (g : Graph)
    (h : update clusters netlist = .ok g) :
    (∀ e ∈ g.edges_, e.weight = fanout (node_map clusters) netlist e.from_ e.to_) ∧
      ∀ iter ∈ netlist, ∀ src sinks, iter.2 = src :: sinks → ∀ s ∈ sinks,
        node_map clusters s.1 ≠ node_map clusters src.1 →
        ∃ e ∈ g.edges_, node_map clusters src.1 = some e.from_ ∧
          node_map clusters s.1 = some e.to_ ∧
          ∀ e1 ∈ g.edges_, e1.from_ = e.from_ → e1.to_ = e.to_ → e1 = e := by
  obtain ⟨hcov, hne, hg⟩ := update_eq_ok clusters netlist g h
  obtain ⟨_, hok, hw, _⟩ := update_state_spec clusters netlist hcov hne
  have hedges : g.edges_ = built_edges clusters netlist := by rw [hg]
  rw [hedges]
  refine ⟨?_, ?_⟩
  · intro e he
    have hpair := hok.2.1 (e.from_, e.to_) (List.mem_map_of_mem (fun e => (e.from_, e.to_)) he)
    rw [← hw e.from_ e.to_ hpair.2.2]
    exact (pair_weight_eq_of_mem _ hok.1 e he).symm
  · intro iter hi src sinks hnet s hs hdiff
    have hsrc := node_map_of_covered clusters netlist hcov iter hi src (by rw [hnet]; simp)
    have hsnk := node_map_of_covered clusters netlist hcov iter hi s
      (by rw [hnet]; exact List.mem_cons_of_mem _ hs)
    obtain ⟨a, ha⟩ := hsrc
    obtain ⟨b, hb⟩ := hsnk
    have hab : a ≠ b := by
      intro hc
      apply hdiff
      rw [ha.1, hb.1, hc]
    have hpos : 0 < fanout (node_map clusters) netlist a b :=
      fanout_pos_of_mem _ netlist a b iter hi src sinks hnet ha.1 s hs hb.1
    rw [← hw a b hab, pair_weight_pos_iff _ hok.2.2] at hpos
    obtain ⟨e, he, hf, ht⟩ := hpos
    refine ⟨e, he, by rw [hf]; exact ha.1, by rw [ht]; exact hb.1, ?_⟩
    intro e1 he1 h1 h2
    exact edge_eq_of_pair _ hok.1 e e1 he he1 h1 h2

/-- Instance of `update_receiver_one_edge` on the net with two receiver
clusters. -/
theorem update_receiver_one_edge_witness :
    update fan_clusters fan_netlist = .ok fan_graph ∧
      (∀ e ∈ fan_graph.edges_,
        e.weight = fanout (node_map fan_clusters) fan_netlist e.from_ e.to_) ∧
      ∀ iter ∈ fan_netlist, ∀ src sinks, iter.2 = src :: sinks → ∀ s ∈ sinks,
        node_map fan_clusters s.1 ≠ node_map fan_clusters src.1 →
        ∃ e ∈ fan_graph.edges_, node_map fan_clusters src.1 = some e.from_ ∧
          node_map fan_clusters s.1 = some e.to_ ∧
          ∀ e1 ∈ fan_graph.edges_, e1.from_ = e.from_ → e1.to_ = e.to_ → e1 = e :=
  ⟨by decide, update_receiver_one_edge fan_clusters fan_netlist fan_graph (by decide)⟩

theorem lookup_of_keys_sets (cs : Clusters) (k : Nat) :
    ∀ (cs1 : Clusters) (off : Nat),
      cs1.map Prod.fst = (List.range' off cs.length).map (fun (i : Nat) => (i : Int)) →
      cs1.map Prod.snd = cs.map Prod.snd → ∀ c, cs[k]? = some c →
      cs1.lookup ((off + k : Nat) : Int) = some c.2 := by
  induction cs generalizing k with
  | nil => intro cs1 off _ _ c hc; cases hc
  | cons d rest ih =>
    intro cs1 off hk hsets c hc
    cases cs1 with
    | nil => simp at hsets
    | cons d1 rest1 =>
      simp only [List.map_cons, List.length_cons, List.range'_succ, List.cons.injEq] at hk hsets
      cases k with
      | zero =>
        simp only [List.getElem?_cons_zero, Option.some.injEq] at hc
        have hd1 : d1 = ((off : Int), c.2) := Prod.ext hk.1 (by rw [← hc]; exact hsets.1)
        rw [hd1]
        simp
      | succ k =>
        simp only [List.getElem?_cons_succ] at hc
        have := ih k rest1 (off + 1) hk.2 hsets.2 c hc
        have hne : (((off + (k + 1) : Nat) : Int) == d1.1) = false := by
          rw [hk.1]
          simp only [beq_eq_false_iff_ne, ne_eq, Nat.cast_inj]
          omega
        rw [List.lookup_cons, hne]
        have e : off + 1 + k = off + (k + 1) := by omega
        rw [← e]
        exact this

/-- C12: on a graph whose vertices and edges are those of its cluster map,
`fix_cluster_id` returns; and whenever it returns, the cluster ids are
`0, 1, ..., N - 1` for the `N` clusters it was called on, the block sets are
the old ones in the old iteration order, and the cluster with id `k` holds
the block set of the old cluster at position `k` of that order (the old map
is listed by increasing id). -/
theorem fix_cluster_id_renumbers (g : Graph) :
    (Built g → ∃ g1, g.fix_cluster_id = .ok g1) ∧
      ∀ g1, g.fix_cluster_id = .ok g1 →
        g1.clusters_.map Prod.fst
          = (List.range g.clusters_.length).map (fun (i : Nat) => (i : Int)) ∧
        g1.clusters_.map Prod.snd = g.clusters_.map Prod.snd ∧
        ∀ (k : Nat) (c : Int × Finset BlockId), g.clusters_[k]? = some c →
          g1.clusters_.lookup (k : Int) = some c.2 := by
  refine ⟨?_, ?_⟩
  · intro hb
    obtain ⟨hcov, hne, _, _⟩ := built_eq g hb
    have hu := update_state_renumber g.clusters_ g.netlist_ hcov hne
    exact ⟨⟨renumber g.clusters_, g.netlist_, cluster_nodes (renumber g.clusters_),
      built_edges g.clusters_ g.netlist_⟩, by simp only [Graph.fix_cluster_id, update, hu]⟩
  · intro g1 h
    obtain ⟨_, _, hg⟩ := update_eq_ok _ _ g1 h
    have hcs : g1.clusters_ = renumber g.clusters_ := by rw [hg]
    rw [hcs]
    refine ⟨renumber_keys _, renumber_sets _, ?_⟩
    intro k c hc
    have := lookup_of_keys_sets g.clusters_ k (renumber g.clusters_) 0
      (by rw [renumber_keys, List.range_eq_range']) (renumber_sets _) c hc
    simpa using this

/-- Instance of `fix_cluster_id_renumbers` on cluster ids 2, 5 and 9. -/
theorem fix_cluster_id_renumbers_witness :
    Built sparse_graph ∧ sparse_graph.fix_cluster_id = .ok dag_graph ∧
      (∃ g1, sparse_graph.fix_cluster_id = .ok g1) ∧
      dag_graph.clusters_.map Prod.fst
        = (List.range sparse_graph.clusters_.length).map (fun (i : Nat) => (i : Int)) ∧
      dag_graph.clusters_.map Prod.snd = sparse_graph.clusters_.map Prod.snd ∧
      ∀ (k : Nat) (c : Int × Finset BlockId), sparse_graph.clusters_[k]? = some c →
        dag_graph.clusters_.lookup (k : Int) = some c.2 :=
  ⟨by unfold Built; decide, by decide,
    (fix_cluster_id_renumbers sparse_graph).1 (by unfold Built; decide),
    (fix_cluster_id_renumbers sparse_graph).2 dag_graph (by decide)⟩

end graph

namespace graph

/-! ## The loop path is a cycle through its start -/

theorem chain_reaches (edges : List Edge) :
    ∀ (l : List Nat) (a : Nat), List.Chain (fun x y => EdgeRel edges y x) a l →
      ∀ x ∈ l, Relation.TransGen (EdgeRel edges) x a := by
  intro l
  induction l with
  | nil => intro a _ x hx; cases hx
  | cons b rest ih =>
    intro a hch x hx
    cases hch with
    | cons hba hrest =>
      rcases List.mem_cons.1 hx with rfl | h
      · exact Relation.TransGen.single hba
      · exact Relation.TransGen.tail (ih b hrest x h) hba

theorem isLoopPath_cycle (edges : List Edge) (N start : Nat) (result : List Nat)
    (h : IsLoopPath edges N start result) : Relation.TransGen (EdgeRel edges) start start := by
  obtain ⟨chain, _, hne, _, _, _, hch, hlast⟩ := h
  have hmem : (start :: chain).getLast (List.cons_ne_nil _ _) ∈ chain := by
    rw [List.getLast_cons hne]
    exact List.getLast_mem hne
  exact Relation.TransGen.head hlast (chain_reaches edges chain start hch _ hmem)

/-- C19: on a clustered graph and a vertex `start`, `find_loop_path` returns,
and its result is non-empty exactly when `start` lies on a directed cycle; a
non-empty result begins with `start`, repeats no vertex, has an edge from
each element to the element before it and an edge from `start` to its last
element. -/
theorem find_loop_path_cycle (clusters : Clusters) (netlist : PortNetlist) (g : Graph)
    (hg : Graph.new clusters netlist = .ok g) (start : Nat) (hs : start < g.nodes_.length) :
    ∃ result, find_loop_path g start = .ok result ∧
      (result ≠ [] ↔ Relation.TransGen (EdgeRel g.edges_) start start) ∧
      (result ≠ [] → ∃ chain, result = start :: chain ∧ (start :: chain).Nodup ∧
        List.Chain (fun x y => EdgeRel g.edges_ y x) start chain ∧
        EdgeRel g.edges_ start ((start :: chain).getLast (List.cons_ne_nil _ _))) := by
  have hb : Built g := (built_of_new clusters netlist g hg).1
  obtain ⟨result, hr, h1, h2⟩ := find_loop_path_spec g (built_edgesOk g hb) start hs
  refine ⟨result, hr, ⟨fun hne => isLoopPath_cycle _ _ _ _ (h2 hne), fun hc hnil => h1 hnil hc⟩, ?_⟩
  intro hne
  obtain ⟨chain, e, _, hnot, hnd, _, hch, hlast⟩ := h2 hne
  exact ⟨chain, e, List.nodup_cons.2 ⟨hnot, hnd⟩, hch, hlast⟩

/-- Instance of `find_loop_path_cycle` on the graph with a cycle through
clusters 0 and 3, from its first vertex. -/
theorem find_loop_path_cycle_witness :
    Graph.new cyc_clusters cyc_netlist = .ok cyc_graph ∧ 0 < cyc_graph.nodes_.length ∧
      find_loop_path cyc_graph 0 = .ok [0, 1] ∧
      ∃ result, find_loop_path cyc_graph 0 = .ok result ∧
        (result ≠ [] ↔ Relation.TransGen (EdgeRel cyc_graph.edges_) 0 0) ∧
        (result ≠ [] → ∃ chain, result = 0 :: chain ∧ (0 :: chain).Nodup ∧
          List.Chain (fun x y => EdgeRel cyc_graph.edges_ y x) 0 chain ∧
          EdgeRel cyc_graph.edges_ 0 ((0 :: chain).getLast (List.cons_ne_nil _ _))) :=
  ⟨by decide, by decide, by decide,
    find_loop_path_cycle cyc_clusters cyc_netlist cyc_graph (by decide) 0 (by decide)⟩

end graph

namespace graph

/-! ## The acyclic pass joins exactly the strongly connected components -/

theorem edgeRel_built_iff (cs : Clusters) (netlist : PortNetlist) (hcov : Covered cs netlist)
    (hne : NetsNonempty netlist) (a b : Nat) :
    EdgeRel (built_edges cs netlist) a b ↔ NetEdge (node_map cs) netlist a b := by
  obtain ⟨_, hok, hw, _⟩ := update_state_spec cs netlist hcov hne
  constructor
  · rintro ⟨e, he, hf, ht⟩
    have hpair := hok.2.1 (e.from_, e.to_) (List.mem_map_of_mem (fun e => (e.from_, e.to_)) he)
    simp only [hf, ht] at hpair
    have hpos : 0 < pair_weight (built_edges cs netlist) a b :=
      (pair_weight_pos_iff _ hok.2.2 a b).2 ⟨e, he, hf, ht⟩
    rw [hw a b hpair.2.2] at hpos
    exact ⟨hpair.2.2, fanout_pos _ _ _ _ hpos⟩
  · rintro ⟨hab, iter, hi, src, sinks, hnet, hsrc, s, hs, hsb⟩
    have hpos := fanout_pos_of_mem _ netlist a b iter hi src sinks hnet hsrc s hs hsb
    rw [← hw a b hab] at hpos
    exact (pair_weight_pos_iff _ hok.2.2 a b).1 hpos

theorem key_unique (cs : Clusters) (hs : KeysSorted cs) (k : Int) (s s1 : Finset BlockId)
    (h : (k, s) ∈ cs) (h1 : (k, s1) ∈ cs) : s = s1 := by
  have e := lookup_of_mem cs hs k s h
  rw [lookup_of_mem cs hs k s1 h1] at e
  injection e with e
  exact e.symm

theorem mem_merged_iff (ka kb : Int) (sa sb : Finset BlockId) (cs : Clusters)
    (hs : KeysSorted cs) (ha : (ka, sa) ∈ cs) (hne : ka ≠ kb) (k : Int) (s : Finset BlockId) :
    (k, s) ∈ clusters_add ka sb (clusters_erase kb cs) ↔
      (k = ka ∧ s = sa ∪ sb) ∨ (k ≠ ka ∧ k ≠ kb ∧ (k, s) ∈ cs) := by
  simp only [clusters_add, clusters_erase, List.mem_map, List.mem_filter, ne_eq,
    decide_eq_true_eq]
  constructor
  · rintro ⟨c, ⟨hc, hcb⟩, hcs⟩
    by_cases hk : c.1 = ka
    · simp only [hk, if_true] at hcs
      injection hcs with h1 h2
      left
      have : c.2 = sa := key_unique cs hs ka c.2 sa (by rw [← hk]; exact hc) ha
      exact ⟨h1.symm, by rw [← h2, this]⟩
    · simp only [hk, if_false] at hcs
      right
      have hk1 : c.1 = k := congrArg Prod.fst hcs
      rw [← hk1]
      refine ⟨hk, hcb, ?_⟩
      rw [hk1, ← hcs]
      exact hc
  · rintro (⟨h1, h2⟩ | ⟨h1, h2, h3⟩)
    · exact ⟨(ka, sa), ⟨ha, hne⟩, by simp [h1, h2]⟩
    · exact ⟨(k, s), ⟨h3, h2⟩, by simp [h1]⟩

theorem merged_same_iff (ka kb : Int) (sa sb : Finset BlockId) (cs : Clusters)
    (hs : KeysSorted cs) (ha : (ka, sa) ∈ cs) (hb : (kb, sb) ∈ cs) (hne : ka ≠ kb)
    (x y : BlockId) :
    SameCluster (clusters_add ka sb (clusters_erase kb cs)) x y ↔
      SameCluster cs x y ∨ ((x ∈ sa ∨ x ∈ sb) ∧ (y ∈ sa ∨ y ∈ sb)) := by
  constructor
  · rintro ⟨c, hc, hx, hy⟩
    rcases (mem_merged_iff ka kb sa sb cs hs ha hne c.1 c.2).1 hc with ⟨_, h2⟩ | ⟨_, _, h3⟩
    · right
      rw [h2] at hx hy
      exact ⟨Finset.mem_union.1 hx, Finset.mem_union.1 hy⟩
    · exact Or.inl ⟨c, h3, hx, hy⟩
  · exact merged_same ka kb sa sb cs hs ha hb hne x y

theorem merge_path_same (g : Graph) (src : Nat) :
    ∀ (tail : List Nat) (cs : Clusters), KeysSorted cs → ClustersDisjoint cs →
      (∃ s, (node_id g src, s) ∈ cs) → (∀ d ∈ tail, ∃ s, (node_id g d, s) ∈ cs) →
      (tail.map (node_id g)).Nodup → node_id g src ∉ tail.map (node_id g) →
      ∃ cs1, merge_path g src tail cs = .ok cs1 ∧ KeysSorted cs1 ∧ ClustersDisjoint cs1 ∧
        ∀ x y, SameCluster cs1 x y ↔ SameCluster cs x y ∨
          ((∃ d ∈ src :: tail, ∃ s, (node_id g d, s) ∈ cs ∧ x ∈ s) ∧
            ∃ d ∈ src :: tail, ∃ s, (node_id g d, s) ∈ cs ∧ y ∈ s) := by
  intro tail
  induction tail with
  | nil =>
    intro cs hs hd hsrc _ _ _
    refine ⟨cs, rfl, hs, hd, ?_⟩
    intro x y
    constructor
    · intro h; exact Or.inl h
    · rintro (h | ⟨⟨d, hd1, s, hsm, hx⟩, ⟨d2, hd2, s2, hsm2, hy⟩⟩)
      · exact h
      · rw [List.mem_singleton.1 hd1] at hsm
        rw [List.mem_singleton.1 hd2] at hsm2
        have := key_unique cs hs _ s s2 hsm hsm2
        exact ⟨_, hsm, hx, by rw [this]; exact hy⟩
  | cons d rest ih =>
    intro cs hs hd hsrc htail hnd hnot
    obtain ⟨sa, hsa⟩ := hsrc
    obtain ⟨sb, hsb⟩ := htail d (List.mem_cons_self _ _)
    simp only [List.map_cons, List.nodup_cons, List.mem_cons, not_or] at hnd hnot
    have hm := merge_clusters_ok (node_id g src) (node_id g d) sa sb cs hs hsa hsb
    have hsorted1 : KeysSorted (clusters_add (node_id g src) sb (clusters_erase (node_id g d) cs)) :=
      keysSorted_add _ _ _ (keysSorted_erase _ _ hs)
    have hdis1 := merged_disjoint (node_id g src) (node_id g d) sb cs hs hd hsb
    have hmem := mem_merged_iff (node_id g src) (node_id g d) sa sb cs hs hsa hnot.1
    obtain ⟨cs1, h1, h2, h3, h4⟩ := ih _ hsorted1 hdis1
      ⟨sa ∪ sb, (hmem _ _).2 (Or.inl ⟨rfl, rfl⟩)⟩
      (fun x hx => by
        obtain ⟨s, hs1⟩ := htail x (List.mem_cons_of_mem _ hx)
        refine ⟨s, (hmem _ _).2 (Or.inr ⟨?_, ?_, hs1⟩)⟩
        · intro hc
          exact hnot.2 (by rw [← hc]; exact List.mem_map_of_mem _ hx)
        · intro hc
          exact hnd.1 (by rw [← hc]; exact List.mem_map_of_mem _ hx))
      hnd.2 hnot.2
    refine ⟨cs1, ?_, h2, h3, ?_⟩
    · simp only [merge_path, hm]; exact h1
    · have hon : ∀ z, (∃ d1 ∈ src :: rest, ∃ s,
            (node_id g d1, s) ∈ clusters_add (node_id g src) sb (clusters_erase (node_id g d) cs)
              ∧ z ∈ s) ↔
          ∃ d1 ∈ src :: d :: rest, ∃ s, (node_id g d1, s) ∈ cs ∧ z ∈ s := by
        intro z
        constructor
        · rintro ⟨d1, hd1, s, hsm, hz⟩
          rcases (hmem _ _).1 hsm with ⟨_, e2⟩ | ⟨k1, k2, k3⟩
          · rw [e2] at hz
            rcases Finset.mem_union.1 hz with hz1 | hz1
            · exact ⟨src, List.mem_cons_self _ _, sa, hsa, hz1⟩
            · exact ⟨d, List.mem_cons_of_mem _ (List.mem_cons_self _ _), sb, hsb, hz1⟩
          · rcases List.mem_cons.1 hd1 with e | e
            · rw [e] at k1; exact absurd rfl k1
            · exact ⟨d1, List.mem_cons_of_mem _ (List.mem_cons_of_mem _ e), s, k3, hz⟩
        · rintro ⟨d1, hd1, s, hsm, hz⟩
          rcases List.mem_cons.1 hd1 with e | e
          · rw [e] at hsm
            have := key_unique cs hs _ s sa hsm hsa
            exact ⟨src, List.mem_cons_self _ _, sa ∪ sb, (hmem _ _).2 (Or.inl ⟨rfl, rfl⟩),
              Finset.mem_union_left _ (by rw [← this]; exact hz)⟩
          · rcases List.mem_cons.1 e with e1 | e1
            · rw [e1] at hsm
              have := key_unique cs hs _ s sb hsm hsb
              exact ⟨src, List.mem_cons_self _ _, sa ∪ sb, (hmem _ _).2 (Or.inl ⟨rfl, rfl⟩),
                Finset.mem_union_right _ (by rw [← this]; exact hz)⟩
            · refine ⟨d1, List.mem_cons_of_mem _ e1, s, (hmem _ _).2 (Or.inr ⟨?_, ?_, hsm⟩), hz⟩
              · intro hc
                exact hnot.2 (by rw [← hc]; exact List.mem_map_of_mem _ e1)
              · intro hc
                exact hnd.1 (by rw [← hc]; exact List.mem_map_of_mem _ e1)
      have hab : ∀ z, (z ∈ sa ∨ z ∈ sb) →
          ∃ d1 ∈ src :: d :: rest, ∃ s, (node_id g d1, s) ∈ cs ∧ z ∈ s := by
        rintro z (hz | hz)
        · exact ⟨src, List.mem_cons_self _ _, sa, hsa, hz⟩
        · exact ⟨d, List.mem_cons_of_mem _ (List.mem_cons_self _ _), sb, hsb, hz⟩
      intro x y
      rw [h4 x y, hon x, hon y,
        merged_same_iff (node_id g src) (node_id g d) sa sb cs hs hsa hsb hnot.1 x y]
      constructor
      · rintro ((h | ⟨hx, hy⟩) | h)
        · exact Or.inl h
        · exact Or.inr ⟨hab x hx, hab y hy⟩
        · exact Or.inr h
      · rintro (h | h)
        · exact Or.inl (Or.inl h)
        · exact Or.inr h

theorem node_map_some_of_mem (cs : Clusters) (x : BlockId) (h : ∃ c ∈ cs, x ∈ c.2) :
    ∃ i, node_map cs x = some i ∧ i < cs.length := by
  obtain ⟨c, hc, hx⟩ := h
  cases hci : cluster_index x cs with
  | none => exact absurd hx ((cluster_index_eq_none _ _).1 hci c hc)
  | some i => exact ⟨i, hci, cluster_index_lt _ _ _ hci⟩

theorem mem_of_node_map (cs : Clusters) (x : BlockId) (i : Nat) (h : node_map cs x = some i) :
    ∃ c ∈ cs, x ∈ c.2 := by
  obtain ⟨c, hc, hx⟩ := cluster_index_mem x cs i h
  exact ⟨c, List.getElem?_mem hc, hx⟩

theorem same_of_node_map (cs : Clusters) (hd : ClustersDisjoint cs) (x y : BlockId) (A : Nat)
    (hx : node_map cs x = some A) (hy : node_map cs y = some A) : SameCluster cs x y :=
  (node_map_eq_iff_same cs hd x y (mem_of_node_map cs x A hx)).1 (by rw [hx, hy])

theorem node_map_of_same (cs : Clusters) (hd : ClustersDisjoint cs) (x y : BlockId)
    (h : SameCluster cs x y) : node_map cs x = node_map cs y := by
  obtain ⟨c, hc, hx, hy⟩ := h
  exact (node_map_eq_iff_same cs hd x y ⟨c, hc, hx⟩).2 ⟨c, hc, hx, hy⟩

theorem keyBlocks_iff_node_map (g : Graph) (hb : Built g) (hs : KeysSorted g.clusters_)
    (hd : ClustersDisjoint g.clusters_) (d : Nat) (hlt : d < g.clusters_.length) (x : BlockId) :
    (∃ s, (node_id g d, s) ∈ g.clusters_ ∧ x ∈ s) ↔ node_map g.clusters_ x = some d := by
  obtain ⟨ca, hca, hid⟩ := node_id_built g hb d hlt
  have hcam : (ca.1, ca.2) ∈ g.clusters_ := List.getElem?_mem hca
  constructor
  · rintro ⟨s, hsm, hx⟩
    rw [hid] at hsm
    have e := key_unique g.clusters_ hs ca.1 s ca.2 hsm hcam
    rw [e] at hx
    exact (node_map_eq_iff g.clusters_ hs x
      (unique_cluster_of_disjoint g.clusters_ hd x ⟨ca, hcam, hx⟩) d ca hca).2 hx
  · intro h
    obtain ⟨c, hc, hx⟩ := cluster_index_mem x g.clusters_ d h
    rw [hca] at hc
    injection hc with hc
    exact ⟨ca.2, by rw [hid]; exact hcam, by rw [hc]; exact hx⟩

theorem chain_last_reaches (edges : List Edge) :
    ∀ (l : List Nat) (a : Nat), List.Chain (fun x y => EdgeRel edges y x) a l →
      Relation.ReflTransGen (EdgeRel edges) ((a :: l).getLast (List.cons_ne_nil _ _)) a := by
  intro l
  induction l with
  | nil => intro a _; exact Relation.ReflTransGen.refl
  | cons b rest ih =>
    intro a hch
    cases hch with
    | cons hba hrest =>
      rw [List.getLast_cons (List.cons_ne_nil _ _)]
      exact Relation.ReflTransGen.tail (ih b hrest) hba

theorem chain_last_reaches_mem (edges : List Edge) :
    ∀ (l : List Nat) (a : Nat), List.Chain (fun x y => EdgeRel edges y x) a l →
      ∀ x ∈ l, Relation.ReflTransGen (EdgeRel edges)
        ((a :: l).getLast (List.cons_ne_nil _ _)) x := by
  intro l
  induction l with
  | nil => intro a _ x hx; cases hx
  | cons b rest ih =>
    intro a hch x hx
    cases hch with
    | cons hba hrest =>
      rw [List.getLast_cons (List.cons_ne_nil _ _)]
      rcases List.mem_cons.1 hx with rfl | h
      · exact chain_last_reaches edges rest x hrest
      · exact ih b hrest x h

/-- All vertices of a loop path reach one another. -/
theorem loop_path_mutual (edges : List Edge) (N start : Nat) (result : List Nat)
    (h : IsLoopPath edges N start result) :
    ∀ u ∈ result, ∀ v ∈ result, Relation.ReflTransGen (EdgeRel edges) u v := by
  obtain ⟨chain, hres, hne, _, _, _, hch, hlast⟩ := h
  have hto : ∀ u ∈ start :: chain, Relation.ReflTransGen (EdgeRel edges) u start := by
    intro u hu
    rcases List.mem_cons.1 hu with rfl | hu
    · exact Relation.ReflTransGen.refl
    · exact (chain_reaches edges chain start hch u hu).to_reflTransGen
  have hfrom : ∀ v ∈ start :: chain, Relation.ReflTransGen (EdgeRel edges) start v := by
    intro v hv
    rcases List.mem_cons.1 hv with rfl | hv
    · exact Relation.ReflTransGen.refl
    · exact Relation.ReflTransGen.head hlast (chain_last_reaches_mem edges chain start hch v hv)
  rw [hres]
  intro u hu v hv
  exact (hto u hu).trans (hfrom v hv)

theorem scc_edge_step (cs0 cs : Clusters) (netlist : PortNetlist)
    (hd0 : ClustersDisjoint cs0) (hd : ClustersDisjoint cs)
    (hcov0 : Covered cs0 netlist) (hcov : Covered cs netlist) (hne : NetsNonempty netlist)
    (hinv : SccCoarsening (built_edges cs0 netlist) cs0 cs) (C B : Nat)
    (h : EdgeRel (built_edges cs netlist) C B) :
    ∃ u v c b, node_map cs u = some C ∧ node_map cs v = some B ∧
      node_map cs0 u = some c ∧ node_map cs0 v = some b ∧
      EdgeRel (built_edges cs0 netlist) c b := by
  obtain ⟨hCB, iter, hi, src, sinks, hnet, hsrc, s, hs, hsB⟩ :=
    (edgeRel_built_iff cs netlist hcov hne C B).1 h
  obtain ⟨c, hc, _⟩ := node_map_of_covered cs0 netlist hcov0 iter hi src (by rw [hnet]; simp)
  obtain ⟨b, hb, _⟩ := node_map_of_covered cs0 netlist hcov0 iter hi s
    (by rw [hnet]; exact List.mem_cons_of_mem _ hs)
  refine ⟨src.1, s.1, c, b, hsrc, hsB, hc, hb, ?_⟩
  apply (edgeRel_built_iff cs0 netlist hcov0 hne c b).2
  refine ⟨?_, iter, hi, src, sinks, hnet, hc, s, hs, hb⟩
  intro hcb
  have h1 : SameCluster cs0 src.1 s.1 :=
    same_of_node_map cs0 hd0 src.1 s.1 c hc (by rw [hb, hcb])
  have h2 := node_map_of_same cs hd _ _ (hinv.2.1 _ _ h1)
  rw [hsrc, hsB] at h2
  injection h2 with h2
  exact hCB h2

/-- A path of the coarser graph lifts to a path of the graph of `cs0`. -/
theorem scc_lift (cs0 cs : Clusters) (netlist : PortNetlist)
    (hd0 : ClustersDisjoint cs0) (hd : ClustersDisjoint cs)
    (hcov0 : Covered cs0 netlist) (hcov : Covered cs netlist) (hne : NetsNonempty netlist)
    (hinv : SccCoarsening (built_edges cs0 netlist) cs0 cs) (A B : Nat)
    (h : Relation.TransGen (EdgeRel (built_edges cs netlist)) A B) :
    ∀ x y a b, node_map cs x = some A → node_map cs y = some B →
      node_map cs0 x = some a → node_map cs0 y = some b →
      Relation.ReflTransGen (EdgeRel (built_edges cs0 netlist)) a b := by
  have hsame : ∀ x y D a b, node_map cs x = some D → node_map cs y = some D →
      node_map cs0 x = some a → node_map cs0 y = some b →
      Relation.ReflTransGen (EdgeRel (built_edges cs0 netlist)) a b := by
    intro x y D a b hx hy h0x h0y
    exact (hinv.2.2 x y a b h0x h0y (same_of_node_map cs hd x y D hx hy)).1
  induction h with
  | single hedge =>
    intro x y a b hx hy h0x h0y
    obtain ⟨u, v, c1, b1, hu, hv, h0u, h0v, he⟩ :=
      scc_edge_step cs0 cs netlist hd0 hd hcov0 hcov hne hinv _ _ hedge
    exact ((hsame x u _ a c1 hx hu h0x h0u).tail he).trans (hsame v y _ b1 b hv hy h0v h0y)
  | tail _ hedge ih =>
    intro x y a b hx hy h0x h0y
    obtain ⟨u, v, c1, b1, hu, hv, h0u, h0v, he⟩ :=
      scc_edge_step cs0 cs netlist hd0 hd hcov0 hcov hne hinv _ _ hedge
    exact ((ih x u a c1 hx hu h0x h0u).tail he).trans (hsame v y _ b1 b hv hy h0v h0y)

/-- A path of the graph of `cs0` projects to a path of the coarser graph. -/
theorem scc_project (cs0 cs : Clusters) (netlist : PortNetlist)
    (hd0 : ClustersDisjoint cs0) (hd : ClustersDisjoint cs)
    (hcov0 : Covered cs0 netlist) (hcov : Covered cs netlist) (hne : NetsNonempty netlist)
    (hinv : SccCoarsening (built_edges cs0 netlist) cs0 cs) (a b : Nat)
    (h : Relation.ReflTransGen (EdgeRel (built_edges cs0 netlist)) a b) :
    ∀ x y, node_map cs0 x = some a → node_map cs0 y = some b →
      ∃ A B, node_map cs x = some A ∧ node_map cs y = some B ∧
        Relation.ReflTransGen (EdgeRel (built_edges cs netlist)) A B := by
  have hsame : ∀ x y d, node_map cs0 x = some d → node_map cs0 y = some d →
      ∃ A, node_map cs x = some A ∧ node_map cs y = some A := by
    intro x y d hx hy
    have h1 := hinv.2.1 _ _ (same_of_node_map cs0 hd0 x y d hx hy)
    have h2 := node_map_of_same cs hd _ _ h1
    obtain ⟨c, hc, hxc, _⟩ := h1
    obtain ⟨A, hA, _⟩ := node_map_some_of_mem cs x ⟨c, hc, hxc⟩
    exact ⟨A, hA, by rw [← h2]; exact hA⟩
  induction h with
  | refl =>
    intro x y hx hy
    obtain ⟨A, h1, h2⟩ := hsame x y a hx hy
    exact ⟨A, A, h1, h2, Relation.ReflTransGen.refl⟩
  | tail _ hedge ih =>
    intro x y hx hy
    obtain ⟨hcb, iter, hi, src, sinks, hnet, hsrc, s, hs, hsb⟩ :=
      (edgeRel_built_iff cs0 netlist hcov0 hne _ _).1 hedge
    obtain ⟨A, C, hA, hC, hAC⟩ := ih x src.1 hx hsrc
    obtain ⟨B, hB, hyB⟩ := hsame s.1 y _ hsb hy
    refine ⟨A, B, hA, hyB, ?_⟩
    by_cases hCB : C = B
    · rw [← hCB]; exact hAC
    · exact hAC.tail ((edgeRel_built_iff cs netlist hcov hne C B).2
        ⟨hCB, iter, hi, src, sinks, hnet, hC, s, hs, hB⟩)

end graph

namespace graph

theorem scc_lift_refl (cs0 cs : Clusters) (netlist : PortNetlist)
    (hd0 : ClustersDisjoint cs0) (hd : ClustersDisjoint cs)
    (hcov0 : Covered cs0 netlist) (hcov : Covered cs netlist) (hne : NetsNonempty netlist)
    (hinv : SccCoarsening (built_edges cs0 netlist) cs0 cs) (A B : Nat)
    (h : Relation.ReflTransGen (EdgeRel (built_edges cs netlist)) A B)
    (x y : BlockId) (a b : Nat) (hx : node_map cs x = some A) (hy : node_map cs y = some B)
    (h0x : node_map cs0 x = some a) (h0y : node_map cs0 y = some b) :
    Relation.ReflTransGen (EdgeRel (built_edges cs0 netlist)) a b := by
  rcases Relation.reflTransGen_iff_eq_or_transGen.1 h with heq | ht
  · rw [heq] at hy
    exact (hinv.2.2 x y a b h0x h0y (same_of_node_map cs hd x y A hx hy)).1
  · exact scc_lift cs0 cs netlist hd0 hd hcov0 hcov hne hinv A B ht x y a b hx hy h0x h0y

theorem merge_first_loop_scc (g : Graph) (netlist : PortNetlist) (hnl : g.netlist_ = netlist)
    (hb : Built g) (hs : KeysSorted g.clusters_) (hd : ClustersDisjoint g.clusters_)
    (cs0 : Clusters) (hd0 : ClustersDisjoint cs0) (hcov0 : Covered cs0 netlist)
    (hinv : SccCoarsening (built_edges cs0 netlist) cs0 g.clusters_) :
    ∀ l : List Nat, (∀ n ∈ l, n < g.nodes_.length) →
      ∀ g1, merge_first_loop g l = .ok (some g1) →
        Built g1 ∧ KeysSorted g1.clusters_ ∧ g1.netlist_ = netlist ∧
          ClustersDisjoint g1.clusters_ ∧
          SccCoarsening (built_edges cs0 netlist) cs0 g1.clusters_ := by
  intro l
  induction l with
  | nil => intro _ g1 h; simp [merge_first_loop] at h
  | cons n rest ih =>
    intro hl g1 hm
    have hnl1 : n < g.nodes_.length := hl n (List.mem_cons_self _ _)
    have hN := built_nodes_length g hb
    obtain ⟨result, hr, _, hr2⟩ := find_loop_path_spec g (built_edgesOk g hb) n hnl1
    cases result with
    | nil =>
      simp only [merge_first_loop, hr] at hm
      exact ih (fun x hx => hl x (List.mem_cons_of_mem _ hx)) g1 hm
    | cons src tail =>
      have hloop := hr2 (List.cons_ne_nil _ _)
      have hmut := loop_path_mutual _ _ _ _ hloop
      obtain ⟨chain, hres, hne, hnotin, hnd, hlt, _, _⟩ := hloop
      injection hres with hsrc htail
      subst hsrc; subst htail
      obtain ⟨hcov, hnets, _, hedges⟩ := built_eq g hb
      rw [hnl] at hcov hnets hedges
      have hkey : ∀ x, x < g.clusters_.length → ∃ s, (node_id g x, s) ∈ g.clusters_ := by
        intro x hx
        obtain ⟨c, hc, hid⟩ := node_id_built g hb x hx
        exact ⟨c.2, by rw [hid]; exact List.getElem?_mem hc⟩
      have hpl : ∀ d ∈ src :: tail, d < g.clusters_.length := by
        intro d hdm
        rcases List.mem_cons.1 hdm with rfl | h
        · omega
        · have := hlt d h; omega
      obtain ⟨cs1, h1, h2, h3, h4⟩ := merge_path_same g src tail g.clusters_ hs hd
        (hkey src (by omega)) (fun d hdm => hkey d (hpl d (List.mem_cons_of_mem _ hdm)))
        (by
          rw [List.nodup_map_iff_inj_on hnd]
          intro x hx y hy hxy
          exact node_id_injective g hb hs x y (hpl x (List.mem_cons_of_mem _ hx))
            (hpl y (List.mem_cons_of_mem _ hy)) hxy)
        (by
          intro hc
          obtain ⟨d, hdm, hdk⟩ := List.mem_map.1 hc
          have := node_id_injective g hb hs d src (hpl d (List.mem_cons_of_mem _ hdm))
            (by omega) hdk
          rw [this] at hdm
          exact hnotin hdm)
      have hon : ∀ z, (∃ d ∈ src :: tail, ∃ s, (node_id g d, s) ∈ g.clusters_ ∧ z ∈ s) →
          ∃ d ∈ src :: tail, node_map g.clusters_ z = some d := by
        rintro z ⟨d, hdm, hks⟩
        exact ⟨d, hdm, (keyBlocks_iff_node_map g hb hs hd d (hpl d hdm) z).1 hks⟩
      have hblocks : ∀ z, (∃ c ∈ cs1, z ∈ c.2) ↔ ∃ c ∈ g.clusters_, z ∈ c.2 := by
        intro z
        constructor
        · rintro ⟨c, hc, hz⟩
          rcases (h4 z z).1 ⟨c, hc, hz, hz⟩ with ⟨c1, hc1, hz1, _⟩ | ⟨hz1, _⟩
          · exact ⟨c1, hc1, hz1⟩
          · obtain ⟨d, _, hdz⟩ := hon z hz1
            exact mem_of_node_map _ _ _ hdz
        · rintro ⟨c, hc, hz⟩
          obtain ⟨c1, hc1, hz1, _⟩ := (h4 z z).2 (Or.inl ⟨c, hc, hz, hz⟩)
          exact ⟨c1, hc1, hz1⟩
      have hcov1 : Covered cs1 netlist :=
        fun iter hi p hp => (hblocks p.1).2 (hcov iter hi p hp)
      obtain ⟨g2, k1, k2, k3, k4⟩ := built_of_update_ok cs1 netlist hcov1 hnets
      simp only [merge_first_loop, hr, h1, hnl, k1] at hm
      injection hm with hm
      injection hm with hm
      subst hm
      rw [k3]
      refine ⟨k2, h2, k4, h3, ?_, ?_, ?_⟩
      · intro z
        rw [hblocks z]
        exact hinv.1 z
      · intro x y hxy
        exact (h4 x y).2 (Or.inl (hinv.2.1 x y hxy))
      · intro x y a b h0x h0y hxy
        rcases (h4 x y).1 hxy with hold | ⟨hx, hy⟩
        · exact hinv.2.2 x y a b h0x h0y hold
        · obtain ⟨dx, hdx, hnx⟩ := hon x hx
          obtain ⟨dy, hdy, hny⟩ := hon y hy
          have m1 := hmut dx hdx dy hdy
          have m2 := hmut dy hdy dx hdx
          rw [hedges] at m1 m2
          exact ⟨scc_lift_refl cs0 g.clusters_ netlist hd0 hd hcov0 hcov hnets hinv dx dy m1
              x y a b hnx hny h0x h0y,
            scc_lift_refl cs0 g.clusters_ netlist hd0 hd hcov0 hcov hnets hinv dy dx m2
              y x b a hny hnx h0y h0x⟩

theorem merge_loops_scc (netlist : PortNetlist) (cs0 : Clusters)
    (hd0 : ClustersDisjoint cs0) (hcov0 : Covered cs0 netlist) :
    ∀ (fuel : Nat) (g : Graph), g.netlist_ = netlist → Built g → KeysSorted g.clusters_ →
      ClustersDisjoint g.clusters_ →
      SccCoarsening (built_edges cs0 netlist) cs0 g.clusters_ →
      ∀ gf, merge_loops fuel g = .ok gf →
        Built gf ∧ gf.netlist_ = netlist ∧ ClustersDisjoint gf.clusters_ ∧
          SccCoarsening (built_edges cs0 netlist) cs0 gf.clusters_ ∧
          has_loop gf = .ok false := by
  intro fuel
  induction fuel with
  | zero => intro g _ _ _ _ _ gf h; simp [merge_loops] at h
  | succ fuel ih =>
    intro g hnl hb hs hd hinv gf hm
    obtain ⟨b, hl, _⟩ := has_loop_spec g
    cases b with
    | false =>
      simp only [merge_loops, hl] at hm
      injection hm with hm
      subst hm
      exact ⟨hb, hnl, hd, hinv, hl⟩
    | true =>
      simp only [merge_loops, hl] at hm
      cases hf : merge_first_loop g (List.range g.nodes_.length) with
      | error e => simp [hf] at hm
      | ok r =>
        cases r with
        | none =>
          simp only [hf] at hm
          exact ih g hnl hb hs hd hinv gf hm
        | some g1 =>
          simp only [hf] at hm
          obtain ⟨k1, k2, k3, k4, k5⟩ := merge_first_loop_scc g netlist hnl hb hs hd cs0 hd0
            hcov0 hinv (List.range g.nodes_.length) (fun n hn => List.mem_range.1 hn) g1 hf
          exact ih g1 k3 k1 k2 k4 k5 gf hm

theorem sameCluster_congr (cs cs1 : Clusters) (h : cs.map Prod.snd = cs1.map Prod.snd)
    (x y : BlockId) : SameCluster cs x y ↔ SameCluster cs1 x y := by
  constructor
  · rintro ⟨c, hc, hx, hy⟩
    obtain ⟨d, hd, hdc⟩ := (mem_sets_iff cs cs1 h c.2).1 ⟨c, hc, rfl⟩
    exact ⟨d, hd, by rw [hdc]; exact hx, by rw [hdc]; exact hy⟩
  · rintro ⟨c, hc, hx, hy⟩
    obtain ⟨d, hd, hdc⟩ := (mem_sets_iff cs cs1 h c.2).2 ⟨c, hc, rfl⟩
    exact ⟨d, hd, by rw [hdc]; exact hx, by rw [hdc]; exact hy⟩

/-- Counterexample to C20 as stated: block c lies in clusters 1 and 2, the
blocks a and y lie in one cluster each, 0 and 3.  Vertex 0 cannot reach
vertex 3 in the original graph, so the two are in different components.
The pass merges the cycle of vertices 0 and 2; block c then counts for the
merged cluster, the nets c to y and y to a close a new cycle, and the pass
ends with a and y in one cluster. -/
theorem merge_moves_shared_block_counterexample :
    Graph.new moved_clusters moved_netlist = .ok moved_graph ∧
      moved_graph.merge = .ok moved_graph_merged ∧
      (∀ c ∈ moved_clusters, "a" ∈ c.2 → c.1 = 0) ∧
      (∀ c ∈ moved_clusters, "y" ∈ c.2 → c.1 = 3) ∧
      node_map moved_clusters "a" = some 0 ∧ node_map moved_clusters "y" = some 3 ∧
      SameCluster moved_graph_merged.clusters_ "a" "y" ∧
      ¬ SameScc moved_graph.edges_ 0 3 := by
  refine ⟨by decide, by decide, by decide, by decide, by decide, by decide,
    ⟨(0, {"a", "c", "b", "y"}), by decide, by decide, by decide⟩, ?_⟩
  rintro ⟨h, _⟩
  have hinv : ∀ v, Relation.ReflTransGen (EdgeRel moved_graph.edges_) 0 v → v = 0 ∨ v = 2 := by
    intro v hv
    induction hv with
    | refl => exact Or.inl rfl
    | tail _ hstep ih =>
      obtain ⟨e, he, h1, h2⟩ := hstep
      simp only [moved_graph, List.mem_cons, List.mem_singleton, List.not_mem_nil,
        or_false] at he
      rcases he with rfl | rfl | rfl | rfl
      · exact Or.inr h2.symm
      · exact Or.inl h2.symm
      · rcases ih with h3 | h3 <;> rw [h3] at h1 <;> exact absurd h1 (by decide)
      · rcases ih with h3 | h3 <;> rw [h3] at h1 <;> exact absurd h1 (by decide)
  rcases hinv 3 h with h3 | h3 <;> exact absurd h3 (by decide)

/-- C20, amended: on a cluster assignment in which no block lies in two
clusters, the acyclic pass `merge()` returns, and two clustered blocks lie
in one cluster of the result exactly when their original clusters lie in
the same strongly connected component of the original clustered graph. -/
theorem merge_condensation (clusters : Clusters) (netlist : PortNetlist) (g : Graph)
    (hs : KeysSorted clusters) (hd : ClustersDisjoint clusters)
    (hg : Graph.new clusters netlist = .ok g) :
    ∃ g1, g.merge = .ok g1 ∧
      ∀ x y a b, node_map clusters x = some a → node_map clusters y = some b →
        (SameCluster g1.clusters_ x y ↔ SameScc g.edges_ a b) := by
  obtain ⟨hb, hc, hn⟩ := built_of_new clusters netlist g hg
  obtain ⟨hcov0, hne, _, hedges0⟩ := built_eq g hb
  rw [hc, hn] at hcov0 hedges0
  rw [hn] at hne
  have hinv0 : SccCoarsening (built_edges clusters netlist) clusters g.clusters_ := by
    rw [hc]
    refine ⟨fun x => Iff.rfl, fun x y h => h, ?_⟩
    intro x y a b hx hy hxy
    have := node_map_of_same clusters hd x y hxy
    rw [hx, hy] at this
    injection this with this
    rw [this]
    exact ⟨Relation.ReflTransGen.refl, Relation.ReflTransGen.refl⟩
  obtain ⟨gf, h1, h2, _, h4, _⟩ := merge_loops_spec (g.clusters_.length + 1) g hb
    (by rw [hc]; exact hs) (Nat.lt_succ_self _)
  obtain ⟨_, k2, k3, k4, k5⟩ := merge_loops_scc netlist clusters hd hcov0
    (g.clusters_.length + 1) g hn hb (by rw [hc]; exact hs) (by rw [hc]; exact hd) hinv0 gf h1
  obtain ⟨hcovf, _, hnodesf, hedgesf⟩ := built_eq gf h2
  rw [k2] at hcovf hedgesf
  have hu := update_state_renumber gf.clusters_ gf.netlist_ (by rw [k2]; exact hcovf)
    (by rw [k2]; exact hne)
  refine ⟨⟨renumber gf.clusters_, gf.netlist_, cluster_nodes (renumber gf.clusters_),
    built_edges gf.clusters_ gf.netlist_⟩, ?_, ?_⟩
  · simp only [Graph.merge, h1, Graph.fix_cluster_id, update, hu]
  · intro x y a b hx hy
    rw [← sameCluster_congr gf.clusters_ (renumber gf.clusters_) (renumber_sets _).symm x y,
      hedges0]
    constructor
    · intro hxy
      exact k4.2.2 x y a b hx hy hxy
    · rintro ⟨hab, hba⟩
      obtain ⟨A, B, hA, hB, hAB⟩ := scc_project clusters gf.clusters_ netlist hd k3 hcov0 hcovf
        hne k4 a b hab x y hx hy
      obtain ⟨B1, A1, hB1, hA1, hBA⟩ := scc_project clusters gf.clusters_ netlist hd k3 hcov0
        hcovf hne k4 b a hba y x hy hx
      rw [hA] at hA1
      rw [hB] at hB1
      injection hA1 with hA1
      injection hB1 with hB1
      subst hA1; subst hB1
      by_cases hAB1 : A = B
      · exact same_of_node_map gf.clusters_ k3 x y A hA (by rw [hAB1]; exact hB)
      · exfalso
        have t1 : Relation.TransGen (EdgeRel (built_edges gf.clusters_ netlist)) A B := by
          rcases Relation.reflTransGen_iff_eq_or_transGen.1 hAB with h | h
          · exact absurd h.symm hAB1
          · exact h
        have t2 : Relation.TransGen (EdgeRel (built_edges gf.clusters_ netlist)) B A := by
          rcases Relation.reflTransGen_iff_eq_or_transGen.1 hBA with h | h
          · exact absurd h hAB1
          · exact h
        have := acyclic_of_has_loop_false gf (built_edgesOk gf h2) k5 A
        rw [hedgesf] at this
        exact this (t1.trans t2)

/-- Instance of `merge_condensation` on the two clusters joined by nets in
both directions: they become a single vertex without edges. -/
theorem merge_condensation_witness :
    KeysSorted two_clusters ∧ ClustersDisjoint two_clusters ∧
      Graph.new two_clusters two_netlist = .ok two_graph ∧
      two_graph.merge = .ok two_graph_merged ∧
      two_graph_merged.nodes_.length = 1 ∧ two_graph_merged.edges_ = [] ∧
      ∃ g1, two_graph.merge = .ok g1 ∧
        ∀ x y a b, node_map two_clusters x = some a → node_map two_clusters y = some b →
          (SameCluster g1.clusters_ x y ↔ SameScc two_graph.edges_ a b) :=
  ⟨by unfold KeysSorted; decide, by unfold ClustersDisjoint; decide, by decide, by decide,
    by decide, by decide,
    merge_condensation two_clusters two_netlist two_graph (by unfold KeysSorted; decide)
      (by unfold ClustersDisjoint; decide) (by decide)⟩

end graph

namespace TimingAnalysis

/-! ## The delay table -/

theorem cost_at_eq (ta : TimingAnalysis) (cost : TimingCost → Nat)
    (hcost : ∀ kind, ta.timing_cost_ kind = some (cost kind)) (kind : TimingCost) :
    ta.cost_at kind = .ok (cost kind) := by
  simp only [cost_at, hcost]

/-- C13: with a cost table that holds all six kinds, `get_delay` follows the
table of the specification: a port costs `CLB_OP` on a 'p' tile, `MEM` on an
'm' tile, 0 on an 'i' or 'I' tile and raises on any other tile; a register
costs `REG`; a switch box input costs 0 on every tile; a switch box output
costs `CLB_SB` on 'p', `MEM_SB` on 'm', 0 on 'i' and raises on any other
tile, 'I' included; a generic node costs `RMUX`; and every error it raises
is a message that ends with the name of the node. -/
theorem get_delay_table (ta : TimingAnalysis) (node : cyclone.Node) (cost : TimingCost → Nat)
    (hcost : ∀ kind, ta.timing_cost_ kind = some (cost kind)) :
    (node.type = .Port →
      (ta.layout_ node.x node.y = 'p' → ta.get_delay node = .ok (cost .CLB_OP)) ∧
      (ta.layout_ node.x node.y = 'm' → ta.get_delay node = .ok (cost .MEM)) ∧
      (ta.layout_ node.x node.y = 'i' ∨ ta.layout_ node.x node.y = 'I' →
        ta.get_delay node = .ok 0) ∧
      (ta.layout_ node.x node.y ∉ ['p', 'm', 'i', 'I'] →
        ∃ msg, ta.get_delay node = .error (.runtime_error (msg ++ node.name)))) ∧
    (node.type = .Register → ta.get_delay node = .ok (cost .REG)) ∧
    (node.type = .SwitchBox → node.io = .SB_IN → ta.get_delay node = .ok 0) ∧
    (node.type = .SwitchBox → node.io = .SB_OUT →
      (ta.layout_ node.x node.y = 'p' → ta.get_delay node = .ok (cost .CLB_SB)) ∧
      (ta.layout_ node.x node.y = 'm' → ta.get_delay node = .ok (cost .MEM_SB)) ∧
      (ta.layout_ node.x node.y = 'i' → ta.get_delay node = .ok 0) ∧
      (ta.layout_ node.x node.y ∉ ['p', 'm', 'i'] →
        ∃ msg, ta.get_delay node = .error (.runtime_error (msg ++ node.name)))) ∧
    (node.type = .Generic → ta.get_delay node = .ok (cost .RMUX)) ∧
    ∀ e, ta.get_delay node = .error e → ∃ msg, e = .runtime_error (msg ++ node.name) := by
  have hc := cost_at_eq ta cost hcost
  have mp : ¬ ('m' : Char) = 'p' := by decide
  have ip : ¬ ('i' : Char) = 'p' := by decide
  have im : ¬ ('i' : Char) = 'm' := by decide
  have Ip : ¬ ('I' : Char) = 'p' := by decide
  have Im : ¬ ('I' : Char) = 'm' := by decide
  refine ⟨?_, ?_, ?_, ?_, ?_, ?_⟩
  · intro ht
    refine ⟨?_, ?_, ?_, ?_⟩
    · intro h
      simp only [get_delay, ht, h, if_true, hc]
    · intro h
      simp only [get_delay, ht, h, hc, mp, if_true, if_false]
    · intro h
      rcases h with h | h
      · simp only [get_delay, ht, h, ip, im, if_false, true_or, if_true]
      · simp only [get_delay, ht, h, Ip, Im, if_false, or_true, if_true]
    · intro h
      simp only [List.mem_cons, List.mem_singleton, List.not_mem_nil, or_false, not_or] at h
      refine ⟨"Unable to identify delay for node: ", ?_⟩
      simp only [get_delay, ht, h.1, h.2.1, h.2.2.1, h.2.2.2, if_false, or_self]
  · intro ht
    simp only [get_delay, ht, hc]
  · intro ht hio
    simp only [get_delay, ht, hio, if_true]
  · intro ht hio
    have hne : ¬ node.io = cyclone.SwitchBoxIO.SB_IN := by rw [hio]; decide
    refine ⟨?_, ?_, ?_, ?_⟩
    · intro h
      simp only [get_delay, ht, hne, h, if_true, if_false, hc]
    · intro h
      simp only [get_delay, ht, hne, h, if_false, hc, mp, if_true]
    · intro h
      simp only [get_delay, ht, hne, h, if_false, ip, im, if_true]
    · intro h
      simp only [List.mem_cons, List.mem_singleton, List.not_mem_nil, or_false, not_or] at h
      refine ⟨"Unable to identify timing for blk ", ?_⟩
      simp only [get_delay, ht, hne, h.1, h.2.1, h.2.2, if_false]
  · intro ht
    simp only [get_delay, ht, hc]
  · intro e he
    unfold get_delay at he
    simp only [hc] at he
    split at he
    · split at he
      · cases he
      · split at he
        · cases he
        · split at he
          · cases he
          · injection he with he
            exact ⟨_, he.symm⟩
    · cases he
    · split at he
      · cases he
      · split at he
        · cases he
        · split at he
          · cases he
          · split at he
            · cases he
            · injection he with he
              exact ⟨_, he.symm⟩
    · cases he

/-- Instance of `get_delay_table` on the receiver port of S1, which lies on a
'p' tile and costs `CLB_OP = 5`. -/
theorem get_delay_table_witness :
    (∀ kind, s1_ta.timing_cost_ kind = some (s1_cost kind)) ∧
      s1_ta.get_delay cyclone.port_p1 = .ok 5 ∧
      (cyclone.port_p1.type = .Port →
        (s1_ta.layout_ cyclone.port_p1.x cyclone.port_p1.y = 'p' →
          s1_ta.get_delay cyclone.port_p1 = .ok (s1_cost .CLB_OP)) ∧
        (s1_ta.layout_ cyclone.port_p1.x cyclone.port_p1.y = 'm' →
          s1_ta.get_delay cyclone.port_p1 = .ok (s1_cost .MEM)) ∧
        (s1_ta.layout_ cyclone.port_p1.x cyclone.port_p1.y = 'i' ∨
            s1_ta.layout_ cyclone.port_p1.x cyclone.port_p1.y = 'I' →
          s1_ta.get_delay cyclone.port_p1 = .ok 0) ∧
        (s1_ta.layout_ cyclone.port_p1.x cyclone.port_p1.y ∉ ['p', 'm', 'i', 'I'] →
          ∃ msg, s1_ta.get_delay cyclone.port_p1
            = .error (.runtime_error (msg ++ cyclone.port_p1.name)))) :=
  ⟨fun kind => by cases kind <;> rfl, by decide,
    (get_delay_table s1_ta cyclone.port_p1 s1_cost (fun kind => by cases kind <;> rfl)).1⟩

end TimingAnalysis

/-! ## Association lists -/

theorem map_find_set_eq {α β : Type} [DecidableEq α] (m : List (α × β)) (k : α) (v : β) :
    map_find (map_set m k v) k = some v := by
  induction m with
  | nil => simp [map_set, map_find]
  | cons c rest ih =>
    obtain ⟨k1, v1⟩ := c
    by_cases h : k1 = k
    · simp [map_set, map_find, h]
    · simp [map_set, map_find, h, ih]

theorem map_find_set_ne {α β : Type} [DecidableEq α] (m : List (α × β)) (k k1 : α) (v : β)
    (h : k ≠ k1) : map_find (map_set m k v) k1 = map_find m k1 := by
  induction m with
  | nil => simp [map_set, map_find, h]
  | cons c rest ih =>
    obtain ⟨k2, v2⟩ := c
    by_cases h2 : k2 = k
    · have : ¬ k2 = k1 := by rw [h2]; exact h
      simp [map_set, map_find, h2, h]
    · by_cases h3 : k2 = k1
      · subst h3
        simp only [map_set, h2, if_false, map_find, if_true]
      · simp only [map_set, h2, if_false, map_find, h3, ih]

theorem map_find_set {α β : Type} [DecidableEq α] (m : List (α × β)) (k k1 : α) (v : β) :
    map_find (map_set m k v) k1 = if k = k1 then some v else map_find m k1 := by
  by_cases h : k = k1
  · rw [if_pos h, ← h, map_find_set_eq]
  · rw [if_neg h, map_find_set_ne m k k1 v h]

theorem map_find_mem {α β : Type} [DecidableEq α] (m : List (α × β)) (k : α) (v : β)
    (h : map_find m k = some v) : (k, v) ∈ m := by
  induction m with
  | nil => simp [map_find] at h
  | cons c rest ih =>
    obtain ⟨k1, v1⟩ := c
    by_cases h1 : k1 = k
    · simp only [map_find, h1, if_true, Option.some.injEq] at h
      rw [h1, h]
      exact List.mem_cons_self _ _
    · simp only [map_find, h1, if_false] at h
      exact List.mem_cons_of_mem _ (ih h)

theorem map_find_append {α β : Type} [DecidableEq α] (m m1 : List (α × β)) (k : α) :
    map_find (m ++ m1) k = match map_find m k with
      | some v => some v
      | none => map_find m1 k := by
  induction m with
  | nil => simp [map_find]
  | cons c rest ih =>
    obtain ⟨k1, v1⟩ := c
    by_cases h1 : k1 = k
    · simp [map_find, h1]
    · simp [map_find, h1, ih]

theorem map_find_emplace_of_some {α β : Type} [DecidableEq α] (m : List (α × β)) (k k1 : α)
    (v x : β) (h : map_find m k1 = some x) : map_find (map_emplace m k v) k1 = some x := by
  unfold map_emplace
  cases hk : map_find m k with
  | some y => exact h
  | none => simp [map_find_append, h]

theorem map_find_emplace_new {α β : Type} [DecidableEq α] (m : List (α × β)) (k : α) (v : β)
    (h : map_find m k = none) : map_find (map_emplace m k v) k = some v := by
  unfold map_emplace
  simp [h, map_find_append, map_find]

theorem map_find_emplace_ne {α β : Type} [DecidableEq α] (m : List (α × β)) (k k1 : α) (v : β)
    (h : k ≠ k1) : map_find (map_emplace m k v) k1 = map_find m k1 := by
  unfold map_emplace
  cases hk : map_find m k with
  | some y => rfl
  | none =>
    simp only [map_find_append, map_find, h, if_false]
    cases map_find m k1 <;> rfl

theorem map_find_emplace_some {α β : Type} [DecidableEq α] (m : List (α × β)) (k k1 : α)
    (v x : β) (h : map_find (map_emplace m k v) k1 = some x) :
    map_find m k1 = some x ∨ (k = k1 ∧ x = v) := by
  by_cases hk : k = k1
  · cases hm : map_find m k1 with
    | some y =>
      rw [map_find_emplace_of_some m k k1 v y hm] at h
      exact Or.inl h
    | none =>
      rw [← hk] at hm
      rw [← hk, map_find_emplace_new m k v hm] at h
      injection h with h
      exact Or.inr ⟨hk, h.symm⟩
  · rw [map_find_emplace_ne m k k1 v hk] at h
    exact Or.inl h

/-! ## Wave matching -/

theorem wave_gather_spec (pin_wave : List (Pin × Nat)) :
    ∀ (pins seen : List Pin) (max_wave : Nat) (waves : List (Pin × Nat))
      (pin_map : List (Nat × Pin)) (result : Nat × List (Pin × Nat) × List (Nat × Pin)),
      (∀ p v, map_find waves p = some v → map_find pin_wave p = some v) →
      (∀ p ∈ seen, ∃ v, map_find waves p = some v ∧ v ≤ max_wave) →
      (∀ id p, map_find pin_map id = some p → p ∈ seen ∧ p.id = id) →
      (∀ p ∈ seen, ∃ q, map_find pin_map p.id = some q) →
      (seen = [] → max_wave = 0) →
      (seen ≠ [] → ∃ p ∈ seen, map_find pin_wave p = some max_wave) →
      wave_gather pin_wave pins (max_wave, waves, pin_map) = .ok result →
      (∀ p v, map_find result.2.1 p = some v → map_find pin_wave p = some v) ∧
      (∀ p ∈ seen ++ pins, ∃ v, map_find result.2.1 p = some v ∧ v ≤ result.1) ∧
      (∀ id p, map_find result.2.2 id = some p → p ∈ seen ++ pins ∧ p.id = id) ∧
      (∀ p ∈ seen ++ pins, ∃ q, map_find result.2.2 p.id = some q) ∧
      (seen ++ pins = [] → result.1 = 0) ∧
      (seen ++ pins ≠ [] → ∃ p ∈ seen ++ pins, map_find pin_wave p = some result.1) := by
  intro pins
  induction pins with
  | nil =>
    intro seen max_wave waves pin_map result h0 h1 h2 h3 h4 h5 hg
    simp only [wave_gather, Except.ok.injEq] at hg
    subst hg
    simp only [List.append_nil]
    exact ⟨h0, h1, h2, h3, h4, h5⟩
  | cons pin rest ih =>
    intro seen max_wave waves pin_map result h0 h1 h2 h3 h4 h5 hg
    unfold wave_gather at hg
    cases hw : map_find pin_wave pin with
    | none => simp [hw] at hg
    | some w =>
      simp only [hw] at hg
      have key := ih (seen ++ [pin]) _ _ _ result ?_ ?_ ?_ ?_ ?_ ?_ hg
      · simpa using key
      · intro p v hp
        rcases map_find_emplace_some _ _ _ _ _ hp with h | ⟨h, hv⟩
        · exact h0 p v h
        · rw [← h, hv]; exact hw
      · intro p hp
        rcases List.mem_append.1 hp with hp | hp
        · obtain ⟨v, k1, k2⟩ := h1 p hp
          refine ⟨v, map_find_emplace_of_some _ _ _ _ _ k1, ?_⟩
          split <;> omega
        · rw [List.mem_singleton.1 hp]
          cases hwv : map_find waves pin with
          | none =>
            refine ⟨w, map_find_emplace_new _ _ _ hwv, ?_⟩
            split <;> omega
          | some x =>
            have hx := h0 pin x hwv
            rw [hw] at hx
            injection hx with hx
            refine ⟨x, map_find_emplace_of_some _ _ _ _ _ hwv, ?_⟩
            rw [← hx]
            split <;> omega
      · intro id p hp
        rcases map_find_emplace_some _ _ _ _ _ hp with h | ⟨h, hv⟩
        · obtain ⟨k1, k2⟩ := h2 id p h
          exact ⟨List.mem_append_left _ k1, k2⟩
        · rw [hv]
          exact ⟨List.mem_append_right _ (List.mem_singleton_self _), h⟩
      · intro p hp
        cases hq : map_find pin_map p.id with
        | some q => exact ⟨q, map_find_emplace_of_some _ _ _ _ _ hq⟩
        | none =>
          rcases List.mem_append.1 hp with hp | hp
          · obtain ⟨q, hq1⟩ := h3 p hp
            rw [hq] at hq1; cases hq1
          · rw [List.mem_singleton.1 hp] at hq ⊢
            exact ⟨pin, map_find_emplace_new _ _ _ hq⟩
      · intro hc; simp at hc
      · intro _
        by_cases hgt : w > max_wave
        · exact ⟨pin, List.mem_append_right _ (List.mem_singleton_self _),
            by rw [if_pos hgt]; exact hw⟩
        · rw [if_neg hgt]
          by_cases hs : seen = []
          · have := h4 hs
            refine ⟨pin, List.mem_append_right _ (List.mem_singleton_self _), ?_⟩
            rw [hw]
            congr 1
            omega
          · obtain ⟨p, hp, hpw⟩ := h5 hs
            exact ⟨p, List.mem_append_left _ hp, hpw⟩

theorem wave_advance_spec (pin_map : List (Nat × Pin)) (src_pins : List Pin)
    (hmap : ∀ id p, map_find pin_map id = some p → p ∈ src_pins) :
    ∀ (pins : List Nat) (pin_wave waves pin_wave1 waves1 : List (Pin × Nat)),
      (∀ p ∈ src_pins, ∃ v, map_find pin_wave p = some v ∧ map_find waves p = some v) →
      wave_advance pin_map pins (pin_wave, waves) = .ok (pin_wave1, waves1) →
      (∀ p ∈ src_pins, ∃ v, map_find pin_wave1 p = some v ∧ map_find waves1 p = some v) ∧
      (∀ p, p ∉ src_pins → map_find pin_wave1 p = map_find pin_wave p) := by
  intro pins
  induction pins with
  | nil =>
    intro pin_wave waves pin_wave1 waves1 h hadv
    simp only [wave_advance, Except.ok.injEq, Prod.mk.injEq] at hadv
    rw [← hadv.1, ← hadv.2]
    exact ⟨h, fun _ _ => rfl⟩
  | cons pin_id rest ih =>
    intro pin_wave waves pin_wave1 waves1 h hadv
    unfold wave_advance at hadv
    cases hp : map_find pin_map pin_id with
    | none => simp [hp] at hadv
    | some p0 =>
      simp only [hp] at hadv
      have hp0 := hmap pin_id p0 hp
      obtain ⟨k1, k2⟩ := ih _ _ pin_wave1 waves1 (by
        intro p hpm
        by_cases he : p0 = p
        · exact ⟨_, by rw [← he]; exact map_find_set_eq _ _ _,
            by rw [← he]; exact map_find_set_eq _ _ _⟩
        · obtain ⟨v, hv1, hv2⟩ := h p hpm
          exact ⟨v, by rw [map_find_set_ne _ _ _ _ he]; exact hv1,
            by rw [map_find_set_ne _ _ _ _ he]; exact hv2⟩) hadv
      refine ⟨k1, ?_⟩
      intro p hpn
      rw [k2 p hpn]
      apply map_find_set_ne
      intro he
      rw [he] at hp0
      exact hpn hp0

theorem wave_insert_spec {RG : Type} (ops : RoutedGraphOps RG) (W : Nat)
    (pin_map : List (Nat × Pin)) :
    ∀ (pins : List Pin) (rg : RG) (pin_wave waves : List (Pin × Nat)) (requests : List Request)
      (rg1 : RG) (pin_wave1 waves1 : List (Pin × Nat)) (requests1 : List Request),
      wave_insert ops W pin_map pins (rg, pin_wave, waves, requests)
        = .ok (rg1, pin_wave1, waves1, requests1) →
      (rg1 = rg ∧ pin_wave1 = pin_wave ∧ waves1 = waves ∧ requests1 = requests) ∨
      ∃ pin ∈ pins, ∃ w, map_find pin_wave pin = some w ∧ w < W ∧
        wave_advance pin_map (ops.insert_pipeline_reg rg pin.id).2 (pin_wave, waves)
          = .ok (pin_wave1, waves1) ∧
        rg1 = (ops.insert_pipeline_reg rg pin.id).1 ∧
        requests1 = requests ++ [Request.pipeline_reg pin.id] := by
  intro pins
  induction pins with
  | nil =>
    intro rg pin_wave waves requests rg1 pin_wave1 waves1 requests1 h
    simp only [wave_insert, Except.ok.injEq, Prod.mk.injEq] at h
    exact Or.inl ⟨h.1.symm, h.2.1.symm, h.2.2.1.symm, h.2.2.2.symm⟩
  | cons pin rest ih =>
    intro rg pin_wave waves requests rg1 pin_wave1 waves1 requests1 h
    unfold wave_insert at h
    cases hw : map_find pin_wave pin with
    | none => simp [hw] at h
    | some w =>
      simp only [hw] at h
      by_cases hlt : w < W
      · rw [if_pos hlt] at h
        cases hadv : wave_advance pin_map (ops.insert_pipeline_reg rg pin.id).2
            (pin_wave, waves) with
        | error e => simp [hadv] at h
        | ok r =>
          obtain ⟨pw2, wv2⟩ := r
          simp only [hadv, Except.ok.injEq, Prod.mk.injEq] at h
          right
          refine ⟨pin, List.mem_cons_self _ _, w, hw, hlt, ?_, h.1.symm, h.2.2.2.symm⟩
          rw [← h.2.1, ← h.2.2.1]
          exact hadv
      · rw [if_neg hlt] at h
        rcases ih rg pin_wave waves requests rg1 pin_wave1 waves1 requests1 h with h1 | h1
        · exact Or.inl h1
        · obtain ⟨p, hp, rest1⟩ := h1
          exact Or.inr ⟨p, List.mem_cons_of_mem _ hp, rest1⟩

theorem wave_loop_spec {RG : Type} (ops : RoutedGraphOps RG) (W : Nat)
    (pin_map : List (Nat × Pin)) (src_pins : List Pin) (good : Prop)
    (hmap : ∀ id p, map_find pin_map id = some p → p ∈ src_pins)
    (hgood : good → (∀ rg id, (ops.insert_pipeline_reg rg id).2 = [id]) ∧
      ∀ p ∈ src_pins, map_find pin_map p.id = some p) :
    ∀ (fuel : Nat) (rg : RG) (pin_wave waves : List (Pin × Nat)) (requests : List Request)
      (rg1 : RG) (pin_wave1 : List (Pin × Nat)) (requests1 : List Request),
      (∀ p ∈ src_pins, ∃ v, map_find pin_wave p = some v ∧ map_find waves p = some v ∧
        (good → v ≤ W)) →
      wave_loop ops W pin_map src_pins fuel (rg, pin_wave, waves, requests)
        = .ok (rg1, pin_wave1, requests1) →
      (∀ p ∈ src_pins, ∃ v, map_find pin_wave1 p = some v ∧ W ≤ v ∧ (good → v = W)) ∧
      (∀ p, p ∉ src_pins → map_find pin_wave1 p = map_find pin_wave p) := by
  intro fuel
  induction fuel with
  | zero =>
    intro rg pin_wave waves requests rg1 pin_wave1 requests1 _ h
    simp [wave_loop] at h
  | succ fuel ih =>
    intro rg pin_wave waves requests rg1 pin_wave1 requests1 hinv h
    unfold wave_loop at h
    cases hins : wave_insert ops W pin_map src_pins (rg, pin_wave, waves, requests) with
    | error e => simp [hins] at h
    | ok r =>
      obtain ⟨rg2, pw2, wv2, rq2⟩ := r
      simp only [hins] at h
      have hstep : (∀ p ∈ src_pins, ∃ v, map_find pw2 p = some v ∧ map_find wv2 p = some v ∧
          (good → v ≤ W)) ∧ (∀ p, p ∉ src_pins → map_find pw2 p = map_find pin_wave p) := by
        rcases wave_insert_spec ops W pin_map src_pins rg pin_wave waves requests rg2 pw2 wv2 rq2
          hins with ⟨_, e2, e3, _⟩ | ⟨pin, hpin, w, hw, hlt, hadv, _, _⟩
        · rw [e2, e3]
          exact ⟨hinv, fun _ _ => rfl⟩
        · obtain ⟨k1, k2⟩ := wave_advance_spec pin_map src_pins hmap _ pin_wave waves pw2 wv2
            (fun p hp => by
              obtain ⟨v, h1, h2, _⟩ := hinv p hp
              exact ⟨v, h1, h2⟩) hadv
          refine ⟨?_, k2⟩
          intro p hp
          obtain ⟨v, h1, h2⟩ := k1 p hp
          refine ⟨v, h1, h2, ?_⟩
          intro hg
          obtain ⟨g1, g2⟩ := hgood hg
          rw [g1 rg pin.id] at hadv
          simp only [wave_advance, g2 pin hpin, hw, Option.getD_some, Except.ok.injEq,
            Prod.mk.injEq] at hadv
          rw [← hadv.1] at h1
          by_cases he : pin = p
          · rw [he, map_find_set_eq] at h1
            injection h1 with h1
            omega
          · rw [map_find_set_ne _ _ _ _ he] at h1
            obtain ⟨v0, h3, _, h5⟩ := hinv p hp
            rw [h3] at h1
            injection h1 with h1
            rw [← h1]
            exact h5 hg
      by_cases hall : wv2.all (fun iter => decide (¬ iter.2 < W)) = true
      · rw [if_pos hall] at h
        simp only [Except.ok.injEq, Prod.mk.injEq] at h
        rw [← h.2.1]
        refine ⟨?_, hstep.2⟩
        intro p hp
        obtain ⟨v, h1, h2, h3⟩ := hstep.1 p hp
        have hmem := map_find_mem _ _ _ h2
        rw [List.all_eq_true] at hall
        have := hall (p, v) hmem
        simp only [decide_eq_true_eq] at this
        exact ⟨v, h1, by omega, fun hg => by have := h3 hg; omega⟩
      · rw [if_neg hall] at h
        obtain ⟨k1, k2⟩ := ih rg2 pw2 wv2 rq2 rg1 pin_wave1 requests1 hstep.1 h
        exact ⟨k1, fun p hp => by rw [k2 p hp, hstep.2 p hp]⟩

/-- What `wave_matching` guarantees when it returns: the returned wave is the
largest wave the source pins had on entry, every source pin ends at or above
it, and pins that are not source pins keep their wave. -/
theorem wave_matching_spec {RG : Type} (ops : RoutedGraphOps RG) (fuel : Nat) (rg : RG)
    (src_pins : List Pin) (pin_wave : List (Pin × Nat)) (requests : List Request)
    (W : Nat) (rg1 : RG) (pin_wave1 : List (Pin × Nat)) (requests1 : List Request)
    (h : wave_matching ops fuel rg src_pins pin_wave requests
      = .ok (W, rg1, pin_wave1, requests1)) :
    (∀ p ∈ src_pins, ∃ v, map_find pin_wave p = some v ∧ v ≤ W) ∧
      (src_pins ≠ [] → ∃ p ∈ src_pins, map_find pin_wave p = some W) ∧
      (∀ p ∈ src_pins, ∃ v, map_find pin_wave1 p = some v ∧ W ≤ v) ∧
      ((∀ rg id, (ops.insert_pipeline_reg rg id).2 = [id]) →
        (∀ p ∈ src_pins, ∀ q ∈ src_pins, p.id = q.id → p = q) →
        ∀ p ∈ src_pins, map_find pin_wave1 p = some W) ∧
      ∀ p, p ∉ src_pins → map_find pin_wave1 p = map_find pin_wave p := by
  unfold wave_matching at h
  cases hg : wave_gather pin_wave src_pins (0, [], []) with
  | error e => simp [hg] at h
  | ok r =>
    obtain ⟨max_wave, waves, pin_map⟩ := r
    simp only [hg] at h
    cases hl : wave_loop ops max_wave pin_map src_pins fuel (rg, pin_wave, waves, requests) with
    | error e => simp [hl] at h
    | ok r2 =>
      obtain ⟨rg2, pw2, rq2⟩ := r2
      simp only [hl, Except.ok.injEq, Prod.mk.injEq] at h
      obtain ⟨hW, _, hpw, _⟩ := h
      subst hW; subst hpw
      obtain ⟨g0, g1, g2, g3, _, g5⟩ := wave_gather_spec pin_wave src_pins [] 0 [] []
        (max_wave, waves, pin_map) (by intro p v hp; simp [map_find] at hp)
        (by intro p hp; cases hp) (by intro id p hp; simp [map_find] at hp)
        (by intro p hp; cases hp) (fun _ => rfl) (fun hc => absurd rfl hc) hg
      simp only [List.nil_append] at g0 g1 g2 g3 g5
      have hmirror : ∀ p ∈ src_pins, ∃ v, map_find pin_wave p = some v ∧
          map_find waves p = some v ∧ v ≤ max_wave := by
        intro p hp
        obtain ⟨v, h1, h2⟩ := g1 p hp
        exact ⟨v, g0 p v h1, h1, h2⟩
      have hmap : ∀ id p, map_find pin_map id = some p → p ∈ src_pins :=
        fun id p hp => (g2 id p hp).1
      refine ⟨?_, g5, ?_, ?_, ?_⟩
      · intro p hp
        obtain ⟨v, h1, _, h3⟩ := hmirror p hp
        exact ⟨v, h1, h3⟩
      · intro p hp
        obtain ⟨k1, _⟩ := wave_loop_spec ops max_wave pin_map src_pins False hmap
          (fun hf => absurd hf id) fuel rg pin_wave waves requests rg2 pw2 rq2
          (fun p hp => by
            obtain ⟨v, h1, h2, _⟩ := hmirror p hp
            exact ⟨v, h1, h2, fun hf => absurd hf id⟩) hl
        obtain ⟨v, h1, h2, _⟩ := k1 p hp
        exact ⟨v, h1, h2⟩
      · intro hsingle hids p hp
        obtain ⟨k1, _⟩ := wave_loop_spec ops max_wave pin_map src_pins True hmap
          (fun _ => ⟨hsingle, fun q hq => by
            obtain ⟨q1, hq1⟩ := g3 q hq
            obtain ⟨m1, m2⟩ := g2 q.id q1 hq1
            rw [hq1, hids q1 m1 q hq m2]⟩)
          fuel rg pin_wave waves requests rg2 pw2 rq2
          (fun p hp => by
            obtain ⟨v, h1, h2, h3⟩ := hmirror p hp
            exact ⟨v, h1, h2, fun _ => h3⟩) hl
        obtain ⟨v, h1, _, h3⟩ := k1 p hp
        rw [h1, h3 trivial]
      · intro p hp
        exact (wave_loop_spec ops max_wave pin_map src_pins False hmap
          (fun hf => absurd hf id) fuel rg pin_wave waves requests rg2 pw2 rq2
          (fun p hp => by
            obtain ⟨v, h1, h2, _⟩ := hmirror p hp
            exact ⟨v, h1, h2, fun hf => absurd hf id⟩) hl).2 p hp

/-- Counterexample to C14 as stated: the inputs of the adder are on waves 2 and 1
and the insertion for the second input advances both; `wave_matching`
returns 2 and leaves the first input on wave 3. -/
theorem wave_matching_overshoot_counterexample :
    wave_matching both_ops 3 () [pin_a0, pin_a1] [(pin_a0, 2), (pin_a1, 1)] []
        = .ok (2, (), [(pin_a0, 3), (pin_a1, 2)], [Request.pipeline_reg 11]) ∧
      map_find [(pin_a0, 3), (pin_a1, 2)] pin_a0 ≠ some 2 :=
  ⟨by decide, by decide⟩

/-- C14 (amended): whenever `wave_matching` returns, the returned wave `W` is the
largest wave the source pins had on entry (no source pin was above it, and
one of them was on it when there is a source pin), every source pin ends on
a wave at or above `W`, and every source pin ends exactly on `W` when each
call of `insert_pipeline_reg` reports only the pin it was asked for and the
source pins have distinct ids. -/
theorem wave_matching_returns_max {RG : Type} (ops : RoutedGraphOps RG) (fuel : Nat) (rg : RG)
    (src_pins : List Pin) (pin_wave : List (Pin × Nat)) (requests : List Request)
    (W : Nat) (rg1 : RG) (pin_wave1 : List (Pin × Nat)) (requests1 : List Request)
    (h : wave_matching ops fuel rg src_pins pin_wave requests
      = .ok (W, rg1, pin_wave1, requests1)) :
    (∀ p ∈ src_pins, ∃ v, map_find pin_wave p = some v ∧ v ≤ W) ∧
      (src_pins ≠ [] → ∃ p ∈ src_pins, map_find pin_wave p = some W) ∧
      (∀ p ∈ src_pins, ∃ v, map_find pin_wave1 p = some v ∧ W ≤ v) ∧
      ((∀ rg id, (ops.insert_pipeline_reg rg id).2 = [id]) →
        (∀ p ∈ src_pins, ∀ q ∈ src_pins, p.id = q.id → p = q) →
        ∀ p ∈ src_pins, map_find pin_wave1 p = some W) := by
  obtain ⟨h1, h2, h3, h4, _⟩ :=
    wave_matching_spec ops fuel rg src_pins pin_wave requests W rg1 pin_wave1 requests1 h
  exact ⟨h1, h2, h3, h4⟩

/-- Instance of `wave_matching_returns_max` on scenario S2: the inputs of the
adder are on waves 2 and 0, two registers are requested for the second input
and both inputs end on wave 2. -/
theorem wave_matching_returns_max_witness :
    wave_matching single_ops 5 () [pin_a0, pin_a1] [(pin_a0, 2), (pin_a1, 0)] []
        = .ok (2, (), [(pin_a0, 2), (pin_a1, 2)],
          [Request.pipeline_reg 11, Request.pipeline_reg 11]) ∧
      (∀ p ∈ [pin_a0, pin_a1], ∃ v, map_find [(pin_a0, 2), (pin_a1, 0)] p = some v ∧ v ≤ 2) ∧
      ([pin_a0, pin_a1] ≠ [] →
        ∃ p ∈ [pin_a0, pin_a1], map_find [(pin_a0, 2), (pin_a1, 0)] p = some 2) ∧
      (∀ p ∈ [pin_a0, pin_a1], ∃ v, map_find [(pin_a0, 2), (pin_a1, 2)] p = some v ∧ 2 ≤ v) ∧
      ((∀ rg id, (single_ops.insert_pipeline_reg rg id).2 = [id]) →
        (∀ p ∈ [pin_a0, pin_a1], ∀ q ∈ [pin_a0, pin_a1], p.id = q.id → p = q) →
        ∀ p ∈ [pin_a0, pin_a1], map_find [(pin_a0, 2), (pin_a1, 2)] p = some 2) :=
  ⟨by decide,
    wave_matching_returns_max single_ops 5 () [pin_a0, pin_a1] [(pin_a0, 2), (pin_a1, 0)] []
      2 () [(pin_a0, 2), (pin_a1, 2)] [Request.pipeline_reg 11, Request.pipeline_reg 11]
      (by decide)⟩

/-! ## Delay propagation keeps every stretch within the allowed delay -/

theorem walk_segment_done (ta : TimingAnalysis) (allowed : Nat) (node_to_pin : List (Nat × Pin))
    (src_wave : Nat) (last : cyclone.Node) :
    ∀ (rest : List cyclone.Node) (pre : cyclone.Node) (num_reg : Nat)
      (nd : List (Nat × Nat)) (pw pd : List (Pin × Nat)) (nd1 : List (Nat × Nat))
      (pw1 pd1 : List (Pin × Nat)) (d0 : Nat),
      walk_segment ta allowed node_to_pin src_wave last pre rest num_reg (nd, pw, pd)
        = .ok (.done nd1 pw1 pd1) →
      (rest ≠ [] → map_find nd pre.id = some d0) →
      (∀ k d, map_find nd k = some d → d ≤ allowed) →
      (∀ p d, map_find pd p = some d → d ≤ allowed) →
      (∃ ds, accumulate ta d0 rest = .ok ds ∧ ∀ d ∈ ds, d ≤ allowed) ∧
      (∀ k, (∀ n ∈ rest, n.id ≠ k) → map_find nd1 k = map_find nd k) ∧
      (∀ k d, map_find nd1 k = some d → d ≤ allowed) ∧
      (∀ p d, map_find pd1 p = some d → d ≤ allowed) := by
  intro rest
  induction rest with
  | nil =>
    intro pre num_reg nd pw pd nd1 pw1 pd1 d0 h _ hnd hpd
    simp only [walk_segment, Except.ok.injEq, PassResult.done.injEq] at h
    obtain ⟨e1, _, e3⟩ := h
    subst e1; subst e3
    exact ⟨⟨[], rfl, fun d hd => by cases hd⟩, fun _ _ => rfl, hnd, hpd⟩
  | cons cur rest ih =>
    intro pre num_reg nd pw pd nd1 pw1 pd1 d0 h hd0 hnd hpd
    have hd0' := hd0 (List.cons_ne_nil _ _)
    unfold walk_segment at h
    simp only [hd0'] at h
    by_cases hreg : cur.type = cyclone.NodeType.Register ∧ rest ≠ []
    · simp only [hreg, and_self, if_true, ne_eq, not_false_eq_true] at h
      have h0 : ¬ (0 > allowed) := by omega
      rw [if_neg h0] at h
      cases hpin : map_find node_to_pin last.id with
      | none => simp [hpin] at h
      | some pin =>
        simp only [hpin] at h
        obtain ⟨k1, k2, k3, k4⟩ := ih cur (num_reg + 1) _ _ _ nd1 pw1 pd1 0 h
          (fun _ => map_find_set_eq _ _ _)
          (by
            intro k d hk
            rw [map_find_set, map_find_set] at hk
            split at hk
            · injection hk with hk; omega
            · exact hnd k d hk)
          (by
            intro p d hp
            rw [map_find_set] at hp
            split at hp
            · injection hp with hp; omega
            · exact hpd p d hp)
        refine ⟨?_, ?_, k3, k4⟩
        · obtain ⟨ds, hds, hall⟩ := k1
          refine ⟨0 :: ds, ?_, ?_⟩
          · simp only [accumulate, hreg, and_self, if_true, ne_eq, not_false_eq_true, hds]
          · intro d hd
            rcases List.mem_cons.1 hd with rfl | hd
            · omega
            · exact hall d hd
        · intro k hk
          have hne : cur.id ≠ k := hk cur (List.mem_cons_self _ _)
          rw [k2 k (fun n hn => hk n (List.mem_cons_of_mem _ hn)), map_find_set_ne _ _ _ _ hne,
            map_find_set_ne _ _ _ _ hne]
    · simp only [hreg, if_false] at h
      cases hgd : ta.get_delay cur with
      | error e => simp [hgd] at h
      | ok c =>
        simp only [hgd] at h
        by_cases hgt : (d0 + c) % 2 ^ 64 > allowed
        · rw [if_pos hgt] at h
          injection h with h
          cases h
        · rw [if_neg hgt] at h
          cases hpin : map_find node_to_pin last.id with
          | none => simp [hpin] at h
          | some pin =>
            simp only [hpin] at h
            obtain ⟨k1, k2, k3, k4⟩ := ih cur num_reg _ _ _ nd1 pw1 pd1 ((d0 + c) % 2 ^ 64) h
              (fun _ => map_find_set_eq _ _ _)
              (by
                intro k d hk
                rw [map_find_set] at hk
                split at hk
                · injection hk with hk; omega
                · exact hnd k d hk)
              (by
                intro p d hp
                rw [map_find_set] at hp
                split at hp
                · injection hp with hp; omega
                · exact hpd p d hp)
            refine ⟨?_, ?_, k3, k4⟩
            · obtain ⟨ds, hds, hall⟩ := k1
              refine ⟨(d0 + c) % 2 ^ 64 :: ds, ?_, ?_⟩
              · simp only [accumulate, hreg, if_false, hgd, hds]
              · intro d hd
                rcases List.mem_cons.1 hd with rfl | hd
                · omega
                · exact hall d hd
            · intro k hk
              have hne : cur.id ≠ k := hk cur (List.mem_cons_self _ _)
              rw [k2 k (fun n hn => hk n (List.mem_cons_of_mem _ hn)),
                map_find_set_ne _ _ _ _ hne]

/-- Whatever the outcome of the walk over a segment, the pin delays stay
within the allowed delay and only the pin of the segment's last node is
written. -/
theorem walk_segment_frame (ta : TimingAnalysis) (allowed : Nat)
    (node_to_pin : List (Nat × Pin)) (src_wave : Nat) (last : cyclone.Node) :
    ∀ (rest : List cyclone.Node) (pre : cyclone.Node) (num_reg : Nat)
      (nd : List (Nat × Nat)) (pw pd : List (Pin × Nat)) (r : PassResult),
      walk_segment ta allowed node_to_pin src_wave last pre rest num_reg (nd, pw, pd) = .ok r →
      ((∀ p d, map_find pd p = some d → d ≤ allowed) →
        ∀ p d, map_find r.pin_delay p = some d → d ≤ allowed) ∧
      (∀ p, map_find node_to_pin last.id ≠ some p →
        map_find r.pin_wave p = map_find pw p ∧ map_find r.pin_delay p = map_find pd p) := by
  intro rest
  induction rest with
  | nil =>
    intro pre num_reg nd pw pd r h
    simp only [walk_segment, Except.ok.injEq] at h
    subst h
    exact ⟨fun hpd => hpd, fun _ _ => ⟨rfl, rfl⟩⟩
  | cons cur rest ih =>
    intro pre num_reg nd pw pd r h
    unfold walk_segment at h
    cases hd0 : map_find nd pre.id with
    | none => simp [hd0] at h
    | some d0 =>
      simp only [hd0] at h
      have key : ∀ (delay : Nat) (nd2 : List (Nat × Nat)) (nr : Nat),
          (if delay > allowed then Except.ok (PassResult.insert cur last nr pw pd)
            else
              match map_find node_to_pin last.id with
              | none => Except.error TimingError.out_of_range
              | some pin =>
                walk_segment ta allowed node_to_pin src_wave last cur rest nr
                  (map_set nd2 cur.id delay, map_set pw pin (src_wave + nr),
                    map_set pd pin delay)) = Except.ok r →
          ((∀ p d, map_find pd p = some d → d ≤ allowed) →
            ∀ p d, map_find r.pin_delay p = some d → d ≤ allowed) ∧
          (∀ p, map_find node_to_pin last.id ≠ some p →
            map_find r.pin_wave p = map_find pw p ∧ map_find r.pin_delay p = map_find pd p) := by
        intro delay nd2 nr hk
        by_cases hgt : delay > allowed
        · rw [if_pos hgt] at hk
          injection hk with hk
          subst hk
          exact ⟨fun hpd => hpd, fun _ _ => ⟨rfl, rfl⟩⟩
        · rw [if_neg hgt] at hk
          cases hpin : map_find node_to_pin last.id with
          | none => simp [hpin] at hk
          | some pin =>
            simp only [hpin] at hk
            obtain ⟨k1, k2⟩ := ih cur nr _ _ _ r hk
            refine ⟨?_, ?_⟩
            · intro hpd
              apply k1
              intro p d hp
              rw [map_find_set] at hp
              split at hp
              · injection hp with hp; omega
              · exact hpd p d hp
            · intro p hp
              have hne : pin ≠ p := fun hc => hp (by rw [hc])
              obtain ⟨m1, m2⟩ := k2 p (by rw [hpin]; exact hp)
              rw [m1, m2, map_find_set_ne _ _ _ _ hne, map_find_set_ne _ _ _ _ hne]
              exact ⟨rfl, rfl⟩
      by_cases hreg : cur.type = cyclone.NodeType.Register ∧ rest ≠ []
      · simp only [hreg, and_self, if_true, ne_eq, not_false_eq_true] at h
        exact key 0 _ _ h
      · simp only [hreg, if_false] at h
        cases hgd : ta.get_delay cur with
        | error e => simp [hgd] at h
        | ok c =>
          simp only [hgd] at h
          exact key _ _ _ h

theorem walk_pins_frame (ta : TimingAnalysis) (allowed : Nat) (node_to_pin : List (Nat × Pin))
    (src_wave : Nat) (segments : Route) :
    ∀ (order : List Nat) (nd : List (Nat × Nat)) (pw pd : List (Pin × Nat)) (r : PassResult),
      walk_pins ta allowed node_to_pin src_wave segments order (nd, pw, pd) = .ok r →
      ((∀ p d, map_find pd p = some d → d ≤ allowed) →
        ∀ p d, map_find r.pin_delay p = some d → d ≤ allowed) ∧
      (∀ pin, ¬ EndPin node_to_pin segments pin →
        map_find r.pin_wave pin = map_find pw pin ∧
          map_find r.pin_delay pin = map_find pd pin) := by
  intro order
  induction order with
  | nil =>
    intro nd pw pd r h
    simp only [walk_pins, Except.ok.injEq] at h
    subst h
    exact ⟨fun hpd => hpd, fun _ _ => ⟨rfl, rfl⟩⟩
  | cons pin_id rest ih =>
    intro nd pw pd r h
    unfold walk_pins at h
    cases hseg : map_find segments pin_id with
    | none => simp [hseg] at h
    | some segment =>
      simp only [hseg] at h
      cases segment with
      | nil => exact ih nd pw pd r h
      | cons first tail =>
        simp only at h
        cases hw : walk_segment ta allowed node_to_pin src_wave
            ((first :: tail).getLast (List.cons_ne_nil _ _)) first tail 0 (nd, pw, pd) with
        | error e => simp [hw] at h
        | ok r1 =>
          obtain ⟨f1, f2⟩ := walk_segment_frame ta allowed node_to_pin src_wave _ tail first 0
            nd pw pd r1 hw
          have hend : ∀ pin, ¬ EndPin node_to_pin segments pin →
              map_find node_to_pin ((first :: tail).getLast (List.cons_ne_nil _ _)).id
                ≠ some pin := by
            intro pin hnot hc
            exact hnot ⟨pin_id, first :: tail, _, hseg,
              List.getLast?_eq_getLast _ (List.cons_ne_nil _ _), hc⟩
          cases r1 with
          | insert cur last num_reg pw1 pd1 =>
            simp only [hw, Except.ok.injEq] at h
            subst h
            exact ⟨f1, fun pin hp => f2 pin (hend pin hp)⟩
          | done nd1 pw1 pd1 =>
            simp only [hw] at h
            obtain ⟨g1, g2⟩ := ih nd1 pw1 pd1 r h
            refine ⟨fun hpd => g1 (f1 hpd), ?_⟩
            intro pin hp
            obtain ⟨m1, m2⟩ := g2 pin hp
            obtain ⟨n1, n2⟩ := f2 pin (hend pin hp)
            exact ⟨m1.trans n1, m2.trans n2⟩

theorem walk_pins_done (ta : TimingAnalysis) (allowed : Nat) (node_to_pin : List (Nat × Pin))
    (src_wave : Nat) (segments : Route) (source_node max_delay : Nat)
    (hmax : max_delay ≤ allowed)
    (hfrom : ∀ p seg, map_find segments p = some seg → FromDriver source_node seg) :
    ∀ (order : List Nat) (nd : List (Nat × Nat)) (pw pd : List (Pin × Nat))
      (nd1 : List (Nat × Nat)) (pw1 pd1 : List (Pin × Nat)),
      walk_pins ta allowed node_to_pin src_wave segments order (nd, pw, pd)
        = .ok (.done nd1 pw1 pd1) →
      map_find nd source_node = some max_delay →
      (∀ k d, map_find nd k = some d → d ≤ allowed) →
      (∀ p d, map_find pd p = some d → d ≤ allowed) →
      (∀ p ∈ order, ∀ seg, map_find segments p = some seg →
        ∃ ds, segment_delays ta max_delay seg = .ok ds ∧ ∀ d ∈ ds, d ≤ allowed) ∧
      (∀ k d, map_find nd1 k = some d → d ≤ allowed) := by
  intro order
  induction order with
  | nil =>
    intro nd pw pd nd1 pw1 pd1 h _ hnd _
    simp only [walk_pins, Except.ok.injEq, PassResult.done.injEq] at h
    rw [← h.1]
    exact ⟨fun p hp => (by cases hp), hnd⟩
  | cons pin_id rest ih =>
    intro nd pw pd nd1 pw1 pd1 h hsrc hnd hpd
    unfold walk_pins at h
    cases hseg : map_find segments pin_id with
    | none => simp [hseg] at h
    | some segment =>
      simp only [hseg] at h
      cases segment with
      | nil =>
        obtain ⟨k1, k2⟩ := ih nd pw pd nd1 pw1 pd1 h hsrc hnd hpd
        refine ⟨?_, k2⟩
        intro p hp seg hps
        rcases List.mem_cons.1 hp with rfl | hp
        · rw [hseg] at hps
          injection hps with hps
          rw [← hps]
          exact ⟨[], rfl, fun d hd => by cases hd⟩
        · exact k1 p hp seg hps
      | cons first tail =>
        simp only at h
        obtain ⟨hfirst, htail⟩ := hfrom pin_id _ hseg first tail rfl
        cases hw : walk_segment ta allowed node_to_pin src_wave
            ((first :: tail).getLast (List.cons_ne_nil _ _)) first tail 0 (nd, pw, pd) with
        | error e => simp [hw] at h
        | ok r1 =>
          cases r1 with
          | insert cur last num_reg pw2 pd2 =>
            simp only [hw, Except.ok.injEq] at h
            cases h
          | done nd2 pw2 pd2 =>
            simp only [hw] at h
            obtain ⟨w1, w2, w3, w4⟩ := walk_segment_done ta allowed node_to_pin src_wave _ tail
              first 0 nd pw pd nd2 pw2 pd2 max_delay hw (fun _ => by rw [hfirst]; exact hsrc)
              hnd hpd
            obtain ⟨k1, k2⟩ := ih nd2 pw2 pd2 nd1 pw1 pd1 h
              (by rw [w2 source_node htail]; exact hsrc) w3 w4
            refine ⟨?_, k2⟩
            intro p hp seg hps
            rcases List.mem_cons.1 hp with rfl | hp
            · rw [hseg] at hps
              injection hps with hps
              rw [← hps]
              obtain ⟨ds, hds, hall⟩ := w1
              refine ⟨max_delay :: ds, by simp only [segment_delays, hds], ?_⟩
              intro d hd
              rcases List.mem_cons.1 hd with rfl | hd
              · exact hmax
              · exact hall d hd
            · exact k1 p hp seg hps

theorem walk_segment_nd (ta : TimingAnalysis) (allowed : Nat) (node_to_pin : List (Nat × Pin))
    (src_wave : Nat) (last pre : cyclone.Node) (rest : List cyclone.Node) (num_reg : Nat)
    (nd : List (Nat × Nat)) (pw pd : List (Pin × Nat)) (nd1 : List (Nat × Nat))
    (pw1 pd1 : List (Pin × Nat))
    (h : walk_segment ta allowed node_to_pin src_wave last pre rest num_reg (nd, pw, pd)
      = .ok (.done nd1 pw1 pd1))
    (hnd : ∀ k d, map_find nd k = some d → d ≤ allowed)
    (hpd : ∀ p d, map_find pd p = some d → d ≤ allowed) :
    ∀ k d, map_find nd1 k = some d → d ≤ allowed := by
  cases rest with
  | nil =>
    simp only [walk_segment, Except.ok.injEq, PassResult.done.injEq] at h
    rw [← h.1]; exact hnd
  | cons cur rest =>
    cases hd0 : map_find nd pre.id with
    | none =>
      unfold walk_segment at h
      simp [hd0] at h
    | some d0 =>
      exact (walk_segment_done ta allowed node_to_pin src_wave last (cur :: rest) pre num_reg
        nd pw pd nd1 pw1 pd1 d0 h (fun _ => hd0) hnd hpd).2.2.1

theorem walk_pins_nd (ta : TimingAnalysis) (allowed : Nat) (node_to_pin : List (Nat × Pin))
    (src_wave : Nat) (segments : Route) :
    ∀ (order : List Nat) (nd : List (Nat × Nat)) (pw pd : List (Pin × Nat))
      (nd1 : List (Nat × Nat)) (pw1 pd1 : List (Pin × Nat)),
      walk_pins ta allowed node_to_pin src_wave segments order (nd, pw, pd)
        = .ok (.done nd1 pw1 pd1) →
      (∀ k d, map_find nd k = some d → d ≤ allowed) →
      (∀ p d, map_find pd p = some d → d ≤ allowed) →
      ∀ k d, map_find nd1 k = some d → d ≤ allowed := by
  intro order
  induction order with
  | nil =>
    intro nd pw pd nd1 pw1 pd1 h hnd _
    simp only [walk_pins, Except.ok.injEq, PassResult.done.injEq] at h
    rw [← h.1]; exact hnd
  | cons pin_id rest ih =>
    intro nd pw pd nd1 pw1 pd1 h hnd hpd
    unfold walk_pins at h
    cases hseg : map_find segments pin_id with
    | none => simp [hseg] at h
    | some segment =>
      simp only [hseg] at h
      cases segment with
      | nil => exact ih nd pw pd nd1 pw1 pd1 h hnd hpd
      | cons first tail =>
        simp only at h
        cases hw : walk_segment ta allowed node_to_pin src_wave
            ((first :: tail).getLast (List.cons_ne_nil _ _)) first tail 0 (nd, pw, pd) with
        | error e => simp [hw] at h
        | ok r1 =>
          cases r1 with
          | insert cur last num_reg pw2 pd2 =>
            simp only [hw, Except.ok.injEq] at h
            cases h
          | done nd2 pw2 pd2 =>
            simp only [hw] at h
            have f1 := (walk_segment_frame ta allowed node_to_pin src_wave _ tail first 0
              nd pw pd _ hw).1 hpd
            exact ih nd2 pw2 pd2 nd1 pw1 pd1 h
              (walk_segment_nd ta allowed node_to_pin src_wave _ first tail 0 nd pw pd nd2 pw2
                pd2 hw hnd hpd) f1

theorem delay_loop_bounded {RG : Type} (ops : RoutedGraphOps RG) (ta : TimingAnalysis)
    (allowed : Nat) (node_to_pin : List (Nat × Pin)) (src_wave source_node max_delay : Nat)
    (hmax : max_delay ≤ allowed) :
    ∀ (fuel : Nat) (rg : RG) (pw pd : List (Pin × Nat)) (requests : List Request) (rg1 : RG)
      (nd : List (Nat × Nat)) (pw1 pd1 : List (Pin × Nat)) (requests1 : List Request),
      delay_loop ops ta allowed node_to_pin src_wave source_node max_delay fuel
        (rg, pw, pd, requests) = .ok (rg1, nd, pw1, pd1, requests1) →
      (∀ p d, map_find pd p = some d → d ≤ allowed) →
      (∀ p d, map_find pd1 p = some d → d ≤ allowed) ∧
      (∀ k d, map_find nd k = some d → d ≤ allowed) ∧
      ((∀ p seg, map_find (ops.get_route rg1) p = some seg → FromDriver source_node seg) →
        ∀ p ∈ ops.pin_order rg1 (ops.get_route rg1), ∀ seg,
          map_find (ops.get_route rg1) p = some seg →
          ∃ ds, segment_delays ta max_delay seg = .ok ds ∧ ∀ d ∈ ds, d ≤ allowed) := by
  intro fuel
  induction fuel with
  | zero =>
    intro rg pw pd requests rg1 nd pw1 pd1 requests1 h
    simp [delay_loop] at h
  | succ fuel ih =>
    intro rg pw pd requests rg1 nd pw1 pd1 requests1 h hpd
    simp only [delay_loop] at h
    cases hw : walk_pins ta allowed node_to_pin src_wave (ops.get_route rg)
        (ops.pin_order rg (ops.get_route rg)) ([(source_node, max_delay)], pw, pd) with
    | error e => simp [hw] at h
    | ok r =>
      have hfr := (walk_pins_frame ta allowed node_to_pin src_wave _ _ _ pw pd r hw).1 hpd
      cases r with
      | done nd2 pw2 pd2 =>
        simp only [hw, Except.ok.injEq, Prod.mk.injEq] at h
        obtain ⟨e1, e2, _, e4, _⟩ := h
        subst e1; subst e2; subst e4
        have hinit : ∀ k d, map_find [(source_node, max_delay)] k = some d → d ≤ allowed := by
          intro k d hk
          simp only [map_find] at hk
          split at hk
          · injection hk with hk; omega
          · cases hk
        refine ⟨hfr, ?_, ?_⟩
        · exact walk_pins_nd ta allowed node_to_pin src_wave _ _ _ pw pd nd2 pw2 pd2 hw hinit hpd
        · intro hfrom
          exact (walk_pins_done ta allowed node_to_pin src_wave _ source_node max_delay hmax
            hfrom _ _ pw pd nd2 pw2 pd2 hw (by simp [map_find]) hinit hpd).1
      | insert cur last num_reg pw2 pd2 =>
        simp only [hw] at h
        split at h
        · cases h
        · cases hpin : map_find node_to_pin last.id with
          | none => simp [hpin] at h
          | some pin =>
            simp only [hpin] at h
            exact ih _ _ _ _ rg1 nd pw1 pd1 requests1 h hfr

theorem gather_src_pins_max (pin_wave_ pin_delay_ : List (Pin × Nat)) (allowed : Nat)
    (hpd : ∀ p d, map_find pin_delay_ p = some d → d ≤ allowed) :
    ∀ (pins : List Pin) (m : Nat) (ws : List Nat) (m1 : Nat) (ws1 : List Nat),
      gather_src_pins pin_wave_ pin_delay_ pins (m, ws) = .ok (m1, ws1) →
      m ≤ allowed → m1 ≤ allowed := by
  intro pins
  induction pins with
  | nil =>
    intro m ws m1 ws1 h hm
    simp only [gather_src_pins, Except.ok.injEq, Prod.mk.injEq] at h
    omega
  | cons pin rest ih =>
    intro m ws m1 ws1 h hm
    unfold gather_src_pins at h
    cases hw : map_find pin_wave_ pin with
    | none => simp [hw] at h
    | some w =>
      cases hd : map_find pin_delay_ pin with
      | none => simp [hw, hd] at h
      | some d =>
        simp only [hw, hd] at h
        refine ih _ _ m1 ws1 h ?_
        have := hpd pin d hd
        split <;> omega

theorem map_emplace_bounded {α : Type} [DecidableEq α] (m : List (α × Nat)) (k : α)
    (allowed : Nat) (h : ∀ x d, map_find m x = some d → d ≤ allowed) :
    ∀ x d, map_find (map_emplace m k 0) x = some d → d ≤ allowed := by
  intro x d hx
  rcases map_find_emplace_some m k x 0 d hx with h1 | ⟨_, h2⟩
  · exact h x d h1
  · omega

theorem map_set_bounded {α : Type} [DecidableEq α] (m : List (α × Nat)) (k : α) (v : Nat)
    (allowed : Nat) (hv : v ≤ allowed) (h : ∀ x d, map_find m x = some d → d ≤ allowed) :
    ∀ x d, map_find (map_set m k v) x = some d → d ≤ allowed := by
  intro x d hx
  rw [map_find_set] at hx
  split at hx
  · injection hx with hx; omega
  · exact h x d hx

theorem update_next_delays_bounded (nodes : List TimingNode) (node_delay : List (Nat × Nat))
    (allowed : Nat) (hnd : ∀ k d, map_find node_delay k = some d → d ≤ allowed) :
    ∀ (next : List Nat) (node_delay_ : List (Nat × Nat)),
      (∀ t d, map_find node_delay_ t = some d → d ≤ allowed) →
      ∀ t d, map_find (update_next_delays nodes node_delay next node_delay_) t = some d →
        d ≤ allowed := by
  intro next
  unfold update_next_delays
  induction next with
  | nil => intro node_delay_ h; exact h
  | cons n rest ih =>
    intro node_delay_ h
    rw [List.foldl_cons]
    apply ih
    generalize ((nodes[n]?.map (fun x => x.src_pins)).getD []) = pins
    induction pins generalizing node_delay_ with
    | nil => exact h
    | cons p ps ihp =>
      rw [List.foldl_cons]
      apply ihp
      cases hf : map_find node_delay p.node with
      | none => exact h
      | some d =>
        simp only
        unfold raise_node_delay
        split
        · exact map_set_bounded _ _ _ _ (hnd _ _ hf) h
        · exact map_emplace_bounded _ _ _ h

theorem foldl_map_set_bounded (pins : List Pin) (v allowed : Nat) (hv : v ≤ allowed) :
    ∀ (m : List (Pin × Nat)), (∀ p d, map_find m p = some d → d ≤ allowed) →
      ∀ p d, map_find (pins.foldl (fun acc sink_pin => map_set acc sink_pin v) m) p = some d →
        d ≤ allowed := by
  induction pins with
  | nil => intro m h; exact h
  | cons q rest ih =>
    intro m h
    rw [List.foldl_cons]
    exact ih _ (map_set_bounded _ _ _ _ hv h)

/-- The steps of a call of `process_net` that returns. -/
theorem process_net_cases {RG : Type} (ops : RoutedGraphOps RG) (ta : TimingAnalysis)
    (fuel allowed : Nat) (netlist : Netlist) (routed_graphs : List (Int × RG))
    (node_to_pin : List (Nat × Pin)) (nodes : List TimingNode) (timing_node : TimingNode)
    (start_delay : Nat) (st st1 : RetimeState) (net_id : Int)
    (h : process_net ops ta fuel allowed netlist routed_graphs node_to_pin nodes timing_node
      start_delay st net_id = .ok st1) :
    ∃ (net : Net) (rg0 : RG) (max_delay : Nat) (pin_waves : List Nat) (src_wave : Nat) (rg1 : RG)
      (pw1 : List (Pin × Nat)) (req1 : List Request) (src_pin0 : Pin) (rest : List Pin) (rg2 : RG)
      (nd : List (Nat × Nat)) (pw2 pd2 : List (Pin × Nat)) (req2 : List Request),
      net = (map_find netlist net_id).getD ⟨-1, []⟩ ∧
      map_find routed_graphs net.id = some rg0 ∧
      gather_src_pins st.pin_wave_ st.pin_delay_ timing_node.src_pins (start_delay, [])
        = .ok (max_delay, pin_waves) ∧
      ((pin_waves = [] ∧ src_wave = 0 ∧ rg1 = rg0 ∧ pw1 = st.pin_wave_ ∧ req1 = st.requests) ∨
        (pin_waves = [src_wave] ∧ rg1 = rg0 ∧ pw1 = st.pin_wave_ ∧ req1 = st.requests) ∨
        (2 ≤ pin_waves.length ∧
          wave_matching ops fuel rg0 timing_node.src_pins st.pin_wave_ st.requests
            = .ok (src_wave, rg1, pw1, req1))) ∧
      net.pins_ = src_pin0 :: rest ∧
      delay_loop ops ta allowed node_to_pin src_wave src_pin0.node max_delay fuel
        (rg1, pw1,
          timing_node.sink_pins.foldl (fun acc sink_pin => map_set acc sink_pin max_delay)
            st.pin_delay_, req1) = .ok (rg2, nd, pw2, pd2, req2) ∧
      st1 = { pin_delay_ := pd2
              node_delay_ := update_next_delays nodes nd timing_node.next st.node_delay_
              pin_wave_ := pw2
              final_result := sorted_emplace net.id (ops.get_route rg2) st.final_result
              requests := req2
              processed :=
                st.processed ++ [⟨net.id, src_pin0.node, max_delay, src_wave, ops.get_route rg2⟩] } := by
  unfold process_net at h
  simp only at h
  cases hrg : map_find routed_graphs ((map_find netlist net_id).getD ⟨-1, []⟩).id with
  | none => simp [hrg] at h
  | some rg0 =>
    simp only [hrg] at h
    cases hg : gather_src_pins st.pin_wave_ st.pin_delay_ timing_node.src_pins (start_delay, []) with
    | error e => simp [hg] at h
    | ok r =>
      obtain ⟨max_delay, pin_waves⟩ := r
      simp only [hg] at h
      have hmatch : ∀ (src_wave : Nat) (rg1 : RG) (pw1 : List (Pin × Nat)) (req1 : List Request),
          (match ((map_find netlist net_id).getD ⟨-1, []⟩).pins_ with
            | [] => Except.error TimingError.undefined_behaviour
            | src_pin0 :: _ =>
              match delay_loop ops ta allowed node_to_pin src_wave src_pin0.node max_delay fuel
                  (rg1, pw1,
                    timing_node.sink_pins.foldl
                      (fun acc sink_pin => map_set acc sink_pin max_delay) st.pin_delay_, req1) with
              | .error e => .error e
              | .ok (rg2, node_delay, pin_wave2, pin_delay2, requests2) =>
                .ok { pin_delay_ := pin_delay2
                      node_delay_ :=
                        update_next_delays nodes node_delay timing_node.next st.node_delay_
                      pin_wave_ := pin_wave2
                      final_result :=
                        sorted_emplace ((map_find netlist net_id).getD ⟨-1, []⟩).id
                          (ops.get_route rg2) st.final_result
                      requests := requests2
                      processed :=
                        st.processed ++
                          [⟨((map_find netlist net_id).getD ⟨-1, []⟩).id, src_pin0.node,
                            max_delay, src_wave, ops.get_route rg2⟩] }) = Except.ok st1 →
          ∃ (src_pin0 : Pin) (rest : List Pin) (rg2 : RG) (nd : List (Nat × Nat))
            (pw2 pd2 : List (Pin × Nat)) (req2 : List Request),
            ((map_find netlist net_id).getD ⟨-1, []⟩).pins_ = src_pin0 :: rest ∧
            delay_loop ops ta allowed node_to_pin src_wave src_pin0.node max_delay fuel
              (rg1, pw1,
                timing_node.sink_pins.foldl (fun acc sink_pin => map_set acc sink_pin max_delay)
                  st.pin_delay_, req1) = .ok (rg2, nd, pw2, pd2, req2) ∧
            st1 = { pin_delay_ := pd2
                    node_delay_ := update_next_delays nodes nd timing_node.next st.node_delay_
                    pin_wave_ := pw2
                    final_result :=
                      sorted_emplace ((map_find netlist net_id).getD ⟨-1, []⟩).id
                        (ops.get_route rg2) st.final_result
                    requests := req2
                    processed :=
                      st.processed ++
                        [⟨((map_find netlist net_id).getD ⟨-1, []⟩).id, src_pin0.node, max_delay,
                          src_wave, ops.get_route rg2⟩] } := by
        intro src_wave rg1 pw1 req1 hm
        cases hp : ((map_find netlist net_id).getD ⟨-1, []⟩).pins_ with
        | nil => simp [hp] at hm
        | cons src_pin0 rest =>
          simp only [hp] at hm
          cases hdl : delay_loop ops ta allowed node_to_pin src_wave src_pin0.node max_delay fuel
              (rg1, pw1,
                timing_node.sink_pins.foldl (fun acc sink_pin => map_set acc sink_pin max_delay)
                  st.pin_delay_, req1) with
          | error e => simp [hdl] at hm
          | ok r2 =>
            obtain ⟨rg2, nd, pw2, pd2, req2⟩ := r2
            simp only [hdl, Except.ok.injEq] at hm
            exact ⟨src_pin0, rest, rg2, nd, pw2, pd2, req2, rfl, hdl, hm.symm⟩
      cases pin_waves with
      | nil =>
        simp only at h
        obtain ⟨src_pin0, rest, rg2, nd, pw2, pd2, req2, k1, k2, k3⟩ := hmatch _ _ _ _ h
        exact ⟨_, rg0, max_delay, [], 0, rg0, _, _, src_pin0, rest, rg2, nd, pw2, pd2, req2, rfl,
          hrg, rfl, Or.inl ⟨rfl, rfl, rfl, rfl, rfl⟩, k1, k2, k3⟩
      | cons w ws =>
        cases ws with
        | nil =>
          simp only at h
          obtain ⟨src_pin0, rest, rg2, nd, pw2, pd2, req2, k1, k2, k3⟩ := hmatch _ _ _ _ h
          exact ⟨_, rg0, max_delay, [w], w, rg0, _, _, src_pin0, rest, rg2, nd, pw2, pd2, req2,
            rfl, hrg, rfl, Or.inr (Or.inl ⟨rfl, rfl, rfl, rfl⟩), k1, k2, k3⟩
        | cons w2 ws2 =>
          simp only at h
          cases hwm : wave_matching ops fuel rg0 timing_node.src_pins st.pin_wave_ st.requests with
          | error e => simp [hwm] at h
          | ok r3 =>
            obtain ⟨src_wave, rg1, pw1, req1⟩ := r3
            simp only [hwm] at h
            obtain ⟨src_pin0, rest, rg2, nd, pw2, pd2, req2, k1, k2, k3⟩ := hmatch _ _ _ _ h
            exact ⟨_, rg0, max_delay, w :: w2 :: ws2, src_wave, rg1, pw1, req1, src_pin0, rest,
              rg2, nd, pw2, pd2, req2, rfl, hrg, rfl,
              Or.inr (Or.inr ⟨by simp, hwm⟩), k1, k2, k3⟩

theorem mem_sorted_emplace {β : Type} (key : Int) (v : β) (l : List (Int × β))
    (e : Int × β) (h : e ∈ sorted_emplace key v l) : e = (key, v) ∨ e ∈ l := by
  induction l with
  | nil =>
    simp only [sorted_emplace, List.mem_singleton] at h
    exact Or.inl h
  | cons c rest ih =>
    unfold sorted_emplace at h
    split at h
    · rcases List.mem_cons.1 h with h1 | h1
      · exact Or.inl h1
      · exact Or.inr h1
    · split at h
      · exact Or.inr h
      · rcases List.mem_cons.1 h with h1 | h1
        · exact Or.inr (by rw [h1]; exact List.mem_cons_self _ _)
        · rcases ih h1 with h2 | h2
          · exact Or.inl h2
          · exact Or.inr (List.mem_cons_of_mem _ h2)

theorem process_net_bound {RG : Type} (ops : RoutedGraphOps RG) (ta : TimingAnalysis)
    (fuel allowed : Nat) (netlist : Netlist) (routed_graphs : List (Int × RG))
    (node_to_pin : List (Nat × Pin)) (nodes : List TimingNode) (timing_node : TimingNode)
    (start_delay : Nat) (st st1 : RetimeState) (net_id : Int)
    (horder : ∀ rg route p seg, map_find route p = some seg → p ∈ ops.pin_order rg route)
    (hstart : start_delay ≤ allowed) (hinv : BoundInv ta allowed st)
    (h : process_net ops ta fuel allowed netlist routed_graphs node_to_pin nodes timing_node
      start_delay st net_id = .ok st1) : BoundInv ta allowed st1 := by
  obtain ⟨net, rg0, max_delay, pin_waves, src_wave, rg1, pw1, req1, src_pin0, rest, rg2, nd, pw2,
    pd2, req2, _, _, hg, _, _, hdl, hst⟩ := process_net_cases ops ta fuel allowed netlist
      routed_graphs node_to_pin nodes timing_node start_delay st st1 net_id h
  obtain ⟨⟨hpd, hnd_⟩, hproc, hfinal⟩ := hinv
  have hmax : max_delay ≤ allowed :=
    gather_src_pins_max _ _ allowed hpd _ _ _ _ _ hg hstart
  obtain ⟨b1, b2, b3⟩ := delay_loop_bounded ops ta allowed node_to_pin src_wave src_pin0.node
    max_delay hmax fuel rg1 pw1 _ req1 rg2 nd pw2 pd2 req2 hdl
    (foldl_map_set_bounded _ _ _ hmax _ hpd)
  have hrec : RecordBounded ta allowed
      ⟨net.id, src_pin0.node, max_delay, src_wave, ops.get_route rg2⟩ := by
    refine ⟨hmax, ?_⟩
    intro hfrom p seg hp
    exact b3 hfrom p (horder rg2 _ p seg hp) seg hp
  rw [hst]
  refine ⟨⟨b1, ?_⟩, ?_, ?_⟩
  · exact update_next_delays_bounded nodes nd allowed b2 _ _ hnd_
  · intro record hr
    rcases List.mem_append.1 hr with hr | hr
    · exact hproc record hr
    · rw [List.mem_singleton.1 hr]; exact hrec
  · intro entry he
    rcases mem_sorted_emplace _ _ _ _ he with he | he
    · exact ⟨_, List.mem_append_right _ (List.mem_singleton_self _), by rw [he], by rw [he]⟩
    · obtain ⟨record, hr, k1, k2⟩ := hfinal entry he
      exact ⟨record, List.mem_append_left _ hr, k1, k2⟩

theorem process_nets_bound {RG : Type} (ops : RoutedGraphOps RG) (ta : TimingAnalysis)
    (fuel allowed : Nat) (netlist : Netlist) (routed_graphs : List (Int × RG))
    (node_to_pin : List (Nat × Pin)) (nodes : List TimingNode) (timing_node : TimingNode)
    (start_delay : Nat)
    (horder : ∀ rg route p seg, map_find route p = some seg → p ∈ ops.pin_order rg route)
    (hstart : start_delay ≤ allowed) :
    ∀ (ids : List Int) (st st1 : RetimeState), BoundInv ta allowed st →
      process_nets ops ta fuel allowed netlist routed_graphs node_to_pin nodes timing_node
        start_delay ids st = .ok st1 → BoundInv ta allowed st1 := by
  intro ids
  induction ids with
  | nil =>
    intro st st1 hinv h
    simp only [process_nets, Except.ok.injEq] at h
    rw [← h]; exact hinv
  | cons id rest ih =>
    intro st st1 hinv h
    unfold process_nets at h
    cases hp : process_net ops ta fuel allowed netlist routed_graphs node_to_pin nodes
        timing_node start_delay st id with
    | error e => simp [hp] at h
    | ok st2 =>
      simp only [hp] at h
      exact ih st2 st1 (process_net_bound ops ta fuel allowed netlist routed_graphs node_to_pin
        nodes timing_node start_delay st st2 id horder hstart hinv hp) h

theorem process_nodes_bound {RG : Type} (ops : RoutedGraphOps RG) (ta : TimingAnalysis)
    (fuel allowed : Nat) (netlist : Netlist) (routed_graphs : List (Int × RG))
    (node_to_pin : List (Nat × Pin)) (nodes : List TimingNode)
    (horder : ∀ rg route p seg, map_find route p = some seg → p ∈ ops.pin_order rg route) :
    ∀ (sorted : List Nat) (st st1 : RetimeState), BoundInv ta allowed st →
      process_nodes ops ta fuel allowed netlist routed_graphs node_to_pin nodes sorted st
        = .ok st1 → BoundInv ta allowed st1 := by
  intro sorted
  induction sorted with
  | nil =>
    intro st st1 hinv h
    simp only [process_nodes, Except.ok.injEq] at h
    rw [← h]; exact hinv
  | cons t rest ih =>
    intro st st1 hinv h
    unfold process_nodes at h
    cases hn : nodes[t]? with
    | none => simp [hn] at h
    | some timing_node =>
      simp only [hn] at h
      cases hp : process_nets ops ta fuel allowed netlist routed_graphs node_to_pin nodes
          timing_node ((map_find st.node_delay_ t).getD 0)
          (TimingGraph.get_sink_ids netlist timing_node)
          { st with node_delay_ := map_emplace st.node_delay_ t 0 } with
      | error e => simp [hp] at h
      | ok st2 =>
        simp only [hp] at h
        refine ih st2 st1 ?_ h
        refine process_nets_bound ops ta fuel allowed netlist routed_graphs node_to_pin nodes
          timing_node _ horder ?_ _ _ st2 ?_ hp
        · cases hf : map_find st.node_delay_ t with
          | none => simp
          | some d => simpa using hinv.1.2 t d hf
        · exact ⟨⟨hinv.1.1, map_emplace_bounded _ _ _ hinv.1.2⟩, hinv.2.1, hinv.2.2⟩

theorem foldl_emplace_zero_bounded (allowed : Nat) (io_pins : List (Int × Pin)) :
    ∀ (m : List (Pin × Nat)), (∀ p d, map_find m p = some d → d ≤ allowed) →
      ∀ p d, map_find (io_pins.foldl (fun acc q => map_emplace acc q.2 0) m) p = some d →
        d ≤ allowed := by
  induction io_pins with
  | nil => intro m h; exact h
  | cons q rest ih =>
    intro m h
    rw [List.foldl_cons]
    exact ih _ (map_emplace_bounded _ _ _ h)

theorem retime_core_bound {RG : Type} (ops : RoutedGraphOps RG) (ta : TimingAnalysis)
    (netlist : Netlist) (routed_graphs : List (Int × RG)) (order : List Nat) (fuel : Nat)
    (st : RetimeState) (allowed : Nat) (ha : ta.maximum_delay = .ok allowed)
    (horder : ∀ rg route p seg, map_find route p = some seg → p ∈ ops.pin_order rg route)
    (h : retime_core ops ta netlist routed_graphs order fuel = .ok st) :
    BoundInv ta allowed st := by
  unfold retime_core at h
  cases hs : get_source_pins netlist with
  | error e => simp [hs] at h
  | ok io_pins =>
    simp only [hs, ha] at h
    cases hb : TimingGraph.build netlist [] with
    | none => simp [hb] at h
    | some nodes =>
      simp only [hb] at h
      cases ht : TimingGraph.topological_sort nodes order with
      | error e => simp [ht] at h
      | ok sorted =>
        simp only [ht] at h
        refine process_nodes_bound ops ta fuel allowed netlist routed_graphs _ nodes horder
          sorted _ st ?_ h
        refine ⟨⟨?_, ?_⟩, ?_, ?_⟩
        · exact foldl_emplace_zero_bounded allowed io_pins [] (by intro p d hp; simp [map_find] at hp)
        · intro t d hp; simp [map_find] at hp
        · intro record hr; cases hr
        · intro entry he; cases he

theorem map_find_keys {α β : Type} [DecidableEq α] (m : List (α × β)) (k : α) (v : β)
    (h : map_find m k = some v) : k ∈ m.map Prod.fst :=
  List.mem_map_of_mem Prod.fst (map_find_mem m k v h)

/-- A delay that `get_delay` returns is 0 or a cost of the table. -/
theorem get_delay_cost (ta : TimingAnalysis) (node : cyclone.Node) (c : Nat)
    (h : ta.get_delay node = .ok c) : c = 0 ∨ ∃ kind, ta.timing_cost_ kind = some c := by
  have hcost : ∀ kind, ta.cost_at kind = .ok c → ∃ kind, ta.timing_cost_ kind = some c := by
    intro kind hk
    unfold TimingAnalysis.cost_at at hk
    cases ht : ta.timing_cost_ kind with
    | none => simp [ht] at hk
    | some v =>
      simp only [ht, Except.ok.injEq] at hk
      exact ⟨kind, by rw [ht, hk]⟩
  unfold TimingAnalysis.get_delay at h
  cases hty : node.type with
  | Port =>
    simp only [hty] at h
    split_ifs at h
    · exact Or.inr (hcost _ h)
    · exact Or.inr (hcost _ h)
    · injection h with h; exact Or.inl h.symm
  | Register =>
    simp only [hty] at h
    exact Or.inr (hcost _ h)
  | SwitchBox =>
    simp only [hty] at h
    split_ifs at h
    · injection h with h; exact Or.inl h.symm
    · exact Or.inr (hcost _ h)
    · exact Or.inr (hcost _ h)
    · injection h with h; exact Or.inl h.symm
  | Generic =>
    simp only [hty] at h
    exact Or.inr (hcost _ h)

/-- Where no sum can leave the range of `uint64_t`, the wrapped delays that
stay within the allowed delay are the exact ones. -/
theorem accumulate_exact_eq (ta : TimingAnalysis) (allowed : Nat) (hlt : allowed < 2 ^ 64)
    (hno : NoWrap ta allowed) :
    ∀ (rest : List cyclone.Node) (d : Nat) (ds : List Nat),
      accumulate ta d rest = .ok ds → d ≤ allowed → (∀ x ∈ ds, x ≤ allowed) →
      accumulate_exact ta d rest = .ok ds := by
  intro rest
  induction rest with
  | nil =>
    intro d ds h _ _
    simp only [accumulate, Except.ok.injEq] at h
    rw [← h]; rfl
  | cons cur rest ih =>
    intro d ds h hd hall
    unfold accumulate at h
    unfold accumulate_exact
    by_cases hreg : cur.type = cyclone.NodeType.Register ∧ rest ≠ []
    · rw [if_pos hreg] at h
      rw [if_pos hreg]
      cases hacc : accumulate ta 0 rest with
      | error e => simp [hacc] at h
      | ok ds1 =>
        simp only [hacc, Except.ok.injEq] at h
        have hex := ih 0 ds1 hacc (Nat.zero_le _)
          (fun x hx => hall x (by rw [← h]; exact List.mem_cons_of_mem _ hx))
        simp only [hex, h]
    · rw [if_neg hreg] at h
      rw [if_neg hreg]
      cases hgd : ta.get_delay cur with
      | error e => simp [hgd] at h
      | ok c =>
        simp only [hgd] at h
        have hsum : d + c < 2 ^ 64 := by
          rcases get_delay_cost ta cur c hgd with h0 | ⟨kind, hk⟩
          · omega
          · have := hno kind c hk; omega
        rw [Nat.mod_eq_of_lt hsum] at h
        cases hacc : accumulate ta (d + c) rest with
        | error e => simp [hacc] at h
        | ok ds1 =>
          simp only [hacc, Except.ok.injEq] at h
          have hdc : d + c ≤ allowed := hall (d + c) (by rw [← h]; exact List.mem_cons_self _ _)
          have hex := ih (d + c) ds1 hacc hdc
            (fun x hx => hall x (by rw [← h]; exact List.mem_cons_of_mem _ hx))
          simp only [hex, h]

theorem segment_delays_exact_eq (ta : TimingAnalysis) (allowed : Nat) (hlt : allowed < 2 ^ 64)
    (hno : NoWrap ta allowed) (max_delay : Nat) (seg : List cyclone.Node) (ds : List Nat)
    (h : segment_delays ta max_delay seg = .ok ds) (hmax : max_delay ≤ allowed)
    (hall : ∀ x ∈ ds, x ≤ allowed) : segment_delays_exact ta max_delay seg = .ok ds := by
  unfold segment_delays at h
  unfold segment_delays_exact
  cases seg with
  | nil => exact h
  | cons first tail =>
    simp only at h ⊢
    cases hacc : accumulate ta max_delay tail with
    | error e => simp [hacc] at h
    | ok ds1 =>
      simp only [hacc, Except.ok.injEq] at h
      have hex := accumulate_exact_eq ta allowed hlt hno tail max_delay ds1 hacc hmax
        (fun x hx => hall x (by rw [← h]; exact List.mem_cons_of_mem _ hx))
      simp only [hex, h]

theorem maximum_delay_lt (ta : TimingAnalysis) (allowed : Nat)
    (ha : ta.maximum_delay = .ok allowed) : allowed < 2 ^ 64 := by
  unfold TimingAnalysis.maximum_delay at ha
  split_ifs at ha
  injection ha with ha
  have : 1000000 / ta.min_frequency_ ≤ 1000000 := Nat.div_le_self _ _
  have h2 : (1000000 : Nat) < 2 ^ 64 := by norm_num
  omega

/-- Counterexample to C15 as stated: with `CLB_OP = 2 ^ 64 - 1` the sum at the
receiver port of S1 wraps around to 1, which is within the allowed delay 2,
so `retime` returns without asking for a register; the delay accumulated
along the final segment is 2 ^ 64 + 1. -/
theorem retime_wrapped_delay_counterexample :
    wrap_ta.maximum_delay = .ok 2 ∧
      wrap_ta.get_delay cyclone.port_p1 = .ok 18446744073709551615 ∧
      (retime echo_ops wrap_ta wrap_routers [0, 1] 3).map
        (fun out => (out.state.requests, out.state.final_result, out.router_routes))
        = .ok ([], [(0, s1_route)], [[(0, s1_route)]]) ∧
      segment_delays wrap_ta 0
        [cyclone.port_i0, cyclone.sb_out, cyclone.sb_in, cyclone.port_p1] = .ok [0, 2, 2, 1] ∧
      segment_delays_exact wrap_ta 0
        [cyclone.port_i0, cyclone.sb_out, cyclone.sb_in, cyclone.port_p1]
        = .ok [0, 2, 2, 18446744073709551617] := by
  decide

/-- C15, amended: whenever `retime` returns, every processed net has a
`max_delay` within the allowed delay and, when the segments of its final
route start at the driver's node, the delay accumulated along each segment
in 64-bit arithmetic (started at `max_delay`, reset at every register that
is not the last node, increased by `get_delay` modulo `2 ^ 64` elsewhere) is
defined and within the allowed delay at every node; where the allowed delay
plus any cost of the table stays below `2 ^ 64`, these are the exact
accumulated delays.  Every final route that is recorded and handed to a
router is the route of such a net.  The routed graph is assumed to list
every pin of a route in `pin_order`. -/
theorem retime_delay_within_allowed {RG : Type} (ops : RoutedGraphOps RG) (ta : TimingAnalysis)
    (routers : List (Router RG)) (order : List Nat) (fuel : Nat) (out : RetimeResult)
    (allowed : Nat) (h : retime ops ta routers order fuel = .ok out)
    (ha : ta.maximum_delay = .ok allowed)
    (horder : ∀ rg route p seg, map_find route p = some seg → p ∈ ops.pin_order rg route) :
    (∀ record ∈ out.state.processed, record.max_delay ≤ allowed ∧
      ((∀ p seg, map_find record.route p = some seg → FromDriver record.source_node seg) →
        ∀ p seg, map_find record.route p = some seg →
          ∃ ds, segment_delays ta record.max_delay seg = .ok ds ∧ (∀ d ∈ ds, d ≤ allowed) ∧
            (NoWrap ta allowed → segment_delays_exact ta record.max_delay seg = .ok ds))) ∧
    (∀ entry ∈ out.state.final_result, ∃ record ∈ out.state.processed,
      record.net_id = entry.1 ∧ record.route = entry.2) ∧
    ∀ routes ∈ out.router_routes, ∀ entry ∈ routes, entry ∈ out.state.final_result := by
  unfold retime at h
  cases hc : retime_core ops ta (merged_netlist routers) (merged_graphs routers) order fuel with
  | error e => simp [hc] at h
  | ok st =>
    simp only [hc, Except.ok.injEq] at h
    obtain ⟨_, hproc, hfinal⟩ := retime_core_bound ops ta _ _ order fuel st allowed ha horder hc
    rw [← h]
    refine ⟨?_, hfinal, ?_⟩
    · intro record hr
      obtain ⟨hmax, hseg⟩ := hproc record hr
      refine ⟨hmax, ?_⟩
      intro hfrom p seg hp
      obtain ⟨ds, hds, hall⟩ := hseg hfrom p seg hp
      exact ⟨ds, hds, hall, fun hno => segment_delays_exact_eq ta allowed
        (maximum_delay_lt ta allowed ha) hno record.max_delay seg ds hds hmax hall⟩
    · intro routes hr entry he
      simp only [List.mem_map] at hr
      obtain ⟨router, _, hrr⟩ := hr
      rw [← hrr] at he
      exact (List.mem_filter.1 he).1

/-- Instance of `retime_delay_within_allowed` on the variant of S1: one
register is requested at the receiver port, the routed graph places it
after the switch box output, no sum wraps around, and the delays along the
final route are 0, 2, 0, 0 and 1. -/
theorem retime_delay_within_allowed_witness :
    retime s1_ops one_reg_ta s1_routers [0, 1] 3 = .ok one_reg_result ∧
      one_reg_ta.maximum_delay = .ok 2 ∧
      (∀ (rg : Nat) (route : Route) p seg, map_find route p = some seg →
        p ∈ s1_ops.pin_order rg route) ∧
      NoWrap one_reg_ta 2 ∧
      segment_delays one_reg_ta 0
        [cyclone.port_i0, cyclone.sb_out, cyclone.reg0, cyclone.sb_in, cyclone.port_p1]
          = .ok [0, 2, 0, 0, 1] ∧
      (∀ record ∈ one_reg_result.state.processed, record.max_delay ≤ 2 ∧
        ((∀ p seg, map_find record.route p = some seg → FromDriver record.source_node seg) →
          ∀ p seg, map_find record.route p = some seg →
            ∃ ds, segment_delays one_reg_ta record.max_delay seg = .ok ds ∧
              (∀ d ∈ ds, d ≤ 2) ∧
              (NoWrap one_reg_ta 2 →
                segment_delays_exact one_reg_ta record.max_delay seg = .ok ds))) ∧
      (∀ entry ∈ one_reg_result.state.final_result, ∃ record ∈ one_reg_result.state.processed,
        record.net_id = entry.1 ∧ record.route = entry.2) ∧
      ∀ routes ∈ one_reg_result.router_routes, ∀ entry ∈ routes,
        entry ∈ one_reg_result.state.final_result :=
  ⟨by decide, by decide, fun _ route p seg hp => map_find_keys route p seg hp,
    (by
      intro kind c hc
      cases kind <;> simp only [one_reg_ta, Option.some.injEq] at hc <;> omega),
    by decide,
    retime_delay_within_allowed s1_ops one_reg_ta s1_routers [0, 1] 3 one_reg_result 2
      (by decide) (by decide) (fun _ route p seg hp => map_find_keys route p seg hp)⟩

/-! ## Scenario S1 -/

/-- Counterexample to C18 as stated: in S1, with a routed graph that places the first
register after the switch box output as the scenario expects, `retime` does
not return 1 after one request: it ends with the insertion failure raised
at the second request on the receiver port. -/
theorem retime_s1_raises_counterexample :
    retime s1_ops s1_ta s1_routers [0, 1] 5
      = .error (.runtime_error "Failed to insert pipeline register at p1") := by
  decide

/-- C18 (amended): in S1 the allowed delay is 2, the switch box output on the IO
tile costs 0 and the receiver port costs 5, so the first pass over the route
walks the switch boxes with delay 0 and asks for a register at the receiver
port `Port(p1)` with no register counted; the pass over the route with one
register after the switch box output counts that register and asks for a
register at `Port(p1)` again; and with the routed graph `s1_ops`, which has
one register to offer, `retime` raises the insertion failure for every step
budget of at least 2. -/
theorem retime_s1_requests_at_receiver :
    s1_ta.maximum_delay = .ok 2 ∧
      s1_ta.get_delay cyclone.sb_out = .ok 0 ∧ s1_ta.get_delay cyclone.sb_in = .ok 0 ∧
      s1_ta.get_delay cyclone.port_p1 = .ok 5 ∧
      walk_pins s1_ta 2 (build_node_to_pin s1_netlist) 0 s1_route [1]
          ([(0, 0)], [(pin_i0, 0)], [(pin_i0, 0)])
        = .ok (.insert cyclone.port_p1 cyclone.port_p1 0 [(pin_i0, 0), (pin_p1, 0)]
            [(pin_i0, 0), (pin_p1, 0)]) ∧
      walk_pins s1_ta 2 (build_node_to_pin s1_netlist) 0 s1_route_reg [1]
          ([(0, 0)], [(pin_i0, 0), (pin_p1, 1)], [(pin_i0, 0), (pin_p1, 0)])
        = .ok (.insert cyclone.port_p1 cyclone.port_p1 1 [(pin_i0, 0), (pin_p1, 1)]
            [(pin_i0, 0), (pin_p1, 0)]) ∧
      ∀ fuel, retime s1_ops s1_ta s1_routers [0, 1] (fuel + 2)
        = .error (.runtime_error "Failed to insert pipeline register at p1") :=
  ⟨by decide, by decide, by decide, by decide, by decide, by decide, fun _ => rfl⟩

namespace TimingGraph

/-! ## Structure of the constructed timing graph -/

theorem find_node_some_name (name : String) (nodes : List TimingNode) (i : Nat)
    (h : find_node name nodes = some i) : ∃ n, nodes[i]? = some n ∧ n.name = name := by
  induction nodes generalizing i with
  | nil => cases h
  | cons n rest ih =>
    unfold find_node at h
    by_cases hn : n.name = name
    · rw [if_pos hn] at h
      injection h with h
      subst h
      exact ⟨n, by simp, hn⟩
    · rw [if_neg hn] at h
      cases hr : find_node name rest with
      | none => rw [hr] at h; cases h
      | some j =>
        rw [hr] at h
        simp only [Option.map_some', Option.some.injEq] at h
        subst h
        obtain ⟨m, hm, hmn⟩ := ih j hr
        exact ⟨m, by simpa using hm, hmn⟩

theorem find_node_none (name : String) (nodes : List TimingNode)
    (h : find_node name nodes = none) : ∀ n ∈ nodes, n.name ≠ name := by
  induction nodes with
  | nil => intro n hn; cases hn
  | cons m rest ih =>
    unfold find_node at h
    by_cases hn : m.name = name
    · rw [if_pos hn] at h; cases h
    · rw [if_neg hn] at h
      have hr : find_node name rest = none := by
        cases hr : find_node name rest with
        | none => rfl
        | some j => rw [hr] at h; cases h
      intro n hmem
      rcases List.mem_cons.1 hmem with rfl | hmem
      · exact hn
      · exact ih hr n hmem

theorem getElem?_modify_node (nodes : List TimingNode) (i : Nat) (f : TimingNode → TimingNode)
    (k : Nat) :
    (modify_node nodes i f)[k]? = if k = i then (nodes[k]?).map f else nodes[k]? := by
  induction nodes generalizing i k with
  | nil => cases i <;> simp [modify_node]
  | cons n rest ih =>
    cases i with
    | zero =>
      cases k with
      | zero => simp [modify_node]
      | succ k => simp [modify_node]
    | succ i =>
      cases k with
      | zero => simp [modify_node]
      | succ k =>
        simp only [modify_node, List.getElem?_cons_succ, ih, Nat.succ_inj']

theorem extends_refl (nodes : List TimingNode) : Extends nodes nodes :=
  fun _ n h => ⟨n, h, rfl, fun _ hw => hw⟩

theorem extends_trans (a b c : List TimingNode) (h1 : Extends a b) (h2 : Extends b c) :
    Extends a c := by
  intro i n h
  obtain ⟨n1, k1, k2, k3⟩ := h1 i n h
  obtain ⟨n2, j1, j2, j3⟩ := h2 i n1 k1
  exact ⟨n2, j1, j2.trans k2, fun w hw => j3 w (k3 w hw)⟩

theorem hasEdge_of_extends (a b : List TimingNode) (h : Extends a b) (x y : String)
    (he : HasEdge a x y) : HasEdge b x y := by
  obtain ⟨i, j, ni, nj, h1, h2, h3, h4, h5⟩ := he
  obtain ⟨mi, k1, k2, k3⟩ := h i ni h1
  obtain ⟨mj, j1, j2, _⟩ := h j nj h2
  exact ⟨i, j, mi, mj, k1, j1, k2.trans h3, j2.trans h4, k3 j h5⟩

theorem extends_get_node (nodes : List TimingNode) (pin : Pin) :
    Extends nodes (get_node nodes pin).1 := by
  unfold get_node
  cases hf : find_node pin.name nodes with
  | some i => exact extends_refl nodes
  | none =>
    intro i n h
    refine ⟨n, ?_, rfl, fun _ hw => hw⟩
    have hi : i < nodes.length := (List.getElem?_eq_some_iff.1 h).1
    show (nodes ++ [_])[i]? = some n
    rw [List.getElem?_append_left hi]
    exact h

theorem get_node_name (nodes : List TimingNode) (pin : Pin) :
    ∃ n, (get_node nodes pin).1[(get_node nodes pin).2]? = some n ∧ n.name = pin.name := by
  unfold get_node
  cases hf : find_node pin.name nodes with
  | some i => exact find_node_some_name _ _ _ hf
  | none =>
    refine ⟨⟨pin.name, [], [], []⟩, ?_, rfl⟩
    show (nodes ++ [_])[nodes.length]? = some _
    simp

theorem extends_modify_node (nodes : List TimingNode) (i : Nat) (f : TimingNode → TimingNode)
    (hname : ∀ n, (f n).name = n.name) (hnext : ∀ n, ∀ w ∈ n.next, w ∈ (f n).next) :
    Extends nodes (modify_node nodes i f) := by
  intro k n h
  rw [getElem?_modify_node]
  by_cases hk : k = i
  · rw [if_pos hk, h]
    exact ⟨f n, rfl, hname n, hnext n⟩
  · rw [if_neg hk]
    exact ⟨n, h, rfl, fun _ hw => hw⟩

theorem nodesOk_get_node (nodes : List TimingNode) (pin : Pin) (h : NodesOk nodes) :
    NodesOk (get_node nodes pin).1 := by
  unfold get_node
  cases hf : find_node pin.name nodes with
  | some i => exact h
  | none =>
    have hfresh := find_node_none _ _ hf
    refine ⟨?_, ?_⟩
    · intro i j ni nj hi hj hname
      show i = j
      have key : ∀ (k : Nat) (m : TimingNode),
          (nodes ++ [(⟨pin.name, [], [], []⟩ : TimingNode)])[k]? = some m →
          (k < nodes.length ∧ nodes[k]? = some m) ∨ (k = nodes.length ∧ m.name = pin.name) := by
        intro k m hk
        by_cases hlt : k < nodes.length
        · rw [List.getElem?_append_left hlt] at hk
          exact Or.inl ⟨hlt, hk⟩
        · have hge : nodes.length ≤ k := Nat.le_of_not_lt hlt
          rw [List.getElem?_append_right hge] at hk
          have h0 : k - nodes.length = 0 := by
            by_contra hne
            obtain ⟨d, hd⟩ := Nat.exists_eq_succ_of_ne_zero hne
            rw [hd] at hk
            simp at hk
          rw [h0] at hk
          simp only [List.getElem?_cons_zero, Option.some.injEq] at hk
          exact Or.inr ⟨by omega, by rw [← hk]⟩
      rcases key i ni hi with ⟨_, a1⟩ | ⟨a1, a2⟩ <;> rcases key j nj hj with ⟨_, b1⟩ | ⟨b1, b2⟩
      · exact h.1 i j ni nj a1 b1 hname
      · exact absurd (hname.trans b2) (hfresh ni (List.getElem?_mem a1))
      · exact absurd (hname.symm.trans a2) (hfresh nj (List.getElem?_mem b1))
      · omega
    · intro n hn p hp
      rcases List.mem_append.1 hn with hn | hn
      · exact h.2 n hn p hp
      · rw [List.mem_singleton.1 hn] at hp
        cases hp

theorem nodesOk_modify_node (nodes : List TimingNode) (i : Nat) (f : TimingNode → TimingNode)
    (hname : ∀ n, (f n).name = n.name)
    (hpins : ∀ n, nodes[i]? = some n → ∀ p ∈ (f n).src_pins, p.name = n.name)
    (h : NodesOk nodes) : NodesOk (modify_node nodes i f) := by
  have key : ∀ (k : Nat) (m : TimingNode), (modify_node nodes i f)[k]? = some m →
      ∃ n, nodes[k]? = some n ∧ m.name = n.name ∧
        ∀ p ∈ m.src_pins, p.name = m.name := by
    intro k m hk
    rw [getElem?_modify_node] at hk
    by_cases hki : k = i
    · rw [if_pos hki] at hk
      cases hn : nodes[k]? with
      | none => rw [hn] at hk; cases hk
      | some n =>
        rw [hn] at hk
        simp only [Option.map_some', Option.some.injEq] at hk
        subst hk
        refine ⟨n, rfl, hname n, ?_⟩
        intro p hp
        rw [hname n]
        exact hpins n (hki ▸ hn) p hp
    · rw [if_neg hki] at hk
      exact ⟨m, hk, rfl, h.2 m (List.getElem?_mem hk)⟩
  refine ⟨?_, ?_⟩
  · intro a b na nb ha hb hname2
    obtain ⟨ma, a1, a2, _⟩ := key a na ha
    obtain ⟨mb, b1, b2, _⟩ := key b nb hb
    exact h.1 a b ma mb a1 b1 (a2.symm.trans (hname2.trans b2))
  · intro n hn
    obtain ⟨k, hk⟩ := List.mem_iff_getElem?.1 hn
    obtain ⟨_, _, _, k3⟩ := key k n hk
    exact k3

theorem add_sinks_spec (src_node : Nat) (src_name : String) (sinks : List Pin) :
    ∀ nodes, NodesOk nodes → (∃ n, nodes[src_node]? = some n ∧ n.name = src_name) →
      NodesOk (add_sinks src_node sinks nodes) ∧ Extends nodes (add_sinks src_node sinks nodes) ∧
        ∀ r ∈ sinks, HasEdge (add_sinks src_node sinks nodes) src_name r.name := by
  induction sinks with
  | nil =>
    intro nodes h _
    exact ⟨h, extends_refl nodes, fun r hr => by cases hr⟩
  | cons sink rest ih =>
    intro nodes h hsrc
    unfold add_sinks
    obtain ⟨sn, hsn, hsname⟩ := hsrc
    have ok1 := nodesOk_get_node nodes sink h
    have ex1 := extends_get_node nodes sink
    obtain ⟨rn, hrn, hrname⟩ := get_node_name nodes sink
    have ok2 : NodesOk (modify_node (get_node nodes sink).1 src_node
        (fun n => { n with next := n.next ++ [(get_node nodes sink).2] })) :=
      nodesOk_modify_node _ _ _ (fun _ => rfl)
        (fun n hn p hp => ok1.2 n (List.getElem?_mem hn) p hp) ok1
    have ex2 : Extends (get_node nodes sink).1 (modify_node (get_node nodes sink).1 src_node
        (fun n => { n with next := n.next ++ [(get_node nodes sink).2] })) :=
      extends_modify_node _ _ _ (fun _ => rfl) (fun n w hw => List.mem_append_left _ hw)
    have ok3 : NodesOk (modify_node (modify_node (get_node nodes sink).1 src_node
        (fun n => { n with next := n.next ++ [(get_node nodes sink).2] })) (get_node nodes sink).2
        (fun n => { n with src_pins := n.src_pins ++ [sink] })) := by
      refine nodesOk_modify_node _ _ _ (fun _ => rfl) ?_ ok2
      intro n hn p hp
      rcases List.mem_append.1 hp with hp | hp
      · exact ok2.2 n (List.getElem?_mem hn) p hp
      · rw [List.mem_singleton.1 hp]
        obtain ⟨m, hm, hmn, _⟩ := ex2 _ rn hrn
        rw [hn] at hm
        injection hm with hm
        rw [hm, hmn, hrname]
    have ex3 : Extends (modify_node (get_node nodes sink).1 src_node
        (fun n => { n with next := n.next ++ [(get_node nodes sink).2] }))
        (modify_node (modify_node (get_node nodes sink).1 src_node
        (fun n => { n with next := n.next ++ [(get_node nodes sink).2] })) (get_node nodes sink).2
        (fun n => { n with src_pins := n.src_pins ++ [sink] })) :=
      extends_modify_node _ _ _ (fun _ => rfl) (fun n w hw => hw)
    have ex13 := extends_trans _ _ _ ex1 (extends_trans _ _ _ ex2 ex3)
    -- the edge from the driver to the node of this receiver
    have hedge : HasEdge (modify_node (get_node nodes sink).1 src_node
        (fun n => { n with next := n.next ++ [(get_node nodes sink).2] })) src_name sink.name := by
      obtain ⟨sn1, hsn1, hsn1name, _⟩ := ex1 src_node sn hsn
      obtain ⟨rn2, hrn2, hrn2name, _⟩ := ex2 _ rn hrn
      refine ⟨src_node, (get_node nodes sink).2,
        { sn1 with next := sn1.next ++ [(get_node nodes sink).2] }, rn2, ?_, hrn2,
        hsn1name.trans hsname, hrn2name.trans hrname, by simp⟩
      rw [getElem?_modify_node, if_pos rfl, hsn1]
      rfl
    obtain ⟨sn3, hsn3, hsn3name, _⟩ := ex13 src_node sn hsn
    obtain ⟨k1, k2, k3⟩ := ih _ ok3 ⟨sn3, hsn3, hsn3name.trans hsname⟩
    refine ⟨k1, extends_trans _ _ _ ex13 k2, ?_⟩
    intro r hr
    rcases List.mem_cons.1 hr with rfl | hr
    · exact hasEdge_of_extends _ _ (extends_trans _ _ _ ex3 k2) _ _ hedge
    · exact k3 r hr

theorem build_spec (netlist : Netlist) :
    ∀ nodes result, NodesOk nodes → build netlist nodes = some result →
      NodesOk result ∧ Extends nodes result ∧
        ∀ entry ∈ netlist, ∀ src rest, entry.2.pins_ = src :: rest →
          ∀ r ∈ rest, HasEdge result src.name r.name := by
  induction netlist with
  | nil =>
    intro nodes result h hb
    simp only [build, Option.some.injEq] at hb
    subst hb
    exact ⟨h, extends_refl nodes, fun e he => by cases he⟩
  | cons entry rest ih =>
    intro nodes result h hb
    unfold build at hb
    cases hp : entry.2.pins_ with
    | nil => simp [hp] at hb
    | cons src_pin sinks =>
      simp only [hp] at hb
      have ok1 := nodesOk_get_node nodes src_pin h
      have ex1 := extends_get_node nodes src_pin
      obtain ⟨rn, hrn, hrname⟩ := get_node_name nodes src_pin
      have ok2 : NodesOk (modify_node (get_node nodes src_pin).1 (get_node nodes src_pin).2
          (fun n => { n with sink_pins := n.sink_pins ++ [src_pin] })) :=
        nodesOk_modify_node _ _ _ (fun _ => rfl)
          (fun n hn p hp => ok1.2 n (List.getElem?_mem hn) p hp) ok1
      have ex2 : Extends (get_node nodes src_pin).1
          (modify_node (get_node nodes src_pin).1 (get_node nodes src_pin).2
          (fun n => { n with sink_pins := n.sink_pins ++ [src_pin] })) :=
        extends_modify_node _ _ _ (fun _ => rfl) (fun n w hw => hw)
      obtain ⟨rn2, hrn2, hrn2name, _⟩ := ex2 _ rn hrn
      obtain ⟨a1, a2, a3⟩ := add_sinks_spec (get_node nodes src_pin).2 src_pin.name sinks _ ok2
        ⟨rn2, hrn2, hrn2name.trans hrname⟩
      obtain ⟨b1, b2, b3⟩ := ih _ result a1 hb
      refine ⟨b1, extends_trans _ _ _ ex1 (extends_trans _ _ _ ex2 (extends_trans _ _ _ a2 b2)),
        ?_⟩
      intro e he src rs hpins r hr
      rcases List.mem_cons.1 he with rfl | he
      · rw [hp] at hpins
        injection hpins with e1 e2
        subst e1; subst e2
        exact hasEdge_of_extends _ _ b2 _ _ (a3 r hr)
      · exact b3 e he src rs hpins r hr

theorem nodesOk_nil : NodesOk [] :=
  ⟨fun i j ni nj hi => by simp at hi, fun n hn => by cases hn⟩

end TimingGraph

/-! ## Which waves a net's processing writes -/

theorem reach_trans {RG : Type} (ops : RoutedGraphOps RG) (a b c : RG) (h1 : Reach ops a b)
    (h2 : Reach ops b c) : Reach ops a c := by
  induction h2 with
  | refl => exact h1
  | pipeline rg pin_id _ ih => exact Reach.pipeline rg pin_id ih
  | output rg node force _ ih => exact Reach.output rg node force ih

theorem wave_loop_reach {RG : Type} (ops : RoutedGraphOps RG) (W : Nat)
    (pin_map : List (Nat × Pin)) (src_pins : List Pin) :
    ∀ (fuel : Nat) (rg : RG) (pin_wave waves : List (Pin × Nat)) (requests : List Request)
      (rg1 : RG) (pin_wave1 : List (Pin × Nat)) (requests1 : List Request),
      wave_loop ops W pin_map src_pins fuel (rg, pin_wave, waves, requests)
        = .ok (rg1, pin_wave1, requests1) → Reach ops rg rg1 := by
  intro fuel
  induction fuel with
  | zero =>
    intro rg pin_wave waves requests rg1 pin_wave1 requests1 h
    simp [wave_loop] at h
  | succ fuel ih =>
    intro rg pin_wave waves requests rg1 pin_wave1 requests1 h
    unfold wave_loop at h
    cases hins : wave_insert ops W pin_map src_pins (rg, pin_wave, waves, requests) with
    | error e => simp [hins] at h
    | ok r =>
      obtain ⟨rg2, pw2, wv2, rq2⟩ := r
      simp only [hins] at h
      have hstep : Reach ops rg rg2 := by
        rcases wave_insert_spec ops W pin_map src_pins rg pin_wave waves requests rg2 pw2 wv2 rq2
          hins with ⟨e1, _, _, _⟩ | ⟨pin, _, w, _, _, _, e1, _⟩
        · rw [e1]; exact Reach.refl
        · rw [e1]; exact Reach.pipeline rg pin.id Reach.refl
      by_cases hall : wv2.all (fun iter => decide (¬ iter.2 < W)) = true
      · rw [if_pos hall] at h
        injection h with h
        injection h with h1 h2
        rw [← h1]
        exact hstep
      · rw [if_neg hall] at h
        exact reach_trans ops _ _ _ hstep (ih rg2 pw2 wv2 rq2 rg1 pin_wave1 requests1 h)

theorem wave_matching_reach {RG : Type} (ops : RoutedGraphOps RG) (fuel : Nat) (rg : RG)
    (src_pins : List Pin) (pin_wave : List (Pin × Nat)) (requests : List Request)
    (W : Nat) (rg1 : RG) (pin_wave1 : List (Pin × Nat)) (requests1 : List Request)
    (h : wave_matching ops fuel rg src_pins pin_wave requests
      = .ok (W, rg1, pin_wave1, requests1)) : Reach ops rg rg1 := by
  unfold wave_matching at h
  cases hg : wave_gather pin_wave src_pins (0, [], []) with
  | error e => simp [hg] at h
  | ok r =>
    obtain ⟨mw, waves, pin_map⟩ := r
    simp only [hg] at h
    cases hl : wave_loop ops mw pin_map src_pins fuel (rg, pin_wave, waves, requests) with
    | error e => simp [hl] at h
    | ok r2 =>
      obtain ⟨rg2, pw2, rq2⟩ := r2
      simp only [hl, Except.ok.injEq, Prod.mk.injEq] at h
      rw [← h.2.1]
      exact wave_loop_reach ops mw pin_map src_pins fuel rg pin_wave waves requests rg2 pw2 rq2 hl

theorem walk_segment_insert_last (ta : TimingAnalysis) (allowed : Nat)
    (node_to_pin : List (Nat × Pin)) (src_wave : Nat) (last : cyclone.Node) :
    ∀ (rest : List cyclone.Node) (pre : cyclone.Node) (num_reg : Nat)
      (nd : List (Nat × Nat)) (pw pd : List (Pin × Nat)) (cur l : cyclone.Node) (nr : Nat)
      (pw1 pd1 : List (Pin × Nat)),
      walk_segment ta allowed node_to_pin src_wave last pre rest num_reg (nd, pw, pd)
        = .ok (.insert cur l nr pw1 pd1) → l = last := by
  intro rest
  induction rest with
  | nil =>
    intro pre num_reg nd pw pd cur l nr pw1 pd1 h
    simp [walk_segment] at h
  | cons c rest ih =>
    intro pre num_reg nd pw pd cur l nr pw1 pd1 h
    unfold walk_segment at h
    cases hd : map_find nd pre.id with
    | none => simp [hd] at h
    | some delay0 =>
      simp only [hd] at h
      have key : ∀ (delay : Nat) (nd2 : List (Nat × Nat)) (nr1 : Nat),
          (if delay > allowed then Except.ok (PassResult.insert c last nr1 pw pd)
            else
              match map_find node_to_pin last.id with
              | none => Except.error TimingError.out_of_range
              | some pin =>
                walk_segment ta allowed node_to_pin src_wave last c rest nr1
                  (map_set nd2 c.id delay, map_set pw pin (src_wave + nr1),
                    map_set pd pin delay)) = Except.ok (PassResult.insert cur l nr pw1 pd1) →
          l = last := by
        intro delay nd2 nr1 hk
        by_cases hgt : delay > allowed
        · rw [if_pos hgt] at hk
          injection hk with hk
          injection hk with _ h2
          exact h2.symm
        · rw [if_neg hgt] at hk
          cases hpin : map_find node_to_pin last.id with
          | none => simp [hpin] at hk
          | some pin =>
            simp only [hpin] at hk
            exact ih c nr1 _ _ _ cur l nr pw1 pd1 hk
      by_cases hreg : c.type = cyclone.NodeType.Register ∧ rest ≠ []
      · simp only [hreg, and_self, if_true, ne_eq, not_false_eq_true] at h
        exact key 0 _ _ h
      · simp only [hreg, if_false] at h
        cases hgd : ta.get_delay c with
        | error e => simp [hgd] at h
        | ok cst =>
          simp only [hgd] at h
          exact key _ _ _ h

theorem walk_pins_insert_last (ta : TimingAnalysis) (allowed : Nat)
    (node_to_pin : List (Nat × Pin)) (src_wave : Nat) (segments : Route) :
    ∀ (order : List Nat) (nd : List (Nat × Nat)) (pw pd : List (Pin × Nat))
      (cur l : cyclone.Node) (nr : Nat) (pw1 pd1 : List (Pin × Nat)),
      walk_pins ta allowed node_to_pin src_wave segments order (nd, pw, pd)
        = .ok (.insert cur l nr pw1 pd1) →
      ∃ p seg, map_find segments p = some seg ∧ seg.getLast? = some l := by
  intro order
  induction order with
  | nil =>
    intro nd pw pd cur l nr pw1 pd1 h
    simp [walk_pins] at h
  | cons pin_id rest ih =>
    intro nd pw pd cur l nr pw1 pd1 h
    unfold walk_pins at h
    cases hs : map_find segments pin_id with
    | none => simp [hs] at h
    | some segment =>
      simp only [hs] at h
      cases segment with
      | nil => exact ih nd pw pd cur l nr pw1 pd1 h
      | cons first tail =>
        simp only at h
        cases hw : walk_segment ta allowed node_to_pin src_wave
            ((first :: tail).getLast (List.cons_ne_nil _ _)) first tail 0 (nd, pw, pd) with
        | error e => simp [hw] at h
        | ok r =>
          cases r with
          | done nd2 pw2 pd2 =>
            simp only [hw] at h
            exact ih nd2 pw2 pd2 cur l nr pw1 pd1 h
          | insert c2 l2 nr2 pw2 pd2 =>
            simp only [hw, Except.ok.injEq, PassResult.insert.injEq] at h
            have hl := walk_segment_insert_last ta allowed node_to_pin src_wave _ tail first 0
              nd pw pd c2 l2 nr2 pw2 pd2 hw
            refine ⟨pin_id, first :: tail, hs, ?_⟩
            rw [← h.2.1, hl]
            exact List.getLast?_eq_getLast _ _

theorem delay_loop_frame {RG : Type} (ops : RoutedGraphOps RG) (ta : TimingAnalysis)
    (allowed : Nat) (node_to_pin : List (Nat × Pin)) (src_wave source_node max_delay : Nat) :
    ∀ (fuel : Nat) (rg : RG) (pw pd : List (Pin × Nat)) (req : List Request) (rg2 : RG)
      (nd : List (Nat × Nat)) (pw2 pd2 : List (Pin × Nat)) (req2 : List Request),
      delay_loop ops ta allowed node_to_pin src_wave source_node max_delay fuel (rg, pw, pd, req)
        = .ok (rg2, nd, pw2, pd2, req2) →
      ∀ pin, (∀ rg1, Reach ops rg rg1 → ¬ EndPin node_to_pin (ops.get_route rg1) pin) →
        map_find pw2 pin = map_find pw pin := by
  intro fuel
  induction fuel with
  | zero =>
    intro rg pw pd req rg2 nd pw2 pd2 req2 h
    simp [delay_loop] at h
  | succ fuel ih =>
    intro rg pw pd req rg2 nd pw2 pd2 req2 h pin hpin
    unfold delay_loop at h
    simp only at h
    cases hw : walk_pins ta allowed node_to_pin src_wave (ops.get_route rg)
        (ops.pin_order rg (ops.get_route rg)) ([(source_node, max_delay)], pw, pd) with
    | error e => simp [hw] at h
    | ok r =>
      have hframe := (walk_pins_frame ta allowed node_to_pin src_wave (ops.get_route rg) _ _ pw pd
        r hw).2 pin (hpin rg Reach.refl)
      cases r with
      | done nd1 pw1 pd1 =>
        simp only [hw, Except.ok.injEq, Prod.mk.injEq] at h
        rw [← h.2.2.1]
        exact hframe.1
      | insert cur last nr pw1 pd1 =>
        simp only [hw] at h
        by_cases hr : (ops.insert_reg_output rg cur true).2 = []
        · rw [if_pos hr] at h; cases h
        · rw [if_neg hr] at h
          cases hp : map_find node_to_pin last.id with
          | none => simp [hp] at h
          | some q =>
            simp only [hp] at h
            have hrec := ih _ _ _ _ rg2 nd pw2 pd2 req2 h pin
              (fun rg1 h1 => hpin rg1 (reach_trans ops _ _ _
                (Reach.output rg cur true Reach.refl) h1))
            rw [hrec]
            obtain ⟨p, seg, hseg, hlast⟩ := walk_pins_insert_last ta allowed node_to_pin src_wave
              (ops.get_route rg) _ _ pw pd cur last nr pw1 pd1 hw
            have hne : q ≠ pin := by
              intro hc
              exact hpin rg Reach.refl ⟨p, seg, last, hseg, hlast, by rw [hp, hc]⟩
            rw [map_find_set_ne _ _ _ _ hne]
            exact hframe.1

theorem delay_loop_reach {RG : Type} (ops : RoutedGraphOps RG) (ta : TimingAnalysis)
    (allowed : Nat) (node_to_pin : List (Nat × Pin)) (src_wave source_node max_delay : Nat) :
    ∀ (fuel : Nat) (rg : RG) (pw pd : List (Pin × Nat)) (req : List Request) (rg2 : RG)
      (nd : List (Nat × Nat)) (pw2 pd2 : List (Pin × Nat)) (req2 : List Request),
      delay_loop ops ta allowed node_to_pin src_wave source_node max_delay fuel (rg, pw, pd, req)
        = .ok (rg2, nd, pw2, pd2, req2) → Reach ops rg rg2 := by
  intro fuel
  induction fuel with
  | zero =>
    intro rg pw pd req rg2 nd pw2 pd2 req2 h
    simp [delay_loop] at h
  | succ fuel ih =>
    intro rg pw pd req rg2 nd pw2 pd2 req2 h
    unfold delay_loop at h
    simp only at h
    cases hw : walk_pins ta allowed node_to_pin src_wave (ops.get_route rg)
        (ops.pin_order rg (ops.get_route rg)) ([(source_node, max_delay)], pw, pd) with
    | error e => simp [hw] at h
    | ok r =>
      cases r with
      | done nd1 pw1 pd1 =>
        simp only [hw, Except.ok.injEq, Prod.mk.injEq] at h
        rw [← h.1]
        exact Reach.refl
      | insert cur last nr pw1 pd1 =>
        simp only [hw] at h
        by_cases hr : (ops.insert_reg_output rg cur true).2 = []
        · rw [if_pos hr] at h; cases h
        · rw [if_neg hr] at h
          cases hp : map_find node_to_pin last.id with
          | none => simp [hp] at h
          | some q =>
            simp only [hp] at h
            exact reach_trans ops _ _ _ (Reach.output rg cur true Reach.refl)
              (ih _ _ _ _ rg2 nd pw2 pd2 req2 h)

theorem gather_src_pins_waves (pin_wave_ pin_delay_ : List (Pin × Nat)) :
    ∀ (pins : List Pin) (m : Nat) (ws : List Nat) (m1 : Nat) (ws1 : List Nat),
      gather_src_pins pin_wave_ pin_delay_ pins (m, ws) = .ok (m1, ws1) →
      (∀ w ∈ ws, w ∈ ws1) ∧ ∀ p ∈ pins, ∃ w ∈ ws1, map_find pin_wave_ p = some w := by
  intro pins
  induction pins with
  | nil =>
    intro m ws m1 ws1 h
    simp only [gather_src_pins, Except.ok.injEq, Prod.mk.injEq] at h
    rw [← h.2]
    exact ⟨fun w hw => hw, fun p hp => by cases hp⟩
  | cons pin rest ih =>
    intro m ws m1 ws1 h
    unfold gather_src_pins at h
    cases hw : map_find pin_wave_ pin with
    | none => simp [hw] at h
    | some w =>
      simp only [hw] at h
      cases hd : map_find pin_delay_ pin with
      | none => simp [hd] at h
      | some d =>
        simp only [hd] at h
        obtain ⟨k1, k2⟩ := ih _ _ m1 ws1 h
        have hwin : w ∈ ws1 := by
          apply k1
          by_cases hin : w ∈ ws
          · rw [if_pos hin]; exact hin
          · rw [if_neg hin]; simp
        refine ⟨?_, ?_⟩
        · intro v hv
          apply k1
          by_cases hin : w ∈ ws
          · rw [if_pos hin]; exact hv
          · rw [if_neg hin]; exact List.mem_append_left _ hv
        · intro p hp
          rcases List.mem_cons.1 hp with rfl | hp
          · exact ⟨w, hwin, hw⟩
          · exact k2 p hp

/-- The waves after one net of a timing node was processed: the source pins
of the node that are not receivers of the net share one wave, and the pins
that are neither keep theirs. -/
theorem process_net_wave {RG : Type} (ops : RoutedGraphOps RG) (ta : TimingAnalysis)
    (fuel allowed : Nat) (netlist : Netlist) (routed_graphs : List (Int × RG))
    (node_to_pin : List (Nat × Pin)) (nodes : List TimingNode) (timing_node : TimingNode)
    (start_delay : Nat) (st st1 : RetimeState) (net_id : Int) (receivers : List Pin)
    (h : process_net ops ta fuel allowed netlist routed_graphs node_to_pin nodes timing_node
      start_delay st net_id = .ok st1)
    (hsingle : ∀ rg id, (ops.insert_pipeline_reg rg id).2 = [id])
    (hpins : ∀ p ∈ timing_node.src_pins, ∀ q ∈ timing_node.src_pins, p.id = q.id → p = q)
    (hends : ∀ rg0, map_find routed_graphs ((map_find netlist net_id).getD ⟨-1, []⟩).id = some rg0 →
      ∀ rg, Reach ops rg0 rg → ∀ pin, EndPin node_to_pin (ops.get_route rg) pin →
        pin ∈ receivers) :
    (∃ w, ∀ p ∈ timing_node.src_pins, p ∉ receivers → map_find st1.pin_wave_ p = some w) ∧
      ∀ p, p ∉ timing_node.src_pins → p ∉ receivers →
        map_find st1.pin_wave_ p = map_find st.pin_wave_ p := by
  obtain ⟨net, rg0, max_delay, pin_waves, src_wave, rg1, pw1, req1, src_pin0, rest, rg2, nd, pw2,
    pd2, req2, hnet, hrg, hg, hm, _, hdl, hst1⟩ := process_net_cases ops ta fuel allowed netlist
      routed_graphs node_to_pin nodes timing_node start_delay st st1 net_id h
  subst hnet
  have hst1w : st1.pin_wave_ = pw2 := by rw [hst1]
  rw [hst1w]
  obtain ⟨_, hgw⟩ := gather_src_pins_waves _ _ _ _ _ _ _ hg
  -- the wave-matching step
  have hmatch : Reach ops rg0 rg1 ∧ (∀ p ∈ timing_node.src_pins, map_find pw1 p = some src_wave) ∧
      ∀ p, p ∉ timing_node.src_pins → map_find pw1 p = map_find st.pin_wave_ p := by
    rcases hm with ⟨e1, _, e3, e4, _⟩ | ⟨e1, e3, e4, _⟩ | ⟨_, hwm⟩
    · refine ⟨e3 ▸ Reach.refl, ?_, fun p _ => by rw [e4]⟩
      intro p hp
      obtain ⟨w, hw, _⟩ := hgw p hp
      rw [e1] at hw
      cases hw
    · refine ⟨e3 ▸ Reach.refl, ?_, fun p _ => by rw [e4]⟩
      intro p hp
      obtain ⟨w, hw, hpw⟩ := hgw p hp
      rw [e1] at hw
      rw [e4, hpw, List.mem_singleton.1 hw]
    · obtain ⟨_, _, _, k4, k5⟩ := wave_matching_spec ops fuel rg0 timing_node.src_pins
        st.pin_wave_ st.requests src_wave rg1 pw1 req1 hwm
      exact ⟨wave_matching_reach ops fuel rg0 _ _ _ _ rg1 pw1 req1 hwm, k4 hsingle hpins, k5⟩
  obtain ⟨hreach, hall, hframe⟩ := hmatch
  have hdf : ∀ p, p ∉ receivers → map_find pw2 p = map_find pw1 p := by
    intro p hp
    refine delay_loop_frame ops ta allowed node_to_pin src_wave _ _ fuel rg1 pw1 _ req1 rg2 nd pw2
      pd2 req2 hdl p ?_
    intro rg hrg1 hend
    exact hp (hends rg0 hrg rg (reach_trans ops _ _ _ hreach hrg1) p hend)
  refine ⟨⟨src_wave, fun p hp hnr => by rw [hdf p hnr]; exact hall p hp⟩, ?_⟩
  intro p hp hnr
  rw [hdf p hnr]
  exact hframe p hp

/-! ## Matched waves of the timing nodes that drive a net -/

theorem sublist_pair_of_not_mem {α : Type} (a b : α) :
    ∀ (l1 l2 : List α), a ∉ l1 → [a, b].Sublist (l1 ++ l2) → [a, b].Sublist l2 := by
  intro l1
  induction l1 with
  | nil => intro l2 _ h; exact h
  | cons x l1 ih =>
    intro l2 ha h
    rw [List.cons_append] at h
    have hax : a ≠ x := fun hc => ha (by rw [hc]; exact List.mem_cons_self _ _)
    have ha1 : a ∉ l1 := fun hc => ha (List.mem_cons_of_mem _ hc)
    cases h with
    | cons _ h => exact ih l2 ha1 h
    | cons₂ _ h => exact absurd rfl hax

theorem sublist_pair_false (done rest : List Nat) (t u : Nat)
    (hnd : (done ++ t :: rest).Nodup) (hsub : [t, u].Sublist (done ++ t :: rest))
    (hu : u ∈ done ∨ u = t) : False := by
  have htd : t ∉ done := by
    intro hc
    exact (List.nodup_append.1 hnd).2.2 hc (List.mem_cons_self _ _) 
  have h2 := sublist_pair_of_not_mem t u done (t :: rest) htd hsub
  have hnd2 : (t :: rest).Nodup := (List.nodup_append.1 hnd).2.1
  have htu : t ≠ u := by
    have := h2.nodup hnd2
    intro hc
    rw [hc] at this
    simp at this
  rcases hu with hu | hu
  · have : u ∈ t :: rest := h2.subset (by simp)
    exact (List.nodup_append.1 hnd).2.2 hu this
  · exact htu hu.symm

theorem mem_get_sink_ids (netlist : Netlist) (node : TimingNode) (id : Int)
    (h : id ∈ TimingGraph.get_sink_ids netlist node) :
    ∃ entry ∈ netlist, entry.2.id = id ∧ ∃ src rest, entry.2.pins_ = src :: rest ∧
      src.name = node.name := by
  unfold TimingGraph.get_sink_ids at h
  obtain ⟨entry, he, hm⟩ := List.mem_filterMap.1 h
  refine ⟨entry, he, ?_⟩
  cases hp : entry.2.pins_ with
  | nil => simp [hp] at hm
  | cons p rest =>
    simp only [hp] at hm
    by_cases hn : p.name = node.name
    · rw [if_pos hn] at hm
      injection hm with hm
      exact ⟨hm, p, rest, rfl, hn⟩
    · rw [if_neg hn] at hm
      cases hm

theorem map_find_of_mem_nodup {α β : Type} [DecidableEq α] :
    ∀ (l : List (α × β)), (l.map Prod.fst).Nodup → ∀ e ∈ l, map_find l e.1 = some e.2 := by
  intro l
  induction l with
  | nil => intro _ e he; cases he
  | cons c rest ih =>
    intro hnd e he
    obtain ⟨k1, v1⟩ := c
    rw [List.map_cons, List.nodup_cons] at hnd
    unfold map_find
    rcases List.mem_cons.1 he with rfl | he
    · rw [if_pos rfl]
    · have hne : k1 ≠ e.1 := by
        intro hc
        apply hnd.1
        rw [hc]
        exact List.mem_map.2 ⟨e, he, rfl⟩
      rw [if_neg hne]
      exact ih hnd.2 e he

theorem sorted_emplace_keys {β : Type} (key : Int) (v : β) :
    ∀ (l : List (Int × β)), (l.map Prod.fst).Pairwise (· < ·) →
      ((sorted_emplace key v l).map Prod.fst).Pairwise (· < ·) ∧
        ∀ k ∈ (sorted_emplace key v l).map Prod.fst, k = key ∨ k ∈ l.map Prod.fst := by
  intro l
  induction l with
  | nil =>
    intro _
    simp [sorted_emplace]
  | cons c rest ih =>
    intro h
    rw [List.map_cons, List.pairwise_cons] at h
    unfold sorted_emplace
    by_cases h1 : key < c.1
    · rw [if_pos h1]
      refine ⟨?_, ?_⟩
      · simp only [List.map_cons, List.pairwise_cons, List.mem_cons, forall_eq_or_imp]
        refine ⟨⟨h1, ?_⟩, h.1, h.2⟩
        intro a ha
        exact lt_trans h1 (h.1 a ha)
      · intro k hk
        simp only [List.map_cons, List.mem_cons] at hk ⊢
        exact hk
    · rw [if_neg h1]
      by_cases h2 : key = c.1
      · rw [if_pos h2]
        exact ⟨by simpa using h, fun k hk => Or.inr hk⟩
      · rw [if_neg h2]
        obtain ⟨k1, k2⟩ := ih h.2
        refine ⟨?_, ?_⟩
        · simp only [List.map_cons, List.pairwise_cons]
          refine ⟨?_, k1⟩
          intro a ha
          rcases k2 a ha with rfl | ha
          · omega
          · exact h.1 a ha
        · intro k hk
          simp only [List.map_cons, List.mem_cons] at hk ⊢
          rcases hk with hk | hk
          · exact Or.inr (Or.inl hk)
          · rcases k2 k hk with hk | hk
            · exact Or.inl hk
            · exact Or.inr (Or.inr hk)

theorem merged_netlist_keys {RG : Type} (routers : List (Router RG)) :
    ((merged_netlist routers).map Prod.fst).Nodup := by
  have key : ∀ (rs : List (Router RG)) (acc : Netlist), (acc.map Prod.fst).Pairwise (· < ·) →
      ((rs.foldl (fun acc router =>
        router.netlist.foldl (fun acc1 entry => sorted_emplace entry.1 entry.2 acc1) acc)
          acc).map Prod.fst).Pairwise (· < ·) := by
    intro rs
    induction rs with
    | nil => intro acc h; exact h
    | cons r rs ih =>
      intro acc h
      rw [List.foldl_cons]
      apply ih
      have inner : ∀ (es : Netlist) (acc1 : Netlist), (acc1.map Prod.fst).Pairwise (· < ·) →
          ((es.foldl (fun acc1 entry => sorted_emplace entry.1 entry.2 acc1) acc1).map
            Prod.fst).Pairwise (· < ·) := by
        intro es
        induction es with
        | nil => intro acc1 h1; exact h1
        | cons e es ih2 =>
          intro acc1 h1
          rw [List.foldl_cons]
          exact ih2 _ (sorted_emplace_keys e.1 e.2 acc1 h1).1
      exact inner r.netlist acc h
  have hp := key routers [] (by simp)
  exact hp.imp (fun h => ne_of_lt h)

/-- The loop over the nets a timing node drives, seen from the waves: when
the receivers of these nets are neither source pins of the node nor
protected pins, the source pins share one wave after a non-empty loop and the
protected pins keep theirs. -/
theorem process_nets_wave {RG : Type} (ops : RoutedGraphOps RG) (ta : TimingAnalysis)
    (fuel allowed : Nat) (netlist : Netlist) (routed_graphs : List (Int × RG))
    (node_to_pin : List (Nat × Pin)) (nodes : List TimingNode) (timing_node : TimingNode)
    (start_delay : Nat) (prot : Pin → Prop)
    (hsingle : ∀ rg id, (ops.insert_pipeline_reg rg id).2 = [id])
    (hpins : ∀ p ∈ timing_node.src_pins, ∀ q ∈ timing_node.src_pins, p.id = q.id → p = q) :
    ∀ (ids : List Int) (st st1 : RetimeState),
      process_nets ops ta fuel allowed netlist routed_graphs node_to_pin nodes timing_node
        start_delay ids st = .ok st1 →
      (∀ id ∈ ids, ∃ receivers : List Pin,
        (∀ rg0, map_find routed_graphs ((map_find netlist id).getD ⟨-1, []⟩).id = some rg0 →
          ∀ rg, Reach ops rg0 rg → ∀ pin, EndPin node_to_pin (ops.get_route rg) pin →
            pin ∈ receivers) ∧
        (∀ p ∈ timing_node.src_pins, p ∉ receivers) ∧ ∀ p, prot p → p ∉ receivers) →
      (ids ≠ [] → ∃ w, ∀ p ∈ timing_node.src_pins, map_find st1.pin_wave_ p = some w) ∧
        ∀ p, prot p → p ∉ timing_node.src_pins →
          map_find st1.pin_wave_ p = map_find st.pin_wave_ p := by
  intro ids
  induction ids with
  | nil =>
    intro st st1 h _
    simp only [process_nets, Except.ok.injEq] at h
    subst h
    exact ⟨fun hc => absurd rfl hc, fun _ _ _ => rfl⟩
  | cons id rest ih =>
    intro st st1 h hrec
    unfold process_nets at h
    cases hn : process_net ops ta fuel allowed netlist routed_graphs node_to_pin nodes
        timing_node start_delay st id with
    | error e => simp [hn] at h
    | ok st2 =>
      simp only [hn] at h
      obtain ⟨receivers, r1, r2, r3⟩ := hrec id (List.mem_cons_self _ _)
      obtain ⟨a1, a2⟩ := process_net_wave ops ta fuel allowed netlist routed_graphs node_to_pin
        nodes timing_node start_delay st st2 id receivers hn hsingle hpins r1
      obtain ⟨b1, b2⟩ := ih st2 st1 h (fun i hi => hrec i (List.mem_cons_of_mem _ hi))
      refine ⟨?_, ?_⟩
      · intro _
        cases rest with
        | nil =>
          simp only [process_nets, Except.ok.injEq] at h
          subst h
          obtain ⟨w, hw⟩ := a1
          exact ⟨w, fun p hp => hw p hp (r2 p hp)⟩
        | cons i rest => exact b1 (List.cons_ne_nil _ _)
      · intro p hp hns
        rw [b2 p hp hns]
        exact a2 p hns (r3 p hp)

/-- The loop over the timing nodes in a topological order: every processed
node that drives a net has its source pins on one wave. -/
theorem process_nodes_matched {RG : Type} (ops : RoutedGraphOps RG) (ta : TimingAnalysis)
    (fuel allowed : Nat) (netlist : Netlist) (routed_graphs : List (Int × RG))
    (nodes : List TimingNode) (sorted : List Nat)
    (hok : TimingGraph.NodesOk nodes)
    (hedges : ∀ entry ∈ netlist, ∀ src rest, entry.2.pins_ = src :: rest →
      ∀ r ∈ rest, TimingGraph.HasEdge nodes src.name r.name)
    (hkeys : (netlist.map Prod.fst).Nodup)
    (hids : ∀ entry ∈ netlist, entry.2.id = entry.1)
    (hsingle : ∀ rg id, (ops.insert_pipeline_reg rg id).2 = [id])
    (hpins : ∀ node ∈ nodes, ∀ p ∈ node.src_pins, ∀ q ∈ node.src_pins, p.id = q.id → p = q)
    (hends : RoutesEndAtReceivers ops netlist routed_graphs)
    (hnd : sorted.Nodup)
    (htopo : ∀ u v, u < nodes.length → v ∈ TimingGraph.next_of nodes u → [u, v].Sublist sorted) :
    ∀ (rest done : List Nat) (st st1 : RetimeState), done ++ rest = sorted →
      process_nodes ops ta fuel allowed netlist routed_graphs (build_node_to_pin netlist) nodes
        rest st = .ok st1 →
      (∀ t ∈ done, ∀ node, nodes[t]? = some node →
        TimingGraph.get_sink_ids netlist node ≠ [] → Matched st.pin_wave_ node) →
      ∀ t ∈ sorted, ∀ node, nodes[t]? = some node →
        TimingGraph.get_sink_ids netlist node ≠ [] → Matched st1.pin_wave_ node := by
  intro rest
  induction rest with
  | nil =>
    intro done st st1 hsplit h hinv
    simp only [process_nodes, Except.ok.injEq] at h
    subst h
    rw [List.append_nil] at hsplit
    rw [← hsplit]
    exact hinv
  | cons t rest ih =>
    intro done st st1 hsplit h hinv
    unfold process_nodes at h
    cases hT : nodes[t]? with
    | none => simp [hT] at h
    | some T =>
      simp only [hT] at h
      cases hp : process_nets ops ta fuel allowed netlist routed_graphs
          (build_node_to_pin netlist) nodes T ((map_find st.node_delay_ t).getD 0)
          (TimingGraph.get_sink_ids netlist T)
          { st with node_delay_ := map_emplace st.node_delay_ t 0 } with
      | error e => simp [hp] at h
      | ok st2 =>
        simp only [hp] at h
        have htlt : t < nodes.length := (List.getElem?_eq_some_iff.1 hT).1
        have hTmem : T ∈ nodes := List.getElem?_mem hT
        have hnd0 : (done ++ t :: rest).Nodup := by rw [hsplit]; exact hnd
        have htd : t ∉ done := fun hc =>
          (List.nodup_append.1 hnd0).2.2 hc (List.mem_cons_self _ _)
        -- no receiver of a net driven by `T` is a source pin of `T` or of a node before it
        have hrecv : ∀ entry ∈ netlist, ∀ src rs, entry.2.pins_ = src :: rs →
            src.name = T.name → ∀ p ∈ rs, ∀ u node, nodes[u]? = some node →
              p ∈ node.src_pins → (u ∈ done ∨ u = t) → False := by
          intro entry he src rs hpins0 hname p hp u node hu hpu hcase
          obtain ⟨i, j, ni, nj, h1, h2, h3, h4, h5⟩ := hedges entry he src rs hpins0 p hp
          have hi : i = t := hok.1 i t ni T h1 hT (h3.trans hname)
          have hj : j = u :=
            hok.1 j u nj node h2 hu (h4.trans (hok.2 node (List.getElem?_mem hu) p hpu))
          subst hi; subst hj
          have hnext : j ∈ TimingGraph.next_of nodes i := by
            unfold TimingGraph.next_of
            rw [h1]
            exact h5
          have hsub := htopo i j htlt hnext
          rw [← hsplit] at hsub
          exact sublist_pair_false done rest i j hnd0 hsub hcase
        obtain ⟨a1, a2⟩ := process_nets_wave ops ta fuel allowed netlist routed_graphs
          (build_node_to_pin netlist) nodes T ((map_find st.node_delay_ t).getD 0)
          (fun p => ∃ u ∈ done, ∃ node, nodes[u]? = some node ∧ p ∈ node.src_pins)
          hsingle (hpins T hTmem) (TimingGraph.get_sink_ids netlist T) _ st2 hp (by
            intro id hid
            obtain ⟨entry, he, heid, src, rs, hpins0, hname⟩ := mem_get_sink_ids netlist T id hid
            have hfind : map_find netlist id = some entry.2 := by
              rw [← heid, hids entry he]
              exact map_find_of_mem_nodup netlist hkeys entry he
            refine ⟨rs, ?_, ?_, ?_⟩
            · intro rg0 hrg0 rg hreach pin hpin
              rw [hfind] at hrg0
              have := hends entry he rg0 hrg0 rg hreach pin hpin
              rw [hpins0] at this
              exact this
            · intro p hp hc
              exact hrecv entry he src rs hpins0 hname p hc t T hT hp (Or.inr rfl)
            · intro p hp hc
              obtain ⟨u, hu, node, hnode, hpn⟩ := hp
              exact hrecv entry he src rs hpins0 hname p hc u node hnode hpn (Or.inl hu))
        refine ih (done ++ [t]) st2 st1 (by rw [List.append_assoc]; exact hsplit) h ?_
        intro u hu node hnode hdrives
        rcases List.mem_append.1 hu with hu | hu
        · obtain ⟨w, hw⟩ := hinv u hu node hnode hdrives
          refine ⟨w, ?_⟩
          intro p hp
          rw [a2 p ⟨u, hu, node, hnode, hp⟩ ?_]
          · exact hw p hp
          · intro hc
            have hname : node.name = T.name :=
              (hok.2 node (List.getElem?_mem hnode) p hp).symm.trans (hok.2 T hTmem p hc)
            have := hok.1 u t node T hnode hT hname
            exact htd (this ▸ hu)
        · rw [List.mem_singleton.1 hu] at hnode
          rw [hT] at hnode
          injection hnode with hnode
          subst hnode
          exact a1 hdrives

/-- A routed graph of `echo_ops` never changes. -/
theorem reach_echo (rg0 rg : Route) (h : Reach echo_ops rg0 rg) : rg = rg0 := by
  induction h with
  | refl => rfl
  | pipeline rg pin_id _ ih => exact ih
  | output rg node force _ ih => exact ih

/-- The routes of the three nets end at the receivers of their nets. -/
theorem adder_routes_end_at_receivers :
    RoutesEndAtReceivers echo_ops (merged_netlist adder_routers) (merged_graphs adder_routers) := by
  have hn : merged_netlist adder_routers = adder_netlist := by decide
  have hg : merged_graphs adder_routers = adder_routes := by decide
  rw [hn, hg]
  intro entry he rg0 hrg0 rg hreach pin hpin
  rw [reach_echo rg0 rg hreach] at hpin
  obtain ⟨p, seg, last, h1, h2, h3⟩ := hpin
  have hnp : build_node_to_pin adder_netlist
      = [(0, pin_i0), (13, pin_a0), (20, pin_i1), (23, pin_a1), (30, pin_a_out), (31, pin_b)] := by
    decide
  rw [hnp] at h3
  simp only [adder_netlist, List.mem_cons, List.mem_singleton, List.not_mem_nil, or_false] at he
  rcases he with rfl | rfl | rfl
  · have : rg0 = route_i0_a := by
      have h0 : map_find adder_routes 0 = some route_i0_a := by decide
      rw [h0] at hrg0
      injection hrg0 with hrg0
      exact hrg0.symm
    subst this
    simp only [echo_ops, route_i0_a, map_find] at h1
    split at h1
    · injection h1 with h1
      subst h1
      simp only [List.getLast?_cons_cons, List.getLast?_singleton, Option.some.injEq] at h2
      subst h2
      simp only [cyclone.port_a0, map_find] at h3
      simp at h3
      subst h3
      decide
    · cases h1
  · have : rg0 = route_i1_a := by
      have h0 : map_find adder_routes 1 = some route_i1_a := by decide
      rw [h0] at hrg0
      injection hrg0 with hrg0
      exact hrg0.symm
    subst this
    simp only [echo_ops, route_i1_a, map_find] at h1
    split at h1
    · injection h1 with h1
      subst h1
      simp only [List.getLast?_cons_cons, List.getLast?_singleton, Option.some.injEq] at h2
      subst h2
      simp only [cyclone.port_a1, map_find] at h3
      simp at h3
      subst h3
      decide
    · cases h1
  · have : rg0 = route_a_b := by
      have h0 : map_find adder_routes 2 = some route_a_b := by decide
      rw [h0] at hrg0
      injection hrg0 with hrg0
      exact hrg0.symm
    subst this
    simp only [echo_ops, route_a_b, map_find] at h1
    split at h1
    · injection h1 with h1
      subst h1
      simp only [List.getLast?_cons_cons, List.getLast?_singleton, Option.some.injEq] at h2
      subst h2
      simp only [cyclone.port_b, map_find] at h3
      simp at h3
      subst h3
      decide
    · cases h1

/-- C16, counterexample: two nets end at the two inputs of the adder `a`,
which drives no net; the route from I0 holds a register, the route from I1
none.  `retime` returns with `pin_wave` 1 at the first input and 0 at the
second and without any register request: the waves of a node are matched
only inside the loop over the nets it drives. -/
theorem retime_unmatched_sink_counterexample :
    TimingGraph.build (merged_netlist sink_routers) [] = some sink_nodes ∧
      (retime echo_ops zero_ta sink_routers [0, 1, 2] 3).map
        (fun out => (out.max_wave, map_find out.state.pin_wave_ pin_a0,
          map_find out.state.pin_wave_ pin_a1, out.state.requests))
        = .ok (1, some 1, some 0, []) := by
  decide

/-- C16, amended: when `retime` returns, every timing node that drives at
least one net has all its source pins on one wave, provided the timing graph
is acyclic, every net is stored under its id, `insert_pipeline_reg` reports
exactly the pin it was asked for, the source pins of a node have distinct
ids, and every route a net's routed graph presents ends its segments at
receiver pins of that net. -/
theorem retime_matches_driving_nodes {RG : Type} (ops : RoutedGraphOps RG) (ta : TimingAnalysis)
    (routers : List (Router RG)) (order : List Nat) (fuel : Nat) (out : RetimeResult)
    (nodes : List TimingNode)
    (h : retime ops ta routers order fuel = .ok out)
    (hbuild : TimingGraph.build (merged_netlist routers) [] = some nodes)
    (horder : order.Perm (List.range nodes.length))
    (hacyc : ∀ v, ¬ Relation.TransGen (fun u w => w ∈ TimingGraph.next_of nodes u) v v)
    (hids : ∀ entry ∈ merged_netlist routers, entry.2.id = entry.1)
    (hsingle : ∀ rg id, (ops.insert_pipeline_reg rg id).2 = [id])
    (hpins : ∀ node ∈ nodes, ∀ p ∈ node.src_pins, ∀ q ∈ node.src_pins, p.id = q.id → p = q)
    (hends : RoutesEndAtReceivers ops (merged_netlist routers) (merged_graphs routers)) :
    ∀ node ∈ nodes, TimingGraph.get_sink_ids (merged_netlist routers) node ≠ [] →
      ∃ w, ∀ p ∈ node.src_pins, map_find out.state.pin_wave_ p = some w := by
  unfold retime at h
  cases hc : retime_core ops ta (merged_netlist routers) (merged_graphs routers) order fuel with
  | error e => simp [hc] at h
  | ok st =>
    simp only [hc, Except.ok.injEq] at h
    subst h
    show ∀ node ∈ nodes, TimingGraph.get_sink_ids (merged_netlist routers) node ≠ [] →
      Matched st.pin_wave_ node
    unfold retime_core at hc
    cases hs : get_source_pins (merged_netlist routers) with
    | error e => simp [hs] at hc
    | ok io_pins =>
      simp only [hs] at hc
      cases ha : ta.maximum_delay with
      | error e => simp [ha] at hc
      | ok allowed =>
        simp only [ha, hbuild] at hc
        have hvalid : TimingGraph.NextValid nodes :=
          TimingGraph.nextValid_build _ [] nodes (fun n hn => by cases hn) hbuild
        obtain ⟨st0, t1, t2, t3⟩ := graph.post_order_all_topological
          (TimingGraph.next_of nodes) nodes.length order
          (fun x => by rw [horder.mem_iff]; exact List.mem_range)
          (TimingGraph.next_of_lt nodes hvalid) hacyc
        have hts : TimingGraph.topological_sort nodes order = .ok st0.2.reverse := by
          simp only [TimingGraph.topological_sort, t1]
        simp only [hts] at hc
        obtain ⟨b1, _, b3⟩ := TimingGraph.build_spec (merged_netlist routers) [] nodes
          TimingGraph.nodesOk_nil hbuild
        have hnd : st0.2.reverse.Nodup := t2.nodup_iff.2 (List.nodup_range _)
        have key := process_nodes_matched ops ta fuel allowed (merged_netlist routers)
          (merged_graphs routers) nodes st0.2.reverse b1 b3 (merged_netlist_keys routers) hids
          hsingle hpins hends hnd t3 st0.2.reverse [] _ st (List.nil_append _) hc
          (fun t ht => by cases ht)
        intro node hnode hdrives
        obtain ⟨t, ht⟩ := List.mem_iff_getElem?.1 hnode
        have htlt : t < nodes.length := (List.getElem?_eq_some_iff.1 ht).1
        exact key t (t2.mem_iff.2 (List.mem_range.2 htlt)) node ht hdrives

/-- C16, witness: the three nets I0 to a.in0 (through a register), I1 to
a.in1 and a.out to b.in; the adder drives a net, a register is requested for
its lagging input and both inputs end on wave 1. -/
theorem retime_matches_driving_nodes_witness :
    retime echo_ops zero_ta adder_routers [0, 1, 2, 3] 3 = .ok adder_result ∧
      TimingGraph.build (merged_netlist adder_routers) [] = some adder_nodes ∧
      adder_result.state.requests = [Request.pipeline_reg 11] ∧
      ∀ node ∈ adder_nodes, TimingGraph.get_sink_ids (merged_netlist adder_routers) node ≠ [] →
        ∃ w, ∀ p ∈ node.src_pins, map_find adder_result.state.pin_wave_ p = some w :=
  ⟨by decide, by decide, by decide,
    retime_matches_driving_nodes echo_ops zero_ta adder_routers [0, 1, 2, 3] 3 adder_result
      adder_nodes (by decide) (by decide) (by decide)
      (TimingGraph.acyclic_of_rank adder_nodes adder_rank (by decide)) (by decide)
      (fun _ _ => rfl) (by decide) adder_routes_end_at_receivers⟩

/-! ## A pass over a route, seen from the pins it writes -/

theorem walk_segment_ext (ta : TimingAnalysis) (allowed : Nat)
    (node_to_pin : List (Nat × Pin)) (src_wave : Nat) (last : cyclone.Node) :
    ∀ (rest : List cyclone.Node) (pre : cyclone.Node) (num_reg : Nat) (nd : List (Nat × Nat))
      (pw pd pw0 pd0 : List (Pin × Nat)) (nd1 : List (Nat × Nat)) (pw1 pd1 : List (Pin × Nat)),
      walk_segment ta allowed node_to_pin src_wave last pre rest num_reg (nd, pw, pd)
        = .ok (.done nd1 pw1 pd1) →
      ∃ pw2 pd2, walk_segment ta allowed node_to_pin src_wave last pre rest num_reg (nd, pw0, pd0)
          = .ok (.done nd1 pw2 pd2) ∧
        ∀ x, ((map_find pw0 x = map_find pw x ∧ map_find pd0 x = map_find pd x) ∨
            (rest ≠ [] ∧ map_find node_to_pin last.id = some x)) →
          map_find pw2 x = map_find pw1 x ∧ map_find pd2 x = map_find pd1 x := by
  intro rest
  induction rest with
  | nil =>
    intro pre num_reg nd pw pd pw0 pd0 nd1 pw1 pd1 h
    simp only [walk_segment, Except.ok.injEq, PassResult.done.injEq] at h
    obtain ⟨e1, e2, e3⟩ := h
    subst e1; subst e2; subst e3
    refine ⟨pw0, pd0, rfl, ?_⟩
    intro x hx
    rcases hx with hx | ⟨hx, _⟩
    · exact hx
    · exact absurd rfl hx
  | cons cur rest ih =>
    intro pre num_reg nd pw pd pw0 pd0 nd1 pw1 pd1 h
    unfold walk_segment at h
    cases hd0 : map_find nd pre.id with
    | none => simp [hd0] at h
    | some d0 =>
      simp only [hd0] at h
      have key : ∀ (delay : Nat) (nd2 : List (Nat × Nat)) (nr : Nat),
          (if delay > allowed then Except.ok (PassResult.insert cur last nr pw pd)
            else
              match map_find node_to_pin last.id with
              | none => Except.error TimingError.out_of_range
              | some pin =>
                walk_segment ta allowed node_to_pin src_wave last cur rest nr
                  (map_set nd2 cur.id delay, map_set pw pin (src_wave + nr),
                    map_set pd pin delay)) = Except.ok (.done nd1 pw1 pd1) →
          ∃ pw2 pd2,
            (if delay > allowed then Except.ok (PassResult.insert cur last nr pw0 pd0)
            else
              match map_find node_to_pin last.id with
              | none => Except.error TimingError.out_of_range
              | some pin =>
                walk_segment ta allowed node_to_pin src_wave last cur rest nr
                  (map_set nd2 cur.id delay, map_set pw0 pin (src_wave + nr),
                    map_set pd0 pin delay)) = Except.ok (.done nd1 pw2 pd2) ∧
            ∀ x, ((map_find pw0 x = map_find pw x ∧ map_find pd0 x = map_find pd x) ∨
                map_find node_to_pin last.id = some x) →
              map_find pw2 x = map_find pw1 x ∧ map_find pd2 x = map_find pd1 x := by
        intro delay nd2 nr hk
        by_cases hgt : delay > allowed
        · rw [if_pos hgt] at hk
          injection hk with hk
          cases hk
        · rw [if_neg hgt] at hk
          rw [if_neg hgt]
          cases hpin : map_find node_to_pin last.id with
          | none => simp [hpin] at hk
          | some pin =>
            simp only [hpin] at hk
            obtain ⟨pw2, pd2, e, hx⟩ := ih cur nr _ _ _ (map_set pw0 pin (src_wave + nr))
              (map_set pd0 pin delay) nd1 pw1 pd1 hk
            refine ⟨pw2, pd2, e, ?_⟩
            intro x hx0
            apply hx x
            left
            rw [map_find_set, map_find_set, map_find_set, map_find_set]
            by_cases hpx : pin = x
            · simp only [hpx, if_true, and_self]
            · simp only [hpx, if_false]
              rcases hx0 with hx0 | hx0
              · exact hx0
              · injection hx0 with hx0
                exact absurd hx0 hpx
      have fin : ∀ (delay : Nat) (nd2 : List (Nat × Nat)) (nr : Nat),
          (∃ pw2 pd2,
            (if delay > allowed then Except.ok (PassResult.insert cur last nr pw0 pd0)
            else
              match map_find node_to_pin last.id with
              | none => Except.error TimingError.out_of_range
              | some pin =>
                walk_segment ta allowed node_to_pin src_wave last cur rest nr
                  (map_set nd2 cur.id delay, map_set pw0 pin (src_wave + nr),
                    map_set pd0 pin delay)) = Except.ok (.done nd1 pw2 pd2) ∧
            ∀ x, ((map_find pw0 x = map_find pw x ∧ map_find pd0 x = map_find pd x) ∨
                map_find node_to_pin last.id = some x) →
              map_find pw2 x = map_find pw1 x ∧ map_find pd2 x = map_find pd1 x) →
          walk_segment ta allowed node_to_pin src_wave last pre (cur :: rest) num_reg
            (nd, pw0, pd0) =
            (if delay > allowed then Except.ok (PassResult.insert cur last nr pw0 pd0)
            else
              match map_find node_to_pin last.id with
              | none => Except.error TimingError.out_of_range
              | some pin =>
                walk_segment ta allowed node_to_pin src_wave last cur rest nr
                  (map_set nd2 cur.id delay, map_set pw0 pin (src_wave + nr),
                    map_set pd0 pin delay)) →
          ∃ pw2 pd2, walk_segment ta allowed node_to_pin src_wave last pre (cur :: rest) num_reg
              (nd, pw0, pd0) = .ok (.done nd1 pw2 pd2) ∧
            ∀ x, ((map_find pw0 x = map_find pw x ∧ map_find pd0 x = map_find pd x) ∨
                (cur :: rest ≠ [] ∧ map_find node_to_pin last.id = some x)) →
              map_find pw2 x = map_find pw1 x ∧ map_find pd2 x = map_find pd1 x := by
        intro delay nd2 nr hex heq
        obtain ⟨pw2, pd2, e, hx⟩ := hex
        exact ⟨pw2, pd2, heq.trans e, fun x hx0 => hx x (hx0.imp id And.right)⟩
      by_cases hreg : cur.type = cyclone.NodeType.Register ∧ rest ≠ []
      · simp only [hreg, and_self, if_true, ne_eq, not_false_eq_true] at h
        refine fin 0 _ _ (key 0 _ _ h) ?_
        rw [walk_segment]
        simp only [hd0, hreg, and_self, if_true, ne_eq, not_false_eq_true]
        try rfl
      · simp only [hreg, if_false] at h
        cases hgd : ta.get_delay cur with
        | error e => simp [hgd] at h
        | ok c =>
          simp only [hgd] at h
          refine fin _ _ _ (key _ _ _ h) ?_
          rw [walk_segment]
          simp only [hd0, hreg, if_false, hgd]
          try rfl

theorem walkedEnd_cons (segments : Route) (p : Nat) (order : List Nat) (last : cyclone.Node)
    (h : WalkedEnd segments (p :: order) last) :
    (∃ first tail, tail ≠ [] ∧ map_find segments p = some (first :: tail) ∧
      (first :: tail).getLast? = some last) ∨ WalkedEnd segments order last := by
  obtain ⟨q, hq, first, tail, h1, h2, h3⟩ := h
  rcases List.mem_cons.1 hq with rfl | hq
  · exact Or.inl ⟨first, tail, h1, h2, h3⟩
  · exact Or.inr ⟨q, hq, first, tail, h1, h2, h3⟩

theorem walk_pins_ext (ta : TimingAnalysis) (allowed : Nat) (node_to_pin : List (Nat × Pin))
    (src_wave : Nat) (segments : Route) :
    ∀ (order : List Nat) (nd : List (Nat × Nat)) (pw pd pw0 pd0 : List (Pin × Nat))
      (nd1 : List (Nat × Nat)) (pw1 pd1 : List (Pin × Nat)),
      walk_pins ta allowed node_to_pin src_wave segments order (nd, pw, pd)
        = .ok (.done nd1 pw1 pd1) →
      ∃ pw2 pd2, walk_pins ta allowed node_to_pin src_wave segments order (nd, pw0, pd0)
          = .ok (.done nd1 pw2 pd2) ∧
        ∀ x, ((map_find pw0 x = map_find pw x ∧ map_find pd0 x = map_find pd x) ∨
            (∃ last, WalkedEnd segments order last ∧ map_find node_to_pin last.id = some x)) →
          map_find pw2 x = map_find pw1 x ∧ map_find pd2 x = map_find pd1 x := by
  intro order
  induction order with
  | nil =>
    intro nd pw pd pw0 pd0 nd1 pw1 pd1 h
    simp only [walk_pins, Except.ok.injEq, PassResult.done.injEq] at h
    obtain ⟨e1, e2, e3⟩ := h
    subst e1; subst e2; subst e3
    refine ⟨pw0, pd0, rfl, ?_⟩
    intro x hx
    rcases hx with hx | ⟨last, ⟨q, hq, _⟩, _⟩
    · exact hx
    · cases hq
  | cons pin_id rest ih =>
    intro nd pw pd pw0 pd0 nd1 pw1 pd1 h
    unfold walk_pins at h
    cases hs : map_find segments pin_id with
    | none => simp [hs] at h
    | some segment =>
      simp only [hs] at h
      cases segment with
      | nil =>
        simp only at h
        obtain ⟨pw2, pd2, e, hx⟩ := ih nd pw pd pw0 pd0 nd1 pw1 pd1 h
        refine ⟨pw2, pd2, ?_, ?_⟩
        · rw [walk_pins]
          simp only [hs]
          exact e
        · intro x hx0
          apply hx x
          rcases hx0 with hx0 | ⟨last, hw, hl⟩
          · exact Or.inl hx0
          · rcases walkedEnd_cons segments pin_id rest last hw with ⟨f, t, _, h2, _⟩ | hw
            · rw [hs] at h2
              cases h2
            · exact Or.inr ⟨last, hw, hl⟩
      | cons first tail =>
        simp only at h
        cases hw : walk_segment ta allowed node_to_pin src_wave
            ((first :: tail).getLast (List.cons_ne_nil _ _)) first tail 0 (nd, pw, pd) with
        | error e => simp [hw] at h
        | ok r =>
          cases r with
          | insert c2 l2 nr2 pw2 pd2 => simp [hw] at h
          | done nd2 pw2 pd2 =>
            simp only [hw] at h
            obtain ⟨pw3, pd3, e3, hx3⟩ := walk_segment_ext ta allowed node_to_pin src_wave _ tail
              first 0 nd pw pd pw0 pd0 nd2 pw2 pd2 hw
            obtain ⟨pw4, pd4, e4, hx4⟩ := ih nd2 pw2 pd2 pw3 pd3 nd1 pw1 pd1 h
            refine ⟨pw4, pd4, ?_, ?_⟩
            · rw [walk_pins]
              simp only [hs, e3]
              exact e4
            · intro x hx0
              apply hx4 x
              rcases hx0 with hx0 | ⟨last, hwe, hl⟩
              · exact Or.inl (hx3 x (Or.inl hx0))
              · rcases walkedEnd_cons segments pin_id rest last hwe with ⟨f, t, h1, h2, h5⟩ | hwe
                · rw [hs] at h2
                  injection h2 with h2
                  injection h2 with h2a h2b
                  subst h2a; subst h2b
                  rw [List.getLast?_eq_getLast _ (List.cons_ne_nil _ _)] at h5
                  injection h5 with h5
                  left
                  apply hx3 x
                  right
                  exact ⟨h1, by rw [h5]; exact hl⟩
                · exact Or.inr ⟨last, hwe, hl⟩

namespace graph

/-! ## The capacity pass ends at a fix-point of its acceptance rule -/

theorem merge_clusters_length (base target : Int) (cs merged : Clusters) (hs : KeysSorted cs)
    (h : merge_clusters base target cs = .ok merged) : merged.length + 1 = cs.length := by
  unfold merge_clusters at h
  cases ht : cs.lookup target with
  | none => simp [ht] at h
  | some blks =>
    simp only [ht] at h
    have hmem := lookup_mem cs target blks ht
    by_cases he : blks = ∅
    · rw [if_pos he] at h
      injection h with h
      rw [← h]
      exact clusters_erase_length target cs hs blks hmem
    · rw [if_neg he] at h
      cases hb : cs.lookup base with
      | none => simp [hb] at h
      | some s =>
        simp only [hb] at h
        injection h with h
        rw [← h]
        have hmem2 : (target, if target = base then blks ∪ blks else blks)
            ∈ clusters_add base blks cs := by
          unfold clusters_add
          refine List.mem_map.2 ⟨(target, blks), hmem, ?_⟩
          by_cases htb : target = base
          · simp [htb]
          · simp [htb]
        have := clusters_erase_length target (clusters_add base blks cs)
          (keysSorted_add base blks cs hs) _ hmem2
        rw [clusters_add_length] at this
        exact this

theorem try_merge_fixed (g : Graph) (M : Nat) (hs : KeysSorted g.clusters_) :
    ∀ (edges : List Edge) (g1 : Graph), try_merge g M edges = (g1, none) →
      g1.clusters_.length = g.clusters_.length →
      g1 = g ∧ ∀ edge ∈ edges, ¬ Acceptable M g edge := by
  intro edges
  induction edges with
  | nil =>
    intro g1 h _
    simp only [try_merge, Prod.mk.injEq] at h
    exact ⟨h.1.symm, fun e he => by cases he⟩
  | cons edge rest ih =>
    intro g1 h hlen
    unfold try_merge at h
    cases hf : cluster_size g.clusters_ (node_id g edge.from_) with
    | error e => simp [hf] at h
    | ok size_from =>
      cases ht : cluster_size g.clusters_ (node_id g edge.to_) with
      | error e => simp [hf, ht] at h
      | ok size_to =>
        simp only [hf, ht] at h
        have lift : ¬ Acceptable M g edge → (g1 = g ∧ ∀ e ∈ rest, ¬ Acceptable M g e) →
            g1 = g ∧ ∀ e ∈ edge :: rest, ¬ Acceptable M g e := by
          intro hna hrest
          refine ⟨hrest.1, ?_⟩
          intro e he
          rcases List.mem_cons.1 he with rfl | he
          · exact hna
          · exact hrest.2 e he
        by_cases hsz : size_from + size_to > M
        · rw [if_pos hsz] at h
          refine lift ?_ (ih g1 h hlen)
          rintro ⟨sf, st, g2, h1, h2, h3, _⟩
          rw [hf] at h1
          rw [ht] at h2
          injection h1 with h1
          injection h2 with h2
          omega
        · rw [if_neg hsz] at h
          cases hmc : merged_copy g edge with
          | error e => simp [hmc] at h
          | ok g2 =>
            simp only [hmc] at h
            obtain ⟨b, hb⟩ := has_loop_ok g2
            obtain ⟨merged, hm1, hm2⟩ := merged_copy_ok g g2 edge hmc
            have hg2c : g2.clusters_ = merged := by
              have := (update_state_fst merged g.netlist_).1
              rw [hm2] at this; exact this
            cases b with
            | true =>
              simp only [hb] at h
              refine lift ?_ (ih g1 h hlen)
              rintro ⟨sf, st, g3, _, _, _, h4, h5, _⟩
              rw [hmc] at h4
              injection h4 with h4
              rw [← h4, hb] at h5
              cases h5
            | false =>
              simp only [hb] at h
              by_cases hw : total_weights g2.edges_ ≤ total_weights g.edges_
              · exfalso
                rw [if_pos hw, hg2c, hm2, Prod.mk.injEq] at h
                have hl := merge_clusters_length _ _ _ _ hs hm1
                rw [← h.1, hg2c] at hlen
                omega
              · rw [if_neg hw] at h
                refine lift ?_ (ih g1 h hlen)
                rintro ⟨sf, st, g3, _, _, _, h4, _, h6⟩
                rw [hmc] at h4
                injection h4 with h4
                rw [← h4] at h6
                exact hw h6

theorem merge_max_loop_fixed (sorter : List Edge → List Edge) (hsort : SortsEdges sorter)
    (M : Nat) :
    ∀ (fuel : Nat) (g gf : Graph), KeysSorted g.clusters_ →
      merge_max_loop sorter M fuel g = (gf, none) → ∀ edge ∈ gf.edges_, ¬ Acceptable M gf edge := by
  intro fuel
  induction fuel with
  | zero =>
    intro g gf _ h
    simp [merge_max_loop] at h
  | succ fuel ih =>
    intro g gf hs h
    unfold merge_max_loop at h
    by_cases hbig : g.clusters_.any (fun c => decide (c.2.card > M)) = true
    · rw [if_pos hbig, Prod.mk.injEq] at h
      cases h.2
    · rw [if_neg hbig] at h
      cases htm : try_merge g M (sorter g.edges_) with
      | mk g1 e1 =>
        cases e1 with
        | some e => simp [htm] at h
        | none =>
          simp only [htm] at h
          by_cases hlen : g.clusters_.length = g1.clusters_.length
          · rw [if_pos hlen, Prod.mk.injEq] at h
            obtain ⟨k1, k2⟩ := try_merge_fixed g M hs _ g1 htm hlen.symm
            rw [← h.1, k1]
            intro edge he
            exact k2 edge ((mem_sorter sorter hsort _ _).2 he)
          · rw [if_neg hlen] at h
            obtain ⟨_, hcase⟩ := try_merge_cases g M _ g1 none htm
            have hs1 : KeysSorted g1.clusters_ := by
              rcases hcase with h1 | ⟨_, edge, he, rest⟩
              · rw [h1]; exact hs
              · exact (mergeStep_clusters M g g1 ⟨edge, (mem_sorter sorter hsort _ _).1 he, rest⟩).2.2.2.1 hs
            exact ih g1 gf hs1 h

/-- Merging along corresponding keys of two cluster maps with the same block
sets gives cluster maps with the same block sets. -/
theorem merged_sets_congr (ka kb ka1 kb1 : Int) (sb : Finset BlockId) :
    ∀ (cs cs1 : Clusters),
      List.Forall₂ (fun c c1 => c.2 = c1.2 ∧ (c.1 = ka ↔ c1.1 = ka1) ∧ (c.1 = kb ↔ c1.1 = kb1))
        cs cs1 →
      (clusters_add ka sb (clusters_erase kb cs)).map Prod.snd
        = (clusters_add ka1 sb (clusters_erase kb1 cs1)).map Prod.snd := by
  intro cs
  induction cs with
  | nil =>
    intro cs1 h
    cases h
    rfl
  | cons c l ih =>
    intro cs1 h
    rcases List.forall₂_cons_left_iff.1 h with ⟨c1, l1, hc, hl, rfl⟩
    obtain ⟨h1, h2, h3⟩ := hc
    have ih1 := ih l1 hl
    unfold clusters_add clusters_erase at ih1 ⊢
    by_cases hb : c.1 = kb
    · have hb1 : c1.1 = kb1 := h3.1 hb
      simp only [List.filter_cons, hb, hb1, ne_eq, not_true_eq_false, decide_False]
      exact ih1
    · have hb1 : ¬ c1.1 = kb1 := fun hc1 => hb (h3.2 hc1)
      simp only [List.filter_cons, hb, hb1, ne_eq, not_false_eq_true, decide_True, if_true,
        List.map_cons]
      simp only [ne_eq] at ih1
      rw [ih1]
      congr 1
      by_cases ha : c.1 = ka
      · have ha1 : c1.1 = ka1 := h2.1 ha
        simp only [ha, ha1, if_true, h1]
      · have ha1 : ¬ c1.1 = ka1 := fun hc1 => ha (h2.2 hc1)
        simp only [ha, ha1, if_false, h1]

theorem built_new (g : Graph) (hb : Built g) : Graph.new g.clusters_ g.netlist_ = .ok g := by
  unfold Built at hb
  simp only [Graph.new, update, hb]

theorem built_of_update_state (cs : Clusters) (netlist : PortNetlist) (g : Graph)
    (h : update_state cs netlist = (g, none)) :
    Built g ∧ g.clusters_ = cs ∧ g.netlist_ = netlist := by
  have h1 := (update_state_fst cs netlist).1
  have h2 := (update_state_fst cs netlist).2
  rw [h] at h1 h2
  refine ⟨?_, h1, h2⟩
  unfold Built
  rw [h1, h2]
  exact h

/-- The acceptance test gives the same answer on two built graphs that hold
the same block sets in the same order over the same netlist. -/
theorem acceptable_congr (M : Nat) (g g1 : Graph) (edge : Edge) (hb : Built g) (hb1 : Built g1)
    (hs : KeysSorted g.clusters_) (hs1 : KeysSorted g1.clusters_)
    (hn : g1.netlist_ = g.netlist_)
    (hsets : g.clusters_.map Prod.snd = g1.clusters_.map Prod.snd) (he : edge ∈ g.edges_)
    (hacc : Acceptable M g edge) : Acceptable M g1 edge := by
  obtain ⟨hcov, hne, _, hedges⟩ := built_eq g hb
  obtain ⟨hcov1, hne1, _, hedges1⟩ := built_eq g1 hb1
  have hlen : g.clusters_.length = g1.clusters_.length := by
    have := congrArg List.length hsets
    simpa using this
  have hok := built_edgesOk g hb
  rw [built_nodes_length g hb] at hok
  have hpair := hok.2.1 (edge.from_, edge.to_)
    (List.mem_map_of_mem (fun e => (e.from_, e.to_)) he)
  simp only at hpair
  obtain ⟨ca, hca, hida⟩ := node_id_built g hb edge.from_ hpair.1
  obtain ⟨cb, hcb, hidb⟩ := node_id_built g hb edge.to_ hpair.2.1
  obtain ⟨ca1, hca1, hida1⟩ := node_id_built g1 hb1 edge.from_ (hlen ▸ hpair.1)
  obtain ⟨cb1, hcb1, hidb1⟩ := node_id_built g1 hb1 edge.to_ (hlen ▸ hpair.2.1)
  have hsnd : ∀ (i : Nat) (c c1 : Int × Finset BlockId), g.clusters_[i]? = some c →
      g1.clusters_[i]? = some c1 → c.2 = c1.2 := by
    intro i c c1 hc hc1
    have := congrArg (fun l => l[i]?) hsets
    simp only [List.getElem?_map, hc, hc1, Option.map_some', Option.some.injEq] at this
    exact this
  have hrel : List.Forall₂ (fun c c1 => c.2 = c1.2 ∧ (c.1 = ca.1 ↔ c1.1 = ca1.1) ∧
      (c.1 = cb.1 ↔ c1.1 = cb1.1)) g.clusters_ g1.clusters_ := by
    have hkey : ∀ (i : Nat) (c c1 : Int × Finset BlockId), g.clusters_[i]? = some c →
        g1.clusters_[i]? = some c1 → c.2 = c1.2 ∧ (c.1 = ca.1 ↔ c1.1 = ca1.1) ∧
          (c.1 = cb.1 ↔ c1.1 = cb1.1) := by
      intro i c c1 hi hi1
      refine ⟨hsnd i _ _ hi hi1, ⟨?_, ?_⟩, ⟨?_, ?_⟩⟩
      · intro hk
        have := key_index_unique g.clusters_ hs i edge.from_ _ ca hi hca hk
        rw [this, hca1] at hi1
        injection hi1 with hi1
        rw [← hi1]
      · intro hk
        have := key_index_unique g1.clusters_ hs1 i edge.from_ _ ca1 hi1 hca1 hk
        rw [this, hca] at hi
        injection hi with hi
        rw [← hi]
      · intro hk
        have := key_index_unique g.clusters_ hs i edge.to_ _ cb hi hcb hk
        rw [this, hcb1] at hi1
        injection hi1 with hi1
        rw [← hi1]
      · intro hk
        have := key_index_unique g1.clusters_ hs1 i edge.to_ _ cb1 hi1 hcb1 hk
        rw [this, hcb] at hi
        injection hi with hi
        rw [← hi]
    rw [List.forall₂_iff_get]
    refine ⟨hlen, ?_⟩
    intro i h1 h2
    exact hkey i _ _ (by simp [List.getElem?_eq_getElem h1])
      (by simp [List.getElem?_eq_getElem h2])
  have hla := lookup_of_mem g.clusters_ hs ca.1 ca.2 (List.getElem?_mem hca)
  have hlb := lookup_of_mem g.clusters_ hs cb.1 cb.2 (List.getElem?_mem hcb)
  have hla1 := lookup_of_mem g1.clusters_ hs1 ca1.1 ca1.2 (List.getElem?_mem hca1)
  have hlb1 := lookup_of_mem g1.clusters_ hs1 cb1.1 cb1.2 (List.getElem?_mem hcb1)
  obtain ⟨sf, st, g2, h1, h2, h3, h4, h5, h6⟩ := hacc
  rw [hida] at h1
  rw [hidb] at h2
  simp only [cluster_size, hla, hlb, Except.ok.injEq] at h1 h2
  obtain ⟨merged, hm1, hm2⟩ := merged_copy_ok g g2 edge h4
  rw [hida, hidb] at hm1
  have hnorm := merge_clusters_normal ca.1 cb.1 g.clusters_ merged ca.2 cb.2 hla hlb hm1
  obtain ⟨hb2, hc2, hn2⟩ := built_of_update_state merged g.netlist_ g2 hm2
  obtain ⟨hcov2, _, hnodes2, hedges2⟩ := built_eq g2 hb2
  rw [hc2, hn2] at hcov2 hedges2
  rw [hc2] at hnodes2
  have hmsets : (clusters_add ca1.1 cb1.2 (clusters_erase cb1.1 g1.clusters_)).map Prod.snd
      = merged.map Prod.snd := by
    rw [hnorm, hsnd edge.to_ cb cb1 hcb hcb1]
    exact (merged_sets_congr ca.1 cb.1 ca1.1 cb1.1 cb1.2 g.clusters_ g1.clusters_ hrel).symm
  have hcovm : Covered (clusters_add ca1.1 cb1.2 (clusters_erase cb1.1 g1.clusters_))
      g1.netlist_ := by
    rw [hn]
    exact covered_congr merged _ g.netlist_ hmsets.symm hcov2
  have hmc1 : merged_copy g1 edge = .ok
      ⟨clusters_add ca1.1 cb1.2 (clusters_erase cb1.1 g1.clusters_), g1.netlist_,
        cluster_nodes (clusters_add ca1.1 cb1.2 (clusters_erase cb1.1 g1.clusters_)),
        built_edges (clusters_add ca1.1 cb1.2 (clusters_erase cb1.1 g1.clusters_))
          g1.netlist_⟩ := by
    unfold merged_copy
    rw [built_new g1 hb1]
    simp only [Graph.merge2, hida1, hidb1,
      merge_clusters_ok ca1.1 cb1.1 ca1.2 cb1.2 g1.clusters_ hs1 (List.getElem?_mem hca1)
        (List.getElem?_mem hcb1)]
    exact update_ok _ _ hcovm hne1
  refine ⟨ca1.2.card, cb1.2.card, _, ?_, ?_, ?_, hmc1, ?_, ?_⟩
  · rw [hida1]; simp only [cluster_size, hla1]
  · rw [hidb1]; simp only [cluster_size, hlb1]
  · rw [← hsnd edge.from_ ca ca1 hca hca1, ← hsnd edge.to_ cb cb1 hcb hcb1, h1, h2]
    exact h3
  · rw [← h5]
    apply has_loop_congr
    · show built_edges _ g1.netlist_ = g2.edges_
      rw [hedges2, hn]
      exact built_edges_congr _ _ _ hmsets
    · show (cluster_nodes _).length = g2.nodes_.length
      rw [hnodes2]
      simp only [cluster_nodes, List.length_map]
      have := congrArg List.length hmsets
      simpa using this
  · show total_weights (built_edges _ g1.netlist_) ≤ total_weights g1.edges_
    rw [hedges1, hn, built_edges_congr _ merged g.netlist_ hmsets, ← hedges2,
      ← built_edges_congr g.clusters_ g1.clusters_ g.netlist_ hsets, ← hedges]
    exact h6

/-- C21: whenever the capacity pass `merge(M)` returns without error, no edge
of the final graph passes the acceptance test (its two clusters fit in `M`,
the graph merged along it has no loop and no larger total weight); the
final graph is the renumbering of a graph `gf` that is reached from the
input by a chain of accepted merges, each of which satisfied the three
conditions, and `gf` is such a fix-point too.  This holds whatever order
`std::sort` gives to edges of equal weight. -/
theorem merge_max_fixpoint (clusters : Clusters) (netlist : PortNetlist) (g g1 : Graph)
    (sorter : List Edge → List Edge) (M : Nat) (hsort : SortsEdges sorter)
    (hs : KeysSorted clusters) (hg : Graph.new clusters netlist = .ok g)
    (h : g.merge_max sorter M = (g1, none)) :
    (∀ edge ∈ g1.edges_, ¬ Acceptable M g1 edge) ∧
      ∃ gf, Relation.ReflTransGen (MergeStep M) g gf ∧
        (∀ edge ∈ gf.edges_, ¬ Acceptable M gf edge) ∧
        g1.clusters_ = renumber gf.clusters_ ∧ g1.edges_ = gf.edges_ := by
  obtain ⟨hb, hc, _⟩ := built_of_new clusters netlist g hg
  have hsg : KeysSorted g.clusters_ := by rw [hc]; exact hs
  obtain ⟨gf, hloop, hc1, hn1, hu⟩ := merge_max_result g sorter M g1 h
  obtain ⟨_, _, hspec⟩ := merge_max_loop_spec sorter hsort M _ g gf none hsg hloop
  obtain ⟨hsf, _, hchain⟩ := hspec rfl
  have hbf := chain_built M g gf hb hchain
  have hfix := merge_max_loop_fixed sorter hsort M _ g gf hsg hloop
  obtain ⟨hb1, _, _⟩ := built_of_update_state _ _ g1 hu
  obtain ⟨he1, _⟩ := merge_max_final g1 gf hbf hu
  refine ⟨?_, gf, hchain, hfix, hc1, he1⟩
  intro edge he hacc
  refine hfix edge (he1 ▸ he) ?_
  exact acceptable_congr M g1 gf edge hb1 hbf (by rw [hc1]; exact renumber_sorted _) hsf
    hn1.symm (by rw [hc1]; exact renumber_sets _) he hacc

/-- Instance of `merge_max_fixpoint` on a chain of three clusters with
maximum size 2 and insertion sort as the sorting function. -/
theorem merge_max_fixpoint_witness :
    SortsEdges sort_edges ∧ KeysSorted dag_clusters ∧
      Graph.new dag_clusters dag_netlist = .ok dag_graph ∧
      dag_graph.merge_max sort_edges 2 = (dag_graph_merged, none) ∧
      (∀ edge ∈ dag_graph_merged.edges_, ¬ Acceptable 2 dag_graph_merged edge) ∧
      ∃ gf, Relation.ReflTransGen (MergeStep 2) dag_graph gf ∧
        (∀ edge ∈ gf.edges_, ¬ Acceptable 2 gf edge) ∧
        dag_graph_merged.clusters_ = renumber gf.clusters_ ∧
        dag_graph_merged.edges_ = gf.edges_ :=
  ⟨sort_edges_sorts, by unfold KeysSorted; decide, by decide, by decide,
    merge_max_fixpoint dag_clusters dag_netlist dag_graph dag_graph_merged sort_edges 2
      sort_edges_sorts (by unfold KeysSorted; decide) (by decide) (by decide)⟩

end graph

namespace graph

/-! ## The total edge weight after merging two clusters of a partition -/

theorem filter_length_split {α : Type} (l : List α) (p q r t : α → Bool)
    (h : ∀ x ∈ l, (p x = true ↔ (q x = true ∨ r x = true ∨ t x = true)) ∧
      ¬ (q x = true ∧ r x = true) ∧ ¬ (q x = true ∧ t x = true) ∧
      ¬ (r x = true ∧ t x = true)) :
    (l.filter p).length
      = (l.filter q).length + (l.filter r).length + (l.filter t).length := by
  induction l with
  | nil => simp
  | cons a rest ih =>
    have ih1 := ih (fun x hx => h x (List.mem_cons_of_mem _ hx))
    obtain ⟨h1, h2, h3, h4⟩ := h a (List.mem_cons_self _ _)
    simp only [List.filter_cons]
    cases hp : p a <;> cases hq : q a <;> cases hr : r a <;> cases ht : t a <;>
      simp only [hp, hq, hr, ht, Bool.false_eq_true, if_true, if_false, or_self, or_true,
        true_or, iff_true, true_iff, false_iff, iff_false, not_true, not_false_eq_true,
        and_self, and_true, true_and, List.length_cons] at h1 h2 h3 h4 ⊢ <;> omega

/-- In a disjoint cluster map the blocks of the cluster at position `a` are
the blocks that the vertex map sends to `a`. -/
theorem mem_iff_node_map (cs : Clusters) (hd : ClustersDisjoint cs) (a : Nat)
    (ca : Int × Finset BlockId) (hca : cs[a]? = some ca) (x : BlockId) :
    x ∈ ca.2 ↔ node_map cs x = some a := by
  constructor
  · intro hx
    obtain ⟨i, hi, _⟩ := node_map_some_of_mem cs x ⟨ca, List.getElem?_mem hca, hx⟩
    obtain ⟨ci, hci, hxi⟩ := cluster_index_mem x cs i hi
    rw [hi, disjoint_index_unique cs hd i a ci ca hci hca x hxi hx]
  · intro hx
    obtain ⟨c, hc, hxc⟩ := cluster_index_mem x cs a hx
    rw [hca] at hc
    injection hc with hc
    rw [hc]; exact hxc

/-- The vertex map after the clusters at positions `a` and `b` of a partition
are merged: two clustered blocks share a vertex exactly when they did
before or both lie in `a` or `b`. -/
theorem merged_node_map_eq (cs : Clusters) (hs : KeysSorted cs) (hd : ClustersDisjoint cs)
    (a b : Nat) (ca cb : Int × Finset BlockId) (hca : cs[a]? = some ca)
    (hcb : cs[b]? = some cb) (hab : a ≠ b) (x y : BlockId) (hx : ∃ c ∈ cs, x ∈ c.2) :
    node_map (clusters_add ca.1 cb.2 (clusters_erase cb.1 cs)) x
        = node_map (clusters_add ca.1 cb.2 (clusters_erase cb.1 cs)) y ↔
      node_map cs x = node_map cs y ∨
        ((node_map cs x = some a ∨ node_map cs x = some b) ∧
          (node_map cs y = some a ∨ node_map cs y = some b)) := by
  have hcam : (ca.1, ca.2) ∈ cs := List.getElem?_mem hca
  have hcbm : (cb.1, cb.2) ∈ cs := List.getElem?_mem hcb
  have hkne : ca.1 ≠ cb.1 := fun hk => hab (key_index_unique cs hs a b ca cb hca hcb hk)
  have hdis1 := merged_disjoint ca.1 cb.1 cb.2 cs hs hd hcbm
  obtain ⟨c0, hc0, hx0⟩ := hx
  have hx1 : ∃ c ∈ clusters_add ca.1 cb.2 (clusters_erase cb.1 cs), x ∈ c.2 := by
    obtain ⟨c, hc, hxc, _⟩ := merged_same ca.1 cb.1 ca.2 cb.2 cs hs hcam hcbm hkne x x
      (Or.inl ⟨c0, hc0, hx0, hx0⟩)
    exact ⟨c, hc, hxc⟩
  rw [node_map_eq_iff_same _ hdis1 x y hx1, node_map_eq_iff_same cs hd x y ⟨c0, hc0, hx0⟩,
    ← mem_iff_node_map cs hd a ca hca x, ← mem_iff_node_map cs hd b cb hcb x,
    ← mem_iff_node_map cs hd a ca hca y, ← mem_iff_node_map cs hd b cb hcb y]
  exact merged_same_iff ca.1 cb.1 ca.2 cb.2 cs hs hcam hcbm hkne x y

theorem net_fanout_filter (nm : BlockId → Option Nat) (a b : Nat) (src : BlockId × String)
    (sinks : List (BlockId × String)) :
    net_fanout nm a b (src :: sinks)
      = (sinks.filter (fun s => decide (nm src.1 = some a ∧ nm s.1 = some b))).length := by
  simp only [net_fanout]
  by_cases h : nm src.1 = some a
  · rw [if_pos h]; simp only [h, true_and]
  · rw [if_neg h]; simp only [h, false_and, decide_False, List.filter_false, List.length_nil]

/-- Per net: the receivers cut before the merge are the receivers cut after
it, those driven from `a` into `b`, and those driven from `b` into `a`. -/
theorem net_cut_merged (cs : Clusters) (hs : KeysSorted cs) (hd : ClustersDisjoint cs)
    (a b : Nat) (ca cb : Int × Finset BlockId) (hca : cs[a]? = some ca)
    (hcb : cs[b]? = some cb) (hab : a ≠ b) (net : List (BlockId × String))
    (hcov : ∀ p ∈ net, ∃ c ∈ cs, p.1 ∈ c.2) :
    net_cut (node_map cs) net
      = net_cut (node_map (clusters_add ca.1 cb.2 (clusters_erase cb.1 cs))) net
        + net_fanout (node_map cs) a b net + net_fanout (node_map cs) b a net := by
  cases net with
  | nil => simp [net_cut, net_fanout]
  | cons src sinks =>
    rw [net_fanout_filter, net_fanout_filter]
    simp only [net_cut]
    apply filter_length_split
    intro s hsm
    have hscov := hcov s (List.mem_cons_of_mem _ hsm)
    have hm := merged_node_map_eq cs hs hd a b ca cb hca hcb hab s.1 src.1 hscov
    simp only [ne_eq, decide_eq_true_eq, decide_not, Bool.not_eq_true', decide_eq_false_iff_not]
    rw [hm]
    refine ⟨?_, ?_, ?_, ?_⟩
    · constructor
      · intro hne
        by_cases hc : (node_map cs s.1 = some a ∨ node_map cs s.1 = some b) ∧
            (node_map cs src.1 = some a ∨ node_map cs src.1 = some b)
        · rcases hc with ⟨h1 | h1, h2 | h2⟩
          · exact absurd (h1.trans h2.symm) hne
          · exact Or.inr (Or.inr ⟨h2, h1⟩)
          · exact Or.inr (Or.inl ⟨h2, h1⟩)
          · exact absurd (h1.trans h2.symm) hne
        · exact Or.inl (fun h => h.elim hne hc)
      · rintro (h | ⟨h1, h2⟩ | ⟨h1, h2⟩)
        · exact fun he => h (Or.inl he)
        · intro he
          rw [h1, h2] at he
          injection he with he
          exact hab he.symm
        · intro he
          rw [h1, h2] at he
          injection he with he
          exact hab he
    · rintro ⟨h, h1, h2⟩
      exact h (Or.inr ⟨Or.inr h2, Or.inl h1⟩)
    · rintro ⟨h, h1, h2⟩
      exact h (Or.inr ⟨Or.inl h2, Or.inr h1⟩)
    · rintro ⟨⟨h1, _⟩, h2, _⟩
      rw [h1] at h2
      injection h2 with h2
      exact hab h2

/-- The cut of a partition is the cut after merging the clusters at positions
`a` and `b` plus the connections between the two in either direction. -/
theorem cut_size_merged (cs : Clusters) (hs : KeysSorted cs) (hd : ClustersDisjoint cs)
    (a b : Nat) (ca cb : Int × Finset BlockId) (hca : cs[a]? = some ca)
    (hcb : cs[b]? = some cb) (hab : a ≠ b) (netlist : PortNetlist)
    (hcov : Covered cs netlist) :
    cut_size (node_map cs) netlist
      = cut_size (node_map (clusters_add ca.1 cb.2 (clusters_erase cb.1 cs))) netlist
        + fanout (node_map cs) netlist a b + fanout (node_map cs) netlist b a := by
  induction netlist with
  | nil => simp [cut_size, fanout]
  | cons iter rest ih =>
    have ih1 := ih (fun it hit => hcov it (List.mem_cons_of_mem _ hit))
    have h1 := net_cut_merged cs hs hd a b ca cb hca hcb hab iter.2
      (hcov iter (List.mem_cons_self _ _))
    simp only [cut_size, fanout, List.map_cons, List.sum_cons] at ih1 ⊢
    omega

/-- Merging two distinct clusters of a built graph over a partition and
rebuilding: both steps succeed and the total weight drops by the weights
of the edges between the two vertices. -/
theorem merge_weight_core (g : Graph) (hb : Built g) (hs : KeysSorted g.clusters_)
    (hd : ClustersDisjoint g.clusters_) (a b : Nat) (ha : a < g.clusters_.length)
    (hlb : b < g.clusters_.length) (hab : a ≠ b) :
    ∃ merged g2, merge_clusters (node_id g a) (node_id g b) g.clusters_ = .ok merged ∧
      update merged g.netlist_ = .ok g2 ∧
      total_weights g2.edges_ + pair_weight g.edges_ a b + pair_weight g.edges_ b a
        = total_weights g.edges_ := by
  obtain ⟨hcov, hne, _, hedges⟩ := built_eq g hb
  obtain ⟨ca, hca, hida⟩ := node_id_built g hb a ha
  obtain ⟨cb, hcb, hidb⟩ := node_id_built g hb b hlb
  have hcam : (ca.1, ca.2) ∈ g.clusters_ := List.getElem?_mem hca
  have hcbm : (cb.1, cb.2) ∈ g.clusters_ := List.getElem?_mem hcb
  have hkne : ca.1 ≠ cb.1 :=
    fun hk => hab (key_index_unique g.clusters_ hs a b ca cb hca hcb hk)
  have hcovm : Covered (clusters_add ca.1 cb.2 (clusters_erase cb.1 g.clusters_))
      g.netlist_ := by
    intro iter hi p hp
    obtain ⟨c0, hc0, hx0⟩ := hcov iter hi p hp
    obtain ⟨c, hc, hxc, _⟩ := merged_same ca.1 cb.1 ca.2 cb.2 g.clusters_ hs hcam hcbm hkne
      p.1 p.1 (Or.inl ⟨c0, hc0, hx0, hx0⟩)
    exact ⟨c, hc, hxc⟩
  have hspec := update_state_spec g.clusters_ g.netlist_ hcov hne
  have hspec1 := update_state_spec _ g.netlist_ hcovm hne
  refine ⟨_, _, ?_, update_ok _ _ hcovm hne, ?_⟩
  · rw [hida, hidb]
    exact merge_clusters_ok ca.1 cb.1 ca.2 cb.2 g.clusters_ hs hcam hcbm
  · show total_weights (built_edges _ g.netlist_) + _ + _ = _
    rw [hedges, hspec.2.2.2, hspec1.2.2.2, hspec.2.2.1 a b hab, hspec.2.2.1 b a (Ne.symm hab)]
    exact (cut_size_merged g.clusters_ hs hd a b ca cb hca hcb hab g.netlist_ hcov).symm

/-- Counterexample to C23 as stated, on clusters that cover the netlist but
overlap: merging the two ends of the only edge (weight 1, total 1) gives a
loop-free graph of total weight 2 instead of 0, and the capacity pass with
maximum size 10 rejects this merge by the weight condition alone and
returns the graph unchanged, whatever the sorting function. -/
theorem merge_weight_identity_counterexample :
    Covered hidden_clusters hidden_netlist ∧
      Graph.new hidden_clusters hidden_netlist = .ok hidden_graph ∧
      hidden_graph.edges_ = [⟨2, 0, 1⟩] ∧
      merged_copy hidden_graph ⟨2, 0, 1⟩ = .ok hidden_graph_merged ∧
      total_weights hidden_graph.edges_ = 1 ∧ pair_weight hidden_graph.edges_ 2 0 = 1 ∧
      pair_weight hidden_graph.edges_ 0 2 = 0 ∧
      total_weights hidden_graph_merged.edges_ = 2 ∧
      cluster_size hidden_graph.clusters_ (node_id hidden_graph 2) = .ok 1 ∧
      cluster_size hidden_graph.clusters_ (node_id hidden_graph 0) = .ok 3 ∧
      has_loop hidden_graph_merged = .ok false ∧
      ∀ sorter, SortsEdges sorter → hidden_graph.merge_max sorter 10 = (hidden_graph, none) := by
  refine ⟨by unfold Covered; decide, by decide, rfl, by decide, by decide, by decide, by decide,
    by decide, by decide, by decide, by decide, ?_⟩
  intro sorter hsort
  have ht : try_merge hidden_graph 10 (sorter hidden_graph.edges_) = (hidden_graph, none) := by
    rw [sorter_short sorter hsort _ (by decide)]
    decide
  exact merge_max_of_loop hidden_graph sorter 10 hidden_graph _
    (merge_max_loop_stop sorter 10 _ hidden_graph hidden_graph (by decide) ht rfl) (by decide)

/-- C23, amended: for a cluster assignment that covers the netlist and in
which no block lies in two clusters, merging two distinct clusters `a`
and `b` and rebuilding succeeds and gives total weight equal to the total
before minus weight(a → b) minus weight(b → a); merging the two ends of
an existing edge strictly lowers the total; hence an edge passes the
acceptance test of `merge(M)` exactly when the two clusters fit in `M`
and the merged graph has no loop. -/
theorem merge_weight_identity (clusters : Clusters) (netlist : PortNetlist) (g : Graph)
    (hs : KeysSorted clusters) (hd : ClustersDisjoint clusters)
    (hg : Graph.new clusters netlist = .ok g) :
    (∀ a b, a < g.nodes_.length → b < g.nodes_.length → a ≠ b →
      ∃ g1 g2, g.merge2 (node_id g a) (node_id g b) = .ok g1 ∧
        update g1.clusters_ g1.netlist_ = .ok g2 ∧
        total_weights g2.edges_ + pair_weight g.edges_ a b + pair_weight g.edges_ b a
          = total_weights g.edges_) ∧
      (∀ edge ∈ g.edges_, ∃ g2, merged_copy g edge = .ok g2 ∧
        total_weights g2.edges_ < total_weights g.edges_) ∧
      ∀ M, ∀ edge ∈ g.edges_, Acceptable M g edge ↔
        ∃ size_from size_to g2,
          cluster_size g.clusters_ (node_id g edge.from_) = .ok size_from ∧
          cluster_size g.clusters_ (node_id g edge.to_) = .ok size_to ∧
          size_from + size_to ≤ M ∧ merged_copy g edge = .ok g2 ∧
          has_loop g2 = .ok false := by
  obtain ⟨hb, hc, _⟩ := built_of_new clusters netlist g hg
  have hsg : KeysSorted g.clusters_ := by rw [hc]; exact hs
  have hdg : ClustersDisjoint g.clusters_ := by rw [hc]; exact hd
  have hlen := built_nodes_length g hb
  have hedge : ∀ edge ∈ g.edges_, ∃ g2, merged_copy g edge = .ok g2 ∧
      total_weights g2.edges_ < total_weights g.edges_ := by
    intro edge he
    have hok := built_edgesOk g hb
    rw [hlen] at hok
    have hpair := hok.2.1 (edge.from_, edge.to_)
      (List.mem_map_of_mem (fun e => (e.from_, e.to_)) he)
    simp only at hpair
    obtain ⟨merged, g2, hm, hu, hw⟩ :=
      merge_weight_core g hb hsg hdg edge.from_ edge.to_ hpair.1 hpair.2.1 hpair.2.2
    have hpos : 0 < pair_weight g.edges_ edge.from_ edge.to_ :=
      (pair_weight_pos_iff _ hok.2.2 _ _).2 ⟨edge, he, rfl, rfl⟩
    refine ⟨g2, ?_, by omega⟩
    unfold merged_copy
    rw [built_new g hb]
    simp only [Graph.merge2, hm]
    exact hu
  refine ⟨?_, hedge, ?_⟩
  · intro a b ha hlb hab
    rw [hlen] at ha hlb
    obtain ⟨merged, g2, hm, hu, hw⟩ := merge_weight_core g hb hsg hdg a b ha hlb hab
    refine ⟨{ g with clusters_ := merged }, g2, ?_, hu, hw⟩
    simp only [Graph.merge2, hm]
  · intro M edge he
    constructor
    · rintro ⟨sf, st, g2, h1, h2, h3, h4, h5, _⟩
      exact ⟨sf, st, g2, h1, h2, h3, h4, h5⟩
    · rintro ⟨sf, st, g2, h1, h2, h3, h4, h5⟩
      obtain ⟨g3, hg3, hlt⟩ := hedge edge he
      rw [h4] at hg3
      injection hg3 with hg3
      rw [← hg3] at hlt
      exact ⟨sf, st, g2, h1, h2, h3, h4, h5, Nat.le_of_lt hlt⟩

/-- Instance of `merge_weight_identity` on a chain of three singleton
clusters. -/
theorem merge_weight_identity_witness :
    KeysSorted dag_clusters ∧ ClustersDisjoint dag_clusters ∧
      Graph.new dag_clusters dag_netlist = .ok dag_graph ∧
      ∀ edge ∈ dag_graph.edges_, ∃ g2, merged_copy dag_graph edge = .ok g2 ∧
        total_weights g2.edges_ < total_weights dag_graph.edges_ :=
  ⟨by unfold KeysSorted; decide, by unfold ClustersDisjoint; decide, by decide,
    (merge_weight_identity dag_clusters dag_netlist dag_graph (by unfold KeysSorted; decide)
      (by unfold ClustersDisjoint; decide) (by decide)).2.1⟩

end graph

namespace graph

/-! ## The passes only coarsen a partition -/

theorem disjoint_congr (cs cs1 : Clusters) (h : cs.map Prod.snd = cs1.map Prod.snd)
    (hd : ClustersDisjoint cs) : ClustersDisjoint cs1 := by
  unfold ClustersDisjoint at hd ⊢
  have h1 : (cs.map Prod.snd).Pairwise (fun a b => Disjoint a b) := List.pairwise_map.2 hd
  rw [h] at h1
  exact List.pairwise_map.1 h1

theorem nonempty_congr (cs cs1 : Clusters) (h : cs.map Prod.snd = cs1.map Prod.snd)
    (hne : ∀ c ∈ cs, c.2 ≠ ∅) : ∀ c ∈ cs1, c.2 ≠ ∅ := by
  intro c hc
  obtain ⟨d, hd, hdc⟩ := (mem_sets_iff cs cs1 h c.2).2 ⟨c, hc, rfl⟩
  rw [← hdc]
  exact hne d hd

theorem mem_congr (cs cs1 : Clusters) (h : cs.map Prod.snd = cs1.map Prod.snd) (x : BlockId) :
    (∃ c ∈ cs, x ∈ c.2) ↔ ∃ c ∈ cs1, x ∈ c.2 := by
  constructor
  · rintro ⟨c, hc, hx⟩
    obtain ⟨d, hd, hdc⟩ := (mem_sets_iff cs cs1 h c.2).1 ⟨c, hc, rfl⟩
    exact ⟨d, hd, by rw [hdc]; exact hx⟩
  · rintro ⟨c, hc, hx⟩
    obtain ⟨d, hd, hdc⟩ := (mem_sets_iff cs cs1 h c.2).2 ⟨c, hc, rfl⟩
    exact ⟨d, hd, by rw [hdc]; exact hx⟩

/-- A disjoint cluster map that holds the same blocks as `cs0` and keeps
together what `cs0` holds together is made of unions of clusters of `cs0`. -/
theorem coarsens_of_same (cs0 cs : Clusters) (hd : ClustersDisjoint cs)
    (hcov : ∀ x, (∃ c ∈ cs, x ∈ c.2) ↔ ∃ c ∈ cs0, x ∈ c.2)
    (hsame : ∀ x y, SameCluster cs0 x y → SameCluster cs x y)
    (hne : (∀ c0 ∈ cs0, c0.2 ≠ ∅) → ∀ c ∈ cs, c.2 ≠ ∅) : Coarsens cs0 cs := by
  refine ⟨hd, hcov, ?_, hne⟩
  intro c hc x hx
  obtain ⟨c0, hc0, hx0⟩ := (hcov x).1 ⟨c, hc, hx⟩
  refine ⟨c0, hc0, hx0, ?_⟩
  intro y hy
  obtain ⟨d, hdm, hxd, hyd⟩ := hsame x y ⟨c0, hc0, hx0, hy⟩
  obtain ⟨i, hi, hci⟩ := List.mem_iff_getElem.1 hc
  obtain ⟨j, hj, hdj⟩ := List.mem_iff_getElem.1 hdm
  have hij := disjoint_index_unique cs hd i j c d
    (by rw [List.getElem?_eq_getElem hi, hci]) (by rw [List.getElem?_eq_getElem hj, hdj]) x hx hxd
  subst hij
  rw [← hci, hdj]
  exact hyd

theorem merge_clusters_nonempty (base target : Int) (cs merged : Clusters)
    (h : merge_clusters base target cs = .ok merged) (hne : ∀ c ∈ cs, c.2 ≠ ∅) :
    ∀ c ∈ merged, c.2 ≠ ∅ := by
  obtain ⟨blks, _, hall⟩ := merge_clusters_mem base target cs merged h
  intro c hc
  rcases (hall c hc).2 with h1 | ⟨_, d, hd, _, hcd⟩
  · exact hne c h1
  · rw [hcd]
    intro he
    exact hne d hd (Finset.union_eq_empty.1 he).1

theorem merge_path_nonempty (g : Graph) (src : Nat) :
    ∀ (tail : List Nat) (cs cs1 : Clusters), merge_path g src tail cs = .ok cs1 →
      (∀ c ∈ cs, c.2 ≠ ∅) → ∀ c ∈ cs1, c.2 ≠ ∅ := by
  intro tail
  induction tail with
  | nil =>
    intro cs cs1 h hne
    simp only [merge_path, Except.ok.injEq] at h
    rw [← h]; exact hne
  | cons dst rest ih =>
    intro cs cs1 h hne
    simp only [merge_path] at h
    cases hm : merge_clusters (node_id g src) (node_id g dst) cs with
    | error e => rw [hm] at h; cases h
    | ok cs2 =>
      rw [hm] at h
      exact ih cs2 cs1 h (merge_clusters_nonempty _ _ cs cs2 hm hne)

theorem merge_first_loop_nonempty (g : Graph) (hne : ∀ c ∈ g.clusters_, c.2 ≠ ∅) :
    ∀ (l : List Nat) (g1 : Graph), merge_first_loop g l = .ok (some g1) →
      ∀ c ∈ g1.clusters_, c.2 ≠ ∅ := by
  intro l
  induction l with
  | nil => intro g1 h; simp [merge_first_loop] at h
  | cons n rest ih =>
    intro g1 h
    simp only [merge_first_loop] at h
    cases hf : find_loop_path g n with
    | error e => rw [hf] at h; cases h
    | ok path =>
      rw [hf] at h
      cases path with
      | nil => exact ih g1 h
      | cons src tail =>
        simp only at h
        cases hp : merge_path g src tail g.clusters_ with
        | error e => rw [hp] at h; cases h
        | ok cs =>
          rw [hp] at h
          simp only at h
          cases hu : update cs g.netlist_ with
          | error e => rw [hu] at h; cases h
          | ok g2 =>
            rw [hu] at h
            simp only [Except.ok.injEq, Option.some.injEq] at h
            obtain ⟨_, _, hg2⟩ := update_eq_ok cs g.netlist_ g2 hu
            rw [← h, hg2]
            exact merge_path_nonempty g src tail g.clusters_ cs hp hne

theorem merge_loops_nonempty :
    ∀ (fuel : Nat) (g gf : Graph), merge_loops fuel g = .ok gf →
      (∀ c ∈ g.clusters_, c.2 ≠ ∅) → ∀ c ∈ gf.clusters_, c.2 ≠ ∅ := by
  intro fuel
  induction fuel with
  | zero => intro g gf h; simp [merge_loops] at h
  | succ fuel ih =>
    intro g gf h hne
    simp only [merge_loops] at h
    cases hl : has_loop g with
    | error e => rw [hl] at h; cases h
    | ok b =>
      rw [hl] at h
      cases b with
      | false =>
        simp only [Except.ok.injEq] at h
        rw [← h]; exact hne
      | true =>
        simp only at h
        cases hm : merge_first_loop g (List.range g.nodes_.length) with
        | error e => rw [hm] at h; cases h
        | ok r =>
          rw [hm] at h
          cases r with
          | none => exact ih g gf h hne
          | some g1 =>
            exact ih g1 gf h (merge_first_loop_nonempty g hne _ g1 hm)

/-- One accepted merge of the capacity pass on a built graph over a
partition keeps the blocks, keeps together what was together, and keeps
the clusters non-empty. -/
theorem mergeStep_coarsen (M : Nat) (g g1 : Graph) (hs : KeysSorted g.clusters_)
    (hb : Built g) (h : MergeStep M g g1) :
    (∀ x, (∃ c ∈ g1.clusters_, x ∈ c.2) ↔ ∃ c ∈ g.clusters_, x ∈ c.2) ∧
      (∀ x y, SameCluster g.clusters_ x y → SameCluster g1.clusters_ x y) ∧
      ((∀ c ∈ g.clusters_, c.2 ≠ ∅) → ∀ c ∈ g1.clusters_, c.2 ≠ ∅) := by
  obtain ⟨edge, hedge, sf, st, merged, h1, h2, h3, h4, h5, _, _⟩ := h
  have hc1 : g1.clusters_ = merged := by
    have := (update_state_fst merged g.netlist_).1
    rw [h5] at this; exact this
  have hok := built_edgesOk g hb
  rw [built_nodes_length g hb] at hok
  have hpair := hok.2.1 (edge.from_, edge.to_)
    (List.mem_map_of_mem (fun e => (e.from_, e.to_)) hedge)
  simp only at hpair
  obtain ⟨ca, hca, hida⟩ := node_id_built g hb edge.from_ hpair.1
  obtain ⟨cb, hcb, hidb⟩ := node_id_built g hb edge.to_ hpair.2.1
  have hcam : (ca.1, ca.2) ∈ g.clusters_ := List.getElem?_mem hca
  have hcbm : (cb.1, cb.2) ∈ g.clusters_ := List.getElem?_mem hcb
  have hkne : ca.1 ≠ cb.1 :=
    fun hk => hpair.2.2 (key_index_unique g.clusters_ hs _ _ ca cb hca hcb hk)
  have hne1 := merge_clusters_nonempty _ _ g.clusters_ merged h4
  rw [hida, hidb] at h4
  have hnorm := merge_clusters_normal ca.1 cb.1 g.clusters_ merged ca.2 cb.2
    (lookup_of_mem g.clusters_ hs ca.1 ca.2 hcam) (lookup_of_mem g.clusters_ hs cb.1 cb.2 hcbm)
    h4
  have hiff := merged_same_iff ca.1 cb.1 ca.2 cb.2 g.clusters_ hs hcam hcbm hkne
  rw [← hnorm, ← hc1] at hiff
  refine ⟨?_, ?_, ?_⟩
  · intro x
    constructor
    · rintro ⟨c, hc, hx⟩
      rcases (hiff x x).1 ⟨c, hc, hx, hx⟩ with ⟨d, hd, hxd, _⟩ | ⟨hx1 | hx1, _⟩
      · exact ⟨d, hd, hxd⟩
      · exact ⟨_, hcam, hx1⟩
      · exact ⟨_, hcbm, hx1⟩
    · rintro ⟨c, hc, hx⟩
      obtain ⟨d, hd, hxd, _⟩ := (hiff x x).2 (Or.inl ⟨c, hc, hx, hx⟩)
      exact ⟨d, hd, hxd⟩
  · intro x y hxy
    exact (hiff x y).2 (Or.inl hxy)
  · intro hne
    rw [hc1]
    exact hne1 hne

theorem chain_coarsen (M : Nat) (g gf : Graph) (hs : KeysSorted g.clusters_)
    (hd : ClustersDisjoint g.clusters_) (hb : Built g)
    (h : Relation.ReflTransGen (MergeStep M) g gf) :
    (∀ x, (∃ c ∈ gf.clusters_, x ∈ c.2) ↔ ∃ c ∈ g.clusters_, x ∈ c.2) ∧
      (∀ x y, SameCluster g.clusters_ x y → SameCluster gf.clusters_ x y) ∧
      ((∀ c ∈ g.clusters_, c.2 ≠ ∅) → ∀ c ∈ gf.clusters_, c.2 ≠ ∅) := by
  induction h with
  | refl => exact ⟨fun _ => Iff.rfl, fun _ _ h => h, fun h => h⟩
  | tail hchain hstep ih =>
    obtain ⟨hsm, _, hbm, _⟩ := chain_partition M g _ hs hd hb hchain
    obtain ⟨k1, k2, k3⟩ := mergeStep_coarsen M _ _ hsm hbm hstep
    exact ⟨fun x => (k1 x).trans (ih.1 x), fun x y hxy => k2 x y (ih.2.1 x y hxy),
      fun hne => k3 (ih.2.2 hne)⟩

/-- Counterexample to C25 as stated: in this assignment every block lies in
exactly one cluster and cluster 2 holds no block; the acyclic pass and the
capacity pass with maximum size 1, whatever the sorting function, both
return the graph unchanged, so the result has an empty cluster. -/
theorem passes_keep_empty_cluster_counterexample :
    ClustersDisjoint empty_clusters ∧
      Graph.new empty_clusters empty_graph.netlist_ = .ok empty_graph ∧
      empty_graph.merge = .ok empty_graph ∧
      (∀ sorter, SortsEdges sorter → empty_graph.merge_max sorter 1 = (empty_graph, none)) ∧
      (2, ∅) ∈ empty_graph.clusters_ := by
  refine ⟨by unfold ClustersDisjoint; decide, by decide, by decide, ?_, by decide⟩
  intro sorter hsort
  have ht : try_merge empty_graph 1 (sorter empty_graph.edges_) = (empty_graph, none) := by
    rw [sorter_short sorter hsort _ (by decide)]
    decide
  exact merge_max_of_loop empty_graph sorter 1 empty_graph _
    (merge_max_loop_stop sorter 1 _ empty_graph empty_graph (by decide) ht rfl) (by decide)

/-- C25, amended: for a cluster assignment in which no block lies in two
clusters, the acyclic pass `merge()` returns, and after it and after any
capacity pass `merge(M)` that returns without error no block lies in two
clusters, the clustered blocks are the same as before, every block of a
resulting cluster lies in an original cluster that is contained in the
resulting cluster, and no resulting cluster is empty provided that no
original cluster is empty.  For `merge(M)` this holds whatever order
`std::sort` gives to edges of equal weight. -/
theorem passes_coarsen_partition (clusters : Clusters) (netlist : PortNetlist) (g : Graph)
    (hs : KeysSorted clusters) (hd : ClustersDisjoint clusters)
    (hg : Graph.new clusters netlist = .ok g) :
    (∃ g1, g.merge = .ok g1 ∧ Coarsens clusters g1.clusters_) ∧
      ∀ sorter M g1, SortsEdges sorter → g.merge_max sorter M = (g1, none) →
        Coarsens clusters g1.clusters_ := by
  obtain ⟨hb, hc, hn⟩ := built_of_new clusters netlist g hg
  have hsg : KeysSorted g.clusters_ := by rw [hc]; exact hs
  have hdg : ClustersDisjoint g.clusters_ := by rw [hc]; exact hd
  obtain ⟨hcov0, hne, _, _⟩ := built_eq g hb
  rw [hc, hn] at hcov0
  rw [hn] at hne
  constructor
  · have hinv0 : SccCoarsening (built_edges clusters netlist) clusters g.clusters_ := by
      rw [hc]
      refine ⟨fun x => Iff.rfl, fun x y h => h, ?_⟩
      intro x y a b hx hy hxy
      have := node_map_of_same clusters hd x y hxy
      rw [hx, hy] at this
      injection this with this
      rw [this]
      exact ⟨Relation.ReflTransGen.refl, Relation.ReflTransGen.refl⟩
    obtain ⟨gf, h1, h2, _, _, _⟩ := merge_loops_spec (g.clusters_.length + 1) g hb hsg
      (Nat.lt_succ_self _)
    obtain ⟨_, k2, k3, k4, _⟩ := merge_loops_scc netlist clusters hd hcov0
      (g.clusters_.length + 1) g hn hb hsg hdg hinv0 gf h1
    obtain ⟨hcovf, _, _, _⟩ := built_eq gf h2
    have hu := update_state_renumber gf.clusters_ gf.netlist_ hcovf (by rw [k2]; exact hne)
    refine ⟨⟨renumber gf.clusters_, gf.netlist_, cluster_nodes (renumber gf.clusters_),
      built_edges gf.clusters_ gf.netlist_⟩, ?_, ?_⟩
    · simp only [Graph.merge, h1, Graph.fix_cluster_id, update, hu]
    · show Coarsens clusters (renumber gf.clusters_)
      have hsets := (renumber_sets gf.clusters_).symm
      apply coarsens_of_same
      · exact disjoint_congr gf.clusters_ _ hsets k3
      · exact fun x => (mem_congr gf.clusters_ _ hsets x).symm.trans (k4.1 x)
      · exact fun x y hxy => (sameCluster_congr gf.clusters_ _ hsets x y).1 (k4.2.1 x y hxy)
      · intro hne0
        apply nonempty_congr gf.clusters_ _ hsets
        exact merge_loops_nonempty _ g gf h1 (by rw [hc]; exact hne0)
  · intro sorter M g1 hsort h
    obtain ⟨gf, hloop, hc1, _, _⟩ := merge_max_result g sorter M g1 h
    obtain ⟨_, _, hspec⟩ := merge_max_loop_spec sorter hsort M _ g gf none hsg hloop
    obtain ⟨_, _, hchain⟩ := hspec rfl
    obtain ⟨_, hdf, _, _⟩ := chain_partition M g gf hsg hdg hb hchain
    obtain ⟨k1, k2, k3⟩ := chain_coarsen M g gf hsg hdg hb hchain
    rw [hc] at k1 k2 k3
    rw [hc1]
    have hsets := (renumber_sets gf.clusters_).symm
    apply coarsens_of_same
    · exact disjoint_congr gf.clusters_ _ hsets hdf
    · exact fun x => (mem_congr gf.clusters_ _ hsets x).symm.trans (k1 x)
    · exact fun x y hxy => (sameCluster_congr gf.clusters_ _ hsets x y).1 (k2 x y hxy)
    · intro hne0
      exact nonempty_congr gf.clusters_ _ hsets (k3 hne0)

/-- Instance of `passes_coarsen_partition` on a chain of three singleton
clusters, for the capacity pass with maximum size 2 and insertion sort as
the sorting function. -/
theorem passes_coarsen_partition_witness :
    SortsEdges sort_edges ∧ KeysSorted dag_clusters ∧ ClustersDisjoint dag_clusters ∧
      Graph.new dag_clusters dag_netlist = .ok dag_graph ∧
      dag_graph.merge_max sort_edges 2 = (dag_graph_merged, none) ∧
      (∃ g1, dag_graph.merge = .ok g1 ∧ Coarsens dag_clusters g1.clusters_) ∧
      Coarsens dag_clusters dag_graph_merged.clusters_ :=
  ⟨sort_edges_sorts, by unfold KeysSorted; decide, by unfold ClustersDisjoint; decide,
    by decide, by decide,
    (passes_coarsen_partition dag_clusters dag_netlist dag_graph (by unfold KeysSorted; decide)
      (by unfold ClustersDisjoint; decide) (by decide)).1,
    (passes_coarsen_partition dag_clusters dag_netlist dag_graph (by unfold KeysSorted; decide)
      (by unfold ClustersDisjoint; decide) (by decide)).2 sort_edges 2 dag_graph_merged
      sort_edges_sorts (by decide)⟩

end graph

/-! ## The map `node_to_pin` -/

theorem emplace_pins_some :
    ∀ (pins : List Pin) (acc : List (Nat × Pin)) (k : Nat) (q : Pin),
      map_find (pins.foldl (fun acc1 pin => map_emplace acc1 pin.node pin) acc) k = some q →
      map_find acc k = some q ∨ (q ∈ pins ∧ q.node = k) := by
  intro pins
  induction pins with
  | nil => intro acc k q h; exact Or.inl h
  | cons p rest ih =>
    intro acc k q h
    simp only [List.foldl_cons] at h
    rcases ih _ k q h with h1 | ⟨h1, h2⟩
    · rcases map_find_emplace_some acc p.node k p q h1 with h3 | ⟨h3, h4⟩
      · exact Or.inl h3
      · exact Or.inr ⟨by rw [h4]; exact List.mem_cons_self _ _, by rw [h4]; exact h3⟩
    · exact Or.inr ⟨List.mem_cons_of_mem _ h1, h2⟩

theorem emplace_pins_keep :
    ∀ (pins : List Pin) (acc : List (Nat × Pin)) (k : Nat) (q : Pin),
      map_find acc k = some q →
      map_find (pins.foldl (fun acc1 pin => map_emplace acc1 pin.node pin) acc) k = some q := by
  intro pins
  induction pins with
  | nil => intro acc k q h; exact h
  | cons p rest ih =>
    intro acc k q h
    simp only [List.foldl_cons]
    exact ih _ k q (map_find_emplace_of_some acc p.node k p q h)

theorem emplace_pins_has :
    ∀ (pins : List Pin) (acc : List (Nat × Pin)) (p : Pin), p ∈ pins →
      ∃ q, map_find (pins.foldl (fun acc1 pin => map_emplace acc1 pin.node pin) acc) p.node
        = some q := by
  intro pins
  induction pins with
  | nil => intro acc p hp; cases hp
  | cons p0 rest ih =>
    intro acc p hp
    simp only [List.foldl_cons]
    rcases List.mem_cons.1 hp with rfl | hp1
    · cases hf : map_find acc p.node with
      | some x =>
        exact ⟨x, emplace_pins_keep rest _ _ x (map_find_emplace_of_some acc p.node p.node p x hf)⟩
      | none =>
        exact ⟨p, emplace_pins_keep rest _ _ p (map_find_emplace_new acc p.node p hf)⟩
    · exact ih _ p hp1

theorem node_to_pin_some :
    ∀ (netlist : Netlist) (acc : List (Nat × Pin)) (k : Nat) (q : Pin),
      map_find (netlist.foldl (fun acc entry =>
        entry.2.pins_.foldl (fun acc1 pin => map_emplace acc1 pin.node pin) acc) acc) k = some q →
      map_find acc k = some q ∨ ∃ entry ∈ netlist, q ∈ entry.2.pins_ ∧ q.node = k := by
  intro netlist
  induction netlist with
  | nil => intro acc k q h; exact Or.inl h
  | cons e rest ih =>
    intro acc k q h
    simp only [List.foldl_cons] at h
    rcases ih _ k q h with h1 | ⟨entry, he, h2⟩
    · rcases emplace_pins_some e.2.pins_ acc k q h1 with h3 | h3
      · exact Or.inl h3
      · exact Or.inr ⟨e, List.mem_cons_self _ _, h3⟩
    · exact Or.inr ⟨entry, List.mem_cons_of_mem _ he, h2⟩

theorem node_to_pin_keep :
    ∀ (netlist : Netlist) (acc : List (Nat × Pin)) (k : Nat) (q : Pin),
      map_find acc k = some q →
      map_find (netlist.foldl (fun acc entry =>
        entry.2.pins_.foldl (fun acc1 pin => map_emplace acc1 pin.node pin) acc) acc) k
        = some q := by
  intro netlist
  induction netlist with
  | nil => intro acc k q h; exact h
  | cons e rest ih =>
    intro acc k q h
    simp only [List.foldl_cons]
    exact ih _ k q (emplace_pins_keep e.2.pins_ acc k q h)

theorem node_to_pin_has :
    ∀ (netlist : Netlist) (acc : List (Nat × Pin)) (p : Pin),
      (∃ entry ∈ netlist, p ∈ entry.2.pins_) →
      ∃ q, map_find (netlist.foldl (fun acc entry =>
        entry.2.pins_.foldl (fun acc1 pin => map_emplace acc1 pin.node pin) acc) acc) p.node
        = some q := by
  intro netlist
  induction netlist with
  | nil => rintro acc p ⟨entry, he, _⟩; cases he
  | cons e rest ih =>
    rintro acc p ⟨entry, he, hp⟩
    simp only [List.foldl_cons]
    rcases List.mem_cons.1 he with rfl | he1
    · obtain ⟨q, hq⟩ := emplace_pins_has entry.2.pins_ acc p hp
      exact ⟨q, node_to_pin_keep rest _ _ q hq⟩
    · exact ih _ p ⟨entry, he1, hp⟩

/-- A pin stored in `node_to_pin` is a pin of the netlist, stored under its
own node. -/
theorem build_node_to_pin_node (netlist : Netlist) (k : Nat) (q : Pin)
    (h : map_find (build_node_to_pin netlist) k = some q) :
    q.node = k ∧ ∃ entry ∈ netlist, q ∈ entry.2.pins_ := by
  rcases node_to_pin_some netlist [] k q h with h1 | ⟨entry, he, h2, h3⟩
  · simp [map_find] at h1
  · exact ⟨h3, entry, he, h2⟩

/-- A pin of the netlist whose node is the node of no other pin is the pin
`node_to_pin` stores for its node. -/
theorem build_node_to_pin_find (netlist : Netlist) (p : Pin)
    (hp : ∃ entry ∈ netlist, p ∈ entry.2.pins_)
    (hdist : ∀ entry ∈ netlist, ∀ q ∈ entry.2.pins_, q.node = p.node → q = p) :
    map_find (build_node_to_pin netlist) p.node = some p := by
  obtain ⟨q, hq⟩ := node_to_pin_has netlist [] p hp
  obtain ⟨h1, entry, he, h2⟩ := build_node_to_pin_node netlist p.node q hq
  have := hdist entry he q h2 h1
  rw [this] at hq
  exact hq

/-! ## The wave a pass writes -/

/-- A segment walked to its end leaves at the pin of its last node the wave
`src_wave` plus the registers counted before the walk plus the registers
among the nodes walked, the last one excepted. -/
theorem walk_segment_wave (ta : TimingAnalysis) (allowed : Nat)
    (node_to_pin : List (Nat × Pin)) (src_wave : Nat) (last : cyclone.Node) (pin : Pin)
    (hpin : map_find node_to_pin last.id = some pin) :
    ∀ (rest : List cyclone.Node) (pre : cyclone.Node) (num_reg : Nat)
      (nd : List (Nat × Nat)) (pw pd : List (Pin × Nat)) (nd1 : List (Nat × Nat))
      (pw1 pd1 : List (Pin × Nat)),
      walk_segment ta allowed node_to_pin src_wave last pre rest num_reg (nd, pw, pd)
        = .ok (.done nd1 pw1 pd1) →
      rest ≠ [] →
      map_find pw1 pin = some (src_wave + (num_reg + (rest.dropLast.filter
        (fun n => decide (n.type = cyclone.NodeType.Register))).length)) := by
  intro rest
  induction rest with
  | nil => intro pre num_reg nd pw pd nd1 pw1 pd1 _ hne; exact absurd rfl hne
  | cons cur rest ih =>
    intro pre num_reg nd pw pd nd1 pw1 pd1 h _
    unfold walk_segment at h
    cases hd0 : map_find nd pre.id with
    | none => simp [hd0] at h
    | some d0 =>
      simp only [hd0] at h
      have key : ∀ (delay : Nat) (nd2 : List (Nat × Nat)) (nr : Nat),
          (if delay > allowed then Except.ok (PassResult.insert cur last nr pw pd)
            else
              match map_find node_to_pin last.id with
              | none => Except.error TimingError.out_of_range
              | some pin =>
                walk_segment ta allowed node_to_pin src_wave last cur rest nr
                  (map_set nd2 cur.id delay, map_set pw pin (src_wave + nr),
                    map_set pd pin delay)) = Except.ok (PassResult.done nd1 pw1 pd1) →
          (rest = [] → map_find pw1 pin = some (src_wave + nr)) ∧
          (rest ≠ [] → map_find pw1 pin = some (src_wave + (nr + (rest.dropLast.filter
            (fun n => decide (n.type = cyclone.NodeType.Register))).length))) := by
        intro delay nd2 nr hk
        by_cases hgt : delay > allowed
        · rw [if_pos hgt] at hk
          injection hk with hk
          cases hk
        · rw [if_neg hgt] at hk
          simp only [hpin] at hk
          refine ⟨?_, ?_⟩
          · intro hnil
            subst hnil
            simp only [walk_segment, Except.ok.injEq, PassResult.done.injEq] at hk
            rw [← hk.2.1]
            exact map_find_set_eq _ _ _
          · intro hne
            exact ih cur nr _ _ _ nd1 pw1 pd1 hk hne
      by_cases hreg : cur.type = cyclone.NodeType.Register ∧ rest ≠ []
      · simp only [hreg, and_self, if_true, ne_eq, not_false_eq_true] at h
        have := (key 0 _ _ h).2 hreg.2
        rw [this, List.dropLast_cons_of_ne_nil hreg.2, List.filter_cons]
        simp only [hreg.1, decide_True, if_true, List.length_cons]
        congr 1
        omega
      · simp only [hreg, if_false] at h
        cases hgd : ta.get_delay cur with
        | error e => simp [hgd] at h
        | ok c =>
          simp only [hgd] at h
          obtain ⟨k1, k2⟩ := key _ _ _ h
          by_cases hnil : rest = []
          · rw [k1 hnil, hnil]
            simp
          · have hnr : ¬ cur.type = cyclone.NodeType.Register := fun hc => hreg ⟨hc, hnil⟩
            rw [k2 hnil, List.dropLast_cons_of_ne_nil hnil, List.filter_cons]
            simp only [hnr, decide_False, Bool.false_eq_true, if_false]

/-- A pass that walks all segments leaves at a pin the wave of the segments
that end at a node of that pin, when all of them give the same wave. -/
theorem walk_pins_wave (ta : TimingAnalysis) (allowed : Nat) (node_to_pin : List (Nat × Pin))
    (src_wave : Nat) (segments : Route) (pin : Pin) (v : Nat) :
    ∀ (order : List Nat) (nd : List (Nat × Nat)) (pw pd : List (Pin × Nat))
      (nd1 : List (Nat × Nat)) (pw1 pd1 : List (Pin × Nat)),
      walk_pins ta allowed node_to_pin src_wave segments order (nd, pw, pd)
        = .ok (.done nd1 pw1 pd1) →
      (∀ q ∈ order, ∀ seg last, map_find segments q = some seg → 2 ≤ seg.length →
        seg.getLast? = some last → map_find node_to_pin last.id = some pin →
        src_wave + inner_registers seg = v) →
      (map_find pw pin = some v ∨ ∃ q ∈ order, ∃ seg last, map_find segments q = some seg ∧
        2 ≤ seg.length ∧ seg.getLast? = some last ∧ map_find node_to_pin last.id = some pin) →
      map_find pw1 pin = some v := by
  intro order
  induction order with
  | nil =>
    intro nd pw pd nd1 pw1 pd1 h _ hstart
    simp only [walk_pins, Except.ok.injEq, PassResult.done.injEq] at h
    rcases hstart with h1 | ⟨q, hq, _⟩
    · rw [← h.2.1]; exact h1
    · cases hq
  | cons q0 rest ih =>
    intro nd pw pd nd1 pw1 pd1 h hall hstart
    unfold walk_pins at h
    have hall1 : ∀ q ∈ rest, ∀ seg last, map_find segments q = some seg → 2 ≤ seg.length →
        seg.getLast? = some last → map_find node_to_pin last.id = some pin →
        src_wave + inner_registers seg = v :=
      fun q hq => hall q (List.mem_cons_of_mem _ hq)
    cases hseg : map_find segments q0 with
    | none => simp [hseg] at h
    | some segment =>
      simp only [hseg] at h
      cases segment with
      | nil =>
        simp only at h
        apply ih nd pw pd nd1 pw1 pd1 h hall1
        rcases hstart with h1 | ⟨q, hq, seg, last, k1, k2, k3, k4⟩
        · exact Or.inl h1
        · rcases List.mem_cons.1 hq with rfl | hq1
          · rw [hseg] at k1
            injection k1 with k1
            rw [← k1] at k2
            simp at k2
          · exact Or.inr ⟨q, hq1, seg, last, k1, k2, k3, k4⟩
      | cons first tail =>
        simp only at h
        cases hw : walk_segment ta allowed node_to_pin src_wave
            ((first :: tail).getLast (List.cons_ne_nil _ _)) first tail 0 (nd, pw, pd) with
        | error e => simp [hw] at h
        | ok r =>
          cases r with
          | insert cur l nr pw2 pd2 => simp [hw] at h
          | done nd2 pw2 pd2 =>
            simp only [hw] at h
            apply ih nd2 pw2 pd2 nd1 pw1 pd1 h hall1
            have hlast : (first :: tail).getLast? =
                some ((first :: tail).getLast (List.cons_ne_nil _ _)) :=
              List.getLast?_eq_getLast _ _
            by_cases htail : tail = []
            · subst htail
              simp only [walk_segment, Except.ok.injEq, PassResult.done.injEq] at hw
              rw [← hw.2.1]
              rcases hstart with h1 | ⟨q, hq, seg, last, k1, k2, k3, k4⟩
              · exact Or.inl h1
              · rcases List.mem_cons.1 hq with rfl | hq1
                · rw [hseg] at k1
                  injection k1 with k1
                  rw [← k1] at k2
                  simp at k2
                · exact Or.inr ⟨q, hq1, seg, last, k1, k2, k3, k4⟩
            · by_cases hp : map_find node_to_pin
                  ((first :: tail).getLast (List.cons_ne_nil _ _)).id = some pin
              · left
                have hlen : 2 ≤ (first :: tail).length := by
                  cases tail with
                  | nil => exact absurd rfl htail
                  | cons _ _ => simp
                have hv := hall q0 (List.mem_cons_self _ _) (first :: tail) _ hseg hlen hlast hp
                rw [walk_segment_wave ta allowed node_to_pin src_wave _ pin hp tail first 0
                  nd pw pd nd2 pw2 pd2 hw htail, ← hv]
                simp [inner_registers]
              · have hfr := (walk_segment_frame ta allowed node_to_pin src_wave _ tail first 0
                  nd pw pd _ hw).2 pin hp
                simp only [PassResult.pin_wave] at hfr
                rcases hstart with h1 | ⟨q, hq, seg, last, k1, k2, k3, k4⟩
                · left; rw [hfr.1]; exact h1
                · rcases List.mem_cons.1 hq with rfl | hq1
                  · rw [hseg] at k1
                    injection k1 with k1
                    rw [← k1, hlast] at k3
                    injection k3 with k3
                    rw [← k3] at k4
                    exact absurd k4 hp
                  · exact Or.inr ⟨q, hq1, seg, last, k1, k2, k3, k4⟩

/-- When the delay loop returns, its last pass walked all segments of the
final route. -/
theorem delay_loop_last_pass {RG : Type} (ops : RoutedGraphOps RG) (ta : TimingAnalysis)
    (allowed : Nat) (node_to_pin : List (Nat × Pin)) (src_wave source_node max_delay : Nat) :
    ∀ (fuel : Nat) (rg : RG) (pw pd : List (Pin × Nat)) (req : List Request) (rg2 : RG)
      (nd : List (Nat × Nat)) (pw2 pd2 : List (Pin × Nat)) (req2 : List Request),
      delay_loop ops ta allowed node_to_pin src_wave source_node max_delay fuel (rg, pw, pd, req)
        = .ok (rg2, nd, pw2, pd2, req2) →
      ∃ pwF pdF,
        walk_pins ta allowed node_to_pin src_wave (ops.get_route rg2)
          (ops.pin_order rg2 (ops.get_route rg2)) ([(source_node, max_delay)], pwF, pdF)
          = .ok (.done nd pw2 pd2) := by
  intro fuel
  induction fuel with
  | zero => intro rg pw pd req rg2 nd pw2 pd2 req2 h; simp [delay_loop] at h
  | succ fuel ih =>
    intro rg pw pd req rg2 nd pw2 pd2 req2 h
    unfold delay_loop at h
    simp only at h
    cases hw : walk_pins ta allowed node_to_pin src_wave (ops.get_route rg)
        (ops.pin_order rg (ops.get_route rg)) ([(source_node, max_delay)], pw, pd) with
    | error e => simp [hw] at h
    | ok r =>
      cases r with
      | done nd1 pw1 pd1 =>
        simp only [hw, Except.ok.injEq, Prod.mk.injEq] at h
        obtain ⟨h1, h2, h3, h4, _⟩ := h
        subst h1 h2 h3 h4
        exact ⟨pw, pd, hw⟩
      | insert cur last nr pw1 pd1 =>
        simp only [hw] at h
        by_cases hempty : (ops.insert_reg_output rg cur true).2 = []
        · simp [hempty] at h
        · rw [if_neg hempty] at h
          cases hpin : map_find node_to_pin last.id with
          | none => simp [hpin] at h
          | some pin =>
            simp only [hpin] at h
            exact ih _ _ _ _ rg2 nd pw2 pd2 req2 h

/-- Counterexample to C22 as stated: the receiver pins y and p1 have the
distinct nodes 7 and 3, and node 3 is also the node of the driver pin of x,
which `node_to_pin` stores first.  `retime` returns; the net from I0 to p1
is processed with `src_wave` 0 and its final segment holds one register
between its ends, yet `pin_wave` has no entry for p1: the wave 1 is written
to the pin of x. -/
theorem retime_wave_at_shared_node_counterexample :
    build_node_to_pin (merged_netlist shared_routers)
        = [(3, pin_x), (7, pin_y), (0, pin_i0)] ∧
      inner_registers
        [cyclone.port_i0, cyclone.sb_out, cyclone.reg0, cyclone.sb_in, cyclone.port_p1] = 1 ∧
      (retime echo_ops zero_ta shared_routers [0, 1, 2, 3] 3).map
        (fun out => (out.state.processed, map_find out.state.pin_wave_ pin_p1,
          map_find out.state.pin_wave_ pin_x))
        = .ok ([⟨1, 0, 0, 0, s1_route_reg⟩, ⟨0, 3, 0, 0, route_x_y⟩], none, some 1) := by
  decide

/-- C22, amended: when the body of the net loop of `retime` returns for a
net, so that its delay loop has exited normally, let `p` be a pin of the
netlist whose node is the node of no other pin of the netlist, driver pins
included, and whose final segment has at least two nodes, ends at the node
of `p` and is the only segment of the final route that does.  Then
`pin_wave[p]` is `src_wave` plus the number of `Register` nodes of the
final segment that are neither its first nor its last node.  The pin order
is assumed to hold every pin of the route. -/
theorem process_net_pin_wave {RG : Type} (ops : RoutedGraphOps RG) (ta : TimingAnalysis)
    (fuel allowed : Nat) (netlist : Netlist) (routed_graphs : List (Int × RG))
    (nodes : List TimingNode) (timing_node : TimingNode) (start_delay : Nat)
    (st st1 : RetimeState) (net_id : Int)
    (h : process_net ops ta fuel allowed netlist routed_graphs (build_node_to_pin netlist) nodes
      timing_node start_delay st net_id = .ok st1)
    (horder : ∀ rg route p seg, map_find route p = some seg → p ∈ ops.pin_order rg route) :
    ∃ record, st1.processed = st.processed ++ [record] ∧
      ∀ (p : Pin) (seg : List cyclone.Node) (last : cyclone.Node),
        (∃ entry ∈ netlist, p ∈ entry.2.pins_) →
        (∀ entry ∈ netlist, ∀ q ∈ entry.2.pins_, q.node = p.node → q = p) →
        map_find record.route p.id = some seg → 2 ≤ seg.length →
        seg.getLast? = some last → last.id = p.node →
        (∀ q seg1 last1, map_find record.route q = some seg1 → 2 ≤ seg1.length →
          seg1.getLast? = some last1 → last1.id = p.node → q = p.id) →
        map_find st1.pin_wave_ p = some (record.src_wave + inner_registers seg) := by
  obtain ⟨net, rg0, max_delay, pin_waves, src_wave, rg1, pw1, req1, src_pin0, rest, rg2, nd,
    pw2, pd2, req2, _, _, _, _, _, hdl, hst1⟩ :=
    process_net_cases ops ta fuel allowed netlist routed_graphs (build_node_to_pin netlist)
      nodes timing_node start_delay st st1 net_id h
  refine ⟨⟨net.id, src_pin0.node, max_delay, src_wave, ops.get_route rg2⟩, by rw [hst1], ?_⟩
  intro p seg last hp hdist hseg hlen hlast hnode huniq
  obtain ⟨pwF, pdF, hwalk⟩ := delay_loop_last_pass ops ta allowed (build_node_to_pin netlist)
    src_wave src_pin0.node max_delay fuel rg1 pw1 _ req1 rg2 nd pw2 pd2 req2 hdl
  have hmap := build_node_to_pin_find netlist p hp hdist
  rw [hst1]
  show map_find pw2 p = some (src_wave + inner_registers seg)
  apply walk_pins_wave ta allowed (build_node_to_pin netlist) src_wave (ops.get_route rg2) p
    (src_wave + inner_registers seg) _ _ _ _ nd pw2 pd2 hwalk
  · intro q _ seg1 last1 k1 k2 k3 k4
    have hn := (build_node_to_pin_node netlist last1.id p k4).1
    have hq := huniq q seg1 last1 k1 k2 k3 hn.symm
    rw [hq, hseg] at k1
    injection k1 with k1
    rw [k1]
  · right
    exact ⟨p.id, horder rg2 _ p.id seg hseg, seg, last, hseg, hlen, hlast,
      by rw [hnode]; exact hmap⟩

/-- Instance of `process_net_pin_wave` on S1 with costs under which the
delay loop asks for one register: the final segment of p1 holds that
register and `pin_wave[p1]` is 1. -/
theorem process_net_pin_wave_witness :
    process_net s1_ops one_reg_ta 3 2 s1_netlist [(0, 0)] (build_node_to_pin s1_netlist)
        s1_nodes ⟨"I0", [], [pin_i0], [1]⟩ 0 s1_start 0 = .ok one_reg_state ∧
      (∀ entry ∈ s1_netlist, ∀ q ∈ entry.2.pins_, q.node = pin_p1.node → q = pin_p1) ∧
      map_find one_reg_state.pin_wave_ pin_p1
        = some (0 + inner_registers
          [cyclone.port_i0, cyclone.sb_out, cyclone.reg0, cyclone.sb_in, cyclone.port_p1]) := by
  refine ⟨by decide, by decide, ?_⟩
  obtain ⟨record, hrec, hall⟩ :=
    process_net_pin_wave s1_ops one_reg_ta 3 2 s1_netlist [(0, 0)] s1_nodes
      ⟨"I0", [], [pin_i0], [1]⟩ 0 s1_start one_reg_state 0 (by decide)
      (fun _ route p seg hp => map_find_keys route p seg hp)
  have hr : record = ⟨0, 0, 0, 0, s1_route_reg⟩ := by
    simp only [one_reg_state, s1_start, List.nil_append, List.cons.injEq, and_true] at hrec
    exact hrec.symm
  subst hr
  exact hall pin_p1 _ cyclone.port_p1 ⟨(0, ⟨0, [pin_i0, pin_p1]⟩), by decide, by decide⟩
    (by decide) (by decide) (by decide) (by decide) (by decide)
    (fun q seg1 last1 k1 _ _ _ => by
      simp only [s1_route_reg, map_find] at k1
      by_cases hq : 1 = q
      · exact hq.symm
      · rw [if_neg hq] at k1
        cases k1)

/-! ## A register placed right after the node that exceeds the delay -/

/-- Walking a segment to its end leaves the delay of every node that is not
on the walked part as it was. -/
theorem walk_segment_nd_frame (ta : TimingAnalysis) (allowed : Nat)
    (node_to_pin : List (Nat × Pin)) (src_wave : Nat) (last : cyclone.Node) (k : Nat) :
    ∀ (rest : List cyclone.Node) (pre : cyclone.Node) (num_reg : Nat)
      (nd : List (Nat × Nat)) (pw pd : List (Pin × Nat)) (nd1 : List (Nat × Nat))
      (pw1 pd1 : List (Pin × Nat)),
      walk_segment ta allowed node_to_pin src_wave last pre rest num_reg (nd, pw, pd)
        = .ok (.done nd1 pw1 pd1) →
      (∀ n ∈ rest, n.id ≠ k) → map_find nd1 k = map_find nd k := by
  intro rest
  induction rest with
  | nil =>
    intro pre num_reg nd pw pd nd1 pw1 pd1 h _
    simp only [walk_segment, Except.ok.injEq, PassResult.done.injEq] at h
    rw [h.1]
  | cons cur rest ih =>
    intro pre num_reg nd pw pd nd1 pw1 pd1 h hk
    unfold walk_segment at h
    cases hd0 : map_find nd pre.id with
    | none => simp [hd0] at h
    | some d0 =>
      simp only [hd0] at h
      have hcur : cur.id ≠ k := hk cur (List.mem_cons_self _ _)
      have key : ∀ (delay : Nat) (nd2 : List (Nat × Nat)) (nr : Nat),
          map_find nd2 k = map_find nd k →
          (if delay > allowed then Except.ok (PassResult.insert cur last nr pw pd)
            else
              match map_find node_to_pin last.id with
              | none => Except.error TimingError.out_of_range
              | some pin =>
                walk_segment ta allowed node_to_pin src_wave last cur rest nr
                  (map_set nd2 cur.id delay, map_set pw pin (src_wave + nr),
                    map_set pd pin delay)) = Except.ok (PassResult.done nd1 pw1 pd1) →
          map_find nd1 k = map_find nd k := by
        intro delay nd2 nr h2 hk2
        by_cases hgt : delay > allowed
        · rw [if_pos hgt] at hk2
          injection hk2 with hk2
          cases hk2
        · rw [if_neg hgt] at hk2
          cases hpin : map_find node_to_pin last.id with
          | none => simp [hpin] at hk2
          | some pin =>
            simp only [hpin] at hk2
            rw [ih cur nr _ _ _ nd1 pw1 pd1 hk2 (fun n hn => hk n (List.mem_cons_of_mem _ hn)),
              map_find_set_ne _ _ _ _ hcur, h2]
      by_cases hreg : cur.type = cyclone.NodeType.Register ∧ rest ≠ []
      · simp only [hreg, and_self, if_true, ne_eq, not_false_eq_true] at h
        exact key 0 _ _ (map_find_set_ne _ _ _ _ hcur) h
      · simp only [hreg, if_false] at h
        cases hgd : ta.get_delay cur with
        | error e => simp [hgd] at h
        | ok c =>
          simp only [hgd] at h
          exact key _ _ _ rfl h

theorem getLast?_cons_of_some {α : Type} (a x : α) (l : List α) (h : l.getLast? = some x) :
    (a :: l).getLast? = some x := by
  cases l with
  | nil => simp at h
  | cons b rest => rw [List.getLast?_cons_cons]; exact h

/-- A pass stops at a register only when the register ends the segment. -/
theorem walk_segment_insert_type (ta : TimingAnalysis) (allowed : Nat)
    (node_to_pin : List (Nat × Pin)) (src_wave : Nat) (last : cyclone.Node) :
    ∀ (rest : List cyclone.Node) (pre : cyclone.Node) (num_reg : Nat)
      (nd : List (Nat × Nat)) (pw pd : List (Pin × Nat)) (cur l : cyclone.Node) (nr : Nat)
      (pw1 pd1 : List (Pin × Nat)),
      walk_segment ta allowed node_to_pin src_wave last pre rest num_reg (nd, pw, pd)
        = .ok (.insert cur l nr pw1 pd1) →
      cur.type = cyclone.NodeType.Register → rest.getLast? = some cur := by
  intro rest
  induction rest with
  | nil =>
    intro pre num_reg nd pw pd cur l nr pw1 pd1 h _
    simp [walk_segment] at h
  | cons c rest ih =>
    intro pre num_reg nd pw pd cur l nr pw1 pd1 h hct
    unfold walk_segment at h
    cases hd0 : map_find nd pre.id with
    | none => simp [hd0] at h
    | some d0 =>
      simp only [hd0] at h
      have key : ∀ (delay : Nat) (nd2 : List (Nat × Nat)) (nr2 : Nat),
          (delay > allowed → c.type = cyclone.NodeType.Register → rest = []) →
          (if delay > allowed then Except.ok (PassResult.insert c last nr2 pw pd)
            else
              match map_find node_to_pin last.id with
              | none => Except.error TimingError.out_of_range
              | some pin =>
                walk_segment ta allowed node_to_pin src_wave last c rest nr2
                  (map_set nd2 c.id delay, map_set pw pin (src_wave + nr2),
                    map_set pd pin delay)) = Except.ok (PassResult.insert cur l nr pw1 pd1) →
          (c :: rest).getLast? = some cur := by
        intro delay nd2 nr2 hlast hk2
        by_cases hgt : delay > allowed
        · rw [if_pos hgt] at hk2
          simp only [Except.ok.injEq, PassResult.insert.injEq] at hk2
          have hc := hk2.1
          subst hc
          rw [hlast hgt hct]
          rfl
        · rw [if_neg hgt] at hk2
          cases hpin : map_find node_to_pin last.id with
          | none => simp [hpin] at hk2
          | some pin =>
            simp only [hpin] at hk2
            exact getLast?_cons_of_some _ _ _ (ih c nr2 _ _ _ cur l nr pw1 pd1 hk2 hct)
      by_cases hreg : c.type = cyclone.NodeType.Register ∧ rest ≠ []
      · simp only [hreg, and_self, if_true, ne_eq, not_false_eq_true] at h
        exact key 0 _ _ (fun hgt => absurd hgt (Nat.not_lt_zero _)) h
      · simp only [hreg, if_false] at h
        cases hgd : ta.get_delay c with
        | error e => simp [hgd] at h
        | ok cc =>
          simp only [hgd] at h
          refine key _ _ _ (fun _ hty => ?_) h
          by_contra hne
          exact hreg ⟨hty, hne⟩

/-- A pass that stops at a node `cur` other than a register on a segment
stops again, or fails, on every segment with the same nodes up to and
including `cur`, whatever follows and whatever the recorded waves and
delays are, as long as the delay of the node before the walked part is the
same. -/
theorem walk_segment_repeat (ta : TimingAnalysis) (allowed : Nat)
    (node_to_pin : List (Nat × Pin)) (src_wave : Nat) (last : cyclone.Node)
    (cur : cyclone.Node) (hcur : cur.type ≠ cyclone.NodeType.Register) :
    ∀ (rest : List cyclone.Node) (pre : cyclone.Node) (num_reg : Nat)
      (nd : List (Nat × Nat)) (pw pd : List (Pin × Nat)) (l : cyclone.Node) (nr : Nat)
      (pw1 pd1 : List (Pin × Nat)) (d0 : Nat),
      walk_segment ta allowed node_to_pin src_wave last pre rest num_reg (nd, pw, pd)
        = .ok (.insert cur l nr pw1 pd1) →
      map_find nd pre.id = some d0 →
      ∃ before after, rest = before ++ cur :: after ∧
        ∀ (last1 : cyclone.Node) (after1 : List cyclone.Node) (num_reg2 : Nat)
          (nd2 : List (Nat × Nat)) (pw2 pd2 : List (Pin × Nat)) (nd3 : List (Nat × Nat))
          (pw3 pd3 : List (Pin × Nat)),
          map_find nd2 pre.id = some d0 →
          walk_segment ta allowed node_to_pin src_wave last1 pre (before ++ cur :: after1)
            num_reg2 (nd2, pw2, pd2) ≠ .ok (.done nd3 pw3 pd3) := by
  intro rest
  induction rest with
  | nil =>
    intro pre num_reg nd pw pd l nr pw1 pd1 d0 h _
    simp [walk_segment] at h
  | cons c rest ih =>
    intro pre num_reg nd pw pd l nr pw1 pd1 d0 h hd0
    unfold walk_segment at h
    simp only [hd0] at h
    by_cases hreg : c.type = cyclone.NodeType.Register ∧ rest ≠ []
    · simp only [hreg, and_self, if_true, ne_eq, not_false_eq_true] at h
      rw [if_neg (Nat.not_lt_zero _)] at h
      cases hpin : map_find node_to_pin last.id with
      | none => simp [hpin] at h
      | some pin =>
        simp only [hpin] at h
        obtain ⟨before, after, hrest, hrep⟩ :=
          ih c _ _ _ _ l nr pw1 pd1 0 h (map_find_set_eq _ _ _)
        refine ⟨c :: before, after, by rw [hrest]; rfl, ?_⟩
        intro last1 after1 num_reg2 nd2 pw2 pd2 nd3 pw3 pd3 hd2 hw
        rw [List.cons_append] at hw
        unfold walk_segment at hw
        simp only [hd2] at hw
        have hne : before ++ cur :: after1 ≠ [] := by simp
        simp only [hreg.1, hne, and_self, if_true, ne_eq, not_false_eq_true] at hw
        rw [if_neg (Nat.not_lt_zero _)] at hw
        cases hpin1 : map_find node_to_pin last1.id with
        | none => simp [hpin1] at hw
        | some pin1 =>
          simp only [hpin1] at hw
          exact hrep last1 after1 _ _ _ _ nd3 pw3 pd3 (map_find_set_eq _ _ _) hw
    · simp only [hreg, if_false] at h
      cases hgd : ta.get_delay c with
      | error e => simp [hgd] at h
      | ok cc =>
        simp only [hgd] at h
        by_cases hgt : (d0 + cc) % 2 ^ 64 > allowed
        · rw [if_pos hgt] at h
          simp only [Except.ok.injEq, PassResult.insert.injEq] at h
          have hc := h.1
          subst hc
          refine ⟨[], rest, rfl, ?_⟩
          intro last1 after1 num_reg2 nd2 pw2 pd2 nd3 pw3 pd3 hd2 hw
          rw [List.nil_append] at hw
          unfold walk_segment at hw
          simp only [hd2, hcur, false_and, if_false, hgd] at hw
          rw [if_pos hgt] at hw
          injection hw with hw
          cases hw
        · rw [if_neg hgt] at h
          cases hpin : map_find node_to_pin last.id with
          | none => simp [hpin] at h
          | some pin =>
            simp only [hpin] at h
            obtain ⟨before, after, hrest, hrep⟩ :=
              ih c _ _ _ _ l nr pw1 pd1 _ h (map_find_set_eq _ _ _)
            have hnr : c.type ≠ cyclone.NodeType.Register := by
              intro hty
              exact hreg ⟨hty, by rw [hrest]; simp⟩
            refine ⟨c :: before, after, by rw [hrest]; rfl, ?_⟩
            intro last1 after1 num_reg2 nd2 pw2 pd2 nd3 pw3 pd3 hd2 hw
            rw [List.cons_append] at hw
            unfold walk_segment at hw
            simp only [hd2, hnr, false_and, if_false, hgd] at hw
            rw [if_neg hgt] at hw
            cases hpin1 : map_find node_to_pin last1.id with
            | none => simp [hpin1] at hw
            | some pin1 =>
              simp only [hpin1] at hw
              exact hrep last1 after1 _ _ _ _ nd3 pw3 pd3 (map_find_set_eq _ _ _) hw

/-- In a route whose segments do not end at a register, a pass never stops at
a register. -/
theorem walk_pins_insert_type (ta : TimingAnalysis) (allowed : Nat)
    (node_to_pin : List (Nat × Pin)) (src_wave : Nat) (segments : Route)
    (hend : ∀ p seg last, map_find segments p = some seg → seg.getLast? = some last →
      last.type ≠ cyclone.NodeType.Register) :
    ∀ (order : List Nat) (nd : List (Nat × Nat)) (pw pd : List (Pin × Nat))
      (cur l : cyclone.Node) (nr : Nat) (pw1 pd1 : List (Pin × Nat)),
      walk_pins ta allowed node_to_pin src_wave segments order (nd, pw, pd)
        = .ok (.insert cur l nr pw1 pd1) → cur.type ≠ cyclone.NodeType.Register := by
  intro order
  induction order with
  | nil => intro nd pw pd cur l nr pw1 pd1 h; simp [walk_pins] at h
  | cons q rest ih =>
    intro nd pw pd cur l nr pw1 pd1 h
    unfold walk_pins at h
    cases hseg : map_find segments q with
    | none => simp [hseg] at h
    | some segment =>
      simp only [hseg] at h
      cases segment with
      | nil => exact ih nd pw pd cur l nr pw1 pd1 h
      | cons first tail =>
        simp only at h
        cases hw : walk_segment ta allowed node_to_pin src_wave
            ((first :: tail).getLast (List.cons_ne_nil _ _)) first tail 0 (nd, pw, pd) with
        | error e => simp [hw] at h
        | ok r =>
          cases r with
          | done nd2 pw2 pd2 =>
            simp only [hw] at h
            exact ih nd2 pw2 pd2 cur l nr pw1 pd1 h
          | insert cur2 l2 nr2 pw2 pd2 =>
            simp only [hw, Except.ok.injEq, PassResult.insert.injEq] at h
            intro hty
            have hc := h.1
            subst hc
            have hl := walk_segment_insert_type ta allowed node_to_pin src_wave _ tail first 0
              nd pw pd cur2 l2 nr2 pw2 pd2 hw hty
            exact hend q (first :: tail) cur2 hseg (getLast?_cons_of_some _ _ _ hl) hty

/-- A pass that walks all segments of a route whose segments start at the
driver has, after the first pin, the driver's delay still in place. -/
theorem walk_pins_done_tail (ta : TimingAnalysis) (allowed : Nat)
    (node_to_pin : List (Nat × Pin)) (src_wave : Nat) (route : Route)
    (source_node max_delay : Nat)
    (hfrom : ∀ p seg, map_find route p = some seg → FromDriver source_node seg)
    (q : Nat) (rest : List Nat) (nd : List (Nat × Nat)) (pw pd : List (Pin × Nat))
    (nd3 : List (Nat × Nat)) (pw3 pd3 : List (Pin × Nat))
    (h : walk_pins ta allowed node_to_pin src_wave route (q :: rest) (nd, pw, pd)
      = .ok (.done nd3 pw3 pd3))
    (hsrc : map_find nd source_node = some max_delay) :
    ∃ ndB pwB pdB, map_find ndB source_node = some max_delay ∧
      walk_pins ta allowed node_to_pin src_wave route rest (ndB, pwB, pdB)
        = .ok (.done nd3 pw3 pd3) := by
  unfold walk_pins at h
  cases hseg : map_find route q with
  | none => simp [hseg] at h
  | some segment =>
    simp only [hseg] at h
    cases segment with
    | nil => exact ⟨nd, pw, pd, hsrc, h⟩
    | cons first tail =>
      simp only at h
      cases hw : walk_segment ta allowed node_to_pin src_wave
          ((first :: tail).getLast (List.cons_ne_nil _ _)) first tail 0 (nd, pw, pd) with
      | error e => simp [hw] at h
      | ok r =>
        cases r with
        | insert cur2 l2 nr2 pw2 pd2 => simp [hw] at h
        | done ndB pwB pdB =>
          simp only [hw] at h
          refine ⟨ndB, pwB, pdB, ?_, h⟩
          rw [walk_segment_nd_frame ta allowed node_to_pin src_wave _ source_node tail first 0
            nd pw pd ndB pwB pdB hw (hfrom q _ hseg first tail rfl).2]
          exact hsrc

/-- A pass that walks all segments walked the segment of its first pin. -/
theorem walk_pins_cons_done (ta : TimingAnalysis) (allowed : Nat)
    (node_to_pin : List (Nat × Pin)) (src_wave : Nat) (route : Route)
    (q : Nat) (rest : List Nat) (nd : List (Nat × Nat)) (pw pd : List (Pin × Nat))
    (nd3 : List (Nat × Nat)) (pw3 pd3 : List (Pin × Nat)) (first : cyclone.Node)
    (tail : List cyclone.Node)
    (h : walk_pins ta allowed node_to_pin src_wave route (q :: rest) (nd, pw, pd)
      = .ok (.done nd3 pw3 pd3))
    (hseg : map_find route q = some (first :: tail)) :
    ∃ last ndB pwB pdB,
      walk_segment ta allowed node_to_pin src_wave last first tail 0 (nd, pw, pd)
        = .ok (.done ndB pwB pdB) := by
  unfold walk_pins at h
  simp only [hseg] at h
  cases hw : walk_segment ta allowed node_to_pin src_wave
      ((first :: tail).getLast (List.cons_ne_nil _ _)) first tail 0 (nd, pw, pd) with
  | error e => simp [hw] at h
  | ok r =>
    cases r with
    | insert cur2 l2 nr2 pw2 pd2 => simp [hw] at h
    | done ndB pwB pdB => exact ⟨_, ndB, pwB, pdB, hw⟩

/-- A pass that stops at a node `cur` other than a register does not walk
all segments of a route in which a register was placed right after `cur`,
whatever the recorded waves and delays are. -/
theorem walk_pins_repeat (ta : TimingAnalysis) (allowed : Nat) (node_to_pin : List (Nat × Pin))
    (src_wave : Nat) (route route1 : Route) (source_node max_delay : Nat) (cur : cyclone.Node)
    (hcur : cur.type ≠ cyclone.NodeType.Register)
    (hfrom : ∀ p seg, map_find route p = some seg → FromDriver source_node seg)
    (hfrom1 : ∀ p seg, map_find route1 p = some seg → FromDriver source_node seg)
    (hplaced : PlacedAfter cur route route1) :
    ∀ (order : List Nat) (nd : List (Nat × Nat)) (pw pd : List (Pin × Nat))
      (l : cyclone.Node) (nr : Nat) (pw1 pd1 : List (Pin × Nat)),
      walk_pins ta allowed node_to_pin src_wave route order (nd, pw, pd)
        = .ok (.insert cur l nr pw1 pd1) →
      map_find nd source_node = some max_delay →
      ∀ (nd2 : List (Nat × Nat)) (pw2 pd2 : List (Pin × Nat)) (nd3 : List (Nat × Nat))
        (pw3 pd3 : List (Pin × Nat)), map_find nd2 source_node = some max_delay →
        walk_pins ta allowed node_to_pin src_wave route1 order (nd2, pw2, pd2)
          ≠ .ok (.done nd3 pw3 pd3) := by
  intro order
  induction order with
  | nil => intro nd pw pd l nr pw1 pd1 h; simp [walk_pins] at h
  | cons q rest ih =>
    intro nd pw pd l nr pw1 pd1 h hsrc nd2 pw2 pd2 nd3 pw3 pd3 hsrc2 h2
    unfold walk_pins at h
    cases hseg : map_find route q with
    | none => simp [hseg] at h
    | some segment =>
      simp only [hseg] at h
      cases segment with
      | nil =>
        simp only at h
        obtain ⟨ndB, pwB, pdB, hB, hrest⟩ := walk_pins_done_tail ta allowed node_to_pin src_wave
          route1 source_node max_delay hfrom1 q rest nd2 pw2 pd2 nd3 pw3 pd3 h2 hsrc2
        exact ih nd pw pd l nr pw1 pd1 h hsrc ndB pwB pdB nd3 pw3 pd3 hB hrest
      | cons first tail =>
        simp only at h
        have hfd := hfrom q _ hseg first tail rfl
        cases hw : walk_segment ta allowed node_to_pin src_wave
            ((first :: tail).getLast (List.cons_ne_nil _ _)) first tail 0 (nd, pw, pd) with
        | error e => simp [hw] at h
        | ok r =>
          cases r with
          | done ndA pwA pdA =>
            simp only [hw] at h
            have hA : map_find ndA source_node = some max_delay := by
              rw [walk_segment_nd_frame ta allowed node_to_pin src_wave _ source_node tail first
                0 nd pw pd ndA pwA pdA hw hfd.2]
              exact hsrc
            obtain ⟨ndB, pwB, pdB, hB, hrest⟩ := walk_pins_done_tail ta allowed node_to_pin
              src_wave route1 source_node max_delay hfrom1 q rest nd2 pw2 pd2 nd3 pw3 pd3 h2 hsrc2
            exact ih ndA pwA pdA l nr pw1 pd1 h hA ndB pwB pdB nd3 pw3 pd3 hB hrest
          | insert cur2 l2 nr2 pwA pdA =>
            simp only [hw, Except.ok.injEq, PassResult.insert.injEq] at h
            have hc := h.1
            subst hc
            obtain ⟨before, after, htail, hrep⟩ := walk_segment_repeat ta allowed node_to_pin
              src_wave _ cur2 hcur tail first 0 nd pw pd l2 nr2 pwA pdA max_delay hw
              (by rw [hfd.1]; exact hsrc)
            obtain ⟨reg, _, hseg1⟩ := hplaced q (first :: before) after
              (by rw [hseg, htail]; rfl)
            obtain ⟨last1, ndB, pwB, pdB, hw2⟩ := walk_pins_cons_done ta allowed node_to_pin
              src_wave route1 q rest nd2 pw2 pd2 nd3 pw3 pd3 first
              (before ++ cur2 :: reg :: after) h2 hseg1
            exact hrep last1 (reg :: after) 0 nd2 pw2 pd2 ndB pwB pdB
              (by rw [hfd.1]; exact hsrc2) hw2

/-- Once no pass over a routed graph can walk all segments, and this stays so
after every insertion, the delay loop does not return. -/
theorem delay_loop_never {RG : Type} (ops : RoutedGraphOps RG) (ta : TimingAnalysis)
    (allowed : Nat) (node_to_pin : List (Nat × Pin)) (src_wave source_node max_delay : Nat)
    (inv : RG → Prop)
    (hinv : ∀ rg, inv rg →
      NeverDone ops ta allowed node_to_pin src_wave source_node max_delay rg)
    (hstep : ∀ rg, inv rg → ∀ pw pd cur last nr pw1 pd1,
      walk_pins ta allowed node_to_pin src_wave (ops.get_route rg)
        (ops.pin_order rg (ops.get_route rg)) ([(source_node, max_delay)], pw, pd)
        = .ok (.insert cur last nr pw1 pd1) → inv (ops.insert_reg_output rg cur true).1) :
    ∀ (fuel : Nat) (rg : RG) (pw pd : List (Pin × Nat)) (req : List Request)
      (out : RG × List (Nat × Nat) × List (Pin × Nat) × List (Pin × Nat) × List Request),
      inv rg →
      delay_loop ops ta allowed node_to_pin src_wave source_node max_delay fuel
        (rg, pw, pd, req) ≠ .ok out := by
  intro fuel
  induction fuel with
  | zero => intro rg pw pd req out _ h; simp [delay_loop] at h
  | succ fuel ih =>
    intro rg pw pd req out hrg h
    unfold delay_loop at h
    simp only at h
    cases hw : walk_pins ta allowed node_to_pin src_wave (ops.get_route rg)
        (ops.pin_order rg (ops.get_route rg)) ([(source_node, max_delay)], pw, pd) with
    | error e => simp [hw] at h
    | ok r =>
      cases r with
      | done nd1 pw1 pd1 => exact hinv rg hrg pw pd nd1 pw1 pd1 hw
      | insert cur last nr pw1 pd1 =>
        simp only [hw] at h
        by_cases hempty : (ops.insert_reg_output rg cur true).2 = []
        · simp [hempty] at h
        · rw [if_neg hempty] at h
          cases hpin : map_find node_to_pin last.id with
          | none => simp [hpin] at h
          | some pin =>
            simp only [hpin] at h
            exact ih _ _ _ _ out (hstep rg hrg pw pd cur last nr pw1 pd1 hw) h

/-- Counterexample to C24 as stated: the segment of the pin r ends at the
register node `reg_end`, where the first pass finds the delay 2 + 1 over the
allowed delay 2 and asks for a register.  The routed graph places the
register right after `reg_end` and keeps the route up to `reg_end` and the
pin order.  In the next pass `reg_end` is a register inside its segment, its
delay is reset to 0, the pass walks all segments without insertion, and the
loop and `retime` return. -/
theorem delay_loop_returns_after_insertion_counterexample :
    segment_delays reg_ta 0 [cyclone.port_i0, cyclone.sb_out, cyclone.reg_end] = .ok [0, 2, 3] ∧
      walk_pins reg_ta 2 (build_node_to_pin endreg_netlist) 0 endreg_route
          (after_ops.pin_order endreg_route endreg_route)
          ([(0, 0)], [(pin_i0, 0)], [(pin_i0, 0)])
        = .ok (.insert cyclone.reg_end cyclone.reg_end 0 [(pin_i0, 0), (pin_r, 0)]
            [(pin_i0, 0), (pin_r, 2)]) ∧
      after_ops.insert_reg_output endreg_route cyclone.reg_end true = (endreg_route_after, [1]) ∧
      after_ops.pin_order endreg_route_after endreg_route_after
        = after_ops.pin_order endreg_route endreg_route ∧
      walk_pins reg_ta 2 (build_node_to_pin endreg_netlist) 0 endreg_route_after
          (after_ops.pin_order endreg_route_after endreg_route_after)
          ([(0, 0)], [(pin_i0, 0), (pin_r, 1)], [(pin_i0, 0), (pin_r, 2)])
        = .ok (.done [(0, 0), (1, 2), (5, 0), (99, 1)]
            [(pin_i0, 0), (pin_r, 1), (pin_q, 0)] [(pin_i0, 0), (pin_r, 2), (pin_q, 1)]) ∧
      (retime after_ops reg_ta endreg_routers [0, 1, 2] 3).map
        (fun out => (out.state.requests, out.state.final_result))
        = .ok ([Request.reg_output cyclone.reg_end true], [(0, endreg_route_after)]) := by
  decide

/-- C24, amended: let the routed graphs in `good` have segments that start
at the driver's node, and let every pass over such a graph that finds the
delay at a node `cur` over the allowed delay do so at a node that is not a
register, `insert_reg_output` then giving a graph in `good` with the same
pin order whose route has a register immediately after `cur`, the route up
to and including `cur` being kept.  If a pass over such a graph finds the
delay at `cur` over the allowed delay, then no pass over the graph with the
register walks all segments (it ends in another insertion or in an
exception), and the delay loop never returns.  The node `cur` may be the
last node of its segment. -/
theorem delay_loop_insertion_repeats {RG : Type} (ops : RoutedGraphOps RG)
    (ta : TimingAnalysis) (allowed : Nat) (node_to_pin : List (Nat × Pin))
    (src_wave source_node max_delay : Nat) (good : RG → Prop)
    (hfrom : ∀ rg, good rg → ∀ p seg, map_find (ops.get_route rg) p = some seg →
      FromDriver source_node seg)
    (hins : ∀ rg, good rg → ∀ pw pd cur last nr pw1 pd1,
      walk_pins ta allowed node_to_pin src_wave (ops.get_route rg)
        (ops.pin_order rg (ops.get_route rg)) ([(source_node, max_delay)], pw, pd)
        = .ok (.insert cur last nr pw1 pd1) →
      cur.type ≠ cyclone.NodeType.Register ∧
        good (ops.insert_reg_output rg cur true).1 ∧
        ops.pin_order (ops.insert_reg_output rg cur true).1
            (ops.get_route (ops.insert_reg_output rg cur true).1)
          = ops.pin_order rg (ops.get_route rg) ∧
        PlacedAfter cur (ops.get_route rg) (ops.get_route (ops.insert_reg_output rg cur true).1))
    (rg : RG) (hg : good rg) (pw pd : List (Pin × Nat)) (cur last : cyclone.Node) (nr : Nat)
    (pw1 pd1 : List (Pin × Nat))
    (h : walk_pins ta allowed node_to_pin src_wave (ops.get_route rg)
      (ops.pin_order rg (ops.get_route rg)) ([(source_node, max_delay)], pw, pd)
      = .ok (.insert cur last nr pw1 pd1)) :
    NeverDone ops ta allowed node_to_pin src_wave source_node max_delay
        (ops.insert_reg_output rg cur true).1 ∧
      ∀ fuel req out,
        delay_loop ops ta allowed node_to_pin src_wave source_node max_delay fuel
          (rg, pw, pd, req) ≠ .ok out := by
  have hsrc : map_find [(source_node, max_delay)] source_node = some max_delay := by
    simp [map_find]
  have hstep : ∀ rg, good rg → ∀ pw pd cur last nr pw1 pd1,
      walk_pins ta allowed node_to_pin src_wave (ops.get_route rg)
        (ops.pin_order rg (ops.get_route rg)) ([(source_node, max_delay)], pw, pd)
        = .ok (.insert cur last nr pw1 pd1) →
      NeverDone ops ta allowed node_to_pin src_wave source_node max_delay
        (ops.insert_reg_output rg cur true).1 := by
    intro rg hrg pw pd cur last nr pw1 pd1 hw
    obtain ⟨hcur, hg1, hord, hplaced⟩ := hins rg hrg pw pd cur last nr pw1 pd1 hw
    intro pw2 pd2 nd3 pw3 pd3
    rw [hord]
    exact walk_pins_repeat ta allowed node_to_pin src_wave (ops.get_route rg) _ source_node
      max_delay cur hcur (hfrom rg hrg) (hfrom _ hg1) hplaced _ _ _ _ last nr pw1 pd1 hw hsrc
      _ pw2 pd2 nd3 pw3 pd3 hsrc
  have hnever : NeverDone ops ta allowed node_to_pin src_wave source_node max_delay rg := by
    intro pw2 pd2 nd3 pw3 pd3 hdone
    obtain ⟨pw4, pd4, hw4, _⟩ := walk_pins_ext ta allowed node_to_pin src_wave
      (ops.get_route rg) _ _ pw2 pd2 pw pd nd3 pw3 pd3 hdone
    rw [h] at hw4
    injection hw4 with hw4
    cases hw4
  refine ⟨hstep rg hg pw pd cur last nr pw1 pd1 h, ?_⟩
  intro fuel req out
  exact delay_loop_never ops ta allowed node_to_pin src_wave source_node max_delay
    (fun r => good r ∧ NeverDone ops ta allowed node_to_pin src_wave source_node max_delay r)
    (fun r hr => hr.2)
    (fun r hr pw pd cur last nr pw1 pd1 hw =>
      ⟨(hins r hr.1 pw pd cur last nr pw1 pd1 hw).2.1,
        hstep r hr.1 pw pd cur last nr pw1 pd1 hw⟩)
    fuel rg pw pd req out ⟨hg, hnever⟩

/-! ### The instance: S1 with a slow switch box -/

theorem piped_find (n p : Nat) (seg : List cyclone.Node)
    (h : map_find (piped_route n) p = some seg) :
    p = 1 ∧ seg = cyclone.port_i0 :: cyclone.sb_out ::
      (List.replicate n cyclone.pipe_reg ++ [cyclone.sb_in, cyclone.port_p1]) := by
  simp only [piped_route, map_find] at h
  by_cases hp : 1 = p
  · rw [if_pos hp] at h
    injection h with h
    exact ⟨hp.symm, h.symm⟩
  · rw [if_neg hp] at h
    cases h

theorem piped_mem (n : Nat) (x : cyclone.Node)
    (hx : x ∈ List.replicate n cyclone.pipe_reg ++ [cyclone.sb_in, cyclone.port_p1]) :
    x = cyclone.pipe_reg ∨ x = cyclone.sb_in ∨ x = cyclone.port_p1 := by
  rcases List.mem_append.1 hx with h | h
  · exact Or.inl (List.eq_of_mem_replicate h)
  · simp only [List.mem_cons, List.mem_singleton, List.not_mem_nil, or_false] at h
    exact Or.inr h

theorem piped_from_driver (n p : Nat) (seg : List cyclone.Node)
    (h : map_find (after_ops.get_route (piped_route n)) p = some seg) : FromDriver 0 seg := by
  obtain ⟨_, hseg⟩ := piped_find n p seg h
  intro first tail hft
  rw [hseg] at hft
  injection hft with h1 h2
  refine ⟨by rw [← h1]; rfl, ?_⟩
  intro x hx
  rw [← h2] at hx
  rcases List.mem_cons.1 hx with rfl | hx1
  · decide
  · rcases piped_mem n x hx1 with rfl | rfl | rfl <;> decide

theorem piped_pass (n : Nat) (node_to_pin : List (Nat × Pin)) (pw pd : List (Pin × Nat))
    (cur last : cyclone.Node) (nr : Nat) (pw1 pd1 : List (Pin × Nat))
    (h : walk_pins sb_ta 2 node_to_pin 0 (after_ops.get_route (piped_route n))
      (after_ops.pin_order (piped_route n) (after_ops.get_route (piped_route n)))
      ([(0, 0)], pw, pd) = .ok (.insert cur last nr pw1 pd1)) : cur = cyclone.sb_out := by
  have hw : ∀ l, walk_segment sb_ta 2 node_to_pin 0 l cyclone.port_i0
      (cyclone.sb_out :: (List.replicate n cyclone.pipe_reg ++
        [cyclone.sb_in, cyclone.port_p1])) 0 ([(0, 0)], pw, pd)
      = .ok (.insert cyclone.sb_out l 0 pw pd) := by
    intro l
    unfold walk_segment
    rfl
  simp only [after_ops, piped_route, List.map_cons, List.map_nil, walk_pins, map_find,
    if_true, hw, Except.ok.injEq, PassResult.insert.injEq] at h
  exact h.1.symm

theorem piped_after (n : Nat) :
    (after_ops.insert_reg_output (piped_route n) cyclone.sb_out true).1 = piped_route (n + 1) := by
  rfl

theorem piped_placed (n : Nat) :
    PlacedAfter cyclone.sb_out (piped_route n) (piped_route (n + 1)) := by
  intro k pre post h
  obtain ⟨hk, hseg⟩ := piped_find n k _ h
  subst hk
  refine ⟨cyclone.pipe_reg, rfl, ?_⟩
  cases pre with
  | nil =>
    simp only [List.nil_append, List.cons.injEq] at hseg
    exact absurd hseg.1 (by decide)
  | cons a pre1 =>
    simp only [List.cons_append, List.cons.injEq] at hseg
    obtain ⟨ha, hrest⟩ := hseg
    cases pre1 with
    | nil =>
      simp only [List.nil_append, List.cons.injEq, true_and] at hrest
      rw [ha, hrest]
      rfl
    | cons b pre2 =>
      simp only [List.cons_append, List.cons.injEq] at hrest
      have hmem : cyclone.sb_out ∈
          List.replicate n cyclone.pipe_reg ++ [cyclone.sb_in, cyclone.port_p1] := by
        rw [← hrest.2]
        simp
      rcases piped_mem n _ hmem with h1 | h1 | h1 <;> exact absurd h1 (by decide)

/-! ### The instance: S1, where the receiver port exceeds the delay -/

theorem single_route_find (k : Nat) (segment : List cyclone.Node) (p : Nat)
    (seg : List cyclone.Node) (h : map_find [(k, segment)] p = some seg) : seg = segment := by
  simp only [map_find] at h
  by_cases hp : k = p
  · rw [if_pos hp] at h
    injection h with h
    exact h.symm
  · rw [if_neg hp] at h
    cases h

theorem s1_from_driver (rg : Route) (hrg : rg = s1_route ∨ rg = s1_route_after) (p : Nat)
    (seg : List cyclone.Node) (h : map_find (after_ops.get_route rg) p = some seg) :
    FromDriver 0 seg := by
  rcases hrg with rfl | rfl
  · have hs := single_route_find _ _ p seg h
    intro first tail hft
    rw [hs] at hft
    injection hft with h1 h2
    rw [← h1, ← h2]
    exact ⟨rfl, by decide⟩
  · have hs := single_route_find _ _ p seg h
    intro first tail hft
    rw [hs] at hft
    injection hft with h1 h2
    rw [← h1, ← h2]
    exact ⟨rfl, by decide⟩

theorem s1_pass (pw pd : List (Pin × Nat)) :
    walk_pins s1_ta 2 (build_node_to_pin s1_netlist) 0 (after_ops.get_route s1_route)
        (after_ops.pin_order s1_route (after_ops.get_route s1_route)) ([(0, 0)], pw, pd)
      = .ok (.insert cyclone.port_p1 cyclone.port_p1 0
          (map_set (map_set pw pin_p1 0) pin_p1 0) (map_set (map_set pd pin_p1 0) pin_p1 0)) := by
  rfl

theorem s1_after_pass (pw pd : List (Pin × Nat)) :
    walk_pins s1_ta 2 (build_node_to_pin s1_netlist) 0 (after_ops.get_route s1_route_after)
        (after_ops.pin_order s1_route_after (after_ops.get_route s1_route_after))
        ([(0, 0)], pw, pd)
      = .error .out_of_range := by
  rfl

theorem s1_placed : PlacedAfter cyclone.port_p1 s1_route s1_route_after := by
  intro k pre post h
  have hseg := single_route_find _ _ k _ h
  have hk : k = 1 := by
    simp only [s1_route, map_find] at h
    by_cases hp : 1 = k
    · exact hp.symm
    · rw [if_neg hp] at h
      cases h
  subst hk
  refine ⟨cyclone.pipe_reg, rfl, ?_⟩
  have hpost : pre = [cyclone.port_i0, cyclone.sb_out, cyclone.sb_in] ∧ post = [] := by
    rcases pre with _ | ⟨a, _ | ⟨b, _ | ⟨c, _ | ⟨d, pre4⟩⟩⟩⟩
    · simp only [List.nil_append, List.cons.injEq] at hseg
      exact absurd hseg.1 (by decide)
    · simp only [List.cons_append, List.nil_append, List.cons.injEq] at hseg
      exact absurd hseg.2.1 (by decide)
    · simp only [List.cons_append, List.nil_append, List.cons.injEq] at hseg
      exact absurd hseg.2.2.1 (by decide)
    · simp only [List.cons_append, List.nil_append, List.cons.injEq, true_and] at hseg
      obtain ⟨h1, h2, h3, h4⟩ := hseg
      rw [h1, h2, h3]
      exact ⟨rfl, h4⟩
    · simp only [List.cons_append, List.cons.injEq] at hseg
      have := hseg.2.2.2.2
      simp at this
  rw [hpost.1, hpost.2]
  rfl

/-- Instances of `delay_loop_insertion_repeats`.  On S1 the pass stops at the
receiver port, the last node of the segment; the register is placed after
it and the loop ends by the exception of `node_to_pin.at`.  With a switch
box cost over the allowed delay every pass stops at the switch box output
right after the driver, a register is placed after it each time, and the
loop does not return for any budget. -/
theorem delay_loop_insertion_repeats_witness :
    (walk_pins s1_ta 2 (build_node_to_pin s1_netlist) 0 (after_ops.get_route s1_route)
        (after_ops.pin_order s1_route (after_ops.get_route s1_route))
        ([(0, 0)], [(pin_i0, 0)], [(pin_i0, 0)])
      = .ok (.insert cyclone.port_p1 cyclone.port_p1 0 [(pin_i0, 0), (pin_p1, 0)]
          [(pin_i0, 0), (pin_p1, 0)]) ∧
      (after_ops.insert_reg_output s1_route cyclone.port_p1 true).1 = s1_route_after ∧
      NeverDone after_ops s1_ta 2 (build_node_to_pin s1_netlist) 0 0 0
        (after_ops.insert_reg_output s1_route cyclone.port_p1 true).1 ∧
      ∀ fuel req out,
        delay_loop after_ops s1_ta 2 (build_node_to_pin s1_netlist) 0 0 0 fuel
          (s1_route, [(pin_i0, 0)], [(pin_i0, 0)], req) ≠ .ok out) ∧
    (walk_pins sb_ta 2 (build_node_to_pin s1_netlist) 0 (after_ops.get_route (piped_route 0))
        (after_ops.pin_order (piped_route 0) (after_ops.get_route (piped_route 0)))
        ([(0, 0)], [(pin_i0, 0)], [(pin_i0, 0)])
      = .ok (.insert cyclone.sb_out cyclone.port_p1 0 [(pin_i0, 0)] [(pin_i0, 0)]) ∧
      NeverDone after_ops sb_ta 2 (build_node_to_pin s1_netlist) 0 0 0
        (after_ops.insert_reg_output (piped_route 0) cyclone.sb_out true).1 ∧
      ∀ fuel req out,
        delay_loop after_ops sb_ta 2 (build_node_to_pin s1_netlist) 0 0 0 fuel
          (piped_route 0, [(pin_i0, 0)], [(pin_i0, 0)], req) ≠ .ok out) :=
  ⟨⟨by decide, by decide,
    delay_loop_insertion_repeats after_ops s1_ta 2 (build_node_to_pin s1_netlist) 0 0 0
      (fun rg => rg = s1_route ∨ rg = s1_route_after)
      (fun rg hrg p seg h => s1_from_driver rg hrg p seg h)
      (fun rg hrg pw pd cur last nr pw1 pd1 h => by
        rcases hrg with rfl | rfl
        · rw [s1_pass] at h
          simp only [Except.ok.injEq, PassResult.insert.injEq] at h
          rw [← h.1]
          exact ⟨by decide, Or.inr rfl, rfl, s1_placed⟩
        · rw [s1_after_pass] at h
          cases h)
      s1_route (Or.inl rfl) [(pin_i0, 0)] [(pin_i0, 0)] cyclone.port_p1 cyclone.port_p1 0
      [(pin_i0, 0), (pin_p1, 0)] [(pin_i0, 0), (pin_p1, 0)] (by decide)⟩,
   ⟨by decide,
    delay_loop_insertion_repeats after_ops sb_ta 2 (build_node_to_pin s1_netlist) 0 0 0
      (fun rg => ∃ n, rg = piped_route n)
      (fun rg hrg p seg h => by
        obtain ⟨n, rfl⟩ := hrg
        exact piped_from_driver n p seg h)
      (fun rg hrg pw pd cur last nr pw1 pd1 h => by
        obtain ⟨n, rfl⟩ := hrg
        have hc := piped_pass n _ pw pd cur last nr pw1 pd1 h
        subst hc
        rw [piped_after n]
        exact ⟨by decide, ⟨n + 1, rfl⟩, rfl, piped_placed n⟩)
      (piped_route 0) ⟨0, rfl⟩ [(pin_i0, 0)] [(pin_i0, 0)] cyclone.sb_out cyclone.port_p1 0
      [(pin_i0, 0)] [(pin_i0, 0)] (by decide)⟩⟩
